import Mathlib

/-!
# Slab allocator (`include/slab.hpp`): embedding and verification

The C++ class `slab::Cache` is embedded as a record of its data members
together with the parts of memory it reads and writes:

* `slabMem`  : the `Slab` headers, indexed by header address;
* `wordMem`  : the first machine word of every small-regime slot (the
  intrusive free-list link), indexed by slot address;
* `bufMem`   : the `BufCtl` records of the large regime, indexed by address;
* `blocks`   : base addresses obtained from `posix_memalign` and not yet
  passed to `::free`;
* `hdrObjs`, `arrObjs` : addresses obtained from `new Slab()` and from
  `new BufCtl[n]` and not yet deleted;
* `ctorLog`, `dtorLog` : the calls made to the two callbacks.

Pointers are natural numbers, `0` is `nullptr`.  `std::size_t` is 64 bit and
`int` is 32 bit; arithmetic that can wrap carries an explicit modulus.  What
`posix_memalign` and `new` return is an input of `grow_` (`GrowRes`).
-/

namespace slab

/-! ## Machine constants -/

/-- Number of values of `std::size_t` / `std::uintptr_t` (LP64). -/
def SIZE_MOD : Nat := 2 ^ 64

/-- The constant `SLAB_DEFAULT_ALIGN`. -/
def SLAB_DEFAULT_ALIGN : Nat := 8

/-- The value of `sizeof(Slab)` on LP64: four pointers, an `int` padded to 8,
a pointer and a `size_t`. -/
def sizeofSlab : Nat := 56

/-- The value of `sizeof(BufCtl)` on LP64: three pointers. -/
def sizeofBufCtl : Nat := 24

/-- The value of `sizeof(void*)`. -/
def sizeofPtr : Nat := 8

/-- Conversion `static_cast<int>(x)` of an unsigned value (two's complement,
32 bit). -/
def toInt32 (n : Nat) : Int :=
  if n % 2 ^ 32 < 2 ^ 31 then ((n % 2 ^ 32 : Nat) : Int)
  else ((n % 2 ^ 32 : Nat) : Int) - 2 ^ 32

/-- Sum of two `std::size_t` values. -/
def addSize (a b : Nat) : Nat := (a + b) % SIZE_MOD

/-- Difference of two `std::size_t` values, which wraps when `a < b`. -/
def subSize (a b : Nat) : Nat := if b ≤ a then a - b else SIZE_MOD - (b - a)

/-- Product of two `std::size_t` values. -/
def mulSize (a b : Nat) : Nat := (a * b) % SIZE_MOD

/-- Conversion of an `int` to `std::size_t`. -/
def toSize (i : Int) : Nat := (i % (SIZE_MOD : Int)).toNat

/-! ## Records -/

/-- The record `struct BufCtl`. -/
structure BufCtl where
  buf : Nat
  next : Nat
  slab : Nat
deriving DecidableEq, Repr

/-- The record `struct Slab`. -/
structure Slab where
  next : Nat
  prev : Nat
  start : Nat
  free_list : Nat
  bufcount : Int
  mem_base : Nat
  mem_size : Nat
deriving DecidableEq, Repr

/-- Result of `new (slab) Slab()` / `new Slab()` at address `a`: `next` and
`prev` point to the record itself, everything else is zero. -/
def Slab.init (a : Nat) : Slab :=
  { next := a, prev := a, start := 0, free_list := 0, bufcount := 0,
    mem_base := 0, mem_size := 0 }

/-- Ways in which an operation ends without returning normally. -/
inductive Fault where
  | bad_alloc
  | assertion
deriving DecidableEq, Repr

/-- Data members of `class Cache` and the memory the class works on. -/
structure Cache where
  pg : Nat
  size_ : Nat
  effsize_ : Nat
  small_threshold_ : Nat
  slab_maxbuf_ : Int
  hasCtor : Bool
  hasDtor : Bool
  slabs_ : Nat
  slabs_back_ : Nat
  large_lookup_ : List (Nat × Nat)
  slabMem : Nat → Slab
  wordMem : Nat → Nat
  bufMem : Nat → BufCtl
  blocks : List Nat
  hdrObjs : List Nat
  arrObjs : List Nat
  ctorLog : List (Nat × Nat)
  dtorLog : List (Nat × Nat)

/-! ## Construction -/

/-- The alignment in force after `if (align == 0) align = SLAB_DEFAULT_ALIGN;`. -/
def alignOf (align : Nat) : Nat :=
  if align = 0 then SLAB_DEFAULT_ALIGN else align

/-- Effective size computed by the constructor:
`align * ((obj_size + align - 1) / align)` after `align == 0` is replaced by
`SLAB_DEFAULT_ALIGN`, in `std::size_t` arithmetic. -/
def effsizeOf (obj_size align : Nat) : Nat :=
  let a := alignOf align
  mulSize a (subSize (addSize obj_size a) 1 / a)

/-- Value given to `slab_maxbuf_` by the constructor. -/
def maxbufOf (pg obj_size align : Nat) : Int :=
  if obj_size ≤ pg / 8 then
    toInt32 (subSize pg sizeofSlab / effsizeOf obj_size align)
  else 8

/-- The constructor `Cache::Cache(name, obj_size, align, ctor, dtor, thread_safe)`.
`pg` is the value of `page_size()`.  The name and the mutex play no part in
the sequential behaviour and are left out. -/
def Cache.new (pg obj_size align : Nat) (hasCtor hasDtor : Bool) : Cache :=
  { pg := pg
    size_ := obj_size
    effsize_ := effsizeOf obj_size align
    small_threshold_ := pg / 8
    slab_maxbuf_ := maxbufOf pg obj_size align
    hasCtor := hasCtor
    hasDtor := hasDtor
    slabs_ := 0
    slabs_back_ := 0
    large_lookup_ := []
    slabMem := fun a => Slab.init a
    wordMem := fun _ => 0
    bufMem := fun _ => { buf := 0, next := 0, slab := 0 }
    blocks := []
    hdrObjs := []
    arrObjs := []
    ctorLog := []
    dtorLog := [] }

/-- Accessor `effective_size()`. -/
def Cache.effective_size (c : Cache) : Nat := c.effsize_

/-- Accessor `slab_maxbuf()`. -/
def Cache.slab_maxbuf (c : Cache) : Int := c.slab_maxbuf_

/-- Accessor `object_size()`. -/
def Cache.object_size (c : Cache) : Nat := c.size_

/-- Whether the cache works in the small regime: `size_ <= small_threshold_`. -/
def Cache.small (c : Cache) : Bool := decide (c.size_ ≤ c.small_threshold_)

/-! ## Memory helpers -/

/-- Store into one cell of a memory. -/
def upd {β : Type} (m : Nat → β) (a : Nat) (v : β) : Nat → β :=
  fun x => if x = a then v else m x

/-- Result of the allocation requests made by one call of `grow_`:
`mem` is what `posix_memalign` stores (`none`: it failed), `hdr` what
`new Slab()` returns and `arr` what `new BufCtl[n]` returns (`none`: the
request throws), and `mapFail` the index of the first `emplace` that throws,
if any does. -/
structure GrowRes where
  mem : Option Nat
  hdr : Option Nat
  arr : Option Nat
  mapFail : Option Nat
deriving DecidableEq, Repr

/-- Member `find` of `std::unordered_map` on `large_lookup_`. -/
def mapFind (m : List (Nat × Nat)) (k : Nat) : Option Nat :=
  match m with
  | [] => none
  | (k1, v) :: r => if k1 = k then some v else mapFind r k

/-- Member `emplace`: nothing changes when the key is already present. -/
def mapEmplace (m : List (Nat × Nat)) (k v : Nat) : List (Nat × Nat) :=
  match mapFind m k with
  | some _ => m
  | none => (k, v) :: m

/-- Member `erase` by key. -/
def mapErase (m : List (Nat × Nat)) (k : Nat) : List (Nat × Nat) :=
  m.filter (fun kv => decide (kv.1 ≠ k))

/-! ## The slab list: `remove_`, `move_to_front_`, `move_to_back_` -/

/-- The member function `Cache::remove_`. -/
def remove_ (c : Cache) (slab : Nat) : Cache :=
  let m0 := c.slabMem
  let m1 := upd m0 (m0 slab).next { m0 (m0 slab).next with prev := (m0 slab).prev }
  let m2 := upd m1 (m1 slab).prev { m1 (m1 slab).prev with next := (m1 slab).next }
  let head :=
    if c.slabs_ = slab then (if (m2 slab).prev = slab then 0 else (m2 slab).prev)
    else c.slabs_
  let back :=
    if c.slabs_back_ = slab then (if (m2 slab).next = slab then 0 else (m2 slab).next)
    else c.slabs_back_
  { c with slabMem := m2, slabs_ := head, slabs_back_ := back }

/-- The four stores shared by `move_to_front_` and `move_to_back_` that splice
`slab` between `slabs_` and `slabs_back_`. -/
def splice (c : Cache) (slab : Nat) : Nat → Slab :=
  let m0 := c.slabMem
  let m1 := upd m0 slab { m0 slab with prev := c.slabs_ }
  let m2 := upd m1 c.slabs_ { m1 c.slabs_ with next := slab }
  let m3 := upd m2 slab { m2 slab with next := c.slabs_back_ }
  upd m3 c.slabs_back_ { m3 c.slabs_back_ with prev := slab }

/-- The store `slab->prev = slab->next = slab`. -/
def selfLink (c : Cache) (slab : Nat) : Nat → Slab :=
  upd c.slabMem slab { c.slabMem slab with next := slab, prev := slab }

/-- The member function `Cache::move_to_front_`. -/
def move_to_front_ (c : Cache) (slab : Nat) : Cache :=
  if c.slabs_ = slab then c
  else
    let c1 :=
      if (c.slabMem slab).next ≠ 0 ∨ (c.slabMem slab).prev ≠ 0 then remove_ c slab else c
    if c1.slabs_ = 0 then
      { c1 with slabMem := selfLink c1 slab, slabs_back_ := slab, slabs_ := slab }
    else
      { c1 with slabMem := splice c1 slab, slabs_ := slab }

/-- The member function `Cache::move_to_back_`. -/
def move_to_back_ (c : Cache) (slab : Nat) : Cache :=
  if c.slabs_back_ = slab then c
  else
    let c1 := remove_ c slab
    if c1.slabs_ = 0 then
      { c1 with slabMem := selfLink c1 slab, slabs_ := slab, slabs_back_ := slab }
    else
      { c1 with slabMem := splice c1 slab, slabs_back_ := slab }

/-! ## `grow_` -/

/-- The loop `for (; p < last; p += effsize_) *(void**)p = p + effsize_;` of
the small branch of `grow_`.  `none`: the fuel ran out. -/
def linkLoop (E last : Nat) : Nat → Nat → (Nat → Nat) → Option (Nat → Nat)
  | 0, p, w => if p < last then none else some w
  | fuel + 1, p, w =>
      if p < last then linkLoop E last fuel (p + E) (upd w p (p + E)) else some w

/-- The pointer `last` of the small branch of `grow_`:
`mem + effsize_ * (slab_maxbuf_ - 1)`. -/
def smallLast (c : Cache) (mem : Nat) : Nat :=
  addSize mem (mulSize c.effsize_ (toSize (c.slab_maxbuf_ - 1)))

/-- The header address of the small branch of `grow_`:
`mem + pg - sizeof(Slab)`. -/
def smallHdr (c : Cache) (mem : Nat) : Nat := mem + c.pg - sizeofSlab

/-- The state of the small branch of `grow_` before the call of
`move_to_front_`: the header is initialised, `w` is the slot memory after the
link loop, and the last slot gets a null link. -/
def growSmallState (c : Cache) (mem : Nat) (w : Nat → Nat) : Cache :=
  let hdr : Slab :=
    { Slab.init (smallHdr c mem) with free_list := mem, mem_base := mem, mem_size := c.pg }
  { c with slabMem := upd c.slabMem (smallHdr c mem) hdr
           wordMem := upd w (smallLast c mem) 0
           blocks := mem :: c.blocks }

/-- Small branch of `grow_`. -/
def growSmall (c : Cache) (g : GrowRes) : Except Fault Cache :=
  match g.mem with
  | none => .error .bad_alloc
  | some mem =>
    if mem = 0 then .error .bad_alloc
    else
      match linkLoop c.effsize_ (smallLast c mem) (smallLast c mem - mem) mem c.wordMem with
      | none => .error .assertion
      | some w =>
        let c2 := move_to_front_ (growSmallState c mem w) (smallHdr c mem)
        if c2.slabs_ = smallHdr c mem then .ok c2 else .error .assertion

/-- Address of record `i` of the `BufCtl` array at `arr`. -/
def bufAddr (arr i : Nat) : Nat := arr + i * sizeofBufCtl

/-- The loop `for (int i = 1; i < slab_maxbuf_; ++i)` of the large branch of
`grow_`; `n` is the number of iterations left.  The result is `none` when the
`emplace` of iteration `mapFail` throws. -/
def bufLoop (E mem slab arr : Nat) (mapFail : Option Nat) :
    Nat → Nat → Cache → Option Cache
  | 0, _, c => some c
  | n + 1, i, c =>
      let a := bufAddr arr i
      let b : BufCtl :=
        { buf := addSize mem (mulSize i E), next := (c.slabMem slab).free_list, slab := slab }
      if mapFail = some i then none
      else
        bufLoop E mem slab arr mapFail n (i + 1)
          { c with bufMem := upd c.bufMem a b
                   slabMem := upd c.slabMem slab { c.slabMem slab with free_list := a }
                   large_lookup_ := mapEmplace c.large_lookup_ b.buf a }

/-- Size requested from `posix_memalign` by the large branch of `grow_`. -/
def largeMemSize (c : Cache) : Nat :=
  let need := mulSize c.effsize_ (toSize c.slab_maxbuf_)
  let pages := subSize (addSize need c.pg) 1 / c.pg
  mulSize pages c.pg

/-- The state of the large branch of `grow_` before its loop: the header and
record 0 are initialised and the address of slot 0 is entered in
`large_lookup_`. -/
def growLargeState (c : Cache) (mem slab arr : Nat) : Cache :=
  let hdr : Slab :=
    { Slab.init slab with mem_base := mem, mem_size := largeMemSize c,
                          start := arr, free_list := arr }
  { c with slabMem := upd c.slabMem slab hdr
           bufMem := upd c.bufMem arr { buf := mem, next := 0, slab := slab }
           large_lookup_ := mapEmplace c.large_lookup_ mem arr
           blocks := mem :: c.blocks
           hdrObjs := slab :: c.hdrObjs
           arrObjs := arr :: c.arrObjs }

/-- Large branch of `grow_`. -/
def growLarge (c : Cache) (g : GrowRes) : Except Fault Cache :=
  match g.mem, g.hdr, g.arr with
  | some mem, some slab, some arr =>
    if mem = 0 then .error .bad_alloc
    else if g.mapFail = some 0 then .error .bad_alloc
    else
      match bufLoop c.effsize_ mem slab arr g.mapFail (c.slab_maxbuf_ - 1).toNat 1
          (growLargeState c mem slab arr) with
      | none => .error .bad_alloc
      | some c2 => .ok (move_to_front_ c2 slab)
  | _, _, _ => .error .bad_alloc

/-- The member function `Cache::grow_`. -/
def grow_ (c : Cache) (g : GrowRes) : Except Fault Cache :=
  if c.small then growSmall c g else growLarge c g

/-! ## `alloc`, `free`, `destroy` -/

/-- The statement `if (ctor_) ctor_(buf, size_);`. -/
def callCtor (c : Cache) (buf : Nat) : Cache :=
  if c.hasCtor then { c with ctorLog := c.ctorLog ++ [(buf, c.size_)] } else c

/-- The statement `if (dtor_) dtor_(buf, size_);`. -/
def callDtor (c : Cache) (buf : Nat) : Cache :=
  if c.hasDtor then { c with dtorLog := c.dtorLog ++ [(buf, c.size_)] } else c

/-- The pointer `buf` that `alloc` takes from the head slab: the head of the
free list in the small regime, the field `buf` of the head record in the
large one. -/
def popBuf (c : Cache) : Nat :=
  let fl := (c.slabMem c.slabs_).free_list
  if c.small then fl else (c.bufMem fl).buf

/-- The state after `alloc` has advanced the free list of the head slab and
incremented its `bufcount`. -/
def popState (c : Cache) : Cache :=
  let h := c.slabs_
  let fl := (c.slabMem h).free_list
  let nxt := if c.small then c.wordMem fl else (c.bufMem fl).next
  let s1 : Slab :=
    { c.slabMem h with free_list := nxt, bufcount := (c.slabMem h).bufcount + 1 }
  { c with slabMem := upd c.slabMem h s1 }

/-- The statement `if (slabs_->bufcount == slab_maxbuf_) move_to_back_(slabs_);`. -/
def moveFull (c : Cache) : Cache :=
  if (c.slabMem c.slabs_).bufcount = c.slab_maxbuf_ then move_to_back_ c c.slabs_ else c

/-- The part of `alloc` after the two conditional calls of `grow_`: the
assertion that the free list of the head slab is not empty, the pop, the
constructor callback, and the move of a full head to the back. -/
def allocPop (c : Cache) : Except Fault (Nat × Cache) :=
  if (c.slabMem c.slabs_).free_list = 0 then .error .assertion
  else .ok (popBuf c, moveFull (callCtor (popState c) (popBuf c)))

/-- The statement `if (!slabs_) grow_();` at the start of `alloc`. -/
def allocStage1 (c : Cache) (g1 : GrowRes) : Except Fault Cache :=
  if c.slabs_ = 0 then grow_ c g1 else .ok c

/-- The statement `if (slabs_->bufcount == slab_maxbuf_) grow_();` of `alloc`. -/
def allocStage2 (c1 : Cache) (g2 : GrowRes) : Except Fault Cache :=
  if (c1.slabMem c1.slabs_).bufcount = c1.slab_maxbuf_ then grow_ c1 g2 else .ok c1

/-- The member function `Cache::alloc`; `g1` and `g2` answer the allocation
requests of the first and of the second call of `grow_`. -/
def alloc (c : Cache) (g1 g2 : GrowRes) : Except Fault (Nat × Cache) :=
  match allocStage1 c g1 with
  | .error f => .error f
  | .ok c1 =>
    match allocStage2 c1 g2 with
    | .error f => .error f
    | .ok c2 => allocPop c2

/-- The loop `for (int i = 0; i < slab_maxbuf_; ++i) large_lookup_.erase(cur[i].buf);`
with `n` iterations left. -/
def eraseLoop (bufMem : Nat → BufCtl) (cur : Nat) :
    Nat → Nat → List (Nat × Nat) → List (Nat × Nat)
  | 0, _, m => m
  | n + 1, i, m =>
      eraseLoop bufMem cur n (i + 1) (mapErase m (bufMem (bufAddr cur i)).buf)

/-- The value `~(static_cast<std::uintptr_t>(pg) - 1)`. -/
def pageMask (pg : Nat) : Nat :=
  (SIZE_MOD - 1) - subSize pg 1

/-- The header address `free` computes from an object pointer in the small
regime: `(buf & mask) + pg - sizeof(Slab)`. -/
def slabOf (c : Cache) (p : Nat) : Nat := (p &&& pageMask c.pg) + c.pg - sizeofSlab

/-- The pushes of the small branch of `free`: the first word of `buf` receives
the old head of the free list of `slab`, `buf` becomes the head, and
`bufcount` is decremented. -/
def pushSmall (c : Cache) (buf slab : Nat) : Cache :=
  let s1 : Slab :=
    { c.slabMem slab with free_list := buf, bufcount := (c.slabMem slab).bufcount - 1 }
  { c with wordMem := upd c.wordMem buf (c.slabMem slab).free_list
           slabMem := upd c.slabMem slab s1 }

/-- The pushes of the large branch of `free` for the record `b` of `slab`. -/
def pushLarge (c : Cache) (b slab : Nat) : Cache :=
  let b1 : BufCtl := { c.bufMem b with next := (c.slabMem slab).free_list }
  let s1 : Slab :=
    { c.slabMem slab with free_list := b, bufcount := (c.slabMem slab).bufcount - 1 }
  { c with bufMem := upd c.bufMem b b1, slabMem := upd c.slabMem slab s1 }

/-- The reclamation of an empty slab in the small branch of `free`:
`remove_(slab); ::free(mem);`. -/
def releaseSmall (c : Cache) (slab mem : Nat) : Cache :=
  let c2 := remove_ c slab
  { c2 with blocks := c2.blocks.erase mem }

/-- The reclamation of an empty slab in the large branch of `free`: the erase
loop, `remove_(slab)`, `::free(slab->mem_base)`, `delete[] slab->start` and
`delete slab`. -/
def releaseLarge (c : Cache) (slab : Nat) : Cache :=
  let s := c.slabMem slab
  let lk := eraseLoop c.bufMem s.start c.slab_maxbuf_.toNat 0 c.large_lookup_
  let c2 := remove_ { c with large_lookup_ := lk } slab
  { c2 with blocks := c2.blocks.erase (c2.slabMem slab).mem_base
            arrObjs := c2.arrObjs.erase (c2.slabMem slab).start
            hdrObjs := c2.hdrObjs.erase slab }

/-- Small branch of `free`. -/
def freeSmall (c : Cache) (buf : Nat) : Except Fault Cache :=
  let mem := buf &&& pageMask c.pg
  let slab := slabOf c buf
  let c1 := pushSmall (callDtor c buf) buf slab
  if (c1.slabMem slab).bufcount = 0 then .ok (releaseSmall c1 slab mem)
  else if (c1.slabMem slab).bufcount = c1.slab_maxbuf_ - 1 then
    .ok (move_to_front_ c1 slab)
  else .ok c1

/-- Large branch of `free`. -/
def freeLarge (c : Cache) (buf : Nat) : Except Fault Cache :=
  match mapFind c.large_lookup_ buf with
  | none => .error .assertion
  | some b =>
    let slab := (c.bufMem b).slab
    let c1 := pushLarge (callDtor c buf) b slab
    if (c1.slabMem slab).bufcount = 0 then .ok (releaseLarge c1 slab)
    else if (c1.slabMem slab).bufcount = c1.slab_maxbuf_ - 1 then
      .ok (move_to_front_ c1 slab)
    else .ok c1

/-- The member function `Cache::free`. -/
def free (c : Cache) (buf : Nat) : Except Fault Cache :=
  if buf = 0 then .ok c
  else if c.small then freeSmall c buf else freeLarge c buf

/-- Body of the loop of `destroy` for the head slab. -/
def destroyStep (c : Cache) : Cache :=
  let slab := c.slabs_
  let c1 := remove_ c slab
  if c1.small then
    let mem := slab - (c1.pg - sizeofSlab)
    { c1 with blocks := c1.blocks.erase mem }
  else
    let s := c1.slabMem slab
    { c1 with large_lookup_ :=
                eraseLoop c1.bufMem s.start c1.slab_maxbuf_.toNat 0 c1.large_lookup_
              blocks := c1.blocks.erase s.mem_base
              arrObjs := c1.arrObjs.erase s.start
              hdrObjs := c1.hdrObjs.erase slab }

/-- The loop `while (slabs_)` of `destroy`; `none`: the fuel ran out. -/
def destroyLoop : Nat → Cache → Option Cache
  | 0, c => if c.slabs_ = 0 then some c else none
  | fuel + 1, c => if c.slabs_ = 0 then some c else destroyLoop fuel (destroyStep c)

/-- The member function `Cache::destroy`, run with `fuel` iterations at
most. -/
def destroy (fuel : Nat) (c : Cache) : Option Cache :=
  match destroyLoop fuel c with
  | none => none
  | some c1 => some { c1 with slabs_ := 0, slabs_back_ := 0 }

/-! ## Observations on a cache state -/

/-- Walk along `prev` from the slab `a` to the slab `back`: `r` lists the
slabs visited after `a`, in order, the last one being `back`. -/
def Path (m : Nat → Slab) (back : Nat) : Nat → List Nat → Prop
  | a, [] => a = back
  | a, b :: r => a ≠ back ∧ (m a).prev = b ∧ Path m back b r

/-- The list `l` is what a scan of the slab list from the head `slabs_` to the
tail `slabs_back_` yields. -/
def SlabList (c : Cache) : List Nat → Prop
  | [] => c.slabs_ = 0
  | a :: r => c.slabs_ = a ∧ a ≠ 0 ∧ Path c.slabMem c.slabs_back_ a r

/-- In-use counts of the slabs of `l`. -/
def counts (c : Cache) (l : List Nat) : List Int :=
  l.map (fun a => (c.slabMem a).bufcount)

/-- Slabs with a free slot come first, slabs without one after them. -/
def Ordered (M : Int) (l : List Int) : Prop :=
  ∃ p f, l = p ++ f ∧ (∀ x ∈ p, x < M) ∧ (∀ x ∈ f, x = M)

/-- Address of slot `i` of a slab whose backing block starts at `base`. -/
def slotAddr (c : Cache) (base i : Nat) : Nat := base + i * c.effsize_

/-! ## Assumptions on the parameters and on the memory allocator -/

/-- Conditions on the size parameters of a cache under which the embedding
is exact: the page size is a power of two that holds a header, a slab has at
least one slot, slots of the small regime hold a pointer and end before the
header, and the sizes of the large regime do not wrap. -/
structure Cache.WF (c : Cache) : Prop where
  pg_pow : ∃ k, 6 ≤ k ∧ k < 64 ∧ c.pg = 2 ^ k
  thr : c.small_threshold_ = c.pg / 8
  maxbuf_pos : 1 ≤ c.slab_maxbuf_
  maxbuf_lt : c.slab_maxbuf_ < 2 ^ 31
  eff_pos : 1 ≤ c.effsize_
  small_ptr : c.small = true → sizeofPtr ≤ c.effsize_
  small_fit : c.small = true → c.effsize_ * c.slab_maxbuf_.toNat + sizeofSlab ≤ c.pg
  large_fit : c.small = false → c.effsize_ * c.slab_maxbuf_.toNat + c.pg < SIZE_MOD

/-- What the allocator guarantees for the requests of one call of `grow_`
made in state `c`: every request succeeds; the block is not null, aligned to
the page size, inside the address space and disjoint from the blocks that are
still allocated; in the large regime the header and the record array are not
null and disjoint from the ones still allocated. -/
def GrowOK (c : Cache) (g : GrowRes) : Prop :=
  ∃ mem, g.mem = some mem ∧ mem ≠ 0 ∧ c.pg ∣ mem ∧
    (c.small = true → mem + c.pg ≤ SIZE_MOD ∧ mem ∉ c.blocks) ∧
    (c.small = false →
      mem + largeMemSize c ≤ SIZE_MOD ∧
      (∀ b ∈ c.blocks, mem + largeMemSize c ≤ b ∨ b + largeMemSize c ≤ mem) ∧
      g.mapFail = none ∧
      (∃ h, g.hdr = some h ∧ h ≠ 0 ∧ h ∉ c.hdrObjs) ∧
      (∃ a, g.arr = some a ∧ a ≠ 0 ∧
        ∀ a1 ∈ c.arrObjs,
          a + c.slab_maxbuf_.toNat * sizeofBufCtl ≤ a1 ∨
          a1 + c.slab_maxbuf_.toNat * sizeofBufCtl ≤ a))

/-- States reachable from `c0` by calls of `alloc` that return and calls of
`free` on pointers that are live.  `Reach c0 c live na nf`: `c` is reached by
`na` calls of `alloc` and `nf` calls of `free` with a non-null argument, and
`live` lists the pointers returned and not yet freed.  Runs with calls of
`alloc` that throw `std::bad_alloc` are the ones of `ReachE`. -/
inductive Reach (c0 : Cache) : Cache → List Nat → Nat → Nat → Prop
  | init : Reach c0 c0 [] 0 0
  | alloc {c c1 : Cache} {live : List Nat} {na nf : Nat} (g1 g2 : GrowRes) (p : Nat) :
      Reach c0 c live na nf →
      GrowOK c g1 →
      (∀ cm, allocStage1 c g1 = .ok cm → GrowOK cm g2) →
      slab.alloc c g1 g2 = .ok (p, c1) →
      Reach c0 c1 (p :: live) (na + 1) nf
  | free {c c1 : Cache} {live : List Nat} {na nf : Nat} (p : Nat) :
      Reach c0 c live na nf →
      p ∈ live →
      slab.free c p = .ok c1 →
      Reach c0 c1 (live.erase p) na (nf + 1)

/-! ## Representation invariant -/

/-- Consecutive slabs of the list are linked: `prev` leads from each to the
one after it and `next` leads back. -/
def Linked (m : Nat → Slab) : List Nat → Prop
  | [] => True
  | [_] => True
  | a :: b :: r => ((m a).prev = b ∧ (m b).next = a) ∧ Linked m (b :: r)

/-- First element of a list of addresses, null for the empty list. -/
def headOr0 (l : List Nat) : Nat := l.headD 0

/-- Last element of a list of addresses, null for the empty list. -/
def lastOr0 (l : List Nat) : Nat := l.getLastD 0

/-- The slabs of `l` form a circle: they are linked in order and the last is
linked to the first. -/
def Ring (m : Nat → Slab) (l : List Nat) : Prop :=
  Linked m l ∧
    (l ≠ [] → (m (lastOr0 l)).prev = headOr0 l ∧ (m (headOr0 l)).next = lastOr0 l)

/-- The slab list of `c`, from head to tail, consists of the slabs `l`:
they are distinct and not null, they form a circle, `slabs_` is the first and
`slabs_back_` the last (both null when there is none). -/
structure ListOK (c : Cache) (l : List Nat) : Prop where
  nodup : l.Nodup
  nonnull : ∀ a ∈ l, a ≠ 0
  ring : Ring c.slabMem l
  head : c.slabs_ = headOr0 l
  back : c.slabs_back_ = lastOr0 l

/-- The memories `m` and `m1` differ in the fields `next` and `prev` at
most. -/
def SamePay (m m1 : Nat → Slab) : Prop :=
  ∀ a, (m1 a).start = (m a).start ∧ (m1 a).free_list = (m a).free_list ∧
    (m1 a).bufcount = (m a).bufcount ∧ (m1 a).mem_base = (m a).mem_base ∧
    (m1 a).mem_size = (m a).mem_size

/-- The state `c1` differs from `c` in the links of the slab list at most:
in `slabs_`, `slabs_back_` and the fields `next` and `prev` of slabs. -/
structure ListOnly (c c1 : Cache) : Prop where
  pay : SamePay c.slabMem c1.slabMem
  pg : c1.pg = c.pg
  size_ : c1.size_ = c.size_
  effsize_ : c1.effsize_ = c.effsize_
  small_threshold_ : c1.small_threshold_ = c.small_threshold_
  slab_maxbuf_ : c1.slab_maxbuf_ = c.slab_maxbuf_
  hasCtor : c1.hasCtor = c.hasCtor
  hasDtor : c1.hasDtor = c.hasDtor
  large_lookup_ : c1.large_lookup_ = c.large_lookup_
  wordMem : c1.wordMem = c.wordMem
  bufMem : c1.bufMem = c.bufMem
  blocks : c1.blocks = c.blocks
  hdrObjs : c1.hdrObjs = c.hdrObjs
  arrObjs : c1.arrObjs = c.arrObjs
  ctorLog : c1.ctorLog = c.ctorLog
  dtorLog : c1.dtorLog = c.dtorLog

/-- Free list: following the link `nx` from `p` visits the nodes of `l` and
ends at null. -/
def Chain (nx : Nat → Nat) : Nat → List Nat → Prop
  | p, [] => p = 0
  | p, x :: r => p = x ∧ x ≠ 0 ∧ Chain nx (nx x) r

/-- The link of the free list read by `alloc`: the first word of a slot in the
small regime, the field `next` of a record in the large one. -/
def Cache.nextOf (c : Cache) : Nat → Nat :=
  fun a => if c.small then c.wordMem a else (c.bufMem a).next

/-- Size of the backing block of a slab. -/
def blockSize (c : Cache) : Nat := if c.small then c.pg else largeMemSize c

/-- Description of one slab of the list: header address, base of the backing
block, address of the record array (large regime), and the slot indices on
the free list (in list order) and in use. -/
structure SlabG where
  hdr : Nat
  base : Nat
  arr : Nat
  fi : List Nat
  ui : List Nat

/-- Address of the free-list node of slot `i` of the slab `g`: the slot itself
in the small regime, its record in the large one. -/
def nodeAddr (c : Cache) (g : SlabG) (i : Nat) : Nat :=
  if c.small then slotAddr c g.base i else bufAddr g.arr i

/-- Pointers of the slab `g` that are in use. -/
def SlabG.usedPtrs (c : Cache) (g : SlabG) : List Nat :=
  g.ui.map (slotAddr c g.base)

/-- The slab described by `g` is represented correctly in `c`. -/
structure SlabOK (c : Cache) (g : SlabG) : Prop where
  count : (c.slabMem g.hdr).bufcount = (g.ui.length : Int)
  perm : (g.fi ++ g.ui).Perm (List.range c.slab_maxbuf_.toNat)
  base_ne : g.base ≠ 0
  base_al : c.pg ∣ g.base
  top : g.base + blockSize c ≤ SIZE_MOD
  chain : Chain c.nextOf (c.slabMem g.hdr).free_list (g.fi.map (nodeAddr c g))
  s_hdr : c.small = true → g.hdr = g.base + c.pg - sizeofSlab
  l_start : c.small = false → (c.slabMem g.hdr).start = g.arr
  l_base : c.small = false → (c.slabMem g.hdr).mem_base = g.base
  l_arr : c.small = false → g.arr ≠ 0
  l_rec : c.small = false → ∀ i, i < c.slab_maxbuf_.toNat →
    (c.bufMem (bufAddr g.arr i)).buf = slotAddr c g.base i ∧
    (c.bufMem (bufAddr g.arr i)).slab = g.hdr ∧
    mapFind c.large_lookup_ (slotAddr c g.base i) = some (bufAddr g.arr i)

/-- The slab list of `c`, from head to tail, and the memory it owns are
described by `G`. -/
@[mk_iff]
structure Rep (c : Cache) (G : List SlabG) : Prop where
  list : ListOK c (G.map SlabG.hdr)
  slabs : ∀ g ∈ G, SlabOK c g
  blocks : c.blocks.Perm (G.map SlabG.base)
  disj : (G.map SlabG.base).Pairwise
    (fun b1 b2 => b1 + blockSize c ≤ b2 ∨ b2 + blockSize c ≤ b1)
  s_map : c.small = true → c.large_lookup_ = []
  l_hdrs : c.small = false → c.hdrObjs.Perm (G.map SlabG.hdr)
  l_arrs : c.small = false → c.arrObjs.Perm (G.map SlabG.arr)
  l_adisj : c.small = false → (G.map SlabG.arr).Pairwise
    (fun a1 a2 => a1 + c.slab_maxbuf_.toNat * sizeofBufCtl ≤ a2 ∨
                  a2 + c.slab_maxbuf_.toNat * sizeofBufCtl ≤ a1)
  l_keys : c.small = false → ∀ kv ∈ c.large_lookup_,
    ∃ g ∈ G, ∃ i, i < c.slab_maxbuf_.toNat ∧ kv.1 = slotAddr c g.base i

/-- In-use counts of the slabs described by `G`. -/
def usedCounts (G : List SlabG) : List Int :=
  G.map (fun g => (g.ui.length : Int))

/-- Representation invariant between operations: the description is correct,
slabs with a free slot precede the full ones, and every slab has a slot in
use. -/
structure Inv (c : Cache) (G : List SlabG) : Prop where
  rep : Rep c G
  order : Ordered c.slab_maxbuf_ (usedCounts G)
  used : ∀ g ∈ G, g.ui ≠ []

/-- The state `c1` differs from `c` in the contents of slabs at most: the
fields of headers other than `next` and `prev`, the words of slots, the
records, and the callback logs. -/
structure ContentOnly (c c1 : Cache) : Prop where
  next : ∀ a, (c1.slabMem a).next = (c.slabMem a).next
  prev : ∀ a, (c1.slabMem a).prev = (c.slabMem a).prev
  slabs_ : c1.slabs_ = c.slabs_
  slabs_back_ : c1.slabs_back_ = c.slabs_back_
  pg : c1.pg = c.pg
  size_ : c1.size_ = c.size_
  effsize_ : c1.effsize_ = c.effsize_
  small_threshold_ : c1.small_threshold_ = c.small_threshold_
  slab_maxbuf_ : c1.slab_maxbuf_ = c.slab_maxbuf_
  hasCtor : c1.hasCtor = c.hasCtor
  hasDtor : c1.hasDtor = c.hasDtor
  large_lookup_ : c1.large_lookup_ = c.large_lookup_
  blocks : c1.blocks = c.blocks
  hdrObjs : c1.hdrObjs = c.hdrObjs
  arrObjs : c1.arrObjs = c.arrObjs

/-- The size parameters of `c1` are those of `c`. -/
structure SameParams (c c1 : Cache) : Prop where
  pg : c1.pg = c.pg
  size_ : c1.size_ = c.size_
  effsize_ : c1.effsize_ = c.effsize_
  small_threshold_ : c1.small_threshold_ = c.small_threshold_
  slab_maxbuf_ : c1.slab_maxbuf_ = c.slab_maxbuf_
  hasCtor : c1.hasCtor = c.hasCtor
  hasDtor : c1.hasDtor = c.hasDtor

/-- Pointers in use in the slabs described by `G`. -/
def livePtrs (c : Cache) (G : List SlabG) : List Nat :=
  G.flatMap (SlabG.usedPtrs c)

/-- The data members of `class Cache` that make up its state (the name, the
mutex and the flag `thread_safe_` are left out of the embedding). -/
def Cache.members (c : Cache) :
    Nat × Nat × Nat × Int × Bool × Bool × Nat × Nat × List (Nat × Nat) :=
  (c.size_, c.effsize_, c.small_threshold_, c.slab_maxbuf_, c.hasCtor, c.hasDtor,
   c.slabs_, c.slabs_back_, c.large_lookup_)

/-- The pointer returned by `alloc`, when it returns. -/
def allocPtr (c : Cache) (g1 g2 : GrowRes) : Option Nat :=
  match slab.alloc c g1 g2 with
  | .ok (p, _) => some p
  | .error _ => none

/-! ## Scripted runs -/

/-- One call made by a client: `alloc()` together with what the allocator
answers to the two possible calls of `grow_`, or `free(p)`. -/
inductive Op where
  | alloc (g1 g2 : GrowRes)
  | free (p : Nat)
deriving DecidableEq, Repr

/-- Decision procedure for `GrowOK`. -/
def growOKb (c : Cache) (g : GrowRes) : Bool :=
  match g.mem with
  | none => false
  | some mem =>
    decide (mem ≠ 0) && decide (mem % c.pg = 0) &&
    (if c.small then decide (mem + c.pg ≤ SIZE_MOD) && decide (mem ∉ c.blocks)
     else
       decide (mem + largeMemSize c ≤ SIZE_MOD) &&
       c.blocks.all (fun b => decide (mem + largeMemSize c ≤ b ∨ b + largeMemSize c ≤ mem)) &&
       decide (g.mapFail = none) &&
       (match g.hdr with
        | none => false
        | some h => decide (h ≠ 0) && decide (h ∉ c.hdrObjs)) &&
       (match g.arr with
        | none => false
        | some a =>
          decide (a ≠ 0) &&
          c.arrObjs.all (fun a1 =>
            decide (a + c.slab_maxbuf_.toNat * sizeofBufCtl ≤ a1 ∨
                    a1 + c.slab_maxbuf_.toNat * sizeofBufCtl ≤ a))))

/-- Run a list of calls from the state `c` with live pointers `live`.  The
result is `none` when the allocator's answers are not valid, when a pointer
passed to `free` is not live, or when a call does not return. -/
def runOps : Cache → List Nat → List Op → Option (Cache × List Nat)
  | c, live, [] => some (c, live)
  | c, live, Op.alloc g1 g2 :: r =>
    if growOKb c g1 &&
        (match allocStage1 c g1 with
         | .ok cm => growOKb cm g2
         | .error _ => true) then
      match slab.alloc c g1 g2 with
      | .ok (p, c1) => runOps c1 (p :: live) r
      | .error _ => none
    else none
  | c, live, Op.free p :: r =>
    if p ∈ live then
      match slab.free c p with
      | .ok c1 => runOps c1 (live.erase p) r
      | .error _ => none
    else none

/-- Number of calls of `alloc` in a list of calls. -/
def nAllocs : List Op → Nat
  | [] => 0
  | Op.alloc _ _ :: r => nAllocs r + 1
  | Op.free _ :: r => nAllocs r

/-- Number of calls of `free` in a list of calls. -/
def nFrees : List Op → Nat
  | [] => 0
  | Op.alloc _ _ :: r => nFrees r
  | Op.free _ :: r => nFrees r + 1

/-- Answers of an allocator that hands out addresses in increasing order:
block `k` at `65536 * k`, header `k` at `16777216 + 64 * k`, record array `k`
at `33554432 + 256 * k`. -/
def gres (k : Nat) : GrowRes :=
  { mem := some (65536 * k), hdr := some (16777216 + 64 * k),
    arr := some (33554432 + 256 * k), mapFail := none }

/-- Answers of an allocator whose block lies at the page-aligned address
4096. -/
def gresLow : GrowRes :=
  { mem := some 4096, hdr := some 16777216, arr := some 33554432, mapFail := none }

/-- The calls `alloc()` number `k, k+1, ..., k+n-1` against the allocator
`gres`. -/
def allocOps : Nat → Nat → List Op
  | 0, _ => []
  | n + 1, k => Op.alloc (gres (2 * k + 1)) (gres (2 * k + 2)) :: allocOps n (k + 1)
/-! ## The circular list as the code sees it -/

/-- Well-formedness of the circular slab list of `c`, with `l` the slabs from
head to tail: `slabs_` is null exactly when `slabs_back_` is; following `prev`
from `slabs_` visits the slabs of `l`, each once and none of them null, and
ends at `slabs_back_`, whose `prev` is `slabs_` again; and `next` and `prev`
are inverse to each other at every slab of the list. -/
def Circular (c : Cache) (l : List Nat) : Prop :=
  (c.slabs_ = 0 ↔ c.slabs_back_ = 0) ∧
  SlabList c l ∧ l.Nodup ∧ (∀ s ∈ l, s ≠ 0) ∧
  (l ≠ [] → (c.slabMem c.slabs_back_).prev = c.slabs_) ∧
  (∀ s ∈ l, (c.slabMem (c.slabMem s).next).prev = s ∧
            (c.slabMem (c.slabMem s).prev).next = s)

/-- States reachable from `c0` by calls of `alloc` that return, calls of
`free` on live pointers and calls of `destroy`; `live` lists the pointers
returned and not yet freed, none being left after `destroy`. -/
inductive ReachD (c0 : Cache) : Cache → List Nat → Prop
  | init : ReachD c0 c0 []
  | alloc {c c1 : Cache} {live : List Nat} (g1 g2 : GrowRes) (p : Nat) :
      ReachD c0 c live →
      GrowOK c g1 →
      (∀ cm, allocStage1 c g1 = .ok cm → GrowOK cm g2) →
      slab.alloc c g1 g2 = .ok (p, c1) →
      ReachD c0 c1 (p :: live)
  | free {c c1 : Cache} {live : List Nat} (p : Nat) :
      ReachD c0 c live →
      p ∈ live →
      slab.free c p = .ok c1 →
      ReachD c0 c1 (live.erase p)
  | destroy {c c1 : Cache} {live : List Nat} (fuel : Nat) :
      ReachD c0 c live →
      slab.destroy fuel c = some c1 →
      ReachD c0 c1 []

/-! ## Consecutive calls of `alloc` -/

/-- Consecutive calls of `alloc`, one for each pair of allocator answers; the
result lists the pointers returned, in the order of the calls. -/
def allocSeq : Cache → List (GrowRes × GrowRes) → Except Fault (List Nat × Cache)
  | c, [] => .ok ([], c)
  | c, (g1, g2) :: r =>
    match slab.alloc c g1 g2 with
    | .error f => .error f
    | .ok (p, c1) =>
      match allocSeq c1 r with
      | .error f => .error f
      | .ok (ps, c2) => .ok (p :: ps, c2)

/-! ## The owning slab of a pointer -/

/-- The state in which the loop of the large branch of `grow_` is left when
the `emplace` of iteration `mapFail` throws: record `mapFail` has been filled
in and made the head of the free list of the new slab, the entries of the
iterations before it are in `large_lookup_`.  `none`: no `emplace` of the
loop throws. -/
def bufLoopThrow (E mem slab arr : Nat) (mapFail : Option Nat) :
    Nat → Nat → Cache → Option Cache
  | 0, _, _ => none
  | n + 1, i, c =>
      let a := bufAddr arr i
      let b : BufCtl :=
        { buf := addSize mem (mulSize i E), next := (c.slabMem slab).free_list, slab := slab }
      let c1 : Cache :=
        { c with bufMem := upd c.bufMem a b
                 slabMem := upd c.slabMem slab { c.slabMem slab with free_list := a } }
      if mapFail = some i then some c1
      else
        bufLoopThrow E mem slab arr mapFail n (i + 1)
          { c1 with large_lookup_ := mapEmplace c.large_lookup_ b.buf a }

/-- The state of the cache when the small branch of `grow_` throws
`std::bad_alloc`: `posix_memalign` is the only request and nothing has been
stored before it.  `none`: the branch does not throw `std::bad_alloc`. -/
def growSmallThrow (c : Cache) (g : GrowRes) : Option Cache :=
  match g.mem with
  | none => some c
  | some mem => if mem = 0 then some c else none

/-- The state of the cache when the large branch of `grow_` throws
`std::bad_alloc`, in the order of its requests: `posix_memalign`,
`new Slab()`, `new BufCtl[slab_maxbuf_]`, the `emplace` of record 0 and the
ones of the loop.  What has been allocated before the throw stays allocated.
`none`: the branch does not throw. -/
def growLargeThrow (c : Cache) (g : GrowRes) : Option Cache :=
  match g.mem with
  | none => some c
  | some mem =>
    if mem = 0 then some c
    else
      let c1 : Cache := { c with blocks := mem :: c.blocks }
      match g.hdr with
      | none => some c1
      | some slab =>
        let hdr0 : Slab :=
          { Slab.init slab with mem_base := mem, mem_size := largeMemSize c }
        let c2 : Cache :=
          { c1 with slabMem := upd c.slabMem slab hdr0, hdrObjs := slab :: c.hdrObjs }
        match g.arr with
        | none => some c2
        | some arr =>
          let c3 : Cache :=
            { c2 with slabMem := upd c.slabMem slab { hdr0 with start := arr, free_list := arr }
                      bufMem := upd c.bufMem arr { buf := mem, next := 0, slab := slab }
                      arrObjs := arr :: c.arrObjs }
          if g.mapFail = some 0 then some c3
          else
            bufLoopThrow c.effsize_ mem slab arr g.mapFail (c.slab_maxbuf_ - 1).toNat 1
              (growLargeState c mem slab arr)

/-- The state of the cache when `grow_` throws `std::bad_alloc`. -/
def growThrow (c : Cache) (g : GrowRes) : Option Cache :=
  if c.small then growSmallThrow c g else growLargeThrow c g

/-- The state of the cache when `alloc` throws `std::bad_alloc`, which one of
its two calls of `grow_` does.  `none`: `alloc` does not throw it. -/
def allocThrow (c : Cache) (g1 g2 : GrowRes) : Option Cache :=
  if c.slabs_ = 0 then
    match grow_ c g1 with
    | .error _ => growThrow c g1
    | .ok c1 =>
      if (c1.slabMem c1.slabs_).bufcount = c1.slab_maxbuf_ then growThrow c1 g2 else none
  else if (c.slabMem c.slabs_).bufcount = c.slab_maxbuf_ then growThrow c g2
  else none

/-- What the allocator guarantees for those requests of one call of `grow_`
that succeed while another one fails: a header and a record array that it
returns are not null and disjoint from the ones still allocated. -/
def GrowFresh (c : Cache) (g : GrowRes) : Prop :=
  (∀ h, g.hdr = some h → h ≠ 0 ∧ h ∉ c.hdrObjs) ∧
  (∀ a, g.arr = some a → a ≠ 0 ∧
    ∀ a1 ∈ c.arrObjs,
      a + c.slab_maxbuf_.toNat * sizeofBufCtl ≤ a1 ∨
      a1 + c.slab_maxbuf_.toNat * sizeofBufCtl ≤ a)

/-- The state `c1` keeps what `c` holds about the slabs `l` of its list: the
size parameters, `slabs_` and `slabs_back_`, the headers of the slabs of `l`,
the first words of slots, the records of the slabs of `l`, the entries of
`large_lookup_` and the callback logs. -/
structure Kept (c c1 : Cache) (l : List Nat) : Prop where
  same : SameParams c c1
  head : c1.slabs_ = c.slabs_
  back : c1.slabs_back_ = c.slabs_back_
  hdrs : ∀ h ∈ l, c1.slabMem h = c.slabMem h
  words : c1.wordMem = c.wordMem
  recs : c.small = false → ∀ h ∈ l, ∀ i, i < c.slab_maxbuf_.toNat →
    c1.bufMem (bufAddr (c.slabMem h).start i) = c.bufMem (bufAddr (c.slabMem h).start i)
  keys : ∀ key, mapFind c.large_lookup_ key ≠ none →
    mapFind c1.large_lookup_ key = mapFind c.large_lookup_ key
  ctors : c1.ctorLog = c.ctorLog
  dtors : c1.dtorLog = c.dtorLog

/-! ## Objects of the client: fields of type `int` -/

/-- The value of `sizeof(int)`. -/
def sizeofInt : Nat := 4

/-- Address of the word of memory that holds the field number `j` of type
`int` of the object at `p`: two fields share a word of eight bytes. -/
def fieldCell (p j : Nat) : Nat := p + sizeofPtr * (j / 2)

/-- The store `p->f = v` into the field number `j` of type `int` of the
object at `p`: the low or the high half of the word is replaced (the target
is little-endian), the other half stays. -/
def writeField (w : Nat → Nat) (p j v : Nat) : Nat → Nat :=
  let a := fieldCell p j
  let x := w a
  upd w a (if j % 2 = 0 then (x / 2 ^ 32) * 2 ^ 32 + v % 2 ^ 32
           else (v % 2 ^ 32) * 2 ^ 32 + x % 2 ^ 32)

/-- The load of the field number `j` of type `int` of the object at `p`. -/
def readField (w : Nat → Nat) (p j : Nat) : Nat :=
  let x := w (fieldCell p j)
  if j % 2 = 0 then x % 2 ^ 32 else (x / 2 ^ 32) % 2 ^ 32

/-- The state `c` with `w` as the contents of the words of slots. -/
def setWords (c : Cache) (w : Nat → Nat) : Cache := { c with wordMem := w }

/-- A store of the client into the field number `j` of the object at `p`. -/
def clientStore (c : Cache) (p j v : Nat) : Cache :=
  setWords c (writeField c.wordMem p j v)

/-! ## Runs with stores of the client -/

/-- One step of a client: a call of `alloc`, a call of `free`, or a store
into a field of an object it holds. -/
inductive OpW where
  | alloc (g1 g2 : GrowRes)
  | free (p : Nat)
  | store (p j v : Nat)
deriving DecidableEq, Repr

/-- Runs the steps `ops` from the state `c`; `live` lists the pointers held by
the client and `ptrs` the pointers returned so far, the latest first.  The
result is `none` when a step is not allowed (an allocator answer that breaks
the guarantee of the allocator, a pointer that is not live, a store outside
the slot of a live pointer) or when a call does not return. -/
def runW : Cache → List Nat → List Nat → List OpW → Option (Cache × List Nat × List Nat)
  | c, live, ptrs, [] => some (c, live, ptrs)
  | c, live, ptrs, OpW.alloc g1 g2 :: r =>
    if growOKb c g1 &&
        (match allocStage1 c g1 with
         | .ok cm => growOKb cm g2
         | .error _ => true) then
      match slab.alloc c g1 g2 with
      | .ok (p, c1) => runW c1 (p :: live) (p :: ptrs) r
      | .error _ => none
    else none
  | c, live, ptrs, OpW.free p :: r =>
    if p ∈ live then
      match slab.free c p with
      | .ok c1 => runW c1 (live.erase p) ptrs r
      | .error _ => none
    else none
  | c, live, ptrs, OpW.store p j v :: r =>
    if p ∈ live ∧ sizeofInt * j + sizeofInt ≤ c.effsize_ then
      runW (clientStore c p j v) live ptrs r
    else none

/-- The calls of `alloc` and `free` of a list of steps, without the stores. -/
def eraseW : List OpW → List OpW
  | [] => []
  | OpW.store _ _ _ :: r => eraseW r
  | o :: r => o :: eraseW r

/-! ## The typed facade `TypedCache<T>` for a struct `T` of `n` fields of type `int` -/

/-- The constructor callback of `TypedCache<T>`, `new (p) T()`:
value-initialisation stores zero into each of the `n` fields. -/
def valueInit : Nat → (Nat → Nat) → Nat → Nat → Nat
  | 0, w, _ => w
  | n + 1, w, p => writeField (valueInit n w p) p n 0

/-- The constructor `TypedCache<T>::TypedCache(name, align, thread_safe)`:
the cache has `obj_size = sizeof(T)`, which is `n * sizeof(int)`, and both
callbacks. -/
def TypedCache.new (pg n align : Nat) : Cache :=
  Cache.new pg (n * sizeofInt) align true true

/-- The statement `if (ctor_) ctor_(buf, size_);` when `ctor_` is the callback
of `TypedCache<T>`. -/
def callCtorT (n : Nat) (c : Cache) (buf : Nat) : Cache :=
  if c.hasCtor then
    { c with ctorLog := c.ctorLog ++ [(buf, c.size_)]
             wordMem := valueInit n c.wordMem buf }
  else c

/-- The part of `Cache::alloc` after the two calls of `grow_`, for the cache
of a `TypedCache<T>`. -/
def allocPopT (n : Nat) (c : Cache) : Except Fault (Nat × Cache) :=
  if (c.slabMem c.slabs_).free_list = 0 then .error .assertion
  else .ok (popBuf c, moveFull (callCtorT n (popState c) (popBuf c)))

/-- The member function `TypedCache<T>::alloc`. -/
def TypedCache.alloc (n : Nat) (c : Cache) (g1 g2 : GrowRes) : Except Fault (Nat × Cache) :=
  match allocStage1 c g1 with
  | .error f => .error f
  | .ok c1 =>
    match allocStage2 c1 g2 with
    | .error f => .error f
    | .ok c2 => allocPopT n c2

/-- The member function `TypedCache<T>::free`; the destructor `~T()` of a
struct of fields of type `int` stores nothing. -/
def TypedCache.free (c : Cache) (p : Nat) : Except Fault Cache := slab.free c p

/-- States of the cache of a `TypedCache<T>` reachable from `c0` by calls of
`alloc` that return, calls of `free` on live pointers, and stores of the
client into fields of objects it holds. -/
inductive ReachT (n : Nat) (c0 : Cache) : Cache → List Nat → Prop
  | init : ReachT n c0 c0 []
  | alloc {c c1 : Cache} {live : List Nat} (g1 g2 : GrowRes) (p : Nat) :
      ReachT n c0 c live →
      GrowOK c g1 →
      (∀ cm, allocStage1 c g1 = .ok cm → GrowOK cm g2) →
      TypedCache.alloc n c g1 g2 = .ok (p, c1) →
      ReachT n c0 c1 (p :: live)
  | free {c c1 : Cache} {live : List Nat} (p : Nat) :
      ReachT n c0 c live →
      p ∈ live →
      TypedCache.free c p = .ok c1 →
      ReachT n c0 c1 (live.erase p)
  | store {c : Cache} {live : List Nat} (p j v : Nat) :
      ReachT n c0 c live →
      p ∈ live → j < n →
      ReachT n c0 (clientStore c p j v) live

/-! ## What `alloc` does to the description of the slabs (small regime) -/

/-- Description of the slab that the small branch of `grow_` builds from the
answers `g`. -/
def newSlabG (c : Cache) (g : GrowRes) : SlabG :=
  { hdr := smallHdr c (g.mem.getD 0), base := g.mem.getD 0, arr := 0,
    fi := List.range c.slab_maxbuf_.toNat, ui := [] }

/-- Description after the two conditional calls of `grow_` in `alloc`. -/
def stageG (c : Cache) (G : List SlabG) (g1 g2 : GrowRes) : List SlabG :=
  match G with
  | [] => [newSlabG c g1]
  | g :: R =>
    if (g.ui.length : Int) = c.slab_maxbuf_ then newSlabG c g2 :: g :: R else g :: R

/-- Description after the pop of `alloc` and the move of a full head to the
back. -/
def popG (M : Int) : List SlabG → List SlabG
  | [] => []
  | gh :: R =>
    match gh.fi with
    | [] => gh :: R
    | i :: fi1 =>
      if ((gh.ui.length + 1 : Nat) : Int) = M
      then R ++ [{ gh with fi := fi1, ui := i :: gh.ui }]
      else { gh with fi := fi1, ui := i :: gh.ui } :: R

/-- The pointer that the pop of `alloc` returns, from the description. -/
def popPtrG (c : Cache) : List SlabG → Nat
  | [] => 0
  | gh :: _ =>
    match gh.fi with
    | [] => 0
    | i :: _ => slotAddr c gh.base i

/-! ## Runs with calls of `alloc` that throw `std::bad_alloc` -/

/-- Whether a call of `alloc` that throws `std::bad_alloc` does so after the
page-aligned allocation of its call of `grow_` has succeeded (1) or because
`posix_memalign` fails or stores null (0).  The call of `grow_` gets the
answers `g1` when the slab list is empty and `g2` otherwise. -/
def lateFail (c : Cache) (g1 g2 : GrowRes) : Nat :=
  match (if c.slabs_ = 0 then g1 else g2).mem with
  | none => 0
  | some mem => if mem = 0 then 0 else 1

/-- States reachable from `c0` by calls of `alloc` that return, calls of
`alloc` that throw `std::bad_alloc`, and calls of `free` on live pointers.
`ReachE c0 c live k`: `live` lists the pointers returned and not yet freed,
and `k` counts the calls of `alloc` that threw after their page-aligned
allocation had succeeded. -/
inductive ReachE (c0 : Cache) : Cache → List Nat → Nat → Prop
  | init : ReachE c0 c0 [] 0
  | alloc {c c1 : Cache} {live : List Nat} {k : Nat} (g1 g2 : GrowRes) (p : Nat) :
      ReachE c0 c live k →
      GrowOK c g1 →
      (∀ cm, allocStage1 c g1 = .ok cm → GrowOK cm g2) →
      slab.alloc c g1 g2 = .ok (p, c1) →
      ReachE c0 c1 (p :: live) k
  | free {c c1 : Cache} {live : List Nat} {k : Nat} (p : Nat) :
      ReachE c0 c live k →
      p ∈ live →
      slab.free c p = .ok c1 →
      ReachE c0 c1 (live.erase p) k
  | oom {c c1 : Cache} {live : List Nat} {k : Nat} (g1 g2 : GrowRes) :
      ReachE c0 c live k →
      GrowFresh c (if c.slabs_ = 0 then g1 else g2) →
      slab.alloc c g1 g2 = .error .bad_alloc →
      allocThrow c g1 g2 = some c1 →
      ReachE c0 c1 live (k + lateFail c g1 g2)

/-- Decision procedure for `GrowFresh`. -/
def growFreshb (c : Cache) (g : GrowRes) : Bool :=
  (match g.hdr with
   | none => true
   | some h => decide (h ≠ 0) && decide (h ∉ c.hdrObjs)) &&
  (match g.arr with
   | none => true
   | some a =>
     decide (a ≠ 0) &&
     c.arrObjs.all (fun a1 =>
       decide (a + c.slab_maxbuf_.toNat * sizeofBufCtl ≤ a1 ∨
               a1 + c.slab_maxbuf_.toNat * sizeofBufCtl ≤ a)))

/-- One call made by a client in a run in which `alloc` may throw: a call of
`alloc` or `free` as in `Op`, or a call of `alloc` that throws
`std::bad_alloc` with the allocator answers given. -/
inductive OpE where
  | op (o : Op)
  | oom (g1 g2 : GrowRes)
deriving DecidableEq, Repr

/-- Runs the calls `ops` from the state `c`; the number counts the calls of
`alloc` that threw after their page-aligned allocation had succeeded.  The
result is `none` when a call is not allowed or does not behave as the step
says. -/
def runE : Cache → List Nat → Nat → List OpE → Option (Cache × List Nat × Nat)
  | c, live, k, [] => some (c, live, k)
  | c, live, k, OpE.op (Op.alloc g1 g2) :: r =>
    if growOKb c g1 &&
        (match allocStage1 c g1 with
         | .ok cm => growOKb cm g2
         | .error _ => true) then
      match slab.alloc c g1 g2 with
      | .ok (p, c1) => runE c1 (p :: live) k r
      | .error _ => none
    else none
  | c, live, k, OpE.op (Op.free p) :: r =>
    if p ∈ live then
      match slab.free c p with
      | .ok c1 => runE c1 (live.erase p) k r
      | .error _ => none
    else none
  | c, live, k, OpE.oom g1 g2 :: r =>
    if growFreshb c (if c.slabs_ = 0 then g1 else g2) then
      match allocThrow c g1 g2 with
      | some c1 => runE c1 live (k + lateFail c g1 g2) r
      | none => none
    else none

/-! # Theorems -/

theorem addSize_eq (a b : Nat) (h : a + b < SIZE_MOD) : addSize a b = a + b :=
  Nat.mod_eq_of_lt h

theorem subSize_eq (a b : Nat) (h : b ≤ a) : subSize a b = a - b := by
  unfold subSize
  rw [if_pos h]

theorem mulSize_eq (a b : Nat) (h : a * b < SIZE_MOD) : mulSize a b = a * b :=
  Nat.mod_eq_of_lt h

theorem alignOf_pos (A : Nat) : 0 < alignOf A := by
  unfold alignOf SLAB_DEFAULT_ALIGN
  split <;> omega

/-- Without wrap-around the constructor computes `a * ⌈S / a⌉`. -/
theorem effsizeOf_eq (S A : Nat) (hS : 0 < S) (hfit : S + alignOf A ≤ SIZE_MOD) :
    effsizeOf S A = alignOf A * ((S + alignOf A - 1) / alignOf A) := by
  have ha := alignOf_pos A
  unfold effsizeOf
  simp only
  by_cases hlt : S + alignOf A < SIZE_MOD
  · rw [addSize_eq _ _ hlt, subSize_eq _ _ (by omega)]
    apply mulSize_eq
    have := Nat.mul_div_le (S + alignOf A - 1) (alignOf A)
    omega
  · have he : S + alignOf A = SIZE_MOD := by omega
    have h0 : addSize S (alignOf A) = 0 := by
      unfold addSize
      rw [he, Nat.mod_self]
    have h1 : subSize 0 1 = SIZE_MOD - 1 := by
      unfold subSize
      rw [if_neg (by omega)]
    rw [h0, h1, he]
    apply mulSize_eq
    have := Nat.mul_div_le (SIZE_MOD - 1) (alignOf A)
    have : 0 < SIZE_MOD := by unfold SIZE_MOD; positivity
    omega

theorem effsizeOf_ge (S A : Nat) (hS : 0 < S) (hfit : S + alignOf A ≤ SIZE_MOD) :
    S ≤ effsizeOf S A := by
  have ha := alignOf_pos A
  rw [effsizeOf_eq S A hS hfit]
  have h1 := Nat.div_add_mod (S + alignOf A - 1) (alignOf A)
  have h2 := Nat.mod_lt (S + alignOf A - 1) ha
  omega

theorem effsizeOf_lt (S A : Nat) (hS : 0 < S) (hfit : S + alignOf A ≤ SIZE_MOD) :
    effsizeOf S A < S + alignOf A := by
  have ha := alignOf_pos A
  rw [effsizeOf_eq S A hS hfit]
  have := Nat.mul_div_le (S + alignOf A - 1) (alignOf A)
  omega

theorem effsizeOf_dvd (S A : Nat) (hS : 0 < S) (hfit : S + alignOf A ≤ SIZE_MOD) :
    alignOf A ∣ effsizeOf S A := by
  rw [effsizeOf_eq S A hS hfit]
  exact Dvd.intro _ rfl

theorem effsizeOf_least (S A : Nat) (hS : 0 < S) (hfit : S + alignOf A ≤ SIZE_MOD)
    (m : Nat) (hm : alignOf A ∣ m) (hSm : S ≤ m) : effsizeOf S A ≤ m := by
  have ha := alignOf_pos A
  rw [effsizeOf_eq S A hS hfit]
  obtain ⟨k, rfl⟩ := hm
  apply Nat.mul_le_mul_left
  apply Nat.le_of_lt_succ
  rw [Nat.div_lt_iff_lt_mul ha]
  have h1 : (k + 1) * alignOf A = alignOf A * k + alignOf A := by ring
  rw [h1]
  omega

theorem toInt32_small (n : Nat) (h : n < 2 ^ 31) : toInt32 n = (n : Int) := by
  unfold toInt32
  have h1 : n % 2 ^ 32 = n := Nat.mod_eq_of_lt (by omega)
  rw [h1, if_pos h]

/-- C7 (as amended): when `S + A` does not exceed the range of `std::size_t`,
the effective size is at least `S`, is a multiple of the alignment in force
(`A`, or 8 for `A = 0`) and is the least such multiple. -/
theorem C7_effective_size (pg S A : Nat) (ct dt : Bool)
    (hS : 0 < S) (hfit : S + alignOf A ≤ SIZE_MOD) :
    S ≤ (Cache.new pg S A ct dt).effective_size ∧
    (Cache.new pg S A ct dt).effective_size % alignOf A = 0 ∧
    ∀ m, alignOf A ∣ m → S ≤ m → (Cache.new pg S A ct dt).effective_size ≤ m := by
  simp only [Cache.new, Cache.effective_size]
  exact ⟨effsizeOf_ge S A hS hfit, Nat.mod_eq_zero_of_dvd (effsizeOf_dvd S A hS hfit),
    effsizeOf_least S A hS hfit⟩

/-- Witness of C7: `S = sizeof(Test12) = 12` with the default alignment. -/
theorem C7_effective_size_witness :
    (0 < 12 ∧ 12 + alignOf 0 ≤ SIZE_MOD) ∧
    12 ≤ (Cache.new 4096 12 0 false false).effective_size ∧
    (Cache.new 4096 12 0 false false).effective_size % alignOf 0 = 0 ∧
    ∀ m, alignOf 0 ∣ m → 12 ≤ m → (Cache.new 4096 12 0 false false).effective_size ≤ m :=
  ⟨⟨by decide, by decide⟩, C7_effective_size 4096 12 0 false false (by decide) (by decide)⟩

/-- Counterexample to C7 as stated: for `S = 2^64 - 1` (a `size_t`) and the
default alignment the sum `S + 7` wraps and the effective size is `0 < S`. -/
theorem C7_counterexample :
    0 < 2 ^ 64 - 1 ∧ 2 ^ 64 - 1 < SIZE_MOD ∧
    (Cache.new 4096 (2 ^ 64 - 1) 0 false false).effective_size = 0 ∧
    ¬ (2 ^ 64 - 1 ≤ (Cache.new 4096 (2 ^ 64 - 1) 0 false false).effective_size) := by
  have h : (Cache.new 4096 (2 ^ 64 - 1) 0 false false).effective_size = 0 := by
    simp [Cache.new, Cache.effective_size, effsizeOf, alignOf, SLAB_DEFAULT_ALIGN, SIZE_MOD,
      addSize, subSize, mulSize]
  rw [h]
  simp [SIZE_MOD]

theorem maxbufOf_small (pg S A : Nat)
    (hpg : sizeofSlab ≤ pg) (hpg2 : pg < 2 ^ 31) (hsm : S ≤ pg / 8) :
    maxbufOf pg S A = (((pg - sizeofSlab) / effsizeOf S A : Nat) : Int) := by
  unfold maxbufOf
  rw [if_pos hsm]
  rw [subSize_eq _ _ hpg]
  apply toInt32_small
  have := Nat.div_le_self (pg - sizeofSlab) (effsizeOf S A)
  omega

/-- C8 (as amended): the constructor sets `slab_maxbuf()` to
`⌊(page − sizeof(Slab)) / E⌋` in the small regime and to 8 in the large one;
the value is at least 1 exactly when the regime is large or one slot fits in
front of the header, `E + sizeof(Slab) ≤ page`. -/
theorem C8_slab_maxbuf (pg S A : Nat) (ct dt : Bool)
    (hS : 0 < S) (hfit : S + alignOf A ≤ SIZE_MOD)
    (hpg : sizeofSlab ≤ pg) (hpg2 : pg < 2 ^ 31) :
    (Cache.new pg S A ct dt).slab_maxbuf =
      (if S ≤ pg / 8 then
        (((pg - sizeofSlab) / (Cache.new pg S A ct dt).effective_size : Nat) : Int)
       else 8) ∧
    (1 ≤ (Cache.new pg S A ct dt).slab_maxbuf ↔
      (pg / 8 < S ∨ (Cache.new pg S A ct dt).effective_size + sizeofSlab ≤ pg)) := by
  have hE := effsizeOf_ge S A hS hfit
  by_cases hsm : S ≤ pg / 8
  · have hM := maxbufOf_small pg S A hpg hpg2 hsm
    simp only [Cache.new, Cache.slab_maxbuf, Cache.effective_size, if_pos hsm]
    refine ⟨hM, ?_⟩
    rw [hM]
    have hEpos : 0 < effsizeOf S A := by omega
    constructor
    · intro h
      right
      have h1 : 1 ≤ (pg - sizeofSlab) / effsizeOf S A := by exact_mod_cast h
      have h2 := (Nat.le_div_iff_mul_le hEpos).1 h1
      omega
    · intro h
      rcases h with h | h
      · omega
      · have h2 : 1 ≤ (pg - sizeofSlab) / effsizeOf S A := by
          rw [Nat.le_div_iff_mul_le hEpos]
          omega
        exact_mod_cast h2
  · simp only [Cache.new, Cache.slab_maxbuf, Cache.effective_size, if_neg hsm, maxbufOf]
    refine ⟨trivial, ?_⟩
    constructor
    · intro _
      left
      omega
    · intro _
      decide

/-- Witness of C8: `S = 12`, default alignment, pages of 4096 bytes. -/
theorem C8_slab_maxbuf_witness :
    (0 < 12 ∧ 12 + alignOf 0 ≤ SIZE_MOD ∧ sizeofSlab ≤ 4096 ∧ 4096 < 2 ^ 31) ∧
    (Cache.new 4096 12 0 false false).slab_maxbuf =
      (if 12 ≤ 4096 / 8 then
        (((4096 - sizeofSlab) / (Cache.new 4096 12 0 false false).effective_size : Nat) : Int)
       else 8) ∧
    (1 ≤ (Cache.new 4096 12 0 false false).slab_maxbuf ↔
      (4096 / 8 < 12 ∨ (Cache.new 4096 12 0 false false).effective_size + sizeofSlab ≤ 4096)) :=
  ⟨⟨by decide, by decide, by decide, by decide⟩,
   C8_slab_maxbuf 4096 12 0 false false (by decide) (by decide) (by decide) (by decide)⟩

/-- Counterexample to C8 as stated: `S = 1` with the power-of-two alignment
`A = 4096` on pages of 4096 bytes is in the small regime, has `E = 4096` and
gets `slab_maxbuf() = 0`. -/
theorem C8_counterexample :
    (0 < 1 ∧ 4096 = 2 ^ 12) ∧
    (Cache.new 4096 1 4096 false false).effective_size = 4096 ∧
    (Cache.new 4096 1 4096 false false).slab_maxbuf = 0 ∧
    ¬ (1 ≤ (Cache.new 4096 1 4096 false false).slab_maxbuf) := by
  have hE : (Cache.new 4096 1 4096 false false).effective_size = 4096 := by
    simp [Cache.new, Cache.effective_size, effsizeOf, alignOf, SIZE_MOD, addSize, subSize,
      mulSize]
  have hM : (Cache.new 4096 1 4096 false false).slab_maxbuf = 0 := by
    simp [Cache.new, Cache.slab_maxbuf, maxbufOf, effsizeOf, alignOf, SIZE_MOD, sizeofSlab,
      toInt32, addSize, subSize, mulSize]
  rw [hE, hM]
  simp

@[simp] theorem upd_same {β : Type} (m : Nat → β) (a : Nat) (v : β) : upd m a v a = v := by
  simp [upd]

theorem upd_other {β : Type} (m : Nat → β) (a x : Nat) (v : β) (h : x ≠ a) :
    upd m a v x = m x := by
  simp [upd, h]

theorem upd_apply {β : Type} (m : Nat → β) (a x : Nat) (v : β) :
    upd m a v x = if x = a then v else m x := rfl

/-! ### Linked chains -/

theorem Linked_cons2 (m : Nat → Slab) (a b : Nat) (r : List Nat) :
    Linked m (a :: b :: r) ↔ ((m a).prev = b ∧ (m b).next = a) ∧ Linked m (b :: r) :=
  Iff.rfl

theorem Linked_tail (m : Nat → Slab) (a : Nat) (r : List Nat) (h : Linked m (a :: r)) :
    Linked m r := by
  cases r with
  | nil => trivial
  | cons b r => exact h.2

theorem Linked_cons (m : Nat → Slab) (a : Nat) (r : List Nat) :
    Linked m (a :: r) ↔
      (r ≠ [] → (m a).prev = headOr0 r ∧ (m (headOr0 r)).next = a) ∧ Linked m r := by
  cases r with
  | nil => simp [Linked]
  | cons b r => simp [Linked, headOr0]

theorem Linked_append (m : Nat → Slab) (l1 l2 : List Nat) :
    Linked m (l1 ++ l2) ↔
      Linked m l1 ∧ Linked m l2 ∧
      (l1 ≠ [] → l2 ≠ [] →
        (m (lastOr0 l1)).prev = headOr0 l2 ∧ (m (headOr0 l2)).next = lastOr0 l1) := by
  induction l1 with
  | nil => simp [Linked]
  | cons a r ih =>
    cases r with
    | nil =>
      cases l2 with
      | nil => simp [Linked]
      | cons b l2 =>
        simp [Linked, lastOr0, headOr0]
        tauto
    | cons b r =>
      have ih1 := ih
      simp only [List.cons_append] at ih1 ⊢
      rw [Linked_cons2, Linked_cons2, ih1]
      simp only [lastOr0, List.getLastD_cons, ne_eq, not_false_eq_true, reduceCtorEq,
        true_implies]
      tauto

theorem Linked_frame (m m1 : Nat → Slab) (l : List Nat)
    (hp : ∀ a ∈ l.dropLast, (m1 a).prev = (m a).prev)
    (hn : ∀ a ∈ l.tail, (m1 a).next = (m a).next)
    (h : Linked m l) : Linked m1 l := by
  induction l with
  | nil => trivial
  | cons a r ih =>
    cases r with
    | nil => trivial
    | cons b r =>
      rw [Linked_cons2] at h ⊢
      refine ⟨⟨?_, ?_⟩, ?_⟩
      · rw [hp a (by simp)]
        exact h.1.1
      · rw [hn b (by simp)]
        exact h.1.2
      · apply ih
        · intro x hx
          apply hp
          simp only [List.dropLast_cons₂]
          exact List.mem_cons_of_mem _ hx
        · intro x hx
          apply hn
          simp only [List.tail_cons] at hx ⊢
          exact List.mem_cons_of_mem _ hx
        · exact h.2

/-! ### Heads and lasts -/

@[simp] theorem headOr0_cons (a : Nat) (r : List Nat) : headOr0 (a :: r) = a := rfl

@[simp] theorem headOr0_nil : headOr0 [] = 0 := rfl

@[simp] theorem lastOr0_nil : lastOr0 [] = 0 := rfl

@[simp] theorem lastOr0_single (a : Nat) : lastOr0 [a] = a := rfl

@[simp] theorem lastOr0_cons_cons (a b : Nat) (r : List Nat) :
    lastOr0 (a :: b :: r) = lastOr0 (b :: r) := by
  simp [lastOr0]

theorem lastOr0_cons (a : Nat) (r : List Nat) (h : r ≠ []) : lastOr0 (a :: r) = lastOr0 r := by
  cases r with
  | nil => exact absurd rfl h
  | cons b r => simp

@[simp] theorem lastOr0_concat (l : List Nat) (a : Nat) : lastOr0 (l ++ [a]) = a := by
  induction l with
  | nil => rfl
  | cons b l ih =>
    rw [List.cons_append, lastOr0_cons _ _ (by simp), ih]

theorem headOr0_append (l1 l2 : List Nat) (h : l1 ≠ []) : headOr0 (l1 ++ l2) = headOr0 l1 := by
  cases l1 with
  | nil => exact absurd rfl h
  | cons a r => rfl

theorem lastOr0_append (l1 l2 : List Nat) (h : l2 ≠ []) : lastOr0 (l1 ++ l2) = lastOr0 l2 := by
  induction l1 with
  | nil => rfl
  | cons a r ih =>
    rw [List.cons_append, lastOr0_cons _ _ (by simp [h]), ih]

theorem headOr0_mem (l : List Nat) (h : l ≠ []) : headOr0 l ∈ l := by
  cases l with
  | nil => exact absurd rfl h
  | cons a r => simp

theorem lastOr0_mem (l : List Nat) (h : l ≠ []) : lastOr0 l ∈ l := by
  induction l with
  | nil => exact absurd rfl h
  | cons a r ih =>
    cases r with
    | nil => simp
    | cons b r =>
      rw [lastOr0_cons_cons]
      exact List.mem_cons_of_mem _ (ih (by simp))

theorem eq_dropLast_concat (l : List Nat) (h : l ≠ []) : l = l.dropLast ++ [lastOr0 l] := by
  induction l with
  | nil => exact absurd rfl h
  | cons a r ih =>
    cases r with
    | nil => simp
    | cons b r =>
      rw [lastOr0_cons_cons, List.dropLast_cons₂, List.cons_append]
      congr 1
      exact ih (by simp)

theorem last_not_mem_dropLast (l : List Nat) (hnd : l.Nodup) (h : l ≠ []) :
    lastOr0 l ∉ l.dropLast := by
  have he := eq_dropLast_concat l h
  rw [he] at hnd
  have := List.disjoint_of_nodup_append hnd
  intro hm
  exact this hm (by simp)

theorem head_not_mem_tail (l : List Nat) (hnd : l.Nodup) : headOr0 l ∉ l.tail ∨ l = [] := by
  cases l with
  | nil => right; rfl
  | cons a r =>
    left
    simp only [headOr0_cons, List.tail_cons]
    exact (List.nodup_cons.1 hnd).1

/-! ### Rings -/

theorem Ring_nil (m : Nat → Slab) : Ring m [] := ⟨trivial, fun h => absurd rfl h⟩

theorem Ring_rotate1 (m : Nat → Slab) (a : Nat) (r : List Nat) :
    Ring m (a :: r) ↔ Ring m (r ++ [a]) := by
  cases r with
  | nil => exact Iff.rfl
  | cons b r =>
    have h1 : lastOr0 ((b :: r) ++ [a]) = a := lastOr0_concat _ _
    have h2 : headOr0 ((b :: r) ++ [a]) = b := rfl
    have h3 : (b :: r) ++ [a] ≠ [] := by simp
    have h4 : Linked m ((b :: r) ++ [a]) ↔
        Linked m (b :: r) ∧ (m (lastOr0 (b :: r))).prev = a ∧ (m a).next = lastOr0 (b :: r) := by
      rw [Linked_append]
      simp [Linked]
    unfold Ring
    rw [h4, h1, h2, Linked_cons2]
    simp only [ne_eq, reduceCtorEq, not_false_eq_true, true_implies, headOr0_cons,
      lastOr0_cons_cons, h3]
    tauto

theorem Ring_rotate (m : Nat → Slab) (l1 l2 : List Nat) :
    Ring m (l1 ++ l2) ↔ Ring m (l2 ++ l1) := by
  induction l1 generalizing l2 with
  | nil => simp
  | cons a r ih =>
    rw [List.cons_append, Ring_rotate1, List.append_assoc, ih (l2 ++ [a])]
    simp

/-! ### Stores into the fields `next` and `prev` -/

theorem setPrev_prev (m : Nat → Slab) (a v x : Nat) :
    (upd m a { m a with prev := v } x).prev = if x = a then v else (m x).prev := by
  by_cases h : x = a
  · rw [if_pos h, h, upd_same]
  · rw [if_neg h, upd_other _ _ _ _ h]

theorem setPrev_next (m : Nat → Slab) (a v x : Nat) :
    (upd m a { m a with prev := v } x).next = (m x).next := by
  by_cases h : x = a
  · rw [h, upd_same]
  · rw [upd_other _ _ _ _ h]

theorem setNext_next (m : Nat → Slab) (a v x : Nat) :
    (upd m a { m a with next := v } x).next = if x = a then v else (m x).next := by
  by_cases h : x = a
  · rw [if_pos h, h, upd_same]
  · rw [if_neg h, upd_other _ _ _ _ h]

theorem setNext_prev (m : Nat → Slab) (a v x : Nat) :
    (upd m a { m a with next := v } x).prev = (m x).prev := by
  by_cases h : x = a
  · rw [h, upd_same]
  · rw [upd_other _ _ _ _ h]

theorem SamePay_refl (m : Nat → Slab) : SamePay m m :=
  fun _ => ⟨rfl, rfl, rfl, rfl, rfl⟩

theorem SamePay_trans {m1 m2 m3 : Nat → Slab} (h1 : SamePay m1 m2) (h2 : SamePay m2 m3) :
    SamePay m1 m3 := by
  intro a
  obtain ⟨a1, a2, a3, a4, a5⟩ := h1 a
  obtain ⟨b1, b2, b3, b4, b5⟩ := h2 a
  exact ⟨b1.trans a1, b2.trans a2, b3.trans a3, b4.trans a4, b5.trans a5⟩

theorem setPrev_pay (m : Nat → Slab) (a v : Nat) :
    SamePay m (upd m a { m a with prev := v }) := by
  intro x
  by_cases h : x = a
  · rw [h, upd_same]
    exact ⟨rfl, rfl, rfl, rfl, rfl⟩
  · rw [upd_other _ _ _ _ h]
    exact ⟨rfl, rfl, rfl, rfl, rfl⟩

theorem setNext_pay (m : Nat → Slab) (a v : Nat) :
    SamePay m (upd m a { m a with next := v }) := by
  intro x
  by_cases h : x = a
  · rw [h, upd_same]
    exact ⟨rfl, rfl, rfl, rfl, rfl⟩
  · rw [upd_other _ _ _ _ h]
    exact ⟨rfl, rfl, rfl, rfl, rfl⟩

/-! ### Effect of `remove_` on the memory -/

theorem remove_mem (c : Cache) (x : Nat) :
    (remove_ c x).slabMem =
      upd (upd c.slabMem (c.slabMem x).next
            { c.slabMem (c.slabMem x).next with prev := (c.slabMem x).prev })
          (c.slabMem x).prev
          { upd c.slabMem (c.slabMem x).next
              { c.slabMem (c.slabMem x).next with prev := (c.slabMem x).prev }
              (c.slabMem x).prev with next := (c.slabMem x).next } := by
  have h1 : (upd c.slabMem (c.slabMem x).next
      { c.slabMem (c.slabMem x).next with prev := (c.slabMem x).prev } x).prev
      = (c.slabMem x).prev := by
    rw [setPrev_prev]
    split <;> rfl
  have h2 : (upd c.slabMem (c.slabMem x).next
      { c.slabMem (c.slabMem x).next with prev := (c.slabMem x).prev } x).next
      = (c.slabMem x).next := setPrev_next _ _ _ _
  show upd _ _ _ = _
  rw [h1, h2]

theorem remove_prev (c : Cache) (x a : Nat) :
    ((remove_ c x).slabMem a).prev =
      if a = (c.slabMem x).next then (c.slabMem x).prev else (c.slabMem a).prev := by
  rw [remove_mem, setNext_prev, setPrev_prev]

theorem remove_next (c : Cache) (x a : Nat) :
    ((remove_ c x).slabMem a).next =
      if a = (c.slabMem x).prev then (c.slabMem x).next else (c.slabMem a).next := by
  rw [remove_mem, setNext_next, setPrev_next]

theorem remove_pay (c : Cache) (x : Nat) : SamePay c.slabMem (remove_ c x).slabMem := by
  rw [remove_mem]
  exact SamePay_trans (setPrev_pay _ _ _) (setNext_pay _ _ _)

theorem remove_slabs (c : Cache) (x : Nat) :
    (remove_ c x).slabs_ =
      if c.slabs_ = x then
        (if ((remove_ c x).slabMem x).prev = x then 0 else ((remove_ c x).slabMem x).prev)
      else c.slabs_ := rfl

theorem remove_slabs_back (c : Cache) (x : Nat) :
    (remove_ c x).slabs_back_ =
      if c.slabs_back_ = x then
        (if ((remove_ c x).slabMem x).next = x then 0 else ((remove_ c x).slabMem x).next)
      else c.slabs_back_ := rfl

/-! ### `remove_` on a well-formed list -/

theorem ring_head_facts (m : Nat → Slab) (x : Nat) (r : List Nat) (hr : r ≠ [])
    (h : Ring m (x :: r)) :
    Linked m r ∧ (m x).prev = headOr0 r ∧ (m (headOr0 r)).next = x ∧
    (m (lastOr0 r)).prev = x ∧ (m x).next = lastOr0 r := by
  obtain ⟨h1, h2⟩ := h
  have h3 := h2 (by simp)
  rw [lastOr0_cons _ _ hr, headOr0_cons] at h3
  rw [Linked_cons] at h1
  exact ⟨h1.2, (h1.1 hr).1, (h1.1 hr).2, h3.1, h3.2⟩

theorem ring_remove (c : Cache) (x : Nat) (r : List Nat) (hr : r ≠ [])
    (hnd : (x :: r).Nodup) (hring : Ring c.slabMem (x :: r)) :
    Ring (remove_ c x).slabMem r ∧
    ((remove_ c x).slabMem x).prev = headOr0 r ∧
    ((remove_ c x).slabMem x).next = lastOr0 r := by
  obtain ⟨hl, hp, _, _, hn⟩ := ring_head_facts _ x r hr hring
  have hxr : x ∉ r := (List.nodup_cons.1 hnd).1
  have hndr : r.Nodup := (List.nodup_cons.1 hnd).2
  have hxl : x ≠ lastOr0 r := fun h => hxr (h ▸ lastOr0_mem r hr)
  have hxh : x ≠ headOr0 r := fun h => hxr (h ▸ headOr0_mem r hr)
  refine ⟨⟨?_, ?_⟩, ?_, ?_⟩
  · apply Linked_frame c.slabMem _ r _ _ hl
    · intro a ha
      rw [remove_prev, hn, if_neg]
      intro h
      exact last_not_mem_dropLast r hndr hr (h ▸ ha)
    · intro a ha
      rw [remove_next, hp, if_neg]
      intro h
      rcases head_not_mem_tail r hndr with h1 | h1
      · exact h1 (h ▸ ha)
      · exact hr h1
  · intro _
    rw [remove_prev, remove_next, hn, hp, if_pos rfl, if_pos rfl]
    exact ⟨rfl, rfl⟩
  · rw [remove_prev, hn, if_neg hxl, hp]
  · rw [remove_next, hp, if_neg hxh, hn]

theorem head_eq_iff (l1 l2 : List Nat) (x : Nat) (hnd : (l1 ++ x :: l2).Nodup) :
    headOr0 (l1 ++ x :: l2) = x ↔ l1 = [] := by
  cases l1 with
  | nil => simp
  | cons a r =>
    simp only [List.cons_append, headOr0_cons, reduceCtorEq, iff_false]
    intro h
    rw [List.cons_append, List.nodup_cons] at hnd
    exact hnd.1 (by simp [h])

theorem last_eq_iff (l1 l2 : List Nat) (x : Nat) (hnd : (l1 ++ x :: l2).Nodup) :
    lastOr0 (l1 ++ x :: l2) = x ↔ l2 = [] := by
  cases l2 with
  | nil => simp
  | cons a r =>
    simp only [reduceCtorEq, iff_false]
    intro h
    have h1 : lastOr0 (l1 ++ x :: a :: r) = lastOr0 (a :: r) := by
      rw [show l1 ++ x :: a :: r = (l1 ++ [x]) ++ (a :: r) by simp]
      exact lastOr0_append _ _ (by simp)
    rw [h1] at h
    have h2 := lastOr0_mem (a :: r) (by simp)
    rw [h] at h2
    have h3 : (x :: a :: r).Nodup := (List.nodup_append.1 hnd).2.1
    exact (List.nodup_cons.1 h3).1 h2

theorem remove_spec (c : Cache) (l1 l2 : List Nat) (x : Nat)
    (h : ListOK c (l1 ++ x :: l2)) : ListOK (remove_ c x) (l1 ++ l2) := by
  obtain ⟨hnd, hnz, hring, hh, hb⟩ := h
  have hnd2 : (l1 ++ l2).Nodup := by
    have := List.nodup_middle.1 hnd
    exact (List.nodup_cons.1 this).2
  have hnd3 : (x :: (l2 ++ l1)).Nodup := by
    have := List.nodup_middle.1 hnd
    rw [List.nodup_cons] at this ⊢
    refine ⟨?_, ?_⟩
    · intro hx
      apply this.1
      simp only [List.mem_append] at hx ⊢
      tauto
    · exact List.nodup_append_comm.1 this.2
  have hring2 : Ring c.slabMem (x :: (l2 ++ l1)) := by
    have := (Ring_rotate c.slabMem l1 (x :: l2)).1 hring
    simpa using this
  have hhx := head_eq_iff l1 l2 x hnd
  have hbx := last_eq_iff l1 l2 x hnd
  by_cases hr : l2 ++ l1 = []
  · have h1 : l1 = [] := (List.append_eq_nil.1 hr).2
    have h2 : l2 = [] := (List.append_eq_nil.1 hr).1
    subst h1
    subst h2
    have hc := hring2.2 (by simp)
    simp only [List.append_nil, lastOr0_single, headOr0_cons] at hc
    refine ⟨by simp, by simp, Ring_nil _, ?_, ?_⟩
    · rw [remove_slabs, remove_prev, hh]
      simp [hc.1]
    · rw [remove_slabs_back, remove_next, hb]
      simp [hc.2]
  · obtain ⟨hR, hP, hN⟩ := ring_remove c x (l2 ++ l1) hr hnd3 hring2
    have hxh : headOr0 (l2 ++ l1) ≠ x := fun h =>
      (List.nodup_cons.1 hnd3).1 (h ▸ headOr0_mem _ hr)
    have hxl : lastOr0 (l2 ++ l1) ≠ x := fun h =>
      (List.nodup_cons.1 hnd3).1 (h ▸ lastOr0_mem _ hr)
    refine ⟨hnd2, ?_, (Ring_rotate _ l2 l1).1 hR, ?_, ?_⟩
    · intro a ha
      apply hnz
      simp only [List.mem_append, List.mem_cons] at ha ⊢
      tauto
    · rw [remove_slabs, hP, if_neg hxh, hh]
      by_cases h1 : l1 = []
      · subst h1
        simp
      · rw [if_neg (fun h => h1 (hhx.1 h)), headOr0_append _ _ h1, headOr0_append _ _ h1]
    · rw [remove_slabs_back, hN, if_neg hxl, hb]
      by_cases h2 : l2 = []
      · subst h2
        simp
      · rw [if_neg (fun h => h2 (hbx.1 h)), lastOr0_append _ _ h2,
          lastOr0_append _ _ (by simp), lastOr0_cons _ _ h2]

/-! ### Splicing a slab between tail and head -/

theorem splice_prev (c : Cache) (x a : Nat) :
    (splice c x a).prev =
      if a = c.slabs_back_ then x else if a = x then c.slabs_ else (c.slabMem a).prev := by
  unfold splice
  simp only
  rw [setPrev_prev, setNext_prev, setNext_prev, setPrev_prev]

theorem splice_next (c : Cache) (x a : Nat) :
    (splice c x a).next =
      if a = x then c.slabs_back_ else if a = c.slabs_ then x else (c.slabMem a).next := by
  unfold splice
  simp only
  rw [setPrev_next, setNext_next, setNext_next, setPrev_next]

theorem splice_pay (c : Cache) (x : Nat) : SamePay c.slabMem (splice c x) := by
  unfold splice
  exact SamePay_trans (SamePay_trans (SamePay_trans (setPrev_pay _ _ _) (setNext_pay _ _ _))
    (setNext_pay _ _ _)) (setPrev_pay _ _ _)

theorem selfLink_pay (c : Cache) (x : Nat) : SamePay c.slabMem (selfLink c x) := by
  intro a
  unfold selfLink
  by_cases h : a = x
  · rw [h, upd_same]
    exact ⟨rfl, rfl, rfl, rfl, rfl⟩
  · rw [upd_other _ _ _ _ h]
    exact ⟨rfl, rfl, rfl, rfl, rfl⟩

theorem splice_ring (c : Cache) (l : List Nat) (x : Nat) (hl : l ≠ [])
    (h : ListOK c l) (hx : x ∉ l) : Ring (splice c x) (x :: l) := by
  obtain ⟨hnd, _, hring, hh, hb⟩ := h
  have hxh : x ≠ headOr0 l := fun e => hx (e ▸ headOr0_mem l hl)
  have hxb : x ≠ lastOr0 l := fun e => hx (e ▸ lastOr0_mem l hl)
  refine ⟨?_, ?_⟩
  · rw [Linked_cons]
    refine ⟨fun _ => ⟨?_, ?_⟩, ?_⟩
    · rw [splice_prev, hb, if_neg hxb, if_pos rfl, hh]
    · rw [splice_next, hh, if_neg (Ne.symm hxh), if_pos rfl]
    · apply Linked_frame c.slabMem _ l _ _ hring.1
      · intro a ha
        have ha1 : a ≠ lastOr0 l := fun e => last_not_mem_dropLast l hnd hl (e ▸ ha)
        have ha2 : a ≠ x := fun e => hx (e ▸ List.mem_of_mem_dropLast ha)
        rw [splice_prev, hb, if_neg ha1, if_neg ha2]
      · intro a ha
        have ha1 : a ≠ headOr0 l := by
          intro e
          rcases head_not_mem_tail l hnd with h1 | h1
          · exact h1 (e ▸ ha)
          · exact hl h1
        have ha2 : a ≠ x := fun e => hx (e ▸ List.mem_of_mem_tail ha)
        rw [splice_next, hh, if_neg ha2, if_neg ha1]
  · intro _
    rw [lastOr0_cons _ _ hl, headOr0_cons, splice_prev, splice_next, hb, if_pos rfl, if_pos rfl]
    exact ⟨rfl, rfl⟩

theorem insert_front (c : Cache) (l : List Nat) (x : Nat) (hl : l ≠ [])
    (h : ListOK c l) (hx : x ∉ l) (hx0 : x ≠ 0) :
    ListOK { c with slabMem := splice c x, slabs_ := x } (x :: l) := by
  refine ⟨List.nodup_cons.2 ⟨hx, h.nodup⟩, ?_, splice_ring c l x hl h hx, rfl, ?_⟩
  · intro a ha
    rcases List.mem_cons.1 ha with e | e
    · exact e ▸ hx0
    · exact h.nonnull a e
  · show c.slabs_back_ = _
    rw [lastOr0_cons _ _ hl]
    exact h.back

theorem insert_back (c : Cache) (l : List Nat) (x : Nat) (hl : l ≠ [])
    (h : ListOK c l) (hx : x ∉ l) (hx0 : x ≠ 0) :
    ListOK { c with slabMem := splice c x, slabs_back_ := x } (l ++ [x]) := by
  refine ⟨?_, ?_, (Ring_rotate1 _ x l).1 (splice_ring c l x hl h hx), ?_, ?_⟩
  · rw [List.nodup_append_comm]
    exact List.nodup_cons.2 ⟨hx, h.nodup⟩
  · intro a ha
    rcases List.mem_append.1 ha with e | e
    · exact h.nonnull a e
    · rw [List.mem_singleton] at e
      exact e ▸ hx0
  · show c.slabs_ = _
    rw [headOr0_append _ _ hl]
    exact h.head
  · show x = _
    rw [lastOr0_concat]

theorem insert_empty (c : Cache) (x : Nat) (hx0 : x ≠ 0) :
    ListOK { c with slabMem := selfLink c x, slabs_ := x, slabs_back_ := x } [x] := by
  refine ⟨by simp, by simpa using hx0, ⟨trivial, fun _ => ?_⟩, rfl, rfl⟩
  simp only [lastOr0_single, headOr0_cons, selfLink, upd_same, and_self]

/-! ### Changes confined to the links -/

theorem ListOnly_refl (c : Cache) : ListOnly c c :=
  ⟨SamePay_refl _, rfl, rfl, rfl, rfl, rfl, rfl, rfl, rfl, rfl, rfl, rfl, rfl, rfl, rfl, rfl⟩

theorem ListOnly_trans {c1 c2 c3 : Cache} (h1 : ListOnly c1 c2) (h2 : ListOnly c2 c3) :
    ListOnly c1 c3 :=
  ⟨SamePay_trans h1.pay h2.pay, h2.pg.trans h1.pg, h2.size_.trans h1.size_,
   h2.effsize_.trans h1.effsize_, h2.small_threshold_.trans h1.small_threshold_,
   h2.slab_maxbuf_.trans h1.slab_maxbuf_, h2.hasCtor.trans h1.hasCtor,
   h2.hasDtor.trans h1.hasDtor, h2.large_lookup_.trans h1.large_lookup_,
   h2.wordMem.trans h1.wordMem, h2.bufMem.trans h1.bufMem, h2.blocks.trans h1.blocks,
   h2.hdrObjs.trans h1.hdrObjs, h2.arrObjs.trans h1.arrObjs, h2.ctorLog.trans h1.ctorLog,
   h2.dtorLog.trans h1.dtorLog⟩

theorem ListOnly_set (c : Cache) (m : Nat → Slab) (a b : Nat) (h : SamePay c.slabMem m) :
    ListOnly c { c with slabMem := m, slabs_ := a, slabs_back_ := b } :=
  ⟨h, rfl, rfl, rfl, rfl, rfl, rfl, rfl, rfl, rfl, rfl, rfl, rfl, rfl, rfl, rfl⟩

theorem remove_listOnly (c : Cache) (x : Nat) : ListOnly c (remove_ c x) :=
  ⟨remove_pay c x, rfl, rfl, rfl, rfl, rfl, rfl, rfl, rfl, rfl, rfl, rfl, rfl, rfl, rfl, rfl⟩

theorem move_to_front_listOnly (c : Cache) (x : Nat) : ListOnly c (move_to_front_ c x) := by
  unfold move_to_front_
  by_cases he : c.slabs_ = x
  · rw [if_pos he]
    exact ListOnly_refl c
  · rw [if_neg he]
    simp only
    generalize hc1 :
      (if (c.slabMem x).next ≠ 0 ∨ (c.slabMem x).prev ≠ 0 then remove_ c x else c) = c1
    have h1 : ListOnly c c1 := by
      rw [← hc1]
      split
      · exact remove_listOnly c x
      · exact ListOnly_refl c
    by_cases h0 : c1.slabs_ = 0
    · rw [if_pos h0]
      exact ListOnly_trans h1 (ListOnly_set _ _ _ _ (selfLink_pay _ _))
    · rw [if_neg h0]
      exact ListOnly_trans h1 (ListOnly_set _ _ _ _ (splice_pay _ _))

theorem move_to_back_listOnly (c : Cache) (x : Nat) : ListOnly c (move_to_back_ c x) := by
  unfold move_to_back_
  by_cases he : c.slabs_back_ = x
  · rw [if_pos he]
    exact ListOnly_refl c
  · rw [if_neg he]
    simp only
    by_cases h0 : (remove_ c x).slabs_ = 0
    · rw [if_pos h0]
      exact ListOnly_trans (remove_listOnly c x) (ListOnly_set _ _ _ _ (selfLink_pay _ _))
    · rw [if_neg h0]
      exact ListOnly_trans (remove_listOnly c x) (ListOnly_set _ _ _ _ (splice_pay _ _))

/-! ### `move_to_front_` and `move_to_back_` on a well-formed list -/

theorem head_ne_zero (c : Cache) (l : List Nat) (h : ListOK c l) (hl : l ≠ []) :
    c.slabs_ ≠ 0 := by
  rw [h.head]
  exact h.nonnull _ (headOr0_mem l hl)

theorem remove_fresh (c : Cache) (l : List Nat) (x : Nat) (h : ListOK c l) (hx : x ∉ l)
    (hx0 : x ≠ 0) (hn : (c.slabMem x).next = x) (hp : (c.slabMem x).prev = x) :
    ListOK (remove_ c x) l := by
  have hpe : ∀ a, ((remove_ c x).slabMem a).prev = (c.slabMem a).prev := by
    intro a
    rw [remove_prev, hn, hp]
    split
    · next e => rw [e, hp]
    · rfl
  have hne : ∀ a, ((remove_ c x).slabMem a).next = (c.slabMem a).next := by
    intro a
    rw [remove_next, hn, hp]
    split
    · next e => rw [e, hn]
    · rfl
  have hhx : c.slabs_ ≠ x := by
    rw [h.head]
    intro e
    cases l with
    | nil => exact hx0 e.symm
    | cons a r => exact hx (by rw [← e]; simp)
  have hbx : c.slabs_back_ ≠ x := by
    rw [h.back]
    intro e
    by_cases hl : l = []
    · subst hl
      exact hx0 e.symm
    · exact hx (e ▸ lastOr0_mem l hl)
  refine ⟨h.nodup, h.nonnull, ⟨?_, ?_⟩, ?_, ?_⟩
  · exact Linked_frame _ _ l (fun a _ => hpe a) (fun a _ => hne a) h.ring.1
  · intro hl
    rw [hpe, hne]
    exact h.ring.2 hl
  · rw [remove_slabs, if_neg hhx]
    exact h.head
  · rw [remove_slabs_back, if_neg hbx]
    exact h.back

theorem move_to_front_fresh (c : Cache) (l : List Nat) (x : Nat) (h : ListOK c l)
    (hx : x ∉ l) (hx0 : x ≠ 0) (hn : (c.slabMem x).next = x) (hp : (c.slabMem x).prev = x) :
    ListOK (move_to_front_ c x) (x :: l) := by
  have hhx : c.slabs_ ≠ x := by
    rw [h.head]
    intro e
    cases l with
    | nil => exact hx0 e.symm
    | cons a r => exact hx (by rw [← e]; simp)
  have h1 := remove_fresh c l x h hx hx0 hn hp
  unfold move_to_front_
  rw [if_neg hhx, if_pos (Or.inl (by rw [hn]; exact hx0))]
  simp only
  by_cases hl : l = []
  · subst hl
    have h0 : (remove_ c x).slabs_ = 0 := h1.head
    rw [if_pos h0]
    exact insert_empty _ x hx0
  · rw [if_neg (head_ne_zero _ l h1 hl)]
    exact insert_front _ l x hl h1 hx hx0

theorem move_to_front_mem (c : Cache) (l1 l2 : List Nat) (x : Nat)
    (h : ListOK c (l1 ++ x :: l2)) : ListOK (move_to_front_ c x) (x :: (l1 ++ l2)) := by
  have hhx := head_eq_iff l1 l2 x h.nodup
  unfold move_to_front_
  by_cases he : c.slabs_ = x
  · rw [if_pos he]
    rw [h.head] at he
    have := hhx.1 he
    subst this
    exact h
  · rw [if_neg he]
    have hl1 : l1 ≠ [] := fun e => he (by rw [h.head]; exact hhx.2 e)
    have hne : l1 ++ l2 ≠ [] := by simp [hl1]
    have hx0 : x ≠ 0 := h.nonnull x (by simp)
    have hmid := List.nodup_middle.1 h.nodup
    have hxn : x ∉ l1 ++ l2 := (List.nodup_cons.1 hmid).1
    have hring2 : Ring c.slabMem (x :: (l2 ++ l1)) := by
      have := (Ring_rotate c.slabMem l1 (x :: l2)).1 h.ring
      simpa using this
    have hr : l2 ++ l1 ≠ [] := by simp [hl1]
    obtain ⟨_, _, _, _, hn⟩ := ring_head_facts _ x _ hr hring2
    have hn0 : (c.slabMem x).next ≠ 0 := by
      rw [hn]
      apply h.nonnull
      have := lastOr0_mem _ hr
      simp only [List.mem_append, List.mem_cons] at this ⊢
      tauto
    rw [if_pos (Or.inl hn0)]
    have h1 := remove_spec c l1 l2 x h
    simp only
    rw [if_neg (head_ne_zero _ _ h1 hne)]
    exact insert_front _ _ x hne h1 hxn hx0

theorem move_to_back_head (c : Cache) (x : Nat) (r : List Nat)
    (h : ListOK c (x :: r)) : ListOK (move_to_back_ c x) (r ++ [x]) := by
  unfold move_to_back_
  by_cases he : c.slabs_back_ = x
  · rw [if_pos he]
    rw [h.back] at he
    have := (last_eq_iff [] r x h.nodup).1 he
    subst this
    exact h
  · rw [if_neg he]
    have hr : r ≠ [] := by
      intro e
      subst e
      exact he h.back
    have hx0 : x ≠ 0 := h.nonnull x (by simp)
    have hxn : x ∉ r := (List.nodup_cons.1 h.nodup).1
    have h1 : ListOK (remove_ c x) r := remove_spec c [] r x h
    simp only
    rw [if_neg (head_ne_zero _ _ h1 hr)]
    exact insert_back _ _ x hr h1 hxn hx0

/-! ### The page mask -/

theorem pageMask_eq (k : Nat) (hk : k < 64) :
    pageMask (2 ^ k) = 2 ^ 64 - ((2 ^ k - 1) + 1) := by
  have h1 : 1 ≤ 2 ^ k := Nat.one_le_two_pow
  have h2 : 2 ^ k < 2 ^ 64 := Nat.pow_lt_pow_right (by omega) hk
  unfold pageMask SIZE_MOD
  rw [subSize_eq _ _ h1]
  omega

theorem mask_base (k base off : Nat) (hk : k < 64) (hal : 2 ^ k ∣ base) (hoff : off < 2 ^ k)
    (hp : base + off < SIZE_MOD) : (base + off) &&& pageMask (2 ^ k) = base := by
  obtain ⟨q, rfl⟩ := hal
  have h2 : 2 ^ k - 1 < 2 ^ 64 := by
    have : 2 ^ k < 2 ^ 64 := Nat.pow_lt_pow_right (by omega) hk
    omega
  rw [pageMask_eq k hk]
  apply Nat.eq_of_testBit_eq
  intro j
  rw [Nat.testBit_and, Nat.testBit_two_pow_sub_succ h2, Nat.testBit_two_pow_sub_one,
    Nat.testBit_mul_pow_two_add q hoff, Nat.testBit_mul_pow_two]
  by_cases hjk : j < k
  · simp [hjk]
  · have hge : j ≥ k := by omega
    simp only [hjk, if_false, decide_False, Bool.not_false, Bool.and_true, hge, decide_True,
      Bool.true_and]
    by_cases hj : j < 64
    · simp [hj]
    · have hpj : (2 ^ k * q + off).testBit j = false := by
        apply Nat.testBit_lt_two_pow
        have : SIZE_MOD ≤ 2 ^ j := by
          unfold SIZE_MOD
          exact Nat.pow_le_pow_right (by omega) (by omega)
        omega
      rw [Nat.testBit_mul_pow_two_add q hoff] at hpj
      simp only [hjk, if_false] at hpj
      simp [hpj, hj]

/-! ### Consequences of the conditions on the parameters -/

theorem Cache.WF.M_cast {c : Cache} (h : c.WF) : ((c.slab_maxbuf_.toNat : Nat) : Int) = c.slab_maxbuf_ :=
  Int.toNat_of_nonneg (by have := h.maxbuf_pos; omega)

theorem Cache.WF.M_pos {c : Cache} (h : c.WF) : 1 ≤ c.slab_maxbuf_.toNat := by
  have := h.maxbuf_pos
  omega

theorem Cache.WF.pg_pos {c : Cache} (h : c.WF) : 64 ≤ c.pg := by
  obtain ⟨k, hk, _, e⟩ := h.pg_pow
  rw [e]
  calc 64 = 2 ^ 6 := by norm_num
    _ ≤ 2 ^ k := Nat.pow_le_pow_right (by omega) hk

theorem Cache.WF.pg_lt {c : Cache} (h : c.WF) : c.pg < SIZE_MOD := by
  obtain ⟨k, _, hk, e⟩ := h.pg_pow
  rw [e]
  exact Nat.pow_lt_pow_right (by omega) hk

theorem toSize_of_nonneg (i : Int) (h0 : 0 ≤ i) (h1 : i < 2 ^ 31) : toSize i = i.toNat := by
  unfold toSize
  congr 1
  apply Int.emod_eq_of_lt h0
  unfold SIZE_MOD
  norm_num
  omega

theorem largeMemSize_spec {c : Cache} (h : c.WF) (hl : c.small = false) :
    c.effsize_ * c.slab_maxbuf_.toNat ≤ largeMemSize c ∧
    largeMemSize c < c.effsize_ * c.slab_maxbuf_.toNat + c.pg ∧
    c.pg ∣ largeMemSize c := by
  have hfit := h.large_fit hl
  have hpg := h.pg_pos
  have hM : toSize c.slab_maxbuf_ = c.slab_maxbuf_.toNat :=
    toSize_of_nonneg _ (by have := h.maxbuf_pos; omega) h.maxbuf_lt
  have e1 : mulSize c.effsize_ c.slab_maxbuf_.toNat = c.effsize_ * c.slab_maxbuf_.toNat :=
    mulSize_eq _ _ (by omega)
  have e2 : addSize (c.effsize_ * c.slab_maxbuf_.toNat) c.pg
      = c.effsize_ * c.slab_maxbuf_.toNat + c.pg := addSize_eq _ _ hfit
  have e3 : subSize (c.effsize_ * c.slab_maxbuf_.toNat + c.pg) 1
      = c.effsize_ * c.slab_maxbuf_.toNat + c.pg - 1 := subSize_eq _ _ (by omega)
  have h1 := Nat.div_add_mod (c.effsize_ * c.slab_maxbuf_.toNat + c.pg - 1) c.pg
  have h2 := Nat.mod_lt (c.effsize_ * c.slab_maxbuf_.toNat + c.pg - 1) (by omega : 0 < c.pg)
  have h3 : (c.effsize_ * c.slab_maxbuf_.toNat + c.pg - 1) / c.pg * c.pg
      = c.pg * ((c.effsize_ * c.slab_maxbuf_.toNat + c.pg - 1) / c.pg) := Nat.mul_comm _ _
  have e4 : mulSize ((c.effsize_ * c.slab_maxbuf_.toNat + c.pg - 1) / c.pg) c.pg
      = (c.effsize_ * c.slab_maxbuf_.toNat + c.pg - 1) / c.pg * c.pg :=
    mulSize_eq _ _ (by omega)
  unfold largeMemSize
  simp only
  rw [hM, e1, e2, e3, e4]
  refine ⟨by omega, by omega, Dvd.intro_left _ rfl⟩

theorem Cache.WF.slots_fit {c : Cache} (h : c.WF) :
    c.effsize_ * c.slab_maxbuf_.toNat ≤ blockSize c := by
  unfold blockSize
  cases hs : c.small with
  | true =>
    have := h.small_fit hs
    simp only [if_true]
    omega
  | false =>
    simp only [Bool.false_eq_true, if_false]
    exact (largeMemSize_spec h hs).1

theorem Cache.WF.blockSize_pos {c : Cache} (h : c.WF) : 0 < blockSize c := by
  have h1 := h.slots_fit
  have h2 := h.M_pos
  have h3 := h.eff_pos
  have : 1 * 1 ≤ c.effsize_ * c.slab_maxbuf_.toNat := Nat.mul_le_mul h3 h2
  omega

/-! ### Slot addresses -/

theorem slot_end {c : Cache} (h : c.WF) (b i : Nat) (hi : i < c.slab_maxbuf_.toNat) :
    slotAddr c b i + c.effsize_ ≤ b + blockSize c := by
  have h1 := h.slots_fit
  have h2 : (i + 1) * c.effsize_ ≤ c.slab_maxbuf_.toNat * c.effsize_ :=
    Nat.mul_le_mul_right _ hi
  have h3 : (i + 1) * c.effsize_ = i * c.effsize_ + c.effsize_ := by ring
  have h4 : c.slab_maxbuf_.toNat * c.effsize_ = c.effsize_ * c.slab_maxbuf_.toNat :=
    Nat.mul_comm _ _
  unfold slotAddr
  omega

theorem slot_inj {c : Cache} (h : c.WF) (b i j : Nat)
    (e : slotAddr c b i = slotAddr c b j) : i = j := by
  unfold slotAddr at e
  have h3 := h.eff_pos
  have : i * c.effsize_ = j * c.effsize_ := by omega
  exact Nat.eq_of_mul_eq_mul_right (by omega) this

theorem slot_sep (c : Cache) (b i j : Nat) (hij : i < j) :
    slotAddr c b i + c.effsize_ ≤ slotAddr c b j := by
  unfold slotAddr
  have h2 : (i + 1) * c.effsize_ ≤ j * c.effsize_ := Nat.mul_le_mul_right _ hij
  have h3 : (i + 1) * c.effsize_ = i * c.effsize_ + c.effsize_ := by ring
  omega

theorem slot_block_ne {c : Cache} (h : c.WF) (b1 b2 i j : Nat)
    (hi : i < c.slab_maxbuf_.toNat) (hj : j < c.slab_maxbuf_.toNat)
    (hd : b1 + blockSize c ≤ b2 ∨ b2 + blockSize c ≤ b1) :
    slotAddr c b1 i + c.effsize_ ≤ slotAddr c b2 j ∨
    slotAddr c b2 j + c.effsize_ ≤ slotAddr c b1 i := by
  have h1 := slot_end h b1 i hi
  have h2 := slot_end h b2 j hj
  have h3 : b1 ≤ slotAddr c b1 i := Nat.le_add_right _ _
  have h4 : b2 ≤ slotAddr c b2 j := Nat.le_add_right _ _
  omega

theorem buf_inj (a i j : Nat) (e : bufAddr a i = bufAddr a j) : i = j := by
  unfold bufAddr sizeofBufCtl at e
  omega

theorem buf_block_ne (a1 a2 i j n : Nat) (hi : i < n) (hj : j < n)
    (hd : a1 + n * sizeofBufCtl ≤ a2 ∨ a2 + n * sizeofBufCtl ≤ a1) :
    bufAddr a1 i ≠ bufAddr a2 j := by
  unfold bufAddr
  unfold sizeofBufCtl at *
  omega

/-! ### Unchanged parameters -/

theorem SameParams.refl (c : Cache) : SameParams c c := ⟨rfl, rfl, rfl, rfl, rfl, rfl, rfl⟩

theorem SameParams.trans {c1 c2 c3 : Cache} (h1 : SameParams c1 c2) (h2 : SameParams c2 c3) :
    SameParams c1 c3 :=
  ⟨h2.pg.trans h1.pg, h2.size_.trans h1.size_, h2.effsize_.trans h1.effsize_,
   h2.small_threshold_.trans h1.small_threshold_, h2.slab_maxbuf_.trans h1.slab_maxbuf_,
   h2.hasCtor.trans h1.hasCtor, h2.hasDtor.trans h1.hasDtor⟩

theorem ListOnly.params {c c1 : Cache} (h : ListOnly c c1) : SameParams c c1 :=
  ⟨h.pg, h.size_, h.effsize_, h.small_threshold_, h.slab_maxbuf_, h.hasCtor, h.hasDtor⟩

theorem ContentOnly.sameParams {c c1 : Cache} (h : ContentOnly c c1) : SameParams c c1 :=
  ⟨h.pg, h.size_, h.effsize_, h.small_threshold_, h.slab_maxbuf_, h.hasCtor, h.hasDtor⟩

theorem SameParams.small {c c1 : Cache} (h : SameParams c c1) : c1.small = c.small := by
  unfold Cache.small
  rw [h.size_, h.small_threshold_]

theorem SameParams.largeMemSize {c c1 : Cache} (h : SameParams c c1) :
    largeMemSize c1 = largeMemSize c := by
  unfold slab.largeMemSize
  rw [h.effsize_, h.slab_maxbuf_, h.pg]

theorem SameParams.blockSize {c c1 : Cache} (h : SameParams c c1) :
    blockSize c1 = blockSize c := by
  unfold slab.blockSize
  rw [h.small, h.largeMemSize, h.pg]

theorem SameParams.slotAddr {c c1 : Cache} (h : SameParams c c1) (b i : Nat) :
    slotAddr c1 b i = slotAddr c b i := by
  unfold slab.slotAddr
  rw [h.effsize_]

theorem SameParams.nodeAddr {c c1 : Cache} (h : SameParams c c1) (g : SlabG) (i : Nat) :
    nodeAddr c1 g i = nodeAddr c g i := by
  unfold slab.nodeAddr
  rw [h.small, h.slotAddr]

theorem SameParams.WF {c c1 : Cache} (h : SameParams c c1) (w : c.WF) : c1.WF := by
  refine ⟨?_, ?_, ?_, ?_, ?_, ?_, ?_, ?_⟩
  · rw [h.pg]; exact w.pg_pow
  · rw [h.pg, h.small_threshold_]; exact w.thr
  · rw [h.slab_maxbuf_]; exact w.maxbuf_pos
  · rw [h.slab_maxbuf_]; exact w.maxbuf_lt
  · rw [h.effsize_]; exact w.eff_pos
  · rw [h.effsize_, h.small]; exact w.small_ptr
  · rw [h.effsize_, h.small, h.slab_maxbuf_, h.pg]; exact w.small_fit
  · rw [h.effsize_, h.small, h.slab_maxbuf_, h.pg]; exact w.large_fit

/-! ### Frames -/

theorem ListOK_congr {c c1 : Cache} {l : List Nat} (h : ListOK c l)
    (hn : ∀ a, (c1.slabMem a).next = (c.slabMem a).next)
    (hp : ∀ a, (c1.slabMem a).prev = (c.slabMem a).prev)
    (hh : c1.slabs_ = c.slabs_) (hb : c1.slabs_back_ = c.slabs_back_) : ListOK c1 l := by
  refine ⟨h.nodup, h.nonnull, ⟨?_, ?_⟩, hh.trans h.head, hb.trans h.back⟩
  · exact Linked_frame _ _ l (fun a _ => hp a) (fun a _ => hn a) h.ring.1
  · intro hl
    rw [hp, hn]
    exact h.ring.2 hl

theorem ContentOnly.listOK {c c1 : Cache} {l : List Nat} (h : ContentOnly c c1)
    (hl : ListOK c l) : ListOK c1 l :=
  ListOK_congr hl h.next h.prev h.slabs_ h.slabs_back_

theorem Chain_frame (nx nx1 : Nat → Nat) (p : Nat) (l : List Nat)
    (h : Chain nx p l) (hf : ∀ x ∈ l, nx1 x = nx x) : Chain nx1 p l := by
  induction l generalizing p with
  | nil => exact h
  | cons x r ih =>
    refine ⟨h.1, h.2.1, ?_⟩
    rw [hf x (by simp)]
    exact ih _ h.2.2 (fun y hy => hf y (List.mem_cons_of_mem _ hy))

theorem SlabOK_frame {c c1 : Cache} {g : SlabG} (h : SlabOK c g) (hp : SameParams c c1)
    (hfl : (c1.slabMem g.hdr).free_list = (c.slabMem g.hdr).free_list)
    (hbc : (c1.slabMem g.hdr).bufcount = (c.slabMem g.hdr).bufcount)
    (hst : (c1.slabMem g.hdr).start = (c.slabMem g.hdr).start)
    (hmb : (c1.slabMem g.hdr).mem_base = (c.slabMem g.hdr).mem_base)
    (hnx : ∀ i ∈ g.fi, c1.nextOf (nodeAddr c g i) = c.nextOf (nodeAddr c g i))
    (hrec : c.small = false → ∀ i, i < c.slab_maxbuf_.toNat →
      (c1.bufMem (bufAddr g.arr i)).buf = (c.bufMem (bufAddr g.arr i)).buf ∧
      (c1.bufMem (bufAddr g.arr i)).slab = (c.bufMem (bufAddr g.arr i)).slab ∧
      mapFind c1.large_lookup_ (slotAddr c g.base i)
        = mapFind c.large_lookup_ (slotAddr c g.base i)) :
    SlabOK c1 g := by
  have hs := hp.small
  refine ⟨?_, ?_, h.base_ne, ?_, ?_, ?_, ?_, ?_, ?_, ?_, ?_⟩
  · rw [hbc]; exact h.count
  · rw [hp.slab_maxbuf_]; exact h.perm
  · rw [hp.pg]; exact h.base_al
  · rw [hp.blockSize]; exact h.top
  · rw [hfl]
    have e : g.fi.map (nodeAddr c1 g) = g.fi.map (nodeAddr c g) :=
      List.map_congr_left (fun i _ => hp.nodeAddr g i)
    rw [e]
    apply Chain_frame _ _ _ _ h.chain
    intro x hx
    obtain ⟨i, hi, rfl⟩ := List.mem_map.1 hx
    exact hnx i hi
  · rw [hs, hp.pg]; exact h.s_hdr
  · rw [hs, hst]; exact h.l_start
  · rw [hs, hmb]; exact h.l_base
  · rw [hs]; exact h.l_arr
  · rw [hs, hp.slab_maxbuf_]
    intro hl i hi
    obtain ⟨r1, r2, r3⟩ := h.l_rec hl i hi
    obtain ⟨q1, q2, q3⟩ := hrec hl i hi
    rw [hp.slotAddr, q1, q2, q3]
    exact ⟨r1, r2, r3⟩

theorem ListOnly.nextOf {c c1 : Cache} (h : ListOnly c c1) : c1.nextOf = c.nextOf := by
  unfold Cache.nextOf
  rw [h.params.small, h.wordMem, h.bufMem]

theorem ListOnly.slabOK {c c1 : Cache} {g : SlabG} (h : ListOnly c c1) (hg : SlabOK c g) :
    SlabOK c1 g := by
  obtain ⟨p1, p2, p3, p4, _⟩ := h.pay g.hdr
  apply SlabOK_frame hg h.params p2 p3 p1 p4
  · intro i _
    rw [h.nextOf]
  · intro _ i _
    rw [h.bufMem, h.large_lookup_]
    exact ⟨rfl, rfl, rfl⟩

/-! ### The description under list operations and in-place changes -/

theorem pairwise_perm_sym {R : Nat → Nat → Prop} (S : ∀ {x y}, R x y → R y x)
    {l1 l2 : List Nat} (p : l1.Perm l2) (h : l1.Pairwise R) : l2.Pairwise R :=
  (List.Perm.pairwise_iff S p).1 h

theorem Rep_listOnly_perm {c c1 : Cache} {G G1 : List SlabG} (h : Rep c G)
    (hc : ListOnly c c1) (hp : G1.Perm G) (hl : ListOK c1 (G1.map SlabG.hdr)) : Rep c1 G1 := by
  have hs := hc.params.small
  have hbs := hc.params.blockSize
  refine ⟨hl, ?_, ?_, ?_, ?_, ?_, ?_, ?_, ?_⟩
  · intro g hg
    exact hc.slabOK (h.slabs g (hp.mem_iff.1 hg))
  · rw [hc.blocks]
    exact h.blocks.trans (hp.map _).symm
  · rw [hbs]
    exact pairwise_perm_sym (fun h => h.symm) (hp.map _).symm h.disj
  · rw [hs, hc.large_lookup_]
    exact h.s_map
  · rw [hs, hc.hdrObjs]
    exact fun e => (h.l_hdrs e).trans (hp.map _).symm
  · rw [hs, hc.arrObjs]
    exact fun e => (h.l_arrs e).trans (hp.map _).symm
  · rw [hs, hc.slab_maxbuf_]
    exact fun e => pairwise_perm_sym (fun h => h.symm) (hp.map _).symm (h.l_adisj e)
  · rw [hs, hc.slab_maxbuf_, hc.large_lookup_]
    intro e kv hkv
    obtain ⟨g, hg, i, hi, hk⟩ := h.l_keys e kv hkv
    exact ⟨g, hp.mem_iff.2 hg, i, hi, by rw [hc.params.slotAddr]; exact hk⟩

theorem Rep_distinct {c : Cache} {G1 G2 : List SlabG} {g : SlabG}
    (h : Rep c (G1 ++ g :: G2)) (g2 : SlabG) (hg2 : g2 ∈ G1 ++ G2) :
    g2.hdr ≠ g.hdr ∧
    (g.base + blockSize c ≤ g2.base ∨ g2.base + blockSize c ≤ g.base) ∧
    (c.small = false →
      (g.arr + c.slab_maxbuf_.toNat * sizeofBufCtl ≤ g2.arr ∨
       g2.arr + c.slab_maxbuf_.toNat * sizeofBufCtl ≤ g.arr)) := by
  have pm : (G1 ++ g :: G2).Perm (g :: (G1 ++ G2)) := List.perm_middle
  refine ⟨?_, ?_, ?_⟩
  · have hnd := (pm.map SlabG.hdr).nodup_iff.1 h.list.nodup
    rw [List.map_cons, List.nodup_cons] at hnd
    intro e
    exact hnd.1 (e ▸ List.mem_map_of_mem _ hg2)
  · have hd := pairwise_perm_sym (fun h => h.symm) (pm.map SlabG.base) h.disj
    rw [List.map_cons, List.pairwise_cons] at hd
    exact hd.1 _ (List.mem_map_of_mem _ hg2)
  · intro hl
    have hd := pairwise_perm_sym (fun h => h.symm) (pm.map SlabG.arr) (h.l_adisj hl)
    rw [List.map_cons, List.pairwise_cons] at hd
    exact hd.1 _ (List.mem_map_of_mem _ hg2)

theorem map_replace {β : Type} (f : SlabG → β) (G1 G2 : List SlabG) (g g1 : SlabG)
    (e : f g1 = f g) : (G1 ++ g1 :: G2).map f = (G1 ++ g :: G2).map f := by
  simp [e]

theorem Rep_update {c c1 : Cache} {G1 G2 : List SlabG} {g g1 : SlabG}
    (h : Rep c (G1 ++ g :: G2)) (hc : ContentOnly c c1)
    (e1 : g1.hdr = g.hdr) (e2 : g1.base = g.base) (e3 : g1.arr = g.arr)
    (hg : SlabOK c1 g1) (ho : ∀ g2 ∈ G1 ++ G2, SlabOK c1 g2) :
    Rep c1 (G1 ++ g1 :: G2) := by
  have hs := hc.sameParams.small
  have hbs := hc.sameParams.blockSize
  rw [rep_iff] at h ⊢
  rw [map_replace SlabG.hdr G1 G2 g g1 e1, map_replace SlabG.base G1 G2 g g1 e2,
    map_replace SlabG.arr G1 G2 g g1 e3, hs, hbs, hc.blocks, hc.large_lookup_, hc.hdrObjs,
    hc.arrObjs, hc.slab_maxbuf_]
  obtain ⟨k1, _, k3, k4, k5, k6, k7, k8, k9⟩ := h
  refine ⟨hc.listOK k1, ?_, k3, k4, k5, k6, k7, k8, ?_⟩
  · intro g2 hg2
    rcases List.mem_append.1 hg2 with m | m
    · exact ho g2 (List.mem_append_left _ m)
    · rcases List.mem_cons.1 m with m | m
      · exact m ▸ hg
      · exact ho g2 (List.mem_append_right _ m)
  · intro e kv hkv
    obtain ⟨g2, hg2, i, hi, hk⟩ := k9 e kv hkv
    rcases List.mem_append.1 hg2 with m | m
    · exact ⟨g2, List.mem_append_left _ m, i, hi, by rw [hc.sameParams.slotAddr]; exact hk⟩
    · rcases List.mem_cons.1 m with m | m
      · exact ⟨g1, by simp, i, hi, by rw [hc.sameParams.slotAddr, e2, ← m]; exact hk⟩
      · exact ⟨g2, List.mem_append_right _ (List.mem_cons_of_mem _ m), i, hi,
          by rw [hc.sameParams.slotAddr]; exact hk⟩

/-! ### The callbacks -/

theorem callCtor_listOnly (c : Cache) (b : Nat) :
    (callCtor c b).slabMem = c.slabMem ∧ (callCtor c b).slabs_ = c.slabs_ ∧
    (callCtor c b).slabs_back_ = c.slabs_back_ ∧ (callCtor c b).wordMem = c.wordMem ∧
    (callCtor c b).bufMem = c.bufMem ∧ (callCtor c b).large_lookup_ = c.large_lookup_ ∧
    (callCtor c b).blocks = c.blocks ∧ (callCtor c b).hdrObjs = c.hdrObjs ∧
    (callCtor c b).arrObjs = c.arrObjs ∧ (callCtor c b).dtorLog = c.dtorLog ∧
    SameParams c (callCtor c b) := by
  unfold callCtor
  split
  · exact ⟨rfl, rfl, rfl, rfl, rfl, rfl, rfl, rfl, rfl, rfl, ⟨rfl, rfl, rfl, rfl, rfl, rfl, rfl⟩⟩
  · exact ⟨rfl, rfl, rfl, rfl, rfl, rfl, rfl, rfl, rfl, rfl, SameParams.refl _⟩

theorem callDtor_listOnly (c : Cache) (b : Nat) :
    (callDtor c b).slabMem = c.slabMem ∧ (callDtor c b).slabs_ = c.slabs_ ∧
    (callDtor c b).slabs_back_ = c.slabs_back_ ∧ (callDtor c b).wordMem = c.wordMem ∧
    (callDtor c b).bufMem = c.bufMem ∧ (callDtor c b).large_lookup_ = c.large_lookup_ ∧
    (callDtor c b).blocks = c.blocks ∧ (callDtor c b).hdrObjs = c.hdrObjs ∧
    (callDtor c b).arrObjs = c.arrObjs ∧ (callDtor c b).ctorLog = c.ctorLog ∧
    SameParams c (callDtor c b) := by
  unfold callDtor
  split
  · exact ⟨rfl, rfl, rfl, rfl, rfl, rfl, rfl, rfl, rfl, rfl, ⟨rfl, rfl, rfl, rfl, rfl, rfl, rfl⟩⟩
  · exact ⟨rfl, rfl, rfl, rfl, rfl, rfl, rfl, rfl, rfl, rfl, SameParams.refl _⟩

/-- The state after the pop and the constructor callback. -/
theorem popCtor_facts (c : Cache) :
    ContentOnly c (callCtor (popState c) (popBuf c)) ∧
    (callCtor (popState c) (popBuf c)).wordMem = c.wordMem ∧
    (callCtor (popState c) (popBuf c)).bufMem = c.bufMem ∧
    (callCtor (popState c) (popBuf c)).dtorLog = c.dtorLog ∧
    (∀ a, a ≠ c.slabs_ → (callCtor (popState c) (popBuf c)).slabMem a = c.slabMem a) ∧
    ((callCtor (popState c) (popBuf c)).slabMem c.slabs_).free_list
      = c.nextOf (c.slabMem c.slabs_).free_list ∧
    ((callCtor (popState c) (popBuf c)).slabMem c.slabs_).bufcount
      = (c.slabMem c.slabs_).bufcount + 1 ∧
    ((callCtor (popState c) (popBuf c)).slabMem c.slabs_).start
      = (c.slabMem c.slabs_).start ∧
    ((callCtor (popState c) (popBuf c)).slabMem c.slabs_).mem_base
      = (c.slabMem c.slabs_).mem_base := by
  obtain ⟨k1, k2, k3, k4, k5, k6, k7, k8, k9, k10, k11⟩ :=
    callCtor_listOnly (popState c) (popBuf c)
  have hm : (popState c).slabMem = upd c.slabMem c.slabs_
      { c.slabMem c.slabs_ with
        free_list := c.nextOf (c.slabMem c.slabs_).free_list,
        bufcount := (c.slabMem c.slabs_).bufcount + 1 } := rfl
  have hnp : ∀ a, ((popState c).slabMem a).next = (c.slabMem a).next ∧
      ((popState c).slabMem a).prev = (c.slabMem a).prev := by
    intro a
    rw [hm]
    by_cases e : a = c.slabs_
    · rw [e, upd_same]
      exact ⟨rfl, rfl⟩
    · rw [upd_other _ _ _ _ e]
      exact ⟨rfl, rfl⟩
  refine ⟨⟨?_, ?_, k2, k3, k11.pg, k11.size_, k11.effsize_, k11.small_threshold_,
    k11.slab_maxbuf_, k11.hasCtor, k11.hasDtor, k6, k7, k8, k9⟩, k4, k5, k10, ?_, ?_, ?_, ?_, ?_⟩
  · intro a; rw [k1]; exact (hnp a).1
  · intro a; rw [k1]; exact (hnp a).2
  · intro a ha; rw [k1, hm, upd_other _ _ _ _ ha]
  · rw [k1, hm, upd_same]
  · rw [k1, hm, upd_same]
  · rw [k1, hm, upd_same]
  · rw [k1, hm, upd_same]

theorem nodeAddr_congr (c : Cache) (g g1 : SlabG) (e2 : g1.base = g.base) (e3 : g1.arr = g.arr)
    (i : Nat) : nodeAddr c g1 i = nodeAddr c g i := by
  unfold nodeAddr
  rw [e2, e3]

theorem nextOf_congr {c c1 : Cache} (hp : SameParams c c1) (hw : c1.wordMem = c.wordMem)
    (hb : c1.bufMem = c.bufMem) : c1.nextOf = c.nextOf := by
  unfold Cache.nextOf
  rw [hp.small, hw, hb]

/-- A slab whose free list and in-use set have changed. -/
theorem SlabOK_change {c c1 : Cache} {g g1 : SlabG} (h : SlabOK c g) (hp : SameParams c c1)
    (e1 : g1.hdr = g.hdr) (e2 : g1.base = g.base) (e3 : g1.arr = g.arr)
    (hcount : (c1.slabMem g.hdr).bufcount = (g1.ui.length : Int))
    (hperm : (g1.fi ++ g1.ui).Perm (List.range c.slab_maxbuf_.toNat))
    (hchain : Chain c1.nextOf (c1.slabMem g.hdr).free_list (g1.fi.map (nodeAddr c g)))
    (hst : (c1.slabMem g.hdr).start = (c.slabMem g.hdr).start)
    (hmb : (c1.slabMem g.hdr).mem_base = (c.slabMem g.hdr).mem_base)
    (hrec : c.small = false → ∀ i, i < c.slab_maxbuf_.toNat →
      (c1.bufMem (bufAddr g.arr i)).buf = (c.bufMem (bufAddr g.arr i)).buf ∧
      (c1.bufMem (bufAddr g.arr i)).slab = (c.bufMem (bufAddr g.arr i)).slab ∧
      mapFind c1.large_lookup_ (slotAddr c g.base i)
        = mapFind c.large_lookup_ (slotAddr c g.base i)) :
    SlabOK c1 g1 := by
  have hs := hp.small
  refine ⟨?_, ?_, ?_, ?_, ?_, ?_, ?_, ?_, ?_, ?_, ?_⟩
  · rw [e1]; exact hcount
  · rw [hp.slab_maxbuf_]; exact hperm
  · rw [e2]; exact h.base_ne
  · rw [hp.pg, e2]; exact h.base_al
  · rw [hp.blockSize, e2]; exact h.top
  · rw [e1]
    have e : g1.fi.map (nodeAddr c1 g1) = g1.fi.map (nodeAddr c g) :=
      List.map_congr_left (fun i _ => by rw [hp.nodeAddr, nodeAddr_congr c g g1 e2 e3])
    rw [e]
    exact hchain
  · rw [hs, hp.pg, e1, e2]; exact h.s_hdr
  · rw [hs, e1, e3, hst]; exact h.l_start
  · rw [hs, e1, e2, hmb]; exact h.l_base
  · rw [hs, e3]; exact h.l_arr
  · rw [hs, hp.slab_maxbuf_, e1, e2, e3]
    intro hl i hi
    obtain ⟨r1, r2, r3⟩ := h.l_rec hl i hi
    obtain ⟨q1, q2, q3⟩ := hrec hl i hi
    rw [hp.slotAddr, q1, q2, q3]
    exact ⟨r1, r2, r3⟩

theorem perm_range_lt {l : List Nat} {n i : Nat} (h : l.Perm (List.range n)) (hi : i ∈ l) :
    i < n :=
  List.mem_range.1 (h.mem_iff.1 hi)

/-- The pop of `alloc` on a head slab with a non-empty free list. -/
theorem pop_rep {c : Cache} {g : SlabG} {R : List SlabG} {i : Nat} {fi1 : List Nat}
    (h : Rep c (g :: R)) (hfi : g.fi = i :: fi1) :
    popBuf c = slotAddr c g.base i ∧ (c.slabMem c.slabs_).free_list ≠ 0 ∧
    i < c.slab_maxbuf_.toNat ∧
    Rep (callCtor (popState c) (popBuf c)) ({ g with fi := fi1, ui := i :: g.ui } :: R) := by
  have hhead : c.slabs_ = g.hdr := h.list.head
  have hg := h.slabs g (by simp)
  have hi : i < c.slab_maxbuf_.toNat := perm_range_lt hg.perm (by simp [hfi])
  have hch := hg.chain
  rw [hfi, List.map_cons] at hch
  obtain ⟨hfl, hne, hch2⟩ := hch
  obtain ⟨k1, k2, k3, k4, k5, k6, k7, k8, k9⟩ := popCtor_facts c
  rw [hhead] at k5 k6 k7 k8 k9
  have hbuf : popBuf c = slotAddr c g.base i := by
    unfold popBuf
    simp only
    rw [hhead, hfl]
    unfold nodeAddr
    cases hs : c.small with
    | true => simp
    | false =>
      simp only [Bool.false_eq_true, if_false]
      exact (hg.l_rec hs i hi).1
  refine ⟨hbuf, ?_, hi, ?_⟩
  · rw [hhead, hfl]
    exact hne
  · have hnx := nextOf_congr k1.sameParams k2 k3
    refine @Rep_update c _ [] R g _ h k1 rfl rfl rfl ?_ ?_
    · refine SlabOK_change hg k1.sameParams rfl rfl rfl ?_ ?_ ?_ ?_ ?_ ?_
      · rw [k7, hg.count]
        simp
      · have := hg.perm
        rw [hfi] at this
        exact (List.perm_middle.trans (by simp)).trans this
      · rw [k6, hnx, hfl]
        exact hch2
      · exact k8
      · exact k9
      · intro _ j _
        rw [k3, k1.large_lookup_]
        exact ⟨rfl, rfl, rfl⟩
    · intro g2 hg2
      have hd := @Rep_distinct c [] R g h g2 hg2
      have hm := k5 g2.hdr hd.1
      apply SlabOK_frame (h.slabs g2 (List.mem_cons_of_mem _ hg2)) k1.sameParams
      · rw [hm]
      · rw [hm]
      · rw [hm]
      · rw [hm]
      · intro j _
        rw [hnx]
      · intro _ j _
        rw [k3, k1.large_lookup_]
        exact ⟨rfl, rfl, rfl⟩

/-! ### The link loop of the small branch of `grow_` -/

theorem linkLoop_spec (E : Nat) (n : Nat) :
    ∀ (fuel p : Nat) (w : Nat → Nat), 1 ≤ E → n ≤ fuel →
      ∃ w1, linkLoop E (p + n * E) fuel p w = some w1 ∧
        (∀ k, k < n → w1 (p + k * E) = p + (k + 1) * E) ∧
        (∀ x, (∀ k, k < n → x ≠ p + k * E) → w1 x = w x) := by
  induction n with
  | zero =>
    intro fuel p w _ _
    refine ⟨w, ?_, fun k hk => absurd hk (by omega), fun _ _ => rfl⟩
    cases fuel with
    | zero => simp [linkLoop]
    | succ f => simp [linkLoop]
  | succ n ih =>
    intro fuel p w hE hf
    cases fuel with
    | zero => omega
    | succ f =>
      have hlt : p < p + (n + 1) * E := by
        have : 1 * 1 ≤ (n + 1) * E := Nat.mul_le_mul (by omega) hE
        omega
      have he : p + (n + 1) * E = (p + E) + n * E := by ring
      obtain ⟨w1, h1, h2, h3⟩ := ih f (p + E) (upd w p (p + E)) hE (by omega)
      refine ⟨w1, ?_, ?_, ?_⟩
      · rw [linkLoop, if_pos hlt, he]
        exact h1
      · intro k hk
        cases k with
        | zero =>
          have : w1 p = upd w p (p + E) p := by
            apply h3
            intro k _
            have : 0 < E := hE
            have : 0 ≤ k * E := Nat.zero_le _
            omega
          simp only [Nat.zero_mul, Nat.add_zero, Nat.zero_add, Nat.one_mul]
          rw [this, upd_same]
        | succ k =>
          have := h2 k (by omega)
          have e1 : p + (k + 1) * E = p + E + k * E := by ring
          have e2 : p + (k + 1 + 1) * E = p + E + (k + 1) * E := by ring
          rw [e1, e2]
          exact this
      · intro x hx
        have hx0 : x ≠ p := by simpa using hx 0 (by omega)
        have : w1 x = upd w p (p + E) x := by
          apply h3
          intro k hk
          have := hx (k + 1) (by omega)
          have e1 : p + (k + 1) * E = p + E + k * E := by ring
          rw [e1] at this
          exact this
        rw [this, upd_other _ _ _ _ hx0]

/-- A free list that runs through the slots `j, j+1, ..., j+n-1` in order. -/
theorem chain_range (nx : Nat → Nat) (f : Nat → Nat) (n : Nat) :
    ∀ j, (∀ k, j ≤ k → k < j + n → f k ≠ 0) →
      (∀ k, j ≤ k → k + 1 < j + (n + 1) → nx (f k) = f (k + 1)) →
      nx (f (j + n)) = 0 → f (j + n) ≠ 0 →
      Chain nx (f j) ((List.range' j (n + 1)).map f) := by
  induction n with
  | zero =>
    intro j _ _ hlast hne
    exact ⟨rfl, hne, hlast⟩
  | succ n ih =>
    intro j hnz hstep hlast hne
    rw [List.range'_succ, List.map_cons]
    refine ⟨rfl, hnz j (by omega) (by omega), ?_⟩
    rw [hstep j (by omega) (by omega)]
    apply ih (j + 1)
    · intro k h1 h2
      exact hnz k (by omega) (by omega)
    · intro k h1 h2
      exact hstep k (by omega) (by omega)
    · rw [show j + 1 + n = j + (n + 1) by omega]
      exact hlast
    · rw [show j + 1 + n = j + (n + 1) by omega]
      exact hne

/-! ### Adding a slab -/

theorem ListOK_congr_on {c c1 : Cache} {l : List Nat} (h : ListOK c l)
    (hn : ∀ a ∈ l, (c1.slabMem a).next = (c.slabMem a).next)
    (hp : ∀ a ∈ l, (c1.slabMem a).prev = (c.slabMem a).prev)
    (hh : c1.slabs_ = c.slabs_) (hb : c1.slabs_back_ = c.slabs_back_) : ListOK c1 l := by
  refine ⟨h.nodup, h.nonnull, ⟨?_, ?_⟩, hh.trans h.head, hb.trans h.back⟩
  · exact Linked_frame _ _ l (fun a ha => hp a (List.mem_of_mem_dropLast ha))
      (fun a ha => hn a (List.mem_of_mem_tail ha)) h.ring.1
  · intro hl
    rw [hp _ (lastOr0_mem l hl), hn _ (headOr0_mem l hl)]
    exact h.ring.2 hl

theorem Rep_add {c c1 : Cache} {G : List SlabG} {g0 : SlabG} (h : Rep c G)
    (hp : SameParams c c1) (hl : ListOK c1 (g0.hdr :: G.map SlabG.hdr))
    (hg0 : SlabOK c1 g0) (ho : ∀ g2 ∈ G, SlabOK c1 g2)
    (hb : c1.blocks = g0.base :: c.blocks)
    (hd : ∀ g2 ∈ G, g0.base + blockSize c ≤ g2.base ∨ g2.base + blockSize c ≤ g0.base)
    (hsm : c.small = true → c1.large_lookup_ = [])
    (hho : c.small = false → c1.hdrObjs = g0.hdr :: c.hdrObjs)
    (hao : c.small = false → c1.arrObjs = g0.arr :: c.arrObjs)
    (had : c.small = false → ∀ g2 ∈ G,
      g0.arr + c.slab_maxbuf_.toNat * sizeofBufCtl ≤ g2.arr ∨
      g2.arr + c.slab_maxbuf_.toNat * sizeofBufCtl ≤ g0.arr)
    (hk : c.small = false → ∀ kv ∈ c1.large_lookup_,
      ∃ g ∈ g0 :: G, ∃ i, i < c.slab_maxbuf_.toNat ∧ kv.1 = slotAddr c g.base i) :
    Rep c1 (g0 :: G) := by
  have hs := hp.small
  refine ⟨hl, ?_, ?_, ?_, ?_, ?_, ?_, ?_, ?_⟩
  · intro g hg
    rcases List.mem_cons.1 hg with e | e
    · exact e ▸ hg0
    · exact ho g e
  · rw [hb, List.map_cons]
    exact List.Perm.cons _ h.blocks
  · rw [List.map_cons, List.pairwise_cons, hp.blockSize]
    refine ⟨?_, h.disj⟩
    intro b hb2
    obtain ⟨g2, hg2, rfl⟩ := List.mem_map.1 hb2
    exact hd g2 hg2
  · rw [hs]; exact hsm
  · rw [hs]
    intro e
    rw [hho e, List.map_cons]
    exact List.Perm.cons _ (h.l_hdrs e)
  · rw [hs]
    intro e
    rw [hao e, List.map_cons]
    exact List.Perm.cons _ (h.l_arrs e)
  · rw [hs, hp.slab_maxbuf_]
    intro e
    rw [List.map_cons, List.pairwise_cons]
    refine ⟨?_, h.l_adisj e⟩
    intro a ha
    obtain ⟨g2, hg2, rfl⟩ := List.mem_map.1 ha
    exact had e g2 hg2
  · rw [hs, hp.slab_maxbuf_]
    intro e kv hkv
    obtain ⟨g, hg, i, hi, hk2⟩ := hk e kv hkv
    exact ⟨g, hg, i, hi, by rw [hp.slotAddr]; exact hk2⟩

theorem aligned_disj (pg a b : Nat) (ha : pg ∣ a) (hb : pg ∣ b) (hne : a ≠ b) :
    a + pg ≤ b ∨ b + pg ≤ a := by
  obtain ⟨x, rfl⟩ := ha
  obtain ⟨y, rfl⟩ := hb
  rcases Nat.lt_trichotomy x y with h | h | h
  · left
    have : pg * (x + 1) ≤ pg * y := Nat.mul_le_mul_left _ h
    rw [Nat.mul_add, Nat.mul_one] at this
    exact this
  · exact absurd (by rw [h]) hne
  · right
    have : pg * (y + 1) ≤ pg * x := Nat.mul_le_mul_left _ h
    rw [Nat.mul_add, Nat.mul_one] at this
    exact this

theorem Rep.base_mem {c : Cache} {G : List SlabG} (h : Rep c G) (g : SlabG) (hg : g ∈ G) :
    g.base ∈ c.blocks :=
  h.blocks.mem_iff.2 (List.mem_map_of_mem _ hg)

theorem smallLast_eq {c : Cache} (w : c.WF) (hs : c.small = true) (b : Nat)
    (hb : b + c.pg ≤ SIZE_MOD) :
    smallLast c b = b + (c.slab_maxbuf_.toNat - 1) * c.effsize_ := by
  have hM := w.maxbuf_pos
  have hfit := w.small_fit hs
  have h1 : toSize (c.slab_maxbuf_ - 1) = c.slab_maxbuf_.toNat - 1 := by
    rw [toSize_of_nonneg _ (by omega) (by have := w.maxbuf_lt; omega)]
    omega
  have h2 : c.effsize_ * (c.slab_maxbuf_.toNat - 1) ≤ c.effsize_ * c.slab_maxbuf_.toNat :=
    Nat.mul_le_mul_left _ (by omega)
  have h3 : (c.slab_maxbuf_.toNat - 1) * c.effsize_
      = c.effsize_ * (c.slab_maxbuf_.toNat - 1) := Nat.mul_comm _ _
  have h4 : sizeofSlab = 56 := rfl
  unfold smallLast
  rw [h1, mulSize_eq _ _ (by omega), addSize_eq _ _ (by omega), h3]

/-! ### The small branch of `grow_` -/

theorem blockSize_small {c : Cache} (hs : c.small = true) : blockSize c = c.pg := by
  unfold blockSize
  rw [hs, if_pos rfl]

theorem nextOf_small {c : Cache} (hs : c.small = true) (a : Nat) : c.nextOf a = c.wordMem a := by
  unfold Cache.nextOf
  rw [hs, if_pos rfl]

theorem nodeAddr_small {c : Cache} (hs : c.small = true) (g : SlabG) (i : Nat) :
    nodeAddr c g i = slotAddr c g.base i := by
  unfold nodeAddr
  rw [hs, if_pos rfl]

theorem growSmallState_params (c : Cache) (b : Nat) (w1 : Nat → Nat) :
    SameParams c (growSmallState c b w1) := ⟨rfl, rfl, rfl, rfl, rfl, rfl, rfl⟩

theorem growSmall_spec {c : Cache} {G : List SlabG} {g : GrowRes} (h : Rep c G) (w : c.WF)
    (hs : c.small = true) (hg : GrowOK c g) :
    ∃ c1 b, g.mem = some b ∧ growSmall c g = .ok c1 ∧
      Rep c1 ({ hdr := smallHdr c b, base := b, arr := 0,
                fi := List.range c.slab_maxbuf_.toNat, ui := [] } :: G) ∧
      SameParams c c1 ∧ c1.ctorLog = c.ctorLog ∧ c1.dtorLog = c.dtorLog := by
  obtain ⟨b, hmem, hb0, hal, hsm, _⟩ := hg
  obtain ⟨htop, hfresh⟩ := hsm hs
  have hE := w.eff_pos
  have hMp := w.M_pos
  have hpg := w.pg_pos
  have h56 : sizeofSlab = 56 := rfl
  have hbs := blockSize_small hs
  have hlast := smallLast_eq w hs b htop
  have hnE : c.slab_maxbuf_.toNat - 1 ≤ (c.slab_maxbuf_.toNat - 1) * c.effsize_ :=
    Nat.le_mul_of_pos_right _ (by omega)
  obtain ⟨w1, hloop, hw1, hw2⟩ := linkLoop_spec c.effsize_ (c.slab_maxbuf_.toNat - 1)
    ((c.slab_maxbuf_.toNat - 1) * c.effsize_) b c.wordMem hE hnE
  have hloop2 : linkLoop c.effsize_ (smallLast c b) (smallLast c b - b) b c.wordMem
      = some w1 := by
    rw [hlast, Nat.add_sub_cancel_left]
    exact hloop
  -- the slabs already in the list lie in other pages
  have hbase : ∀ g2 ∈ G, g2.base ≠ b := fun g2 hg2 e => hfresh (e ▸ h.base_mem g2 hg2)
  have hdisj : ∀ g2 ∈ G, b + blockSize c ≤ g2.base ∨ g2.base + blockSize c ≤ b := by
    intro g2 hg2
    rw [hbs]
    exact aligned_disj _ _ _ hal (h.slabs g2 hg2).base_al (Ne.symm (hbase g2 hg2))
  have hhdr : ∀ g2 ∈ G, g2.hdr ≠ smallHdr c b := by
    intro g2 hg2 e
    rw [(h.slabs g2 hg2).s_hdr hs] at e
    unfold smallHdr at e
    exact hbase g2 hg2 (by omega)
  have hxn : smallHdr c b ∉ G.map SlabG.hdr := by
    intro hm
    obtain ⟨g2, hg2, e⟩ := List.mem_map.1 hm
    exact hhdr g2 hg2 e
  have hx0 : smallHdr c b ≠ 0 := by
    unfold smallHdr
    omega
  have hmemo : ∀ a, a ≠ smallHdr c b → (growSmallState c b w1).slabMem a = c.slabMem a :=
    fun a ha => upd_other _ _ _ _ ha
  have hl1 : ListOK (growSmallState c b w1) (G.map SlabG.hdr) := by
    apply ListOK_congr_on h.list
    · intro a ha
      rw [hmemo a (fun e => hxn (e ▸ ha))]
    · intro a ha
      rw [hmemo a (fun e => hxn (e ▸ ha))]
    · rfl
    · rfl
  have hself : (growSmallState c b w1).slabMem (smallHdr c b) =
      { Slab.init (smallHdr c b) with free_list := b, mem_base := b, mem_size := c.pg } :=
    upd_same _ _ _
  have hl2 := move_to_front_fresh _ _ _ hl1 hxn hx0 (by rw [hself]; rfl) (by rw [hself]; rfl)
  have hlo := move_to_front_listOnly (growSmallState c b w1) (smallHdr c b)
  have hpar := growSmallState_params c b w1
  have hscs : (growSmallState c b w1).small = true := by rw [hpar.small]; exact hs
  refine ⟨_, b, hmem, ?_, ?_, hpar.trans hlo.params, hlo.ctorLog, hlo.dtorLog⟩
  · unfold growSmall
    have hh : (move_to_front_ (growSmallState c b w1) (smallHdr c b)).slabs_
        = smallHdr c b := hl2.head
    simp only [hmem, hloop2]
    rw [if_neg hb0, if_pos hh]
  · refine Rep_add h (hpar.trans hlo.params) hl2 (hlo.slabOK ?_) (fun g2 hg2 => hlo.slabOK ?_)
      hlo.blocks hdisj (fun _ => ?_) (fun e => ?_) (fun e => ?_) (fun e => ?_) (fun e => ?_)
    · -- the new slab
      refine ⟨?_, ?_, hb0, hal, ?_, ?_, fun _ => rfl, ?_, ?_, ?_, ?_⟩
      · rw [hself]; rfl
      · simp only [List.append_nil]
        exact List.Perm.refl _
      · rw [hpar.blockSize, hbs]; exact htop
      · rw [hself]
        have e1 : List.range c.slab_maxbuf_.toNat
            = List.range' 0 ((c.slab_maxbuf_.toNat - 1) + 1) := by
          rw [List.range_eq_range', Nat.sub_add_cancel hMp]
        have e2 : ∀ i, nodeAddr (growSmallState c b w1)
            { hdr := smallHdr c b, base := b, arr := 0,
              fi := List.range c.slab_maxbuf_.toNat, ui := [] } i = slotAddr c b i := by
          intro i
          rw [nodeAddr_small hscs]
          rfl
        show Chain _ b _
        rw [List.map_congr_left (fun i _ => e2 i), e1]
        have e3 : b = slotAddr c b 0 := by simp [slotAddr]
        have hnz : ∀ k, slotAddr c b k ≠ 0 := by
          intro k
          unfold slotAddr
          omega
        have hwl : ∀ a, (growSmallState c b w1).nextOf a
            = upd w1 (smallLast c b) 0 a := fun a => nextOf_small hscs a
        conv => lhs; rw [e3]
        apply chain_range
        · intro k _ _
          exact hnz k
        · intro k _ hk
          rw [hwl, hlast]
          have hk2 : k < c.slab_maxbuf_.toNat - 1 := by omega
          have hne : slotAddr c b k ≠ b + (c.slab_maxbuf_.toNat - 1) * c.effsize_ := by
            have := slot_sep c b k (c.slab_maxbuf_.toNat - 1) hk2
            unfold slotAddr at this ⊢
            omega
          rw [upd_other _ _ _ _ hne]
          exact hw1 k hk2
        · rw [hwl, hlast, Nat.zero_add]
          exact upd_same _ _ _
        · exact hnz _
      · intro e; rw [hscs] at e; exact absurd e (by simp)
      · intro e; rw [hscs] at e; exact absurd e (by simp)
      · intro e; rw [hscs] at e; exact absurd e (by simp)
      · intro e; rw [hscs] at e; exact absurd e (by simp)
    · -- the slabs already there
      have hg2ok := h.slabs g2 hg2
      have hm := hmemo g2.hdr (hhdr g2 hg2)
      apply SlabOK_frame hg2ok hpar
      · rw [hm]
      · rw [hm]
      · rw [hm]
      · rw [hm]
      · intro i hi
        have hiM : i < c.slab_maxbuf_.toNat :=
          perm_range_lt hg2ok.perm (List.mem_append_left _ hi)
        rw [nextOf_small hscs, nextOf_small hs, nodeAddr_small hs]
        have hsep : ∀ k, k < c.slab_maxbuf_.toNat →
            slotAddr c g2.base i ≠ slotAddr c b k := by
          intro k hk
          have := slot_block_ne w b g2.base k i hk hiM (hdisj g2 hg2)
          omega
        show upd w1 (smallLast c b) 0 _ = _
        rw [hlast, upd_other]
        · apply hw2
          intro k hk
          exact hsep k (by omega)
        · exact hsep (c.slab_maxbuf_.toNat - 1) (by omega)
      · intro e; rw [hs] at e; exact absurd e (by simp)
    · rw [hlo.large_lookup_]
      exact h.s_map hs
    · rw [hs] at e; exact absurd e (by simp)
    · rw [hs] at e; exact absurd e (by simp)
    · rw [hs] at e; exact absurd e (by simp)
    · rw [hs] at e; exact absurd e (by simp)

/-! ### The side map -/

theorem mapFind_cons (m : List (Nat × Nat)) (k v k1 : Nat) :
    mapFind ((k, v) :: m) k1 = if k = k1 then some v else mapFind m k1 := rfl

theorem mapFind_none_iff (m : List (Nat × Nat)) (k : Nat) :
    mapFind m k = none ↔ ∀ kv ∈ m, kv.1 ≠ k := by
  induction m with
  | nil => simp [mapFind]
  | cons a r ih =>
    obtain ⟨k0, v0⟩ := a
    rw [mapFind_cons]
    by_cases e : k0 = k
    · simp [e]
    · simp [e, ih]

theorem mapEmplace_new (m : List (Nat × Nat)) (k v : Nat) (h : mapFind m k = none) :
    mapEmplace m k v = (k, v) :: m := by
  unfold mapEmplace
  rw [h]

theorem mapFind_erase (m : List (Nat × Nat)) (k k1 : Nat) :
    mapFind (mapErase m k) k1 = if k1 = k then none else mapFind m k1 := by
  induction m with
  | nil => simp [mapErase, mapFind]
  | cons a r ih =>
    obtain ⟨k0, v0⟩ := a
    unfold mapErase at ih ⊢
    by_cases e : k0 = k
    · have : List.filter (fun kv => decide (kv.1 ≠ k)) ((k0, v0) :: r)
          = List.filter (fun kv => decide (kv.1 ≠ k)) r := by
        simp [List.filter_cons, e]
      rw [this, ih, mapFind_cons]
      by_cases e1 : k1 = k
      · simp [e1]
      · have : k0 ≠ k1 := by omega
        simp [e1, this]
    · have : List.filter (fun kv => decide (kv.1 ≠ k)) ((k0, v0) :: r)
          = (k0, v0) :: List.filter (fun kv => decide (kv.1 ≠ k)) r := by
        simp [List.filter_cons, e]
      rw [this, mapFind_cons, mapFind_cons, ih]
      by_cases e1 : k0 = k1
      · have : k1 ≠ k := by omega
        simp [e1, this]
      · simp [e1]

theorem mem_mapErase (m : List (Nat × Nat)) (k : Nat) (kv : Nat × Nat) :
    kv ∈ mapErase m k ↔ kv ∈ m ∧ kv.1 ≠ k := by
  unfold mapErase
  simp [List.mem_filter]

/-! ### The loop of the large branch of `grow_` -/

theorem bufLoop_spec (E b h a : Nat) (hE : 1 ≤ E) (n : Nat) :
    ∀ (i : Nat) (c : Cache), b + (i + n) * E ≤ SIZE_MOD →
      (∀ k, i ≤ k → k < i + n → mapFind c.large_lookup_ (b + k * E) = none) →
      ∃ c1, bufLoop E b h a none n i c = some c1 ∧
        (∀ k, i ≤ k → k < i + n →
          (c1.bufMem (bufAddr a k)).buf = b + k * E ∧ (c1.bufMem (bufAddr a k)).slab = h ∧
          (c1.bufMem (bufAddr a k)).next
            = if k = i then (c.slabMem h).free_list else bufAddr a (k - 1)) ∧
        (∀ x, (∀ k, i ≤ k → k < i + n → x ≠ bufAddr a k) → c1.bufMem x = c.bufMem x) ∧
        (∀ x, x ≠ h → c1.slabMem x = c.slabMem x) ∧
        ((c1.slabMem h).next = (c.slabMem h).next ∧ (c1.slabMem h).prev = (c.slabMem h).prev ∧
         (c1.slabMem h).start = (c.slabMem h).start ∧
         (c1.slabMem h).bufcount = (c.slabMem h).bufcount ∧
         (c1.slabMem h).mem_base = (c.slabMem h).mem_base ∧
         (c1.slabMem h).free_list
           = if n = 0 then (c.slabMem h).free_list else bufAddr a (i + n - 1)) ∧
        (∀ k, i ≤ k → k < i + n → mapFind c1.large_lookup_ (b + k * E) = some (bufAddr a k)) ∧
        (∀ key, (∀ k, i ≤ k → k < i + n → key ≠ b + k * E) →
          mapFind c1.large_lookup_ key = mapFind c.large_lookup_ key) ∧
        (∀ kv ∈ c1.large_lookup_, kv ∈ c.large_lookup_ ∨
          ∃ k, i ≤ k ∧ k < i + n ∧ kv.1 = b + k * E) ∧
        SameParams c c1 ∧ c1.slabs_ = c.slabs_ ∧ c1.slabs_back_ = c.slabs_back_ ∧
        c1.wordMem = c.wordMem ∧ c1.blocks = c.blocks ∧ c1.hdrObjs = c.hdrObjs ∧
        c1.arrObjs = c.arrObjs ∧ c1.ctorLog = c.ctorLog ∧ c1.dtorLog = c.dtorLog := by
  induction n with
  | zero =>
    intro i c _ _
    refine ⟨c, rfl, ?_, fun _ _ => rfl, fun _ _ => rfl, ⟨rfl, rfl, rfl, rfl, rfl, rfl⟩, ?_,
      fun _ _ => rfl, fun kv hkv => Or.inl hkv, SameParams.refl c, rfl, rfl, rfl, rfl, rfl, rfl,
      rfl, rfl⟩
    · intro k h1 h2
      omega
    · intro k h1 h2
      omega
  | succ n ih =>
    intro i c htop hfree
    have hkE : ∀ k, k < i + (n + 1) → b + k * E < SIZE_MOD := by
      intro k hk
      have : (k + 1) * E ≤ (i + (n + 1)) * E := Nat.mul_le_mul_right _ hk
      have : (k + 1) * E = k * E + E := by ring
      omega
    have hbuf : addSize b (mulSize i E) = b + i * E := by
      have := hkE i (by omega)
      rw [mulSize_eq _ _ (by omega), addSize_eq _ _ this]
    have hkey : ∀ k j, k * E = j * E → k = j := fun k j e =>
      Nat.eq_of_mul_eq_mul_right (by omega) e
    have hnew := mapEmplace_new c.large_lookup_ (b + i * E) (bufAddr a i)
      (hfree i (by omega) (by omega))
    obtain ⟨c1, h1, h2, h3, h4, h5, h6, h7, h8, h9, h10, h11, h12, h13, h14, h15, h16, h17⟩ :=
      ih (i + 1)
        { c with bufMem := upd c.bufMem (bufAddr a i)
                   { buf := b + i * E, next := (c.slabMem h).free_list, slab := h }
                 slabMem := upd c.slabMem h { c.slabMem h with free_list := bufAddr a i }
                 large_lookup_ := (b + i * E, bufAddr a i) :: c.large_lookup_ }
        (by rw [show i + 1 + n = i + (n + 1) by omega]; exact htop)
        (by
          intro k hk1 hk2
          show mapFind ((b + i * E, bufAddr a i) :: c.large_lookup_) _ = none
          rw [mapFind_cons, if_neg, hfree k (by omega) (by omega)]
          intro e
          have := hkey i k (by omega)
          omega)
    refine ⟨c1, ?_, ?_, ?_, ?_, ?_, ?_, ?_, ?_, ?_⟩
    · rw [bufLoop]
      simp only [reduceCtorEq, if_false, hbuf, hnew]
      exact h1
    · intro k hk1 hk2
      by_cases e : k = i
      · subst e
        rw [h3 _ (by
          intro j hj1 hj2 e
          have := buf_inj a _ _ e
          omega)]
        simp only [upd_same, if_true, and_self]
      · obtain ⟨q1, q2, q3⟩ := h2 k (by omega) (by omega)
        refine ⟨q1, q2, ?_⟩
        rw [q3, if_neg e]
        by_cases e1 : k = i + 1
        · subst e1
          simp only [if_true, upd_same, Nat.add_sub_cancel]
        · rw [if_neg e1]
    · intro x hx
      rw [h3 x (fun k hk1 hk2 => hx k (by omega) (by omega))]
      exact upd_other _ _ _ _ (hx i (by omega) (by omega))
    · intro x hx
      rw [h4 x hx]
      exact upd_other _ _ _ _ hx
    · obtain ⟨q1, q2, q3, q4, q5, q6⟩ := h5
      simp only [upd_same] at q1 q2 q3 q4 q5 q6
      refine ⟨q1, q2, q3, q4, q5, ?_⟩
      have hn1 : ¬ (n + 1 = 0) := by omega
      rw [q6, if_neg hn1]
      by_cases e : n = 0
      · subst e
        simp
      · rw [if_neg e, show i + 1 + n - 1 = i + (n + 1) - 1 by omega]
    · intro k hk1 hk2
      by_cases e : k = i
      · subst e
        rw [h7 _ (by
          intro j hj1 hj2 e
          have := hkey k j (by omega)
          omega)]
        show mapFind ((b + k * E, bufAddr a k) :: c.large_lookup_) _ = _
        rw [mapFind_cons, if_pos rfl]
      · exact h6 k (by omega) (by omega)
    · intro key hkey2
      rw [h7 key (fun k hk1 hk2 => hkey2 k (by omega) (by omega))]
      show mapFind ((b + i * E, bufAddr a i) :: c.large_lookup_) _ = _
      rw [mapFind_cons, if_neg (Ne.symm (hkey2 i (by omega) (by omega)))]
    · intro kv hkv
      rcases h8 kv hkv with e | ⟨k, e1, e2, e3⟩
      · rcases List.mem_cons.1 e with e | e
        · right
          exact ⟨i, by omega, by omega, by rw [e]⟩
        · left
          exact e
      · right
        exact ⟨k, by omega, by omega, e3⟩
    · exact ⟨⟨h9.pg, h9.size_, h9.effsize_, h9.small_threshold_, h9.slab_maxbuf_, h9.hasCtor,
        h9.hasDtor⟩, h10, h11, h12, h13, h14, h15, h16, h17⟩

/-! ### The large branch of `grow_` -/

theorem blockSize_large {c : Cache} (hs : c.small = false) : blockSize c = largeMemSize c := by
  unfold blockSize
  rw [hs]
  simp

theorem nextOf_large {c : Cache} (hs : c.small = false) (a : Nat) :
    c.nextOf a = (c.bufMem a).next := by
  unfold Cache.nextOf
  rw [hs]
  simp

theorem nodeAddr_large {c : Cache} (hs : c.small = false) (g : SlabG) (i : Nat) :
    nodeAddr c g i = bufAddr g.arr i := by
  unfold nodeAddr
  rw [hs]
  simp

/-- A free list that runs through the nodes `j, j-1, ..., 0` in order. -/
theorem chain_desc (nx : Nat → Nat) (f : Nat → Nat) (j : Nat)
    (hnz : ∀ k, k ≤ j → f k ≠ 0) (hstep : ∀ k, k < j → nx (f (k + 1)) = f k)
    (hlast : nx (f 0) = 0) :
    Chain nx (f j) (((List.range (j + 1)).reverse).map f) := by
  induction j with
  | zero => exact ⟨rfl, hnz 0 (by omega), hlast⟩
  | succ j ih =>
    rw [List.range_succ, List.reverse_append, List.reverse_singleton, List.singleton_append,
      List.map_cons]
    refine ⟨rfl, hnz _ (by omega), ?_⟩
    rw [hstep j (by omega)]
    exact ih (fun k hk => hnz k (by omega)) (fun k hk => hstep k (by omega))

theorem growLargeState_params (c : Cache) (b hd a : Nat) :
    SameParams c (growLargeState c b hd a) := ⟨rfl, rfl, rfl, rfl, rfl, rfl, rfl⟩

/-- Keys of the side map lie in the blocks of the slabs of the list. -/
theorem lookup_fresh {c : Cache} {G : List SlabG} (h : Rep c G) (w : c.WF)
    (hs : c.small = false) (b : Nat)
    (hd : ∀ g2 ∈ G, b + blockSize c ≤ g2.base ∨ g2.base + blockSize c ≤ b)
    (k : Nat) (hk : k < c.slab_maxbuf_.toNat) :
    mapFind c.large_lookup_ (slotAddr c b k) = none := by
  rw [mapFind_none_iff]
  intro kv hkv e
  obtain ⟨g2, hg2, i, hi, hkey⟩ := h.l_keys hs kv hkv
  have := slot_block_ne w b g2.base k i hk hi (hd g2 hg2)
  have := w.eff_pos
  omega

theorem growLarge_spec {c : Cache} {G : List SlabG} {g : GrowRes} (h : Rep c G) (w : c.WF)
    (hs : c.small = false) (hg : GrowOK c g) :
    ∃ c1 b hd a, g.mem = some b ∧ g.hdr = some hd ∧ g.arr = some a ∧
      growLarge c g = .ok c1 ∧
      Rep c1 ({ hdr := hd, base := b, arr := a,
                fi := (List.range c.slab_maxbuf_.toNat).reverse, ui := [] } :: G) ∧
      SameParams c c1 ∧ c1.ctorLog = c.ctorLog ∧ c1.dtorLog = c.dtorLog := by
  obtain ⟨b, hmem, hb0, hal, _, hlg⟩ := hg
  obtain ⟨htop, hbd, hmf, ⟨hd, hhdr, hd0, hdn⟩, ⟨a, harr, ha0, had⟩⟩ := hlg hs
  have hE := w.eff_pos
  have hMp := w.M_pos
  have hbs := blockSize_large hs
  have hfitM := (largeMemSize_spec w hs).1
  have hME : c.slab_maxbuf_.toNat * c.effsize_ = c.effsize_ * c.slab_maxbuf_.toNat :=
    Nat.mul_comm _ _
  have hn : (c.slab_maxbuf_ - 1).toNat = c.slab_maxbuf_.toNat - 1 := by
    have := w.maxbuf_pos
    omega
  have hdisj : ∀ g2 ∈ G, b + blockSize c ≤ g2.base ∨ g2.base + blockSize c ≤ b := by
    intro g2 hg2
    rw [hbs]
    exact hbd _ (h.base_mem g2 hg2)
  have hadisj : ∀ g2 ∈ G, a + c.slab_maxbuf_.toNat * sizeofBufCtl ≤ g2.arr ∨
      g2.arr + c.slab_maxbuf_.toNat * sizeofBufCtl ≤ a := fun g2 hg2 =>
    had _ ((h.l_arrs hs).mem_iff.2 (List.mem_map_of_mem _ hg2))
  have hhn : ∀ g2 ∈ G, g2.hdr ≠ hd := fun g2 hg2 e =>
    hdn ((h.l_hdrs hs).mem_iff.2 (e ▸ List.mem_map_of_mem _ hg2))
  have hxn : hd ∉ G.map SlabG.hdr := by
    intro hm
    obtain ⟨g2, hg2, e⟩ := List.mem_map.1 hm
    exact hhn g2 hg2 e
  have hfresh := lookup_fresh h w hs b hdisj
  have hfresh0 : mapFind c.large_lookup_ b = none := by
    have := hfresh 0 hMp
    simpa [slotAddr] using this
  have hpar := growLargeState_params c b hd a
  have hlk : (growLargeState c b hd a).large_lookup_ = (b, a) :: c.large_lookup_ :=
    mapEmplace_new _ _ _ hfresh0
  obtain ⟨cL, k1, k2, k3, k4, k5, k6, k7, k8, k9, k10, k11, k12, k13, k14, k15, k16, k17⟩ :=
    bufLoop_spec c.effsize_ b hd a hE (c.slab_maxbuf_.toNat - 1) 1 (growLargeState c b hd a)
      (by rw [show 1 + (c.slab_maxbuf_.toNat - 1) = c.slab_maxbuf_.toNat by omega]; omega)
      (by
        intro k hk1 hk2
        rw [hlk, mapFind_cons, if_neg]
        · exact hfresh k (by omega)
        · have : 1 * 1 ≤ k * c.effsize_ := Nat.mul_le_mul hk1 hE
          omega)
  have hself : (growLargeState c b hd a).slabMem hd =
      { Slab.init hd with mem_base := b, mem_size := largeMemSize c, start := a,
                          free_list := a } := upd_same _ _ _
  have hrec0 : (growLargeState c b hd a).bufMem a = { buf := b, next := 0, slab := hd } :=
    upd_same _ _ _
  have hmemo : ∀ x, x ≠ hd → cL.slabMem x = c.slabMem x := by
    intro x hx
    rw [k4 x hx]
    exact upd_other _ _ _ _ hx
  have hl1 : ListOK cL (G.map SlabG.hdr) := by
    apply ListOK_congr_on h.list
    · intro x hx
      rw [hmemo x (fun e => hxn (e ▸ hx))]
    · intro x hx
      rw [hmemo x (fun e => hxn (e ▸ hx))]
    · exact k10
    · exact k11
  have hl2 := move_to_front_fresh _ _ _ hl1 hxn hd0
    (by rw [k5.1, hself]; rfl) (by rw [k5.2.1, hself]; rfl)
  have hlo := move_to_front_listOnly cL hd
  have hpL : SameParams c cL := hpar.trans k9
  have hsL : cL.small = false := by rw [hpL.small]; exact hs
  have hb0a : bufAddr a 0 = a := by simp [bufAddr]
  have hrecL0 : cL.bufMem (bufAddr a 0) = { buf := b, next := 0, slab := hd } := by
    rw [k3, hb0a, hrec0]
    intro k hk1 hk2 e
    have := buf_inj a _ _ e
    omega
  refine ⟨_, b, hd, a, hmem, hhdr, harr, ?_, ?_, hpL.trans hlo.params,
    hlo.ctorLog.trans k16, hlo.dtorLog.trans k17⟩
  · unfold growLarge
    simp only [hmem, hhdr, harr, hmf, hn, k1]
    rw [if_neg hb0]
    simp
  · refine Rep_add h (hpL.trans hlo.params) hl2 (hlo.slabOK ?_) (fun g2 hg2 => hlo.slabOK ?_)
      (hlo.blocks.trans k13) hdisj (fun e => ?_) (fun _ => hlo.hdrObjs.trans k14)
      (fun _ => hlo.arrObjs.trans k15) (fun _ => hadisj) (fun e => ?_)
    · -- the new slab
      have hfl : (cL.slabMem hd).free_list = bufAddr a (c.slab_maxbuf_.toNat - 1) := by
        rw [k5.2.2.2.2.2]
        by_cases e : c.slab_maxbuf_.toNat - 1 = 0
        · rw [if_pos e, hself, e, hb0a]
        · rw [if_neg e, show 1 + (c.slab_maxbuf_.toNat - 1) - 1 = c.slab_maxbuf_.toNat - 1 by
            omega]
      refine ⟨?_, ?_, hb0, ?_, ?_, ?_, ?_, ?_, ?_, fun _ => ha0, ?_⟩
      · rw [k5.2.2.2.1, hself]; rfl
      · rw [hpL.slab_maxbuf_]
        simp only [List.append_nil]
        exact List.reverse_perm _
      · rw [hpL.pg]; exact hal
      · rw [hpL.blockSize, hbs]; exact htop
      · have e2 : ∀ i, nodeAddr cL
            { hdr := hd, base := b, arr := a,
              fi := (List.range c.slab_maxbuf_.toNat).reverse, ui := [] } i = bufAddr a i :=
          fun i => nodeAddr_large hsL _ i
        show Chain _ (cL.slabMem hd).free_list _
        rw [List.map_congr_left (fun i _ => e2 i), hfl]
        have e3 : c.slab_maxbuf_.toNat = (c.slab_maxbuf_.toNat - 1) + 1 := by omega
        conv => rhs; rw [e3]
        apply chain_desc
        · intro k _
          unfold bufAddr
          omega
        · intro k hk
          rw [nextOf_large hsL, (k2 (k + 1) (by omega) (by omega)).2.2]
          by_cases e : k + 1 = 1
          · rw [if_pos e, hself]
            have : k = 0 := by omega
            rw [this, hb0a]
          · rw [if_neg e, Nat.add_sub_cancel]
        · rw [nextOf_large hsL, hrecL0]
      · intro e; rw [hsL] at e; exact absurd e (by simp)
      · intro _; rw [k5.2.2.1, hself]
      · intro _; rw [k5.2.2.2.2.1, hself]
      · intro _ i hi
        rw [hpL.slab_maxbuf_] at hi
        rw [hpL.slotAddr]
        show _ ∧ _ ∧ mapFind cL.large_lookup_ (slotAddr c b i) = some (bufAddr a i)
        by_cases e : i = 0
        · subst e
          have hs0 : slotAddr c b 0 = b := by simp [slotAddr]
          rw [hrecL0, hs0, k7, hlk, mapFind_cons, if_pos rfl, hb0a]
          · exact ⟨rfl, rfl, rfl⟩
          · intro k hk1 hk2
            have : 1 * 1 ≤ k * c.effsize_ := Nat.mul_le_mul hk1 hE
            omega
        · obtain ⟨q1, q2, _⟩ := k2 i (by omega) (by omega)
          exact ⟨q1, q2, k6 i (by omega) (by omega)⟩
    · -- the slabs already there
      have hg2ok := h.slabs g2 hg2
      have hm := hmemo g2.hdr (hhn g2 hg2)
      have hbm : ∀ i, i < c.slab_maxbuf_.toNat →
          cL.bufMem (bufAddr g2.arr i) = c.bufMem (bufAddr g2.arr i) := by
        intro i hi
        have hne : ∀ k, k < c.slab_maxbuf_.toNat → bufAddr g2.arr i ≠ bufAddr a k :=
          fun k hk => buf_block_ne _ _ _ _ _ hi hk
            (by rcases hadisj g2 hg2 with e | e
                · right; exact e
                · left; exact e)
        rw [k3 _ (fun k hk1 hk2 => hne k (by omega))]
        apply upd_other
        have := hne 0 hMp
        rw [hb0a] at this
        exact this
      apply SlabOK_frame hg2ok hpL
      · rw [hm]
      · rw [hm]
      · rw [hm]
      · rw [hm]
      · intro i hi
        have hiM : i < c.slab_maxbuf_.toNat :=
          perm_range_lt hg2ok.perm (List.mem_append_left _ hi)
        rw [nextOf_large hsL, nextOf_large hs, nodeAddr_large hs, hbm i hiM]
      · intro _ i hi
        rw [hbm i hi]
        refine ⟨rfl, rfl, ?_⟩
        have hne : ∀ k, k < c.slab_maxbuf_.toNat → slotAddr c g2.base i ≠ slotAddr c b k := by
          intro k hk
          have := slot_block_ne w b g2.base k i hk hi (hdisj g2 hg2)
          omega
        rw [k7 _ (fun k hk1 hk2 => hne k (by omega)), hlk, mapFind_cons, if_neg]
        have := hne 0 hMp
        simp only [slotAddr, Nat.zero_mul, Nat.add_zero] at this
        exact Ne.symm this
    · rw [hs] at e; exact absurd e (by simp)
    · intro kv hkv
      rw [hlo.large_lookup_] at hkv
      rcases k8 kv hkv with m | ⟨k, m1, m2, m3⟩
      · rw [hlk] at m
        rcases List.mem_cons.1 m with m | m
        · exact ⟨_, List.mem_cons_self _ _, 0, hMp, by rw [m]; simp [slotAddr]⟩
        · obtain ⟨g2, hg2, i, hi, hk⟩ := h.l_keys hs kv m
          exact ⟨g2, List.mem_cons_of_mem _ hg2, i, hi, hk⟩
      · exact ⟨_, List.mem_cons_self _ _, k, by omega, m3⟩

/-! ### The ordering of the slab list -/

theorem Ordered_iff (M : Int) (l : List Int) :
    Ordered M l ↔ (∀ x ∈ l, x ≤ M) ∧ l.Pairwise (fun x y => x = M → y = M) := by
  constructor
  · rintro ⟨p, f, rfl, hp, hf⟩
    refine ⟨?_, ?_⟩
    · intro x hx
      rcases List.mem_append.1 hx with h | h
      · exact le_of_lt (hp x h)
      · exact le_of_eq (hf x h)
    · rw [List.pairwise_append]
      refine ⟨?_, ?_, ?_⟩
      · exact List.Pairwise.imp_of_mem (R := fun _ _ => True)
          (fun {a b} ha _ _ e => absurd e (ne_of_lt (hp a ha)))
          (List.pairwise_of_forall (fun _ _ => trivial))
      · exact List.Pairwise.imp_of_mem (R := fun _ _ => True)
          (fun {a b} _ hb _ _ => hf b hb)
          (List.pairwise_of_forall (fun _ _ => trivial))
      · intro a ha b _ e
        exact absurd e (ne_of_lt (hp a ha))
  · rintro ⟨hle, hpw⟩
    induction l with
    | nil => exact ⟨[], [], rfl, by simp, by simp⟩
    | cons x r ih =>
      rw [List.pairwise_cons] at hpw
      obtain ⟨p, f, e, hp, hf⟩ := ih (fun y hy => hle y (List.mem_cons_of_mem _ hy)) hpw.2
      by_cases hx : x = M
      · refine ⟨[], x :: r, rfl, by simp, ?_⟩
        intro y hy
        rcases List.mem_cons.1 hy with h | h
        · rw [h]; exact hx
        · exact hpw.1 y h hx
      · refine ⟨x :: p, f, by rw [e]; rfl, ?_, hf⟩
        intro y hy
        rcases List.mem_cons.1 hy with h | h
        · rw [h]
          exact lt_of_le_of_ne (hle x (by simp)) hx
        · exact hp y h

theorem Ordered_nil (M : Int) : Ordered M [] := ⟨[], [], rfl, by simp, by simp⟩

theorem Ordered_sublist {M : Int} {l1 l2 : List Int} (h : Ordered M l2) (hs : l1.Sublist l2) :
    Ordered M l1 := by
  rw [Ordered_iff] at h ⊢
  exact ⟨fun x hx => h.1 x (hs.subset hx), h.2.sublist hs⟩

theorem Ordered_cons_lt {M x : Int} {l : List Int} (hx : x < M) (h : Ordered M l) :
    Ordered M (x :: l) := by
  obtain ⟨p, f, e, hp, hf⟩ := h
  refine ⟨x :: p, f, by rw [e]; rfl, ?_, hf⟩
  intro y hy
  rcases List.mem_cons.1 hy with h | h
  · rw [h]; exact hx
  · exact hp y h

theorem Ordered_concat_full {M : Int} {l : List Int} (h : Ordered M l) :
    Ordered M (l ++ [M]) := by
  obtain ⟨p, f, e, hp, hf⟩ := h
  refine ⟨p, f ++ [M], by rw [e, List.append_assoc], hp, ?_⟩
  intro y hy
  rcases List.mem_append.1 hy with h | h
  · exact hf y h
  · simpa using h

theorem Ordered_head_full {M : Int} {l : List Int} (h : Ordered M (M :: l)) :
    ∀ y ∈ l, y = M := by
  rw [Ordered_iff, List.pairwise_cons] at h
  exact fun y hy => h.2.1 y hy rfl

theorem Ordered_replace {M x y : Int} {l1 l2 : List Int} (h : Ordered M (l1 ++ x :: l2))
    (hx : x < M) (hy : y < M) : Ordered M (l1 ++ y :: l2) := by
  rw [Ordered_iff] at h ⊢
  obtain ⟨hle, hpw⟩ := h
  rw [List.pairwise_append, List.pairwise_cons] at hpw ⊢
  refine ⟨?_, hpw.1, ⟨fun b _ e => absurd e (ne_of_lt hy), hpw.2.1.2⟩, ?_⟩
  · intro z hz
    rcases List.mem_append.1 hz with m | m
    · exact hle z (by simp [m])
    · rcases List.mem_cons.1 m with m | m
      · rw [m]; exact le_of_lt hy
      · exact hle z (by simp [m])
  · intro a ha b hb e
    rcases List.mem_cons.1 hb with m | m
    · have := hpw.2.2 a ha x (by simp) e
      exact absurd this (ne_of_lt hx)
    · exact hpw.2.2 a ha b (List.mem_cons_of_mem _ m) e

theorem Ordered_remove {M x : Int} {l1 l2 : List Int} (h : Ordered M (l1 ++ x :: l2)) :
    Ordered M (l1 ++ l2) :=
  Ordered_sublist h (List.Sublist.append_left (List.sublist_cons_self x l2) l1)

/-! ### `grow_` and `alloc` on the invariant -/

theorem grow_spec {c : Cache} {G : List SlabG} {g : GrowRes} (h : Rep c G) (w : c.WF)
    (hg : GrowOK c g) :
    ∃ c1 g0, grow_ c g = .ok c1 ∧ Rep c1 (g0 :: G) ∧ g0.ui = [] ∧ SameParams c c1 ∧
      c1.ctorLog = c.ctorLog ∧ c1.dtorLog = c.dtorLog := by
  unfold grow_
  cases hs : c.small with
  | true =>
    obtain ⟨c1, b, _, h1, h2, h3, h4, h5⟩ := growSmall_spec h w hs hg
    exact ⟨c1, _, by simpa using h1, h2, rfl, h3, h4, h5⟩
  | false =>
    obtain ⟨c1, b, hd, a, _, _, _, h1, h2, h3, h4, h5⟩ := growLarge_spec h w hs hg
    exact ⟨c1, _, by simpa using h1, h2, rfl, h3, h4, h5⟩

theorem fi_nonempty {c : Cache} {g : SlabG} (h : SlabOK c g) (w : c.WF)
    (hlt : (g.ui.length : Int) < c.slab_maxbuf_) : ∃ i fi1, g.fi = i :: fi1 := by
  have hl := h.perm.length_eq
  rw [List.length_append, List.length_range] at hl
  have := w.M_cast
  cases hfi : g.fi with
  | nil =>
    rw [hfi] at hl
    simp only [List.length_nil, Nat.zero_add] at hl
    omega
  | cons i r => exact ⟨i, r, rfl⟩

theorem ui_le {c : Cache} {g : SlabG} (h : SlabOK c g) (w : c.WF) :
    (g.ui.length : Int) ≤ c.slab_maxbuf_ := by
  have hl := h.perm.length_eq
  rw [List.length_append, List.length_range] at hl
  have := w.M_cast
  omega

theorem moveFull_rep {c : Cache} {g : SlabG} {R : List SlabG} (h : Rep c (g :: R)) :
    Rep (moveFull c) (if (g.ui.length : Int) = c.slab_maxbuf_ then R ++ [g] else g :: R) ∧
    ListOnly c (moveFull c) := by
  have hhead : c.slabs_ = g.hdr := h.list.head
  have hcount := (h.slabs g (by simp)).count
  unfold moveFull
  rw [hhead, hcount]
  by_cases e : (g.ui.length : Int) = c.slab_maxbuf_
  · rw [if_pos e, if_pos e]
    have hlo := move_to_back_listOnly c g.hdr
    refine ⟨Rep_listOnly_perm h hlo ?_ ?_, hlo⟩
    · exact (@List.perm_append_comm _ R [g]).trans (by simp)
    · have := move_to_back_head c g.hdr (R.map SlabG.hdr) h.list
      simpa using this
  · rw [if_neg e, if_neg e]
    exact ⟨h, ListOnly_refl c⟩

/-- The two conditional calls of `grow_` at the start of `alloc` leave a head
slab with a free slot. -/
theorem stages_spec {c : Cache} {G : List SlabG} {g1 g2 : GrowRes} (hinv : Inv c G)
    (w : c.WF) (hg1 : GrowOK c g1) (hg2 : ∀ cm, allocStage1 c g1 = .ok cm → GrowOK cm g2) :
    ∃ c1 cm gh R, allocStage1 c g1 = .ok c1 ∧ allocStage2 c1 g2 = .ok cm ∧
      Rep cm (gh :: R) ∧
      ((gh :: R = G ∧ cm = c) ∨
       (R = G ∧ gh.ui = [] ∧ ∀ g ∈ G, (g.ui.length : Int) = c.slab_maxbuf_)) ∧
      (gh.ui.length : Int) < c.slab_maxbuf_ ∧ SameParams c cm ∧
      cm.ctorLog = c.ctorLog ∧ cm.dtorLog = c.dtorLog := by
  have hMp := w.maxbuf_pos
  cases hG : G with
  | nil =>
    subst hG
    have h0 : c.slabs_ = 0 := hinv.rep.list.head
    obtain ⟨c1, g0, k1, k2, k3, k4, k5, k6⟩ := grow_spec hinv.rep w hg1
    have hc : (c1.slabMem c1.slabs_).bufcount = 0 := by
      have hh : c1.slabs_ = g0.hdr := k2.list.head
      rw [hh, (k2.slabs g0 (by simp)).count, k3]
      rfl
    refine ⟨c1, c1, g0, [], ?_, ?_, k2, Or.inr ⟨rfl, k3, by simp⟩, ?_, k4, k5, k6⟩
    · unfold allocStage1
      rw [if_pos h0]
      exact k1
    · unfold allocStage2
      rw [hc, k4.slab_maxbuf_, if_neg (by omega)]
    · rw [k3]
      simpa using hMp
  | cons g R1 =>
    subst hG
    have hh : c.slabs_ = g.hdr := hinv.rep.list.head
    have hne : c.slabs_ ≠ 0 := head_ne_zero c _ hinv.rep.list (by simp)
    have hs1 : allocStage1 c g1 = .ok c := by
      unfold allocStage1
      rw [if_neg hne]
    have hcount := (hinv.rep.slabs g (by simp)).count
    by_cases hfull : (g.ui.length : Int) = c.slab_maxbuf_
    · obtain ⟨c2, g0, k1, k2, k3, k4, k5, k6⟩ := grow_spec hinv.rep w (hg2 c hs1)
      have hall : ∀ g2 ∈ g :: R1, (g2.ui.length : Int) = c.slab_maxbuf_ := by
        intro g2 hg2
        rcases List.mem_cons.1 hg2 with e | e
        · rw [e]; exact hfull
        · have ho := hinv.order
          unfold usedCounts at ho
          rw [List.map_cons, hfull] at ho
          exact Ordered_head_full ho _ (List.mem_map_of_mem (fun g => (g.ui.length : Int)) e)
      refine ⟨c, c2, g0, g :: R1, hs1, ?_, k2, Or.inr ⟨rfl, k3, hall⟩, ?_, k4, k5, k6⟩
      · unfold allocStage2
        rw [hh, hcount, if_pos hfull]
        exact k1
      · rw [k3]
        simpa using hMp
    · refine ⟨c, c, g, R1, hs1, ?_, hinv.rep, Or.inl ⟨rfl, rfl⟩, ?_, SameParams.refl c, rfl, rfl⟩
      · unfold allocStage2
        rw [hh, hcount, if_neg hfull]
      · exact lt_of_le_of_ne (ui_le (hinv.rep.slabs g (by simp)) w) hfull

theorem usedCounts_cons (g : SlabG) (R : List SlabG) :
    usedCounts (g :: R) = (g.ui.length : Int) :: usedCounts R := rfl

theorem usedCounts_append (G1 G2 : List SlabG) :
    usedCounts (G1 ++ G2) = usedCounts G1 ++ usedCounts G2 := by
  unfold usedCounts
  rw [List.map_append]

/-- One call of `alloc` in a state that satisfies the invariant. -/
theorem alloc_step {c : Cache} {G : List SlabG} {g1 g2 : GrowRes} (hinv : Inv c G)
    (w : c.WF) (hg1 : GrowOK c g1) (hg2 : ∀ cm, allocStage1 c g1 = .ok cm → GrowOK cm g2) :
    ∃ c1 cm gh R i fi1,
      allocStage1 c g1 = .ok c1 ∧ allocStage2 c1 g2 = .ok cm ∧ Rep cm (gh :: R) ∧
      ((gh :: R = G ∧ cm = c) ∨
       (R = G ∧ gh.ui = [] ∧ ∀ g ∈ G, (g.ui.length : Int) = c.slab_maxbuf_)) ∧
      (gh.ui.length : Int) < c.slab_maxbuf_ ∧ gh.fi = i :: fi1 ∧ i < c.slab_maxbuf_.toNat ∧
      alloc c g1 g2 = .ok (slotAddr c gh.base i,
        moveFull (callCtor (popState cm) (popBuf cm))) ∧
      Inv (moveFull (callCtor (popState cm) (popBuf cm)))
        (if ((gh.ui.length + 1 : Nat) : Int) = c.slab_maxbuf_
         then R ++ [{ gh with fi := fi1, ui := i :: gh.ui }]
         else { gh with fi := fi1, ui := i :: gh.ui } :: R) ∧
      SameParams c (moveFull (callCtor (popState cm) (popBuf cm))) ∧
      (moveFull (callCtor (popState cm) (popBuf cm))).dtorLog = c.dtorLog ∧
      (moveFull (callCtor (popState cm) (popBuf cm))).ctorLog
        = (callCtor c (slotAddr c gh.base i)).ctorLog := by
  obtain ⟨c1, cm, gh, R, s1, s2, hrep, hcase, hlt, hpar, hcl, hdl⟩ :=
    stages_spec hinv w hg1 hg2
  have wm : cm.WF := hpar.WF w
  have hlt2 : (gh.ui.length : Int) < cm.slab_maxbuf_ := by rw [hpar.slab_maxbuf_]; exact hlt
  obtain ⟨i, fi1, hfi⟩ := fi_nonempty (hrep.slabs gh (by simp)) wm hlt2
  obtain ⟨p1, p2, p3, p4⟩ := pop_rep hrep hfi
  obtain ⟨q1, q2, q3, q4, q5, q6, q7, q8, q9⟩ := popCtor_facts cm
  obtain ⟨m1, m2⟩ := @moveFull_rep (callCtor (popState cm) (popBuf cm)) _ R p4
  have hpf : SameParams c (moveFull (callCtor (popState cm) (popBuf cm))) :=
    (hpar.trans q1.sameParams).trans m2.params
  have hbuf : popBuf cm = slotAddr c gh.base i := by rw [p1, hpar.slotAddr]
  have hR : Ordered c.slab_maxbuf_ (usedCounts R) ∧ ∀ g ∈ R, g.ui ≠ [] := by
    rcases hcase with ⟨e, _⟩ | ⟨e, _, _⟩
    · subst e
      refine ⟨?_, fun g hg => hinv.used g (List.mem_cons_of_mem _ hg)⟩
      have := hinv.order
      rw [usedCounts_cons] at this
      exact Ordered_sublist this (List.sublist_cons_self _ _)
    · subst e
      exact ⟨hinv.order, hinv.used⟩
  refine ⟨c1, cm, gh, R, i, fi1, s1, s2, hrep, hcase, hlt, hfi, ?_, ?_, ?_, hpf, ?_, ?_⟩
  · rw [← hpar.slab_maxbuf_]; exact p3
  · unfold alloc
    rw [s1]
    simp only
    rw [s2]
    simp only
    unfold allocPop
    rw [if_neg p2, hbuf]
  · have hlen : (({ gh with fi := fi1, ui := i :: gh.ui } : SlabG).ui.length : Int)
        = ((gh.ui.length + 1 : Nat) : Int) := rfl
    rw [hlen, q1.sameParams.slab_maxbuf_, hpar.slab_maxbuf_] at m1
    by_cases e : ((gh.ui.length + 1 : Nat) : Int) = c.slab_maxbuf_
    · rw [if_pos e] at m1 ⊢
      refine ⟨m1, ?_, ?_⟩
      · rw [hpf.slab_maxbuf_, usedCounts_append]
        have : usedCounts [({ gh with fi := fi1, ui := i :: gh.ui } : SlabG)]
            = [c.slab_maxbuf_] := by
          unfold usedCounts
          simp only [List.map_cons, List.map_nil, List.length_cons]
          rw [e]
        rw [this]
        exact Ordered_concat_full hR.1
      · intro g hg
        rcases List.mem_append.1 hg with m | m
        · exact hR.2 g m
        · rw [List.mem_singleton] at m
          rw [m]
          simp
    · rw [if_neg e] at m1 ⊢
      refine ⟨m1, ?_, ?_⟩
      · rw [hpf.slab_maxbuf_, usedCounts_cons]
        apply Ordered_cons_lt _ hR.1
        have : (({ gh with fi := fi1, ui := i :: gh.ui } : SlabG).ui.length : Int)
            = ((gh.ui.length + 1 : Nat) : Int) := rfl
        rw [this]
        have h2 : ((gh.ui.length + 1 : Nat) : Int) = (gh.ui.length : Int) + 1 := by
          push_cast
          rfl
        omega
      · intro g hg
        rcases List.mem_cons.1 hg with m | m
        · rw [m]
          simp
        · exact hR.2 g m
  · rw [m2.dtorLog, q4, hdl]
  · rw [m2.ctorLog, hbuf]
    unfold callCtor
    rw [show (popState cm).hasCtor = c.hasCtor from hpar.hasCtor]
    split
    · show cm.ctorLog ++ [(_, cm.size_)] = c.ctorLog ++ _
      rw [hcl, hpar.size_]
    · exact hcl

/-! ### Releasing a slab -/

theorem eraseLoop_find_other (bm : Nat → BufCtl) (cur : Nat) (n : Nat) :
    ∀ (i : Nat) (m : List (Nat × Nat)) (key : Nat),
      (∀ k, i ≤ k → k < i + n → key ≠ (bm (bufAddr cur k)).buf) →
      mapFind (eraseLoop bm cur n i m) key = mapFind m key := by
  induction n with
  | zero => intro i m key _; rfl
  | succ n ih =>
    intro i m key hk
    rw [eraseLoop, ih (i + 1) _ key (fun k h1 h2 => hk k (by omega) (by omega)), mapFind_erase,
      if_neg (hk i (by omega) (by omega))]

theorem eraseLoop_mem (bm : Nat → BufCtl) (cur : Nat) (n : Nat) :
    ∀ (i : Nat) (m : List (Nat × Nat)) (kv : Nat × Nat), kv ∈ eraseLoop bm cur n i m →
      kv ∈ m ∧ ∀ k, i ≤ k → k < i + n → kv.1 ≠ (bm (bufAddr cur k)).buf := by
  induction n with
  | zero =>
    intro i m kv h
    exact ⟨h, fun k h1 h2 => absurd h2 (by omega)⟩
  | succ n ih =>
    intro i m kv h
    rw [eraseLoop] at h
    obtain ⟨h1, h2⟩ := ih (i + 1) _ kv h
    rw [mem_mapErase] at h1
    refine ⟨h1.1, ?_⟩
    intro k hk1 hk2
    by_cases e : k = i
    · rw [e]; exact h1.2
    · exact h2 k (by omega) (by omega)

theorem perm_erase_middle (l : List Nat) (f : SlabG → Nat) (G1 G2 : List SlabG) (g : SlabG)
    (h : l.Perm ((G1 ++ g :: G2).map f)) : (l.erase (f g)).Perm ((G1 ++ G2).map f) := by
  have h1 : ((G1 ++ g :: G2).map f).Perm (f g :: (G1 ++ G2).map f) := by
    rw [List.map_append, List.map_cons, List.map_append]
    exact List.perm_middle
  have h2 := (h.trans h1).erase (f g)
  rwa [List.erase_cons_head] at h2

theorem sublist_middle (f : SlabG → Nat) (G1 G2 : List SlabG) (g : SlabG) :
    ((G1 ++ G2).map f).Sublist ((G1 ++ g :: G2).map f) :=
  List.Sublist.map f (List.Sublist.append_left (List.sublist_cons_self g G2) G1)

theorem release_rep {c c1 : Cache} {G1 G2 : List SlabG} {g : SlabG}
    (h : Rep c (G1 ++ g :: G2)) (w : c.WF) (hp : SameParams c c1)
    (hl : ListOK c1 ((G1 ++ G2).map SlabG.hdr)) (hpay : SamePay c.slabMem c1.slabMem)
    (hw : c1.wordMem = c.wordMem) (hb : c1.bufMem = c.bufMem)
    (hbl : c1.blocks = c.blocks.erase g.base)
    (hsm : c.small = true → c1.large_lookup_ = c.large_lookup_)
    (hlg : c.small = false →
      c1.large_lookup_ = eraseLoop c.bufMem g.arr c.slab_maxbuf_.toNat 0 c.large_lookup_ ∧
      c1.hdrObjs = c.hdrObjs.erase g.hdr ∧ c1.arrObjs = c.arrObjs.erase g.arr) :
    Rep c1 (G1 ++ G2) := by
  have hs := hp.small
  have hgok := h.slabs g (by simp)
  have hkeys : c.small = false → ∀ g2 ∈ G1 ++ G2, ∀ j, j < c.slab_maxbuf_.toNat →
      ∀ k, k < c.slab_maxbuf_.toNat →
      slotAddr c g2.base j ≠ (c.bufMem (bufAddr g.arr k)).buf := by
    intro e g2 hg2 j hj k hk
    rw [(hgok.l_rec e k hk).1]
    have := slot_block_ne w g.base g2.base k j hk hj (Rep_distinct h g2 hg2).2.1
    have := w.eff_pos
    omega
  refine ⟨hl, ?_, ?_, ?_, ?_, ?_, ?_, ?_, ?_⟩
  · intro g2 hg2
    have hg2in : g2 ∈ G1 ++ g :: G2 := by
      simp only [List.mem_append, List.mem_cons] at hg2 ⊢
      tauto
    obtain ⟨p1, p2, p3, p4, _⟩ := hpay g2.hdr
    apply SlabOK_frame (h.slabs g2 hg2in) hp p2 p3 p1 p4
    · intro i _
      rw [nextOf_congr hp hw hb]
    · intro e i hi
      rw [hb, (hlg e).1]
      refine ⟨rfl, rfl, ?_⟩
      apply eraseLoop_find_other
      intro k _ hk
      exact hkeys e g2 hg2 i hi k (by omega)
  · rw [hbl]
    exact perm_erase_middle _ _ _ _ _ h.blocks
  · rw [hp.blockSize]
    exact h.disj.sublist (sublist_middle _ _ _ _)
  · rw [hs]
    intro e
    rw [hsm e]
    exact h.s_map e
  · rw [hs]
    intro e
    rw [(hlg e).2.1]
    exact perm_erase_middle _ _ _ _ _ (h.l_hdrs e)
  · rw [hs]
    intro e
    rw [(hlg e).2.2]
    exact perm_erase_middle _ _ _ _ _ (h.l_arrs e)
  · rw [hs, hp.slab_maxbuf_]
    intro e
    exact (h.l_adisj e).sublist (sublist_middle _ _ _ _)
  · rw [hs, hp.slab_maxbuf_]
    intro e kv hkv
    rw [(hlg e).1] at hkv
    obtain ⟨m1, m2⟩ := eraseLoop_mem _ _ _ _ _ _ hkv
    obtain ⟨g2, hg2, i, hi, hk⟩ := h.l_keys e kv m1
    rcases List.mem_append.1 hg2 with m | m
    · exact ⟨g2, List.mem_append_left _ m, i, hi, by rw [hp.slotAddr]; exact hk⟩
    · rcases List.mem_cons.1 m with m | m
      · exfalso
        apply m2 i (by omega) (by omega)
        rw [hk, m, (hgok.l_rec e i hi).1]
      · exact ⟨g2, List.mem_append_right _ m, i, hi, by rw [hp.slotAddr]; exact hk⟩

/-! ### Free-list nodes -/

theorem node_inj {c : Cache} (w : c.WF) (g : SlabG) (i j : Nat)
    (e : nodeAddr c g i = nodeAddr c g j) : i = j := by
  unfold nodeAddr at e
  cases hs : c.small with
  | true =>
    rw [hs] at e
    exact slot_inj w _ _ _ (by simpa using e)
  | false =>
    rw [hs] at e
    exact buf_inj _ _ _ (by simpa using e)

theorem node_ne {c : Cache} {G1 G2 : List SlabG} {g : SlabG} (h : Rep c (G1 ++ g :: G2))
    (w : c.WF) (g2 : SlabG) (hg2 : g2 ∈ G1 ++ G2) (i j : Nat)
    (hi : i < c.slab_maxbuf_.toNat) (hj : j < c.slab_maxbuf_.toNat) :
    nodeAddr c g2 j ≠ nodeAddr c g i := by
  obtain ⟨_, d1, d2⟩ := Rep_distinct h g2 hg2
  unfold nodeAddr
  cases hs : c.small with
  | true =>
    simp only [if_true]
    have := slot_block_ne w g.base g2.base i j hi hj d1
    have := w.eff_pos
    omega
  | false =>
    simp only [Bool.false_eq_true, if_false]
    exact buf_block_ne _ _ _ _ _ hj hi (by rcases d2 hs with e | e
                                           · right; exact e
                                           · left; exact e)

theorem node_nz {c : Cache} {g : SlabG} (h : SlabOK c g) (i : Nat) : nodeAddr c g i ≠ 0 := by
  unfold nodeAddr
  cases hs : c.small with
  | true =>
    simp only [if_true]
    have := h.base_ne
    unfold slotAddr
    omega
  | false =>
    simp only [Bool.false_eq_true, if_false]
    have := h.l_arr hs
    unfold bufAddr
    omega

theorem perm_nodup_split {fi ui : List Nat} {n : Nat} (h : (fi ++ ui).Perm (List.range n))
    {i j : Nat} (hi : i ∈ ui) (hj : j ∈ fi) : j ≠ i := by
  have hnd : (fi ++ ui).Nodup := h.nodup_iff.2 (List.nodup_range n)
  intro e
  exact List.disjoint_of_nodup_append hnd hj (e ▸ hi)

/-- A slot of the slab `g` goes back onto its free list. -/
theorem push_rep_gen {c c1 : Cache} {G1 G2 : List SlabG} {g : SlabG} {i : Nat}
    (h : Rep c (G1 ++ g :: G2)) (w : c.WF) (hi : i ∈ g.ui) (hco : ContentOnly c c1)
    (hm : ∀ a, a ≠ g.hdr → c1.slabMem a = c.slabMem a)
    (hfl : (c1.slabMem g.hdr).free_list = nodeAddr c g i)
    (hbc : (c1.slabMem g.hdr).bufcount = (c.slabMem g.hdr).bufcount - 1)
    (hst : (c1.slabMem g.hdr).start = (c.slabMem g.hdr).start)
    (hmb : (c1.slabMem g.hdr).mem_base = (c.slabMem g.hdr).mem_base)
    (hn1 : c1.nextOf (nodeAddr c g i) = (c.slabMem g.hdr).free_list)
    (hn2 : ∀ x, x ≠ nodeAddr c g i → c1.nextOf x = c.nextOf x)
    (hbuf : ∀ x, (c1.bufMem x).buf = (c.bufMem x).buf ∧ (c1.bufMem x).slab = (c.bufMem x).slab) :
    Rep c1 (G1 ++ { g with fi := i :: g.fi, ui := g.ui.erase i } :: G2) := by
  have hgok := h.slabs g (by simp)
  have hiM : i < c.slab_maxbuf_.toNat := perm_range_lt hgok.perm (List.mem_append_right _ hi)
  refine Rep_update h hco rfl rfl rfl ?_ ?_
  · refine SlabOK_change hgok hco.sameParams rfl rfl rfl ?_ ?_ ?_ hst hmb ?_
    · rw [hbc, hgok.count]
      show _ = ((g.ui.erase i).length : Int)
      rw [List.length_erase_of_mem hi]
      have : 0 < g.ui.length := List.length_pos_of_mem hi
      omega
    · show ((i :: g.fi) ++ g.ui.erase i).Perm _
      refine List.Perm.trans ?_ hgok.perm
      rw [List.cons_append]
      exact (List.perm_middle.symm).trans (List.Perm.append_left _ (List.perm_cons_erase hi).symm)
    · rw [hfl]
      show Chain _ _ ((i :: g.fi).map _)
      rw [List.map_cons]
      refine ⟨rfl, node_nz hgok i, ?_⟩
      rw [hn1]
      apply Chain_frame _ _ _ _ hgok.chain
      intro x hx
      obtain ⟨j, hj, rfl⟩ := List.mem_map.1 hx
      apply hn2
      intro e
      exact perm_nodup_split hgok.perm hi hj (node_inj w g _ _ e)
    · intro _ k _
      rw [(hbuf _).1, (hbuf _).2, hco.large_lookup_]
      exact ⟨rfl, rfl, rfl⟩
  · intro g2 hg2
    have hg2in : g2 ∈ G1 ++ g :: G2 := by
      simp only [List.mem_append, List.mem_cons] at hg2 ⊢
      tauto
    have hg2ok := h.slabs g2 hg2in
    have hm2 := hm g2.hdr (Rep_distinct h g2 hg2).1
    apply SlabOK_frame hg2ok hco.sameParams
    · rw [hm2]
    · rw [hm2]
    · rw [hm2]
    · rw [hm2]
    · intro j hj
      apply hn2
      exact node_ne h w g2 hg2 i j hiM
        (perm_range_lt hg2ok.perm (List.mem_append_left _ hj))
    · intro _ k _
      rw [(hbuf _).1, (hbuf _).2, hco.large_lookup_]
      exact ⟨rfl, rfl, rfl⟩

/-! ### Finding the slab of a pointer -/

theorem slabOf_eq {c : Cache} {g : SlabG} (h : SlabOK c g) (w : c.WF) (hs : c.small = true)
    (i : Nat) (hi : i < c.slab_maxbuf_.toNat) :
    slotAddr c g.base i &&& pageMask c.pg = g.base ∧ slabOf c (slotAddr c g.base i) = g.hdr := by
  obtain ⟨k, _, hk, hpg⟩ := w.pg_pow
  have hend := slot_end w g.base i hi
  have htop := h.top
  rw [blockSize_small hs] at hend htop
  have hE := w.eff_pos
  have hal := h.base_al
  have hm : slotAddr c g.base i &&& pageMask c.pg = g.base := by
    rw [hpg] at hal ⊢
    unfold slotAddr at hend ⊢
    exact mask_base k g.base (i * c.effsize_) hk hal (by omega) (by omega)
  refine ⟨hm, ?_⟩
  unfold slabOf
  rw [hm, h.s_hdr hs]

/-! ### The pushes of `free` -/

theorem pushSmall_facts (c : Cache) (buf slab : Nat) :
    ContentOnly c (pushSmall (callDtor c buf) buf slab) ∧
    (∀ a, a ≠ slab → (pushSmall (callDtor c buf) buf slab).slabMem a = c.slabMem a) ∧
    ((pushSmall (callDtor c buf) buf slab).slabMem slab).free_list = buf ∧
    ((pushSmall (callDtor c buf) buf slab).slabMem slab).bufcount
      = (c.slabMem slab).bufcount - 1 ∧
    ((pushSmall (callDtor c buf) buf slab).slabMem slab).start = (c.slabMem slab).start ∧
    ((pushSmall (callDtor c buf) buf slab).slabMem slab).mem_base
      = (c.slabMem slab).mem_base ∧
    (pushSmall (callDtor c buf) buf slab).wordMem
      = upd c.wordMem buf (c.slabMem slab).free_list ∧
    (pushSmall (callDtor c buf) buf slab).bufMem = c.bufMem ∧
    (pushSmall (callDtor c buf) buf slab).ctorLog = c.ctorLog ∧
    (pushSmall (callDtor c buf) buf slab).dtorLog = (callDtor c buf).dtorLog := by
  obtain ⟨k1, k2, k3, k4, k5, k6, k7, k8, k9, k10, k11⟩ := callDtor_listOnly c buf
  have hm : (pushSmall (callDtor c buf) buf slab).slabMem = upd c.slabMem slab
      { c.slabMem slab with free_list := buf, bufcount := (c.slabMem slab).bufcount - 1 } := by
    show upd (callDtor c buf).slabMem slab _ = _
    rw [k1]
  have hnp : ∀ a, ((pushSmall (callDtor c buf) buf slab).slabMem a).next = (c.slabMem a).next ∧
      ((pushSmall (callDtor c buf) buf slab).slabMem a).prev = (c.slabMem a).prev := by
    intro a
    rw [hm]
    by_cases e : a = slab
    · rw [e, upd_same]
      exact ⟨rfl, rfl⟩
    · rw [upd_other _ _ _ _ e]
      exact ⟨rfl, rfl⟩
  refine ⟨⟨fun a => (hnp a).1, fun a => (hnp a).2, k2, k3, k11.pg, k11.size_, k11.effsize_,
    k11.small_threshold_, k11.slab_maxbuf_, k11.hasCtor, k11.hasDtor, k6, k7, k8, k9⟩,
    ?_, ?_, ?_, ?_, ?_, ?_, k5, k10, rfl⟩
  · intro a ha; rw [hm, upd_other _ _ _ _ ha]
  · rw [hm, upd_same]
  · rw [hm, upd_same]
  · rw [hm, upd_same]
  · rw [hm, upd_same]
  · show upd (callDtor c buf).wordMem buf ((callDtor c buf).slabMem slab).free_list = _
    rw [k1, k4]

theorem pushLarge_facts (c : Cache) (buf b slab : Nat) :
    ContentOnly c (pushLarge (callDtor c buf) b slab) ∧
    (∀ a, a ≠ slab → (pushLarge (callDtor c buf) b slab).slabMem a = c.slabMem a) ∧
    ((pushLarge (callDtor c buf) b slab).slabMem slab).free_list = b ∧
    ((pushLarge (callDtor c buf) b slab).slabMem slab).bufcount
      = (c.slabMem slab).bufcount - 1 ∧
    ((pushLarge (callDtor c buf) b slab).slabMem slab).start = (c.slabMem slab).start ∧
    ((pushLarge (callDtor c buf) b slab).slabMem slab).mem_base
      = (c.slabMem slab).mem_base ∧
    (pushLarge (callDtor c buf) b slab).bufMem
      = upd c.bufMem b { c.bufMem b with next := (c.slabMem slab).free_list } ∧
    (pushLarge (callDtor c buf) b slab).wordMem = c.wordMem ∧
    (pushLarge (callDtor c buf) b slab).ctorLog = c.ctorLog ∧
    (pushLarge (callDtor c buf) b slab).dtorLog = (callDtor c buf).dtorLog := by
  obtain ⟨k1, k2, k3, k4, k5, k6, k7, k8, k9, k10, k11⟩ := callDtor_listOnly c buf
  have hm : (pushLarge (callDtor c buf) b slab).slabMem = upd c.slabMem slab
      { c.slabMem slab with free_list := b, bufcount := (c.slabMem slab).bufcount - 1 } := by
    show upd (callDtor c buf).slabMem slab _ = _
    rw [k1]
  have hnp : ∀ a, ((pushLarge (callDtor c buf) b slab).slabMem a).next = (c.slabMem a).next ∧
      ((pushLarge (callDtor c buf) b slab).slabMem a).prev = (c.slabMem a).prev := by
    intro a
    rw [hm]
    by_cases e : a = slab
    · rw [e, upd_same]
      exact ⟨rfl, rfl⟩
    · rw [upd_other _ _ _ _ e]
      exact ⟨rfl, rfl⟩
  refine ⟨⟨fun a => (hnp a).1, fun a => (hnp a).2, k2, k3, k11.pg, k11.size_, k11.effsize_,
    k11.small_threshold_, k11.slab_maxbuf_, k11.hasCtor, k11.hasDtor, k6, k7, k8, k9⟩,
    ?_, ?_, ?_, ?_, ?_, ?_, k4, k10, rfl⟩
  · intro a ha; rw [hm, upd_other _ _ _ _ ha]
  · rw [hm, upd_same]
  · rw [hm, upd_same]
  · rw [hm, upd_same]
  · rw [hm, upd_same]
  · show upd (callDtor c buf).bufMem b
      { (callDtor c buf).bufMem b with next := ((callDtor c buf).slabMem slab).free_list } = _
    rw [k1, k5]

theorem map_hdr_middle (G1 G2 : List SlabG) (g : SlabG) :
    (G1 ++ g :: G2).map SlabG.hdr = G1.map SlabG.hdr ++ g.hdr :: G2.map SlabG.hdr := by
  simp

theorem release_small_rep {c : Cache} {G1 G2 : List SlabG} {g : SlabG}
    (h : Rep c (G1 ++ g :: G2)) (w : c.WF) (hs : c.small = true) :
    Rep (releaseSmall c g.hdr g.base) (G1 ++ G2) ∧
    SameParams c (releaseSmall c g.hdr g.base) ∧
    (releaseSmall c g.hdr g.base).ctorLog = c.ctorLog ∧
    (releaseSmall c g.hdr g.base).dtorLog = c.dtorLog := by
  have hl0 := h.list
  rw [map_hdr_middle] at hl0
  have hl1 := remove_spec c _ _ _ hl0
  rw [← List.map_append] at hl1
  have hlo := remove_listOnly c g.hdr
  have hpar : SameParams c (releaseSmall c g.hdr g.base) := ⟨rfl, rfl, rfl, rfl, rfl, rfl, rfl⟩
  refine ⟨release_rep h w hpar ?_ hlo.pay hlo.wordMem hlo.bufMem ?_ (fun _ => ?_)
    (fun e => ?_), hpar, hlo.ctorLog, hlo.dtorLog⟩
  · exact ListOK_congr hl1 (fun _ => rfl) (fun _ => rfl) rfl rfl
  · show (remove_ c g.hdr).blocks.erase g.base = _
    rw [hlo.blocks]
  · exact hlo.large_lookup_
  · rw [hs] at e; exact absurd e (by simp)

theorem release_large_rep {c : Cache} {G1 G2 : List SlabG} {g : SlabG}
    (h : Rep c (G1 ++ g :: G2)) (w : c.WF) (hs : c.small = false) :
    Rep (releaseLarge c g.hdr) (G1 ++ G2) ∧
    SameParams c (releaseLarge c g.hdr) ∧
    (releaseLarge c g.hdr).ctorLog = c.ctorLog ∧
    (releaseLarge c g.hdr).dtorLog = c.dtorLog := by
  have hgok := h.slabs g (by simp)
  have hl0 := h.list
  rw [map_hdr_middle] at hl0
  obtain ⟨ce, hce⟩ : ∃ ce : Cache, ce = { c with large_lookup_ :=
      (eraseLoop c.bufMem (c.slabMem g.hdr).start c.slab_maxbuf_.toNat 0 c.large_lookup_) } :=
    ⟨_, rfl⟩
  have hcl : ListOK ce (G1.map SlabG.hdr ++ g.hdr :: G2.map SlabG.hdr) := by
    rw [hce]
    exact ListOK_congr hl0 (fun _ => rfl) (fun _ => rfl) rfl rfl
  have hlo := remove_listOnly ce g.hdr
  have hl1 := remove_spec ce _ _ _ hcl
  rw [← List.map_append] at hl1
  obtain ⟨p1, _, _, p4, _⟩ := hlo.pay g.hdr
  have e1 : (releaseLarge c g.hdr).slabMem = (remove_ ce g.hdr).slabMem := by rw [hce]; rfl
  have e2 : (releaseLarge c g.hdr).slabs_ = (remove_ ce g.hdr).slabs_ := by rw [hce]; rfl
  have e3 : (releaseLarge c g.hdr).slabs_back_ = (remove_ ce g.hdr).slabs_back_ := by
    rw [hce]; rfl
  have e4 : (releaseLarge c g.hdr).blocks
      = (remove_ ce g.hdr).blocks.erase ((remove_ ce g.hdr).slabMem g.hdr).mem_base := by
    rw [hce]; rfl
  have e5 : (releaseLarge c g.hdr).arrObjs
      = (remove_ ce g.hdr).arrObjs.erase ((remove_ ce g.hdr).slabMem g.hdr).start := by
    rw [hce]; rfl
  have e6 : (releaseLarge c g.hdr).hdrObjs = (remove_ ce g.hdr).hdrObjs.erase g.hdr := by
    rw [hce]; rfl
  have e7 : (releaseLarge c g.hdr).large_lookup_ = (remove_ ce g.hdr).large_lookup_ := by
    rw [hce]; rfl
  have e8 : (releaseLarge c g.hdr).wordMem = (remove_ ce g.hdr).wordMem := by rw [hce]; rfl
  have e9 : (releaseLarge c g.hdr).bufMem = (remove_ ce g.hdr).bufMem := by rw [hce]; rfl
  have e10 : (releaseLarge c g.hdr).ctorLog = (remove_ ce g.hdr).ctorLog := by rw [hce]; rfl
  have e11 : (releaseLarge c g.hdr).dtorLog = (remove_ ce g.hdr).dtorLog := by rw [hce]; rfl
  have c1 : ce.slabMem = c.slabMem := by rw [hce]
  have c2 : ce.blocks = c.blocks := by rw [hce]
  have c3 : ce.arrObjs = c.arrObjs := by rw [hce]
  have c4 : ce.hdrObjs = c.hdrObjs := by rw [hce]
  have c5 : ce.large_lookup_ =
      eraseLoop c.bufMem (c.slabMem g.hdr).start c.slab_maxbuf_.toNat 0 c.large_lookup_ := by
    rw [hce]
  have c6 : ce.wordMem = c.wordMem := by rw [hce]
  have c7 : ce.bufMem = c.bufMem := by rw [hce]
  have c8 : ce.ctorLog = c.ctorLog := by rw [hce]
  have c9 : ce.dtorLog = c.dtorLog := by rw [hce]
  have hpar : SameParams c (releaseLarge c g.hdr) := ⟨rfl, rfl, rfl, rfl, rfl, rfl, rfl⟩
  refine ⟨release_rep h w hpar ?_ ?_ ?_ ?_ ?_ (fun e => ?_)
    (fun e => ⟨?_, ?_, ?_⟩), hpar, ?_, ?_⟩
  · exact ListOK_congr hl1 (fun a => by rw [e1]) (fun a => by rw [e1]) e2 e3
  · rw [e1, ← c1]; exact hlo.pay
  · rw [e8, hlo.wordMem, c6]
  · rw [e9, hlo.bufMem, c7]
  · rw [e4, hlo.blocks, p4, c1, c2, hgok.l_base hs]
  · rw [hs] at e; exact absurd e (by simp)
  · rw [e7, hlo.large_lookup_, c5, hgok.l_start hs]
  · rw [e6, hlo.hdrObjs, c4]
  · rw [e5, hlo.arrObjs, p1, c1, c3, hgok.l_start hs]
  · rw [e10, hlo.ctorLog, c8]
  · rw [e11, hlo.dtorLog, c9]

theorem push_small_rep {c : Cache} {G1 G2 : List SlabG} {g : SlabG} {i : Nat}
    (h : Rep c (G1 ++ g :: G2)) (w : c.WF) (hs : c.small = true) (hi : i ∈ g.ui) :
    Rep (pushSmall (callDtor c (slotAddr c g.base i)) (slotAddr c g.base i) g.hdr)
      (G1 ++ { g with fi := i :: g.fi, ui := g.ui.erase i } :: G2) := by
  obtain ⟨k1, k2, k3, k4, k5, k6, k7, k8, _, _⟩ :=
    pushSmall_facts c (slotAddr c g.base i) g.hdr
  have hs1 : (pushSmall (callDtor c (slotAddr c g.base i)) (slotAddr c g.base i) g.hdr).small
      = true := by rw [k1.sameParams.small]; exact hs
  have hnode := nodeAddr_small hs g i
  refine push_rep_gen h w hi k1 k2 (by rw [k3, hnode]) k4 k5 k6 ?_ ?_ ?_
  · rw [nextOf_small hs1, k7, hnode, upd_same]
  · intro x hx
    rw [nextOf_small hs1, nextOf_small hs, k7, upd_other _ _ _ _ (by rw [← hnode]; exact hx)]
  · intro x
    rw [k8]
    exact ⟨rfl, rfl⟩

theorem push_large_rep {c : Cache} {G1 G2 : List SlabG} {g : SlabG} {i : Nat}
    (h : Rep c (G1 ++ g :: G2)) (w : c.WF) (hs : c.small = false) (hi : i ∈ g.ui) :
    Rep (pushLarge (callDtor c (slotAddr c g.base i)) (bufAddr g.arr i) g.hdr)
      (G1 ++ { g with fi := i :: g.fi, ui := g.ui.erase i } :: G2) := by
  obtain ⟨k1, k2, k3, k4, k5, k6, k7, k8, _, _⟩ :=
    pushLarge_facts c (slotAddr c g.base i) (bufAddr g.arr i) g.hdr
  have hs1 : (pushLarge (callDtor c (slotAddr c g.base i)) (bufAddr g.arr i) g.hdr).small
      = false := by rw [k1.sameParams.small]; exact hs
  have hnode := nodeAddr_large hs g i
  refine push_rep_gen h w hi k1 k2 (by rw [k3, hnode]) k4 k5 k6 ?_ ?_ ?_
  · rw [nextOf_large hs1, k7, hnode, upd_same]
  · intro x hx
    rw [nextOf_large hs1, nextOf_large hs, k7, upd_other _ _ _ _ (by rw [← hnode]; exact hx)]
  · intro x
    rw [k7]
    by_cases e : x = bufAddr g.arr i
    · rw [e, upd_same]
      exact ⟨rfl, rfl⟩
    · rw [upd_other _ _ _ _ e]
      exact ⟨rfl, rfl⟩

/-! ### `free` on the invariant -/

/-- The tests on `bufcount` that end both branches of `free`, for a state
`c1` reached by the pushes and a released state `cr`. -/
theorem free_tail {c1 cr : Cache} {G1 G2 : List SlabG} {g g1 : SlabG} {M : Int}
    (hM : c1.slab_maxbuf_ = M)
    (hrep1 : Rep c1 (G1 ++ g1 :: G2)) (e1 : g1.hdr = g.hdr)
    (hlen : g1.ui.length + 1 = g.ui.length)
    (hord : Ordered M (usedCounts (G1 ++ g :: G2)))
    (hused : ∀ x ∈ G1 ++ G2, x.ui ≠ [])
    (hle : (g.ui.length : Int) ≤ M)
    (hrel : Rep cr (G1 ++ G2)) (hpr : SameParams c1 cr) :
    Inv (if (c1.slabMem g.hdr).bufcount = 0 then cr
         else if (c1.slabMem g.hdr).bufcount = c1.slab_maxbuf_ - 1 then move_to_front_ c1 g.hdr
         else c1)
      (if g1.ui = [] then G1 ++ G2
       else if (g.ui.length : Int) = M then g1 :: (G1 ++ G2)
       else G1 ++ g1 :: G2) ∧
    SameParams c1 (if (c1.slabMem g.hdr).bufcount = 0 then cr
         else if (c1.slabMem g.hdr).bufcount = c1.slab_maxbuf_ - 1 then move_to_front_ c1 g.hdr
         else c1) := by
  subst hM
  have hcount : (c1.slabMem g.hdr).bufcount = (g1.ui.length : Int) := by
    rw [← e1]
    exact (hrep1.slabs g1 (by simp)).count
  have hordR : Ordered c1.slab_maxbuf_ (usedCounts (G1 ++ G2)) := by
    rw [usedCounts_append] at hord ⊢
    rw [usedCounts_cons] at hord
    exact Ordered_remove hord
  rw [hcount]
  by_cases h0 : g1.ui = []
  · have : (g1.ui.length : Int) = 0 := by rw [h0]; rfl
    rw [if_pos this, if_pos h0]
    refine ⟨⟨hrel, ?_, hused⟩, hpr⟩
    rw [hpr.slab_maxbuf_]
    exact hordR
  · have hpos : 0 < g1.ui.length := List.length_pos.2 h0
    have hn0 : ¬ ((g1.ui.length : Int) = 0) := by omega
    have husedall : ∀ x ∈ G1 ++ g1 :: G2, x.ui ≠ [] := by
      intro x hx
      rcases List.mem_append.1 hx with m | m
      · exact hused x (List.mem_append_left _ m)
      · rcases List.mem_cons.1 m with m | m
        · rw [m]; exact h0
        · exact hused x (List.mem_append_right _ m)
    rw [if_neg hn0, if_neg h0]
    by_cases hfull : (g.ui.length : Int) = c1.slab_maxbuf_
    · have : (g1.ui.length : Int) = c1.slab_maxbuf_ - 1 := by omega
      rw [if_pos this, if_pos hfull]
      have hlo := move_to_front_listOnly c1 g.hdr
      have hl := hrep1.list
      rw [map_hdr_middle, e1] at hl
      have hl2 := move_to_front_mem c1 _ _ _ hl
      have hrep2 : Rep (move_to_front_ c1 g.hdr) (g1 :: (G1 ++ G2)) := by
        refine Rep_listOnly_perm hrep1 hlo List.perm_middle.symm ?_
        rw [List.map_cons, List.map_append, e1]
        exact hl2
      refine ⟨⟨hrep2, ?_, ?_⟩, hlo.params⟩
      · rw [hlo.slab_maxbuf_, usedCounts_cons]
        exact Ordered_cons_lt (by omega) hordR
      · intro x hx
        exact husedall x (List.perm_middle.symm.mem_iff.1 hx)
    · have : ¬ ((g1.ui.length : Int) = c1.slab_maxbuf_ - 1) := by omega
      rw [if_neg this, if_neg hfull]
      refine ⟨⟨hrep1, ?_, husedall⟩, SameParams.refl c1⟩
      rw [usedCounts_append, usedCounts_cons] at hord ⊢
      exact Ordered_replace hord (lt_of_le_of_ne hle hfull) (by omega)

theorem ok_ite3 (a b : Prop) [Decidable a] [Decidable b] (x y z : Cache) :
    (if a then (Except.ok x : Except Fault Cache) else if b then Except.ok y else Except.ok z)
      = Except.ok (if a then x else if b then y else z) := by
  split
  · rfl
  · split <;> rfl

/-- One call of `free` on a pointer in use, in a state that satisfies the
invariant. -/
theorem free_step {c : Cache} {G1 G2 : List SlabG} {g : SlabG} {i : Nat}
    (hinv : Inv c (G1 ++ g :: G2)) (w : c.WF) (hi : i ∈ g.ui) :
    ∃ c1, free c (slotAddr c g.base i) = .ok c1 ∧
      Inv c1 (if g.ui.erase i = [] then G1 ++ G2
              else if (g.ui.length : Int) = c.slab_maxbuf_
                then { g with fi := i :: g.fi, ui := g.ui.erase i } :: (G1 ++ G2)
                else G1 ++ { g with fi := i :: g.fi, ui := g.ui.erase i } :: G2) ∧
      SameParams c c1 ∧ c1.ctorLog = c.ctorLog ∧
      c1.dtorLog = (callDtor c (slotAddr c g.base i)).dtorLog := by
  have hgok := hinv.rep.slabs g (by simp)
  have hiM : i < c.slab_maxbuf_.toNat := perm_range_lt hgok.perm (List.mem_append_right _ hi)
  have hp0 : slotAddr c g.base i ≠ 0 := by
    have := hgok.base_ne
    unfold slotAddr
    omega
  have hlen : (g.ui.erase i).length + 1 = g.ui.length := by
    rw [List.length_erase_of_mem hi]
    have : 0 < g.ui.length := List.length_pos_of_mem hi
    omega
  have hused : ∀ x ∈ G1 ++ G2, x.ui ≠ [] := by
    intro x hx
    apply hinv.used
    simp only [List.mem_append, List.mem_cons] at hx ⊢
    tauto
  have hle := ui_le hgok w
  unfold free
  rw [if_neg hp0]
  cases hs : c.small with
  | true =>
    simp only [if_true]
    obtain ⟨m1, m2⟩ := slabOf_eq hgok w hs i hiM
    obtain ⟨k1, _, _, _, _, _, _, _, k9, k10⟩ :=
      pushSmall_facts c (slotAddr c g.base i) g.hdr
    have hrep1 := push_small_rep hinv.rep w hs hi
    have w1 := k1.sameParams.WF w
    obtain ⟨r1, r2, r3, r4⟩ := release_small_rep hrep1 w1 (by rw [k1.sameParams.small]; exact hs)
    have ht := @free_tail _ _ G1 G2 g _ _ k1.sameParams.slab_maxbuf_ hrep1 rfl hlen
      hinv.order hused hle r1 r2
    refine ⟨_, ?_, ht.1, k1.sameParams.trans ht.2, ?_, ?_⟩
    · unfold freeSmall
      simp only [m1, m2]
      exact ok_ite3 _ _ _ _ _
    · split
      · rw [r3, k9]
      · split
        · rw [(move_to_front_listOnly _ _).ctorLog, k9]
        · exact k9
    · split
      · rw [r4, k10]
      · split
        · rw [(move_to_front_listOnly _ _).dtorLog, k10]
        · exact k10
  | false =>
    simp only [Bool.false_eq_true, if_false]
    obtain ⟨l1, l2, l3⟩ := hgok.l_rec hs i hiM
    obtain ⟨k1, _, _, _, _, _, _, _, k9, k10⟩ :=
      pushLarge_facts c (slotAddr c g.base i) (bufAddr g.arr i) g.hdr
    have hrep1 := push_large_rep hinv.rep w hs hi
    have w1 := k1.sameParams.WF w
    obtain ⟨r1, r2, r3, r4⟩ := release_large_rep hrep1 w1 (by rw [k1.sameParams.small]; exact hs)
    have ht := @free_tail _ _ G1 G2 g _ _ k1.sameParams.slab_maxbuf_ hrep1 rfl hlen
      hinv.order hused hle r1 r2
    refine ⟨_, ?_, ht.1, k1.sameParams.trans ht.2, ?_, ?_⟩
    · unfold freeLarge
      simp only [l3, l2]
      exact ok_ite3 _ _ _ _ _
    · split
      · rw [r3, k9]
      · split
        · rw [(move_to_front_listOnly _ _).ctorLog, k9]
        · exact k9
    · split
      · rw [r4, k10]
      · split
        · rw [(move_to_front_listOnly _ _).dtorLog, k10]
        · exact k10

/-! ### Pointers in use -/

theorem usedPtrs_congr {c c1 : Cache} (h : SameParams c c1) (g : SlabG) :
    g.usedPtrs c1 = g.usedPtrs c := by
  unfold SlabG.usedPtrs
  exact List.map_congr_left (fun i _ => h.slotAddr g.base i)

theorem livePtrs_congr {c c1 : Cache} (h : SameParams c c1) (G : List SlabG) :
    livePtrs c1 G = livePtrs c G := by
  unfold livePtrs
  congr 1
  funext g
  exact usedPtrs_congr h g

theorem livePtrs_cons (c : Cache) (g : SlabG) (R : List SlabG) :
    livePtrs c (g :: R) = g.usedPtrs c ++ livePtrs c R := by
  unfold livePtrs
  rw [List.flatMap_cons]

theorem livePtrs_nil (c : Cache) : livePtrs c [] = [] := rfl

theorem livePtrs_append (c : Cache) (G1 G2 : List SlabG) :
    livePtrs c (G1 ++ G2) = livePtrs c G1 ++ livePtrs c G2 := by
  unfold livePtrs
  rw [List.flatMap_append]

theorem livePtrs_perm (c : Cache) {G1 G2 : List SlabG} (h : G1.Perm G2) :
    (livePtrs c G1).Perm (livePtrs c G2) :=
  List.Perm.flatMap_right _ h

theorem mem_livePtrs {c : Cache} {G : List SlabG} {p : Nat} (h : p ∈ livePtrs c G) :
    ∃ G1 g G2 i, G = G1 ++ g :: G2 ∧ i ∈ g.ui ∧ p = slotAddr c g.base i := by
  unfold livePtrs at h
  rw [List.mem_flatMap] at h
  obtain ⟨g, hg, hp⟩ := h
  unfold SlabG.usedPtrs at hp
  obtain ⟨i, hi, rfl⟩ := List.mem_map.1 hp
  obtain ⟨G1, G2, e⟩ := List.append_of_mem hg
  exact ⟨G1, g, G2, i, e, hi, rfl⟩

theorem usedPtrs_erase {c : Cache} (w : c.WF) (g : SlabG) (i : Nat) :
    ({ g with fi := i :: g.fi, ui := g.ui.erase i } : SlabG).usedPtrs c
      = (g.usedPtrs c).erase (slotAddr c g.base i) := by
  unfold SlabG.usedPtrs
  show (g.ui.erase i).map _ = _
  rw [List.map_erase]
  intro a b e
  exact slot_inj w _ _ _ e

theorem livePtrs_free {c : Cache} (w : c.WF) (G1 G2 : List SlabG) (g : SlabG) (i : Nat)
    (hi : i ∈ g.ui) :
    ((livePtrs c (G1 ++ g :: G2)).erase (slotAddr c g.base i)).Perm
      (livePtrs c (G1 ++ { g with fi := i :: g.fi, ui := g.ui.erase i } :: G2)) := by
  have hmem : slotAddr c g.base i ∈ g.usedPtrs c := List.mem_map_of_mem _ hi
  have h1 : (livePtrs c (G1 ++ g :: G2)).Perm (g.usedPtrs c ++ livePtrs c (G1 ++ G2)) := by
    rw [← livePtrs_cons]
    exact livePtrs_perm c List.perm_middle
  have h2 := h1.erase (slotAddr c g.base i)
  rw [List.erase_append_left _ hmem, ← usedPtrs_erase w, ← livePtrs_cons] at h2
  exact h2.trans (livePtrs_perm c List.perm_middle.symm)

theorem livePtrs_drop_empty (c : Cache) (G1 G2 : List SlabG) (g : SlabG) (h : g.ui = []) :
    livePtrs c (G1 ++ g :: G2) = livePtrs c (G1 ++ G2) := by
  rw [livePtrs_append, livePtrs_cons, livePtrs_append]
  unfold SlabG.usedPtrs
  rw [h]
  rfl

/-! ### The invariant holds in every reachable state -/

theorem ListOK_nil {c : Cache} (h1 : c.slabs_ = 0) (h2 : c.slabs_back_ = 0) : ListOK c [] :=
  ⟨List.nodup_nil, fun _ h => absurd h (List.not_mem_nil _), Ring_nil _, h1, h2⟩

theorem Inv_empty {c : Cache} (h1 : c.slabs_ = 0) (h2 : c.slabs_back_ = 0)
    (h3 : c.large_lookup_ = []) (h4 : c.blocks = []) (h5 : c.hdrObjs = [])
    (h6 : c.arrObjs = []) : Inv c [] := by
  refine ⟨⟨ListOK_nil h1 h2, ?_, ?_, List.Pairwise.nil, fun _ => h3, ?_, ?_,
    fun _ => List.Pairwise.nil, ?_⟩, Ordered_nil _, ?_⟩
  · intro g hg; exact absurd hg (List.not_mem_nil _)
  · rw [h4]; exact List.Perm.refl _
  · intro _; rw [h5]; exact List.Perm.refl _
  · intro _; rw [h6]; exact List.Perm.refl _
  · intro _ kv hkv
    rw [h3] at hkv
    exact absurd hkv (List.not_mem_nil _)
  · intro g hg; exact absurd hg (List.not_mem_nil _)

theorem new_inv (pg S A : Nat) (ct dt : Bool) : Inv (Cache.new pg S A ct dt) [] :=
  Inv_empty rfl rfl rfl rfl rfl rfl

/-- What holds of every state reached from an empty cache `c0` with valid
parameters: the invariant, for a description `G` whose pointers in use are the
live pointers; unchanged parameters; the count of live pointers; and, as long
as nothing has been freed, full slabs behind the head. -/
theorem reach_inv {c0 c : Cache} {live : List Nat} {na nf : Nat} (w : c0.WF)
    (h0 : Inv c0 []) (hr : Reach c0 c live na nf) :
    ∃ G, Inv c G ∧ live.Perm (livePtrs c G) ∧ SameParams c0 c ∧ nf + live.length = na ∧
      (nf = 0 → ∀ g ∈ G.tail, (g.ui.length : Int) = c.slab_maxbuf_) := by
  induction hr with
  | init =>
    exact ⟨[], h0, List.Perm.refl _, SameParams.refl _, rfl, fun _ g hg => by simp at hg⟩
  | @alloc c c1 live na nf g1 g2 p _ hg1 hg2 ha ih =>
    obtain ⟨G, hinv, hperm, hpar, hcnt, hJ⟩ := ih
    have wc := hpar.WF w
    obtain ⟨_, cm, gh, R, i, fi1, _, _, _, hcase, _, _, _, hal, hinv2, hpar2, _, _⟩ :=
      alloc_step hinv wc hg1 hg2
    rw [hal] at ha
    have e1 := (Prod.mk.inj (Except.ok.inj ha)).1
    have e2 := (Prod.mk.inj (Except.ok.inj ha)).2
    subst e2
    have hlive : livePtrs c (gh :: R) = livePtrs c G := by
      rcases hcase with ⟨e, _⟩ | ⟨e, hu, _⟩
      · rw [e]
      · rw [e, livePtrs_cons]
        unfold SlabG.usedPtrs
        rw [hu]
        rfl
    have hnew : livePtrs c ({ gh with fi := fi1, ui := i :: gh.ui } :: R)
        = p :: livePtrs c G := by
      rw [livePtrs_cons, ← hlive, livePtrs_cons, ← e1]
      rfl
    refine ⟨_, hinv2, ?_, hpar.trans hpar2, ?_, ?_⟩
    · rw [livePtrs_congr hpar2]
      have hp2 : (p :: live).Perm (p :: livePtrs c G) := List.Perm.cons _ hperm
      rw [← hnew] at hp2
      refine hp2.trans (livePtrs_perm c ?_)
      split
      · exact (@List.perm_append_comm _ R [_]).symm
      · exact List.Perm.refl _
    · simp only [List.length_cons]
      omega
    · intro hnf g hg
      rw [hpar2.slab_maxbuf_]
      have hRfull : ∀ x ∈ R, (x.ui.length : Int) = c.slab_maxbuf_ := by
        rcases hcase with ⟨e, _⟩ | ⟨e, _, hall⟩
        · intro x hx
          apply hJ hnf
          rw [← e]
          exact hx
        · rw [e]
          exact hall
      split at hg
      · next hfull =>
        have hg2 := List.mem_of_mem_tail hg
        rcases List.mem_append.1 hg2 with m | m
        · exact hRfull g m
        · rw [List.mem_singleton] at m
          rw [m]
          exact hfull
      · exact hRfull g hg
  | @free c c1 live na nf p _ hp hf ih =>
    obtain ⟨G, hinv, hperm, hpar, hcnt, _⟩ := ih
    have wc := hpar.WF w
    obtain ⟨G1, g, G2, i, hG, hi, hpi⟩ := mem_livePtrs (hperm.mem_iff.1 hp)
    subst hG
    obtain ⟨c2, hfr, hinv2, hpar2, _, _⟩ := free_step hinv wc hi
    rw [← hpi, hf] at hfr
    have e2 := Except.ok.inj hfr
    subst e2
    refine ⟨_, hinv2, ?_, hpar.trans hpar2, ?_, fun h => absurd h (by omega)⟩
    · rw [livePtrs_congr hpar2]
      have h1 : (live.erase p).Perm ((livePtrs c (G1 ++ g :: G2)).erase p) := hperm.erase p
      have h2 : ((livePtrs c (G1 ++ g :: G2)).erase p).Perm
          (livePtrs c (G1 ++ { g with fi := i :: g.fi, ui := g.ui.erase i } :: G2)) := by
        rw [hpi]
        exact livePtrs_free wc G1 G2 g i hi
      refine (h1.trans h2).trans ?_
      split
      · next he =>
        rw [livePtrs_drop_empty c G1 G2 { g with fi := i :: g.fi, ui := g.ui.erase i } he]
      · split
        · exact livePtrs_perm c List.perm_middle
        · exact List.Perm.refl _
    · have := List.length_erase_of_mem hp
      have : 0 < live.length := List.length_pos_of_mem hp
      omega

/-! ### The scan of the slab list -/

theorem path_of_linked (m : Nat → Slab) (r : List Nat) :
    ∀ a, Linked m (a :: r) → (a :: r).Nodup → Path m (lastOr0 (a :: r)) a r := by
  induction r with
  | nil => intro a _ _; rfl
  | cons b r ih =>
    intro a hl hnd
    rw [Linked_cons2] at hl
    rw [lastOr0_cons_cons]
    refine ⟨?_, hl.1.1, ih b hl.2 (List.nodup_cons.1 hnd).2⟩
    intro e
    exact (List.nodup_cons.1 hnd).1 (e ▸ lastOr0_mem (b :: r) (by simp))

theorem ListOK.slabList {c : Cache} {l : List Nat} (h : ListOK c l) : SlabList c l := by
  cases l with
  | nil => exact h.head
  | cons a r =>
    refine ⟨h.head, h.nonnull a (by simp), ?_⟩
    rw [h.back]
    exact path_of_linked _ r a h.ring.1 h.nodup

theorem Path_unique (m : Nat → Slab) (back : Nat) (r1 : List Nat) :
    ∀ a r2, Path m back a r1 → Path m back a r2 → r1 = r2 := by
  induction r1 with
  | nil =>
    intro a r2 h1 h2
    cases r2 with
    | nil => rfl
    | cons b r2 => exact absurd h1 h2.1
  | cons b r1 ih =>
    intro a r2 h1 h2
    cases r2 with
    | nil => exact absurd h2 h1.1
    | cons b2 r2 =>
      have e : b = b2 := h1.2.1.symm.trans h2.2.1
      subst e
      rw [ih b r2 h1.2.2 h2.2.2]

theorem SlabList_unique {c : Cache} {l1 l2 : List Nat} (h1 : SlabList c l1)
    (h2 : SlabList c l2) : l1 = l2 := by
  cases l1 with
  | nil =>
    cases l2 with
    | nil => rfl
    | cons a r => exact absurd (h2.1.symm.trans h1) h2.2.1
  | cons a r =>
    cases l2 with
    | nil => exact absurd (h1.1.symm.trans h2) h1.2.1
    | cons a2 r2 =>
      have e : a = a2 := h1.1.symm.trans h2.1
      subst e
      rw [Path_unique _ _ r a r2 h1.2.2 h2.2.2]

theorem counts_eq {c : Cache} {G : List SlabG} (h : Rep c G) :
    counts c (G.map SlabG.hdr) = usedCounts G := by
  unfold counts usedCounts
  rw [List.map_map]
  exact List.map_congr_left (fun g hg => (h.slabs g hg).count)

/-- The scan of the slab list of a reachable state is the list of headers of
its description. -/
theorem Inv.scan {c : Cache} {G : List SlabG} (h : Inv c G) :
    SlabList c (G.map SlabG.hdr) ∧ (∀ l, SlabList c l → l = G.map SlabG.hdr) ∧
    counts c (G.map SlabG.hdr) = usedCounts G :=
  ⟨h.rep.list.slabList, fun _ hl => SlabList_unique hl h.rep.list.slabList, counts_eq h.rep⟩

theorem length_livePtrs (c : Cache) (G : List SlabG) :
    ((livePtrs c G).length : Int) = (usedCounts G).sum := by
  induction G with
  | nil => rfl
  | cons g R ih =>
    rw [livePtrs_cons, List.length_append, usedCounts_cons, List.sum_cons]
    push_cast
    rw [ih]
    unfold SlabG.usedPtrs
    rw [List.length_map]

/-! ### Disjointness of the pointers in use -/

theorem used_pairwise {c : Cache} {g : SlabG} (h : SlabOK c g) :
    (g.usedPtrs c).Pairwise (fun p q => p + c.effsize_ ≤ q ∨ q + c.effsize_ ≤ p) := by
  have hnd : g.ui.Nodup := by
    have : (g.fi ++ g.ui).Nodup := h.perm.nodup_iff.2 (List.nodup_range _)
    exact (List.nodup_append.1 this).2.1
  unfold SlabG.usedPtrs
  rw [List.pairwise_map]
  refine List.Pairwise.imp ?_ hnd
  intro i j hij
  rcases Nat.lt_or_gt_of_ne hij with e | e
  · left; exact slot_sep c g.base i j e
  · right; exact slot_sep c g.base j i e

theorem live_pairwise {c : Cache} (w : c.WF) (G : List SlabG)
    (hs : ∀ g ∈ G, SlabOK c g)
    (hd : (G.map SlabG.base).Pairwise
      (fun b1 b2 => b1 + blockSize c ≤ b2 ∨ b2 + blockSize c ≤ b1)) :
    (livePtrs c G).Pairwise (fun p q => p + c.effsize_ ≤ q ∨ q + c.effsize_ ≤ p) := by
  induction G with
  | nil => exact List.Pairwise.nil
  | cons g R ih =>
    rw [List.map_cons, List.pairwise_cons] at hd
    rw [livePtrs_cons, List.pairwise_append]
    refine ⟨used_pairwise (hs g (by simp)),
      ih (fun x hx => hs x (List.mem_cons_of_mem _ hx)) hd.2, ?_⟩
    intro p hp q hq
    unfold SlabG.usedPtrs at hp
    obtain ⟨i, hi, rfl⟩ := List.mem_map.1 hp
    unfold livePtrs at hq
    rw [List.mem_flatMap] at hq
    obtain ⟨g2, hg2, hq2⟩ := hq
    unfold SlabG.usedPtrs at hq2
    obtain ⟨j, hj, rfl⟩ := List.mem_map.1 hq2
    exact slot_block_ne w g.base g2.base i j
      (perm_range_lt (hs g (by simp)).perm (List.mem_append_right _ hi))
      (perm_range_lt (hs g2 (List.mem_cons_of_mem _ hg2)).perm (List.mem_append_right _ hj))
      (hd.1 _ (List.mem_map_of_mem _ hg2))

theorem Rep.pairwiseLive {c : Cache} {G : List SlabG} (h : Rep c G) (w : c.WF) :
    (livePtrs c G).Pairwise (fun p q => p + c.effsize_ ≤ q ∨ q + c.effsize_ ≤ p) :=
  slab.live_pairwise w G h.slabs h.disj

/-- A pointer in use ends before the header of its own slab and lies in
another page than every other header (small regime). -/
theorem live_header {c : Cache} {G : List SlabG} (h : Rep c G) (w : c.WF)
    (hs : c.small = true) (p : Nat) (hp : p ∈ livePtrs c G) (g2 : SlabG) (hg2 : g2 ∈ G) :
    p + c.effsize_ ≤ g2.hdr ∨ g2.hdr + sizeofSlab ≤ p := by
  obtain ⟨G1, g, G2, i, hG, hi, rfl⟩ := mem_livePtrs hp
  subst hG
  have hgok := h.slabs g (by simp)
  have hiM : i < c.slab_maxbuf_.toNat := perm_range_lt hgok.perm (List.mem_append_right _ hi)
  have hend := slot_end w g.base i hiM
  have hfit := w.small_fit hs
  have hpg := w.pg_pos
  have h56 : sizeofSlab = 56 := rfl
  have hbs := blockSize_small hs
  have hE : c.slab_maxbuf_.toNat * c.effsize_ = c.effsize_ * c.slab_maxbuf_.toNat :=
    Nat.mul_comm _ _
  have hend2 : slotAddr c g.base i + c.effsize_ ≤ g.base + c.pg - sizeofSlab := by
    have h2 : (i + 1) * c.effsize_ ≤ c.slab_maxbuf_.toNat * c.effsize_ :=
      Nat.mul_le_mul_right _ hiM
    have h3 : (i + 1) * c.effsize_ = i * c.effsize_ + c.effsize_ := by ring
    unfold slotAddr
    omega
  have hlow : g.base ≤ slotAddr c g.base i := Nat.le_add_right _ _
  have hh2 := (h.slabs g2 hg2).s_hdr hs
  rcases List.mem_append.1 hg2 with m | m
  · have hd := (Rep_distinct h g2 (List.mem_append_left _ m)).2.1
    rw [hbs] at hd
    omega
  · rcases List.mem_cons.1 m with m | m
    · left
      rw [m, hgok.s_hdr hs]
      exact hend2
    · have hd := (Rep_distinct h g2 (List.mem_append_right _ m)).2.1
      rw [hbs] at hd
      omega

/-- A pointer in use is the address of a slot of a slab of the list. -/
theorem live_slot {c : Cache} {G : List SlabG} (h : Rep c G) (p : Nat)
    (hp : p ∈ livePtrs c G) :
    ∃ g ∈ G, ∃ i, i < c.slab_maxbuf_.toNat ∧ p = slotAddr c g.base i ∧ c.pg ∣ g.base := by
  obtain ⟨G1, g, G2, i, hG, hi, rfl⟩ := mem_livePtrs hp
  subst hG
  have hgok := h.slabs g (by simp)
  exact ⟨g, by simp, i, perm_range_lt hgok.perm (List.mem_append_right _ hi), rfl, hgok.base_al⟩

/-! ### `destroy` -/

theorem destroyStep_rep {c : Cache} {g : SlabG} {R : List SlabG} (h : Rep c (g :: R))
    (w : c.WF) :
    Rep (destroyStep c) R ∧ SameParams c (destroyStep c) ∧
    (destroyStep c).ctorLog = c.ctorLog ∧ (destroyStep c).dtorLog = c.dtorLog := by
  have hhead : c.slabs_ = g.hdr := h.list.head
  have hgok := h.slabs g (by simp)
  have hl1 : ListOK (remove_ c g.hdr) (R.map SlabG.hdr) := remove_spec c [] _ _ h.list
  have hlo := remove_listOnly c g.hdr
  have hpar : SameParams c (destroyStep c) := by
    unfold destroyStep
    simp only
    split <;> exact ⟨rfl, rfl, rfl, rfl, rfl, rfl, rfl⟩
  have hrem : (remove_ c g.hdr).small = c.small := hlo.params.small
  obtain ⟨p1, _, _, p4, _⟩ := hlo.pay g.hdr
  cases hs : c.small with
  | true =>
    have hb : g.hdr - (c.pg - sizeofSlab) = g.base := by
      rw [hgok.s_hdr hs]
      have := w.pg_pos
      have h56 : sizeofSlab = 56 := rfl
      omega
    have e : destroyStep c
        = { remove_ c g.hdr with blocks := (remove_ c g.hdr).blocks.erase g.base } := by
      unfold destroyStep
      simp only
      rw [hhead, hrem, hs, if_pos rfl]
      show { remove_ c g.hdr with
        blocks := (remove_ c g.hdr).blocks.erase (g.hdr - (c.pg - sizeofSlab)) } = _
      rw [hb]
    rw [e]
    refine ⟨@release_rep c _ [] R g h w ⟨rfl, rfl, rfl, rfl, rfl, rfl, rfl⟩ ?_ hlo.pay
      hlo.wordMem hlo.bufMem ?_ (fun _ => hlo.large_lookup_) (fun e2 => ?_),
      ⟨rfl, rfl, rfl, rfl, rfl, rfl, rfl⟩, hlo.ctorLog, hlo.dtorLog⟩
    · exact ListOK_congr hl1 (fun _ => rfl) (fun _ => rfl) rfl rfl
    · show (remove_ c g.hdr).blocks.erase g.base = _
      rw [hlo.blocks]
    · rw [hs] at e2; exact absurd e2 (by simp)
  | false =>
    have e : destroyStep c
        = { remove_ c g.hdr with
            large_lookup_ := (eraseLoop c.bufMem g.arr c.slab_maxbuf_.toNat 0 c.large_lookup_)
            blocks := c.blocks.erase g.base
            arrObjs := c.arrObjs.erase g.arr
            hdrObjs := c.hdrObjs.erase g.hdr } := by
      unfold destroyStep
      simp only
      rw [hhead, hrem, hs]
      simp only [Bool.false_eq_true, if_false]
      rw [p1, p4, hgok.l_start hs, hgok.l_base hs, hlo.bufMem, hlo.large_lookup_, hlo.blocks,
        hlo.arrObjs, hlo.hdrObjs, hlo.slab_maxbuf_]
    rw [e]
    refine ⟨@release_rep c _ [] R g h w ⟨rfl, rfl, rfl, rfl, rfl, rfl, rfl⟩ ?_ hlo.pay
      hlo.wordMem hlo.bufMem rfl (fun e2 => ?_) (fun _ => ⟨rfl, rfl, rfl⟩),
      ⟨rfl, rfl, rfl, rfl, rfl, rfl, rfl⟩, hlo.ctorLog, hlo.dtorLog⟩
    · exact ListOK_congr hl1 (fun _ => rfl) (fun _ => rfl) rfl rfl
    · rw [hs] at e2; exact absurd e2 (by simp)

theorem destroyLoop_spec (G : List SlabG) :
    ∀ (c : Cache) (fuel : Nat), Rep c G → c.WF → G.length ≤ fuel →
      ∃ c1, destroyLoop fuel c = some c1 ∧ Rep c1 [] ∧ SameParams c c1 ∧
        c1.ctorLog = c.ctorLog ∧ c1.dtorLog = c.dtorLog := by
  induction G with
  | nil =>
    intro c fuel h _ _
    have h0 : c.slabs_ = 0 := h.list.head
    refine ⟨c, ?_, h, SameParams.refl c, rfl, rfl⟩
    cases fuel with
    | zero => simp [destroyLoop, h0]
    | succ f => simp [destroyLoop, h0]
  | cons g R ih =>
    intro c fuel h w hf
    have hne : c.slabs_ ≠ 0 := head_ne_zero c _ h.list (by simp)
    cases fuel with
    | zero => simp at hf
    | succ f =>
      obtain ⟨k1, k2, k3, k4⟩ := destroyStep_rep h w
      obtain ⟨c1, q1, q2, q3, q4, q5⟩ := ih (destroyStep c) f k1 (k2.WF w)
        (by simpa using hf)
      refine ⟨c1, ?_, q2, k2.trans q3, q4.trans k3, q5.trans k4⟩
      rw [destroyLoop, if_neg hne]
      exact q1

/-! ### Scripted runs are reachable -/

theorem growOKb_sound (c : Cache) (g : GrowRes) (h : growOKb c g = true) : GrowOK c g := by
  unfold growOKb at h
  cases hm : g.mem with
  | none => rw [hm] at h; exact absurd h (by simp)
  | some mem =>
    rw [hm] at h
    simp only [Bool.and_eq_true, decide_eq_true_eq] at h
    obtain ⟨⟨h1, h2⟩, h3⟩ := h
    refine ⟨mem, hm, h1, Nat.dvd_of_mod_eq_zero h2, ?_, ?_⟩
    · intro hs
      rw [hs] at h3
      simpa using h3
    · intro hs
      rw [hs] at h3
      simp only [Bool.false_eq_true, if_false, Bool.and_eq_true, decide_eq_true_eq,
        List.all_eq_true] at h3
      obtain ⟨⟨⟨⟨k1, k2⟩, k3⟩, k4⟩, k5⟩ := h3
      refine ⟨k1, k2, k3, ?_, ?_⟩
      · cases hh : g.hdr with
        | none => rw [hh] at k4; exact absurd k4 (by simp)
        | some x =>
          rw [hh] at k4
          simp only [Bool.and_eq_true, decide_eq_true_eq] at k4
          exact ⟨x, rfl, k4.1, k4.2⟩
      · cases ha : g.arr with
        | none => rw [ha] at k5; exact absurd k5 (by simp)
        | some a =>
          rw [ha] at k5
          simp only [Bool.and_eq_true, decide_eq_true_eq, List.all_eq_true] at k5
          exact ⟨a, rfl, k5.1, k5.2⟩

theorem runOps_reach {c0 : Cache} (ops : List Op) :
    ∀ (c : Cache) (live : List Nat) (na nf : Nat) (r : Cache × List Nat),
      Reach c0 c live na nf → runOps c live ops = some r →
      Reach c0 r.1 r.2 (na + nAllocs ops) (nf + nFrees ops) := by
  induction ops with
  | nil =>
    intro c live na nf r hr h
    simp only [runOps, Option.some.injEq] at h
    subst h
    exact hr
  | cons o ops ih =>
    intro c live na nf r hr h
    cases o with
    | alloc g1 g2 =>
      rw [runOps] at h
      split at h
      · next hok =>
        rw [Bool.and_eq_true] at hok
        have hg1 := growOKb_sound c g1 hok.1
        have hg2 : ∀ cm, allocStage1 c g1 = .ok cm → GrowOK cm g2 := by
          intro cm hcm
          have := hok.2
          rw [hcm] at this
          exact growOKb_sound cm g2 this
        split at h
        · next p c1 ha =>
          have := ih c1 (p :: live) (na + 1) nf r (Reach.alloc g1 g2 p hr hg1 hg2 ha) h
          rw [nAllocs, nFrees]
          rw [show na + (nAllocs ops + 1) = na + 1 + nAllocs ops by omega]
          exact this
        · exact absurd h (by simp)
      · exact absurd h (by simp)
    | free p =>
      rw [runOps] at h
      split at h
      · next hp =>
        split at h
        · next c1 hf =>
          have := ih c1 (live.erase p) na (nf + 1) r (Reach.free p hr hp hf) h
          rw [nAllocs, nFrees]
          rw [show nf + (nFrees ops + 1) = nf + 1 + nFrees ops by omega]
          exact this
        · exact absurd h (by simp)
      · exact absurd h (by simp)

/-- A run whose list of live pointers evaluates to `live` ends in a reachable
state. -/
theorem run_reach {c0 : Cache} (ops : List Op) (live : List Nat)
    (h : (runOps c0 [] ops).map Prod.snd = some live) :
    ∃ c, runOps c0 [] ops = some (c, live) ∧ Reach c0 c live (nAllocs ops) (nFrees ops) := by
  rw [Option.map_eq_some'] at h
  obtain ⟨⟨c, l⟩, h1, h2⟩ := h
  simp only at h2
  subst h2
  refine ⟨c, h1, ?_⟩
  have := runOps_reach ops c0 [] 0 0 (c, l) Reach.init h1
  simpa using this

/-! ### Parameters set by the constructor -/

theorem new_WF (pg S A : Nat) (ct dt : Bool) (k : Nat) (hk : 6 ≤ k) (hk2 : k ≤ 30)
    (hpg : pg = 2 ^ k) (hS : 0 < S) (hfit : S + alignOf A ≤ SIZE_MOD)
    (hsmall : S ≤ pg / 8 → sizeofPtr ≤ effsizeOf S A ∧ effsizeOf S A + sizeofSlab ≤ pg)
    (hlarge : pg / 8 < S → effsizeOf S A * 8 + pg < SIZE_MOD) :
    (Cache.new pg S A ct dt).WF := by
  have hE := effsizeOf_ge S A hS hfit
  have h56 : sizeofSlab = 56 := rfl
  have hpg64 : 64 ≤ pg := by
    rw [hpg]
    calc 64 = 2 ^ 6 := by norm_num
      _ ≤ 2 ^ k := Nat.pow_le_pow_right (by omega) hk
  have hpg31 : pg < 2 ^ 31 := by
    rw [hpg]
    calc 2 ^ k ≤ 2 ^ 30 := Nat.pow_le_pow_right (by omega) hk2
      _ < 2 ^ 31 := by norm_num
  have hsm : (Cache.new pg S A ct dt).small = decide (S ≤ pg / 8) := rfl
  have hM : (Cache.new pg S A ct dt).slab_maxbuf_ = maxbufOf pg S A := rfl
  have hEe : (Cache.new pg S A ct dt).effsize_ = effsizeOf S A := rfl
  have hP : (Cache.new pg S A ct dt).pg = pg := rfl
  by_cases hs : S ≤ pg / 8
  · have hMs := maxbufOf_small pg S A (by omega) hpg31 hs
    obtain ⟨s1, s2⟩ := hsmall hs
    have hEpos : 0 < effsizeOf S A := by omega
    have hdiv : 1 ≤ (pg - sizeofSlab) / effsizeOf S A := by
      rw [Nat.le_div_iff_mul_le hEpos]
      omega
    have hdle := Nat.div_le_self (pg - sizeofSlab) (effsizeOf S A)
    have hmul := Nat.mul_div_le (pg - sizeofSlab) (effsizeOf S A)
    refine ⟨⟨k, hk, by omega, hpg⟩, rfl, ?_, ?_, ?_, fun _ => s1, ?_, ?_⟩
    · rw [hM, hMs]
      exact_mod_cast hdiv
    · rw [hM, hMs]
      have : (pg - sizeofSlab) / effsizeOf S A < 2 ^ 31 := by omega
      exact_mod_cast this
    · rw [hEe]; omega
    · intro _
      rw [hM, hMs, hEe, hP, Int.toNat_ofNat]
      omega
    · intro e
      rw [hsm] at e
      simp [hs] at e
  · have hMl : maxbufOf pg S A = 8 := by
      unfold maxbufOf
      rw [if_neg hs]
    refine ⟨⟨k, hk, by omega, hpg⟩, rfl, ?_, ?_, ?_, ?_, ?_, ?_⟩
    · rw [hM, hMl]; decide
    · rw [hM, hMl]; decide
    · rw [hEe]; omega
    · intro e
      rw [hsm] at e
      simp [hs] at e
    · intro e
      rw [hsm] at e
      simp [hs] at e
    · intro _
      rw [hM, hMl, hEe, hP]
      exact hlarge (by omega)

/-- The cache of the scenario with objects of 1000 bytes (large regime). -/
theorem wf_1000 : (Cache.new 4096 1000 0 false false).WF :=
  new_WF 4096 1000 0 false false 12 (by decide) (by decide) (by decide) (by decide)
    (by decide) (by decide) (by decide)

/-- The cache of the scenario with objects of 12 bytes (small regime). -/
theorem wf_12 : (Cache.new 4096 12 0 false false).WF :=
  new_WF 4096 12 0 false false 12 (by decide) (by decide) (by decide) (by decide)
    (by decide) (by decide) (by decide)

theorem allocPtr_eq {c : Cache} {g1 g2 : GrowRes} {p : Nat} (h : allocPtr c g1 g2 = some p) :
    ∃ c1, alloc c g1 g2 = .ok (p, c1) := by
  unfold allocPtr at h
  split at h
  · next q c1 e =>
    simp only [Option.some.injEq] at h
    subst h
    exact ⟨c1, e⟩
  · exact absurd h (by simp)

/-! ## Properties of reachable states -/

set_option maxRecDepth 100000

/-- Pointers freed in the scenario with objects of 1000 bytes, in the order
in which `alloc` returned them. -/
theorem ptrs9_run :
    (runOps (Cache.new 4096 1000 0 false false) [] (allocOps 9 0)).map Prod.snd
      = some [1186648, 65536, 66536, 67536, 68536, 69536, 70536, 71536, 72536] := by
  decide

/-- C1: in every state reachable from a freshly constructed cache by calls of
`alloc` and calls of `free` on live pointers, the scan of the slab list from
`slabs_` to `slabs_back_` yields slabs with `bufcount < M` followed by slabs
with `bufcount = M`, in the small and in the large regime. -/
theorem C1_slab_list_ordering (pg S A : Nat) (ct dt : Bool) (c : Cache) (live : List Nat)
    (na nf : Nat) (w : (Cache.new pg S A ct dt).WF)
    (hr : Reach (Cache.new pg S A ct dt) c live na nf) :
    ∃ l, SlabList c l ∧ (∀ l1, SlabList c l1 → l1 = l) ∧
      Ordered c.slab_maxbuf (counts c l) := by
  obtain ⟨G, hinv, _, _, _, _⟩ := reach_inv w (new_inv pg S A ct dt) hr
  obtain ⟨s1, s2, s3⟩ := hinv.scan
  refine ⟨_, s1, s2, ?_⟩
  rw [s3]
  exact hinv.order

/-- Witness of C1: nine objects of 1000 bytes are allocated and the first one
is freed, which moves its slab from the full ones to the front. -/
theorem C1_slab_list_ordering_witness :
    (Cache.new 4096 1000 0 false false).WF ∧
    ∃ c, runOps (Cache.new 4096 1000 0 false false) []
          (allocOps 9 0 ++ [Op.free 72536])
        = some (c, [1186648, 65536, 66536, 67536, 68536, 69536, 70536, 71536]) ∧
      ∃ l, SlabList c l ∧ (∀ l1, SlabList c l1 → l1 = l) ∧
        Ordered c.slab_maxbuf (counts c l) := by
  refine ⟨wf_1000, ?_⟩
  obtain ⟨c, h1, h2⟩ := @run_reach (Cache.new 4096 1000 0 false false)
    (allocOps 9 0 ++ [Op.free 72536])
    [1186648, 65536, 66536, 67536, 68536, 69536, 70536, 71536] (by decide)
  exact ⟨c, h1, C1_slab_list_ordering 4096 1000 0 false false c _ _ _ wf_1000 h2⟩

/-- C2: after every sequence of calls of `alloc` and of `free` on live
pointers, the sum of `bufcount` over the slabs of the slab list is the number
of calls of `alloc` minus the number of calls of `free` with a non-null
argument; `free(nullptr)` changes nothing. -/
theorem C2_conservation (pg S A : Nat) (ct dt : Bool) (c : Cache) (live : List Nat)
    (na nf : Nat) (w : (Cache.new pg S A ct dt).WF)
    (hr : Reach (Cache.new pg S A ct dt) c live na nf) :
    (∃ l, SlabList c l ∧ (∀ l1, SlabList c l1 → l1 = l) ∧
      (counts c l).sum = (na : Int) - (nf : Int)) ∧
    free c 0 = .ok c := by
  obtain ⟨G, hinv, hperm, _, hcnt, _⟩ := reach_inv w (new_inv pg S A ct dt) hr
  obtain ⟨s1, s2, s3⟩ := hinv.scan
  refine ⟨⟨_, s1, s2, ?_⟩, rfl⟩
  rw [s3, ← length_livePtrs c G, ← hperm.length_eq]
  omega

/-- Witness of C2: nine allocations of 1000 bytes and one `free`. -/
theorem C2_conservation_witness :
    (Cache.new 4096 1000 0 false false).WF ∧
    ∃ c, runOps (Cache.new 4096 1000 0 false false) []
          (allocOps 9 0 ++ [Op.free 72536])
        = some (c, [1186648, 65536, 66536, 67536, 68536, 69536, 70536, 71536]) ∧
      (∃ l, SlabList c l ∧ (∀ l1, SlabList c l1 → l1 = l) ∧
        (counts c l).sum = ((9 : Nat) : Int) - ((1 : Nat) : Int)) ∧
      free c 0 = .ok c := by
  refine ⟨wf_1000, ?_⟩
  obtain ⟨c, h1, h2⟩ := @run_reach (Cache.new 4096 1000 0 false false)
    (allocOps 9 0 ++ [Op.free 72536])
    [1186648, 65536, 66536, 67536, 68536, 69536, 70536, 71536] (by decide)
  exact ⟨c, h1, C2_conservation 4096 1000 0 false false c _ 9 1 wf_1000 h2⟩

theorem livePtrs_nil_iff {c : Cache} {G : List SlabG} (hu : ∀ g ∈ G, g.ui ≠ [])
    (h : livePtrs c G = []) : G = [] := by
  cases G with
  | nil => rfl
  | cons g R =>
    rw [livePtrs_cons, List.append_eq_nil] at h
    have := h.1
    unfold SlabG.usedPtrs at this
    rw [List.map_eq_nil_iff] at this
    exact absurd this (hu g (by simp))

theorem Rep.empty {c : Cache} (h : Rep c []) :
    c.slabs_ = 0 ∧ c.slabs_back_ = 0 ∧ c.blocks = [] ∧ c.large_lookup_ = [] ∧
    (c.small = false → c.hdrObjs = [] ∧ c.arrObjs = []) := by
  have hb : c.blocks = [] := List.Perm.eq_nil h.blocks
  have hl : c.large_lookup_ = [] := by
    cases hs : c.small with
    | true => exact h.s_map hs
    | false =>
      rw [List.eq_nil_iff_forall_not_mem]
      intro kv hkv
      obtain ⟨g, hg, _⟩ := h.l_keys hs kv hkv
      exact absurd hg (List.not_mem_nil _)
  exact ⟨h.list.head, h.list.back, hb, hl,
    fun e => ⟨List.Perm.eq_nil (h.l_hdrs e), List.Perm.eq_nil (h.l_arrs e)⟩⟩

theorem reach_live_pairwise {c0 c : Cache} {live : List Nat} {na nf : Nat} (w : c0.WF)
    (h0 : Inv c0 []) (hr : Reach c0 c live na nf) :
    live.Pairwise (fun p q => p + c0.effsize_ ≤ q ∨ q + c0.effsize_ ≤ p) := by
  obtain ⟨G, hinv, hperm, hpar, _, _⟩ := reach_inv w h0 hr
  have := hinv.rep.pairwiseLive (hpar.WF w)
  rw [hpar.effsize_] at this
  exact pairwise_perm_sym (fun h => h.symm) hperm.symm this

/-- C4: in every reachable state (the allocator handing out pairwise disjoint
blocks) the regions `[p, p+E)` of the live pointers are pairwise disjoint;
`alloc` never returns a pointer that is live; and in the small regime no
live region meets the `sizeof(Slab)` bytes of a slab header of the list. -/
theorem C4_non_overlap (pg S A : Nat) (ct dt : Bool) (c : Cache) (live : List Nat)
    (na nf : Nat) (w : (Cache.new pg S A ct dt).WF)
    (hr : Reach (Cache.new pg S A ct dt) c live na nf) :
    live.Pairwise (fun p q => p + c.effective_size ≤ q ∨ q + c.effective_size ≤ p) ∧
    (∀ g1 g2 p c1, GrowOK c g1 → (∀ cm, allocStage1 c g1 = .ok cm → GrowOK cm g2) →
      alloc c g1 g2 = .ok (p, c1) → p ∉ live) ∧
    (c.small = true → ∀ p ∈ live, ∀ l, SlabList c l → ∀ h ∈ l,
      p + c.effective_size ≤ h ∨ h + sizeofSlab ≤ p) := by
  obtain ⟨G, hinv, hperm, hpar, _, _⟩ := reach_inv w (new_inv pg S A ct dt) hr
  have wc := hpar.WF w
  have hE : c.effective_size = (Cache.new pg S A ct dt).effsize_ := hpar.effsize_
  refine ⟨?_, ?_, ?_⟩
  · rw [hE]
    exact reach_live_pairwise w (new_inv pg S A ct dt) hr
  · intro g1 g2 p c1 hg1 hg2 ha hp
    have h2 := reach_live_pairwise w (new_inv pg S A ct dt) (Reach.alloc g1 g2 p hr hg1 hg2 ha)
    rw [List.pairwise_cons] at h2
    have := h2.1 p hp
    have := w.eff_pos
    omega
  · intro hs p hp l hl h hh
    rw [hinv.scan.2.1 l hl] at hh
    obtain ⟨g2, hg2, rfl⟩ := List.mem_map.1 hh
    exact live_header hinv.rep wc hs p (hperm.mem_iff.1 hp) g2 hg2

/-- Witness of C4: 253 objects of 12 bytes (two slabs of the small regime). -/
theorem C4_non_overlap_witness :
    (Cache.new 4096 12 0 false false).WF ∧
    ∃ c live, runOps (Cache.new 4096 12 0 false false) [] (allocOps 253 0) = some (c, live) ∧
      live.Pairwise (fun p q => p + c.effective_size ≤ q ∨ q + c.effective_size ≤ p) ∧
      (∀ g1 g2 p c1, GrowOK c g1 → (∀ cm, allocStage1 c g1 = .ok cm → GrowOK cm g2) →
        alloc c g1 g2 = .ok (p, c1) → p ∉ live) ∧
      (c.small = true → ∀ p ∈ live, ∀ l, SlabList c l → ∀ h ∈ l,
        p + c.effective_size ≤ h ∨ h + sizeofSlab ≤ p) := by
  refine ⟨wf_12, ?_⟩
  have hsome : (runOps (Cache.new 4096 12 0 false false) [] (allocOps 253 0)).isSome = true := by
    decide
  obtain ⟨⟨c, live⟩, hrun⟩ := Option.isSome_iff_exists.1 hsome
  have hr := runOps_reach (allocOps 253 0) (Cache.new 4096 12 0 false false) [] 0 0 (c, live)
    Reach.init hrun
  exact ⟨c, live, hrun, C4_non_overlap 4096 12 0 false false c live _ _ wf_12 hr⟩

/-- C5 (as amended): when the alignment in force (`A`, or 8 for `A = 0`)
divides the page size and `S + A` does not exceed the range of `std::size_t`,
every pointer returned by `alloc` is a multiple of the alignment, the backing
blocks being aligned to the page size. -/
theorem C5_alignment (pg S A : Nat) (ct dt : Bool) (c : Cache) (live : List Nat)
    (na nf : Nat) (w : (Cache.new pg S A ct dt).WF) (hS : 0 < S)
    (hfit : S + alignOf A ≤ SIZE_MOD) (hA : alignOf A ∣ pg)
    (hr : Reach (Cache.new pg S A ct dt) c live na nf)
    (g1 g2 : GrowRes) (p : Nat) (c1 : Cache) (hg1 : GrowOK c g1)
    (hg2 : ∀ cm, allocStage1 c g1 = .ok cm → GrowOK cm g2)
    (ha : alloc c g1 g2 = .ok (p, c1)) : p % alignOf A = 0 := by
  obtain ⟨G, hinv, hperm, hpar, _, _⟩ :=
    reach_inv w (new_inv pg S A ct dt) (Reach.alloc g1 g2 p hr hg1 hg2 ha)
  obtain ⟨g, _, i, _, hp, hal⟩ := live_slot hinv.rep p (hperm.mem_iff.1 (by simp))
  have hE : c1.effsize_ = effsizeOf S A := hpar.effsize_
  have hP : c1.pg = pg := hpar.pg
  rw [hP] at hal
  apply Nat.mod_eq_zero_of_dvd
  rw [hp]
  unfold slotAddr
  rw [hE]
  exact Dvd.dvd.add (Dvd.dvd.trans hA hal) (Dvd.dvd.mul_left (effsizeOf_dvd S A hS hfit) i)

/-- Witness of C5: the first object of 1000 bytes, default alignment. -/
theorem C5_alignment_witness :
    ((Cache.new 4096 1000 0 false false).WF ∧ 0 < 1000 ∧ 1000 + alignOf 0 ≤ SIZE_MOD ∧
      alignOf 0 ∣ 4096 ∧ GrowOK (Cache.new 4096 1000 0 false false) (gres 1) ∧
      (∀ cm, allocStage1 (Cache.new 4096 1000 0 false false) (gres 1) = .ok cm →
        GrowOK cm (gres 2))) ∧
    ∃ c1, alloc (Cache.new 4096 1000 0 false false) (gres 1) (gres 2) = .ok (72536, c1) ∧
      72536 % alignOf 0 = 0 := by
  have hg1 : GrowOK (Cache.new 4096 1000 0 false false) (gres 1) :=
    growOKb_sound _ _ (by decide)
  have hg2 : ∀ cm, allocStage1 (Cache.new 4096 1000 0 false false) (gres 1) = .ok cm →
      GrowOK cm (gres 2) := by
    intro cm hcm
    apply growOKb_sound
    have h : (match allocStage1 (Cache.new 4096 1000 0 false false) (gres 1) with
        | .ok cm => growOKb cm (gres 2)
        | .error _ => true) = true := by decide
    rw [hcm] at h
    exact h
  obtain ⟨c1, h1⟩ := @allocPtr_eq (Cache.new 4096 1000 0 false false) (gres 1) (gres 2) 72536
    (by decide)
  exact ⟨⟨wf_1000, by decide, by decide, by decide, hg1, hg2⟩, c1, h1,
    C5_alignment 4096 1000 0 false false _ [] 0 0 wf_1000 (by decide) (by decide) (by decide)
      Reach.init (gres 1) (gres 2) 72536 c1 hg1 hg2 h1⟩

/-- Counterexample to C5 as stated: `S = 1000` with the power-of-two alignment
`A = 8192` on pages of 4096 bytes.  The block handed out at the page-aligned
address 4096 gives the first object the address `4096 + 7 * 8192 = 61440`,
which is not a multiple of 8192. -/
theorem C5_counterexample :
    (0 < 1000 ∧ 8192 = 2 ^ 13 ∧ 4096 % 4096 = 0 ∧
      GrowOK (Cache.new 4096 1000 8192 false false) gresLow) ∧
    ∃ c1, alloc (Cache.new 4096 1000 8192 false false) gresLow (gres 2) = .ok (61440, c1) ∧
      ¬ (61440 % 8192 = 0) := by
  obtain ⟨c1, h1⟩ := @allocPtr_eq (Cache.new 4096 1000 8192 false false) gresLow (gres 2) 61440
    (by decide)
  exact ⟨⟨by decide, by decide, by decide, growOKb_sound _ _ (by decide)⟩, c1, h1, by decide⟩

theorem moveFull_params (c : Cache) : SameParams c (moveFull c) := by
  unfold moveFull
  split
  · exact (move_to_back_listOnly _ _).params
  · exact SameParams.refl c

/-- C6: in the small regime, for a pointer `p` returned by `alloc`, the
address `(p & ~(page - 1)) + page - sizeof(Slab)` computed by `free` is the
header of the head slab from whose free list `p` was popped, that slab is in
the slab list after the call, and the slab computed for a live pointer is in
the slab list of every reachable state. -/
theorem C6_small_lookup (pg S A : Nat) (ct dt : Bool) (c : Cache) (live : List Nat)
    (na nf : Nat) (w : (Cache.new pg S A ct dt).WF)
    (hs : (Cache.new pg S A ct dt).small = true)
    (hr : Reach (Cache.new pg S A ct dt) c live na nf) :
    (∀ g1 g2 cs cm p c1, GrowOK c g1 → (∀ cm, allocStage1 c g1 = .ok cm → GrowOK cm g2) →
      allocStage1 c g1 = .ok cs → allocStage2 cs g2 = .ok cm → alloc c g1 g2 = .ok (p, c1) →
      (cm.slabMem cm.slabs_).free_list = p ∧ slabOf c1 p = cm.slabs_ ∧
      ∃ l, SlabList c1 l ∧ cm.slabs_ ∈ l) ∧
    (∀ p ∈ live, ∃ l, SlabList c l ∧ slabOf c p ∈ l) := by
  obtain ⟨G, hinv, hperm, hpar, _, _⟩ := reach_inv w (new_inv pg S A ct dt) hr
  have wc := hpar.WF w
  have hsc : c.small = true := by rw [hpar.small]; exact hs
  refine ⟨?_, ?_⟩
  · intro g1 g2 cs cm p c1 hg1 hg2 h1 h2 ha
    obtain ⟨cs0, cm0, gh, R, i, fi1, s1, s2, hrep, _, _, hfi, hiM, hal, hinv2, hpar2, _, _⟩ :=
      alloc_step hinv wc hg1 hg2
    rw [h1] at s1
    have e1 := Except.ok.inj s1
    subst e1
    rw [h2] at s2
    have e2 := Except.ok.inj s2
    subst e2
    rw [ha] at hal
    have e3 := (Prod.mk.inj (Except.ok.inj hal)).1
    have e4 := (Prod.mk.inj (Except.ok.inj hal)).2
    have hgok := hrep.slabs gh (by simp)
    have hpf : SameParams cm (moveFull (callCtor (popState cm) (popBuf cm))) :=
      (popCtor_facts cm).1.sameParams.trans (moveFull_params _)
    have wm : cm.WF := by
      refine ⟨?_, ?_, ?_, ?_, ?_, ?_, ?_, ?_⟩
      · rw [← hpf.pg, hpar2.pg]; exact wc.pg_pow
      · rw [← hpf.pg, hpar2.pg, ← hpf.small_threshold_, hpar2.small_threshold_]; exact wc.thr
      · rw [← hpf.slab_maxbuf_, hpar2.slab_maxbuf_]; exact wc.maxbuf_pos
      · rw [← hpf.slab_maxbuf_, hpar2.slab_maxbuf_]; exact wc.maxbuf_lt
      · rw [← hpf.effsize_, hpar2.effsize_]; exact wc.eff_pos
      · rw [← hpf.small, hpar2.small, ← hpf.effsize_, hpar2.effsize_]; exact wc.small_ptr
      · rw [← hpf.small, hpar2.small, ← hpf.effsize_, hpar2.effsize_, ← hpf.slab_maxbuf_,
          hpar2.slab_maxbuf_, ← hpf.pg, hpar2.pg]
        exact wc.small_fit
      · rw [← hpf.small, hpar2.small, ← hpf.effsize_, hpar2.effsize_, ← hpf.slab_maxbuf_,
          hpar2.slab_maxbuf_, ← hpf.pg, hpar2.pg]
        exact wc.large_fit
    have hsm : cm.small = true := by rw [← hpf.small, hpar2.small]; exact hsc
    have hiM2 : i < cm.slab_maxbuf_.toNat := by
      rw [← hpf.slab_maxbuf_, hpar2.slab_maxbuf_]; exact hiM
    have hp : p = slotAddr cm gh.base i := by
      rw [e3]
      unfold slotAddr
      rw [← hpf.effsize_, hpar2.effsize_]
    have hhead : cm.slabs_ = gh.hdr := hrep.list.head
    have hch := hgok.chain
    rw [hfi, List.map_cons] at hch
    refine ⟨?_, ?_, ?_⟩
    · rw [hhead, hch.1, nodeAddr_small hsm, hp]
    · rw [e4]
      have := (slabOf_eq hgok wm hsm i hiM2).2
      unfold slabOf at this ⊢
      rw [hpf.pg, hp, hhead]
      exact this
    · rw [e4]
      refine ⟨_, hinv2.scan.1, ?_⟩
      rw [hhead]
      split
      · simp
      · simp
  · intro p hp
    obtain ⟨G1, g, G2, i, hG, hi, rfl⟩ := mem_livePtrs (hperm.mem_iff.1 hp)
    subst hG
    have hgok := hinv.rep.slabs g (by simp)
    have hiM := perm_range_lt hgok.perm (List.mem_append_right _ hi)
    refine ⟨_, hinv.scan.1, ?_⟩
    rw [(slabOf_eq hgok wc hsc i hiM).2]
    simp

theorem C6_small_lookup_witness :
    (Cache.new 4096 12 0 false false).WF ∧ (Cache.new 4096 12 0 false false).small = true ∧
    ∃ c live, runOps (Cache.new 4096 12 0 false false) [] (allocOps 3 0) = some (c, live) ∧
      live = [65568, 65552, 65536] ∧
      (∀ g1 g2 cs cm p c1, GrowOK c g1 → (∀ cm, allocStage1 c g1 = .ok cm → GrowOK cm g2) →
        allocStage1 c g1 = .ok cs → allocStage2 cs g2 = .ok cm → alloc c g1 g2 = .ok (p, c1) →
        (cm.slabMem cm.slabs_).free_list = p ∧ slabOf c1 p = cm.slabs_ ∧
        ∃ l, SlabList c1 l ∧ cm.slabs_ ∈ l) ∧
      (∀ p ∈ live, ∃ l, SlabList c l ∧ slabOf c p ∈ l) := by
  refine ⟨wf_12, by decide, ?_⟩
  obtain ⟨c, h1, h2⟩ := @run_reach (Cache.new 4096 12 0 false false) (allocOps 3 0)
    [65568, 65552, 65536] (by decide)
  exact ⟨c, _, h1, rfl, C6_small_lookup 4096 12 0 false false c _ _ _ wf_12 (by decide) h2⟩

theorem sum_full (M : Int) (l : List Int) (h : ∀ x ∈ l, x = M) : l.sum = l.length * M := by
  induction l with
  | nil => simp
  | cons a r ih =>
    rw [List.sum_cons, ih (fun x hx => h x (List.mem_cons_of_mem _ hx)), h a (by simp),
      List.length_cons]
    push_cast
    ring

theorem ceil_count (n M k h : Nat) (hM : 1 ≤ M) (h1 : 1 ≤ h) (h2 : h ≤ M)
    (hn : n = h + k * M) : (n + M - 1) / M = k + 1 := by
  have e : n + M - 1 = (h - 1) + (k + 1) * M := by
    rw [hn, Nat.add_mul]
    omega
  rw [e, Nat.add_mul_div_right _ _ (by omega), Nat.div_eq_of_lt (by omega)]
  omega

/-- C9: after `n` calls of `alloc` and no call of `free` on a fresh cache, the
slab list holds exactly `⌈n / M⌉` slabs, `M` being `slab_maxbuf()`: one slab
for `n = M`, two for `n = M + 1`; and a further call of `alloc` returns
whenever the memory allocator delivers. -/
theorem C9_growth_count (pg S A : Nat) (ct dt : Bool) (c : Cache) (live : List Nat)
    (n : Nat) (w : (Cache.new pg S A ct dt).WF)
    (hr : Reach (Cache.new pg S A ct dt) c live n 0) :
    (∃ l, SlabList c l ∧ (∀ l1, SlabList c l1 → l1 = l) ∧
      l.length = (n + (Cache.new pg S A ct dt).slab_maxbuf.toNat - 1) /
        (Cache.new pg S A ct dt).slab_maxbuf.toNat ∧
      (n = (Cache.new pg S A ct dt).slab_maxbuf.toNat → l.length = 1) ∧
      (n = (Cache.new pg S A ct dt).slab_maxbuf.toNat + 1 → l.length = 2)) ∧
    (∀ g1 g2, GrowOK c g1 → (∀ cm, allocStage1 c g1 = .ok cm → GrowOK cm g2) →
      ∃ p c1, alloc c g1 g2 = .ok (p, c1) ∧
        Reach (Cache.new pg S A ct dt) c1 (p :: live) (n + 1) 0) := by
  obtain ⟨G, hinv, hperm, hpar, hlen, hfull⟩ := reach_inv w (new_inv pg S A ct dt) hr
  have wc := hpar.WF w
  have hMe : (Cache.new pg S A ct dt).slab_maxbuf.toNat = c.slab_maxbuf_.toNat := by
    unfold Cache.slab_maxbuf
    rw [hpar.slab_maxbuf_]
  rw [hMe]
  have hMp := wc.M_pos
  have hMc := wc.M_cast
  have hn : (n : Int) = (usedCounts G).sum := by
    rw [← length_livePtrs c G, ← hperm.length_eq]
    omega
  have hcount : G.length = (n + c.slab_maxbuf_.toNat - 1) / c.slab_maxbuf_.toNat := by
    cases G with
    | nil =>
      have h0 : n = 0 := by
        have : (usedCounts ([] : List SlabG)).sum = 0 := rfl
        omega
      rw [h0, List.length_nil, Nat.zero_add]
      exact (Nat.div_eq_of_lt (by omega)).symm
    | cons g R =>
      have hR := sum_full c.slab_maxbuf_ (usedCounts R) (by
        intro x hx
        unfold usedCounts at hx
        obtain ⟨g1, hg1, rfl⟩ := List.mem_map.1 hx
        exact hfull rfl g1 hg1)
      have hRl : (usedCounts R).length = R.length := by
        unfold usedCounts
        rw [List.length_map]
      rw [usedCounts_cons, List.sum_cons, hR, hRl, ← hMc] at hn
      have hu := hinv.used g (by simp)
      have h1 : 1 ≤ g.ui.length := by
        cases hgu : g.ui with
        | nil => exact absurd hgu hu
        | cons a r => simp
      have h2 := ui_le (hinv.rep.slabs g (by simp)) wc
      rw [← hMc] at h2
      have hn2 : n = g.ui.length + R.length * c.slab_maxbuf_.toNat := by exact_mod_cast hn
      rw [ceil_count n _ R.length g.ui.length hMp h1 (by exact_mod_cast h2) hn2]
      rfl
  refine ⟨⟨G.map SlabG.hdr, hinv.scan.1, hinv.scan.2.1, ?_, ?_, ?_⟩, ?_⟩
  · rw [List.length_map, hcount]
  · intro e
    rw [List.length_map, hcount, e]
    have : c.slab_maxbuf_.toNat + c.slab_maxbuf_.toNat - 1 =
        (c.slab_maxbuf_.toNat - 1) + 1 * c.slab_maxbuf_.toNat := by omega
    rw [this, Nat.add_mul_div_right _ _ (by omega), Nat.div_eq_of_lt (by omega)]
  · intro e
    rw [List.length_map, hcount, e]
    have : c.slab_maxbuf_.toNat + 1 + c.slab_maxbuf_.toNat - 1 =
        0 + 2 * c.slab_maxbuf_.toNat := by omega
    rw [this, Nat.add_mul_div_right _ _ (by omega)]
    simp
  · intro g1 g2 hg1 hg2
    obtain ⟨_, _, _, _, _, _, _, _, _, _, _, _, _, hal, _⟩ := alloc_step hinv wc hg1 hg2
    exact ⟨_, _, hal, Reach.alloc g1 g2 _ hr hg1 hg2 hal⟩

theorem C9_growth_count_witness :
    (Cache.new 4096 1000 0 false false).WF ∧
    (Cache.new 4096 1000 0 false false).slab_maxbuf = 8 ∧
    ∃ c live l, runOps (Cache.new 4096 1000 0 false false) [] (allocOps 9 0) = some (c, live) ∧
      SlabList c l ∧ (∀ l1, SlabList c l1 → l1 = l) ∧ l.length = 2 := by
  refine ⟨wf_1000, rfl, ?_⟩
  obtain ⟨c, h1, h2⟩ := @run_reach (Cache.new 4096 1000 0 false false) (allocOps 9 0)
    [1186648, 65536, 66536, 67536, 68536, 69536, 70536, 71536, 72536] (by decide)
  obtain ⟨⟨l, hl, hu, _, _, h9⟩, _⟩ :=
    C9_growth_count 4096 1000 0 false false c _ 9 wf_1000 h2
  exact ⟨c, _, l, h1, hl, hu, h9 rfl⟩

theorem reset_eq (c : Cache) (h1 : c.slabs_ = 0) (h2 : c.slabs_back_ = 0) :
    { c with slabs_ := 0, slabs_back_ := 0 } = c := by
  cases c
  simp only at h1 h2
  subst h1 h2
  rfl

theorem destroy_spec {c : Cache} {G : List SlabG} (h : Rep c G) (w : c.WF) (fuel : Nat)
    (hf : G.length ≤ fuel) :
    ∃ c1, destroy fuel c = some c1 ∧ Rep c1 [] ∧ SameParams c c1 ∧
      c1.ctorLog = c.ctorLog ∧ c1.dtorLog = c.dtorLog := by
  obtain ⟨c1, h1, h2, h3, h4, h5⟩ := destroyLoop_spec G c fuel h w hf
  refine ⟨c1, ?_, h2, h3, h4, h5⟩
  unfold destroy
  rw [h1]
  simp only
  rw [reset_eq c1 h2.list.head h2.list.back]

theorem moveFull_listOnly (c : Cache) : ListOnly c (moveFull c) := by
  unfold moveFull
  split
  · exact move_to_back_listOnly _ _
  · exact ListOnly_refl c

theorem alloc_ok_of_stages {c cs cm : Cache} {g1 g2 : GrowRes} (h1 : allocStage1 c g1 = .ok cs)
    (h2 : allocStage2 cs g2 = .ok cm) : alloc c g1 g2 = allocPop cm := by
  unfold alloc
  rw [h1]
  simp only
  rw [h2]

/-- C16: in every reachable state a full head slab means that every slab of
the list is full; a call of `alloc` lengthens the slab list by one slab only
when the list is empty or every slab is full, and otherwise leaves the two
calls of `grow_` out and pops the slot from the head slab that is already
there, without acquiring a block. -/
theorem C16_grow_only_when_necessary (pg S A : Nat) (ct dt : Bool) (c : Cache)
    (live : List Nat) (na nf : Nat) (w : (Cache.new pg S A ct dt).WF)
    (hr : Reach (Cache.new pg S A ct dt) c live na nf) :
    ∃ l, SlabList c l ∧ (∀ l1, SlabList c l1 → l1 = l) ∧
      (c.slabs_ ≠ 0 → (c.slabMem c.slabs_).bufcount = c.slab_maxbuf →
        ∀ x ∈ counts c l, x = c.slab_maxbuf) ∧
      (∀ g1 g2 p c1, GrowOK c g1 → (∀ cm, allocStage1 c g1 = .ok cm → GrowOK cm g2) →
        alloc c g1 g2 = .ok (p, c1) →
        ∃ l1, SlabList c1 l1 ∧ (∀ l2, SlabList c1 l2 → l2 = l1) ∧
          ((l1.length = l.length + 1 ∧ c1.blocks.length = c.blocks.length + 1 ∧
              (∀ x ∈ counts c l, x = c.slab_maxbuf)) ∨
           (l1.length = l.length ∧ c1.blocks = c.blocks ∧ c.slabs_ ≠ 0 ∧
              (c.slabMem c.slabs_).bufcount < c.slab_maxbuf ∧
              allocStage1 c g1 = .ok c ∧ allocStage2 c g2 = .ok c ∧
              p = (if c.small then (c.slabMem c.slabs_).free_list
                   else (c.bufMem (c.slabMem c.slabs_).free_list).buf)))) := by
  obtain ⟨G, hinv, hperm, hpar, _, _⟩ := reach_inv w (new_inv pg S A ct dt) hr
  have wc := hpar.WF w
  refine ⟨G.map SlabG.hdr, hinv.scan.1, hinv.scan.2.1, ?_, ?_⟩
  · intro hne hfull x hx
    rw [hinv.scan.2.2] at hx
    cases G with
    | nil =>
      exact absurd hinv.rep.list.head hne
    | cons g R =>
      have hh : c.slabs_ = g.hdr := hinv.rep.list.head
      have hc := (hinv.rep.slabs g (by simp)).count
      rw [hh] at hfull
      unfold Cache.slab_maxbuf at hfull ⊢
      have hg : (g.ui.length : Int) = c.slab_maxbuf_ := by rw [← hc]; exact hfull
      have ho := hinv.order
      rw [usedCounts_cons, hg] at ho
      rw [usedCounts_cons, List.mem_cons] at hx
      rcases hx with e | hx
      · rw [e, hg]
      · exact Ordered_head_full ho x hx
  · intro g1 g2 p c1 hg1 hg2 ha
    obtain ⟨cs, cm, gh, R, i, fi1, s1, s2, hrep, hcase, hlt, hfi, hiM, hal, hinv2, hpar2, _, _⟩ :=
      alloc_step hinv wc hg1 hg2
    rw [ha] at hal
    have e3 := (Prod.mk.inj (Except.ok.inj hal)).1
    have e4 := (Prod.mk.inj (Except.ok.inj hal)).2
    have hlen : (if ((gh.ui.length + 1 : Nat) : Int) = c.slab_maxbuf_
         then R ++ [{ gh with fi := fi1, ui := i :: gh.ui }]
         else { gh with fi := fi1, ui := i :: gh.ui } :: R).length = R.length + 1 := by
      split <;> simp
    have hb1 : c1.blocks = cm.blocks := by
      rw [e4, (moveFull_listOnly _).blocks, (popCtor_facts cm).1.blocks]
    subst e4
    refine ⟨_, hinv2.scan.1, hinv2.scan.2.1, ?_⟩
    · rw [List.length_map, hlen, List.length_map]
      rcases hcase with ⟨e, ecm⟩ | ⟨e, _, hall⟩
      · right
        subst ecm
        subst e
        have hh : cm.slabs_ = gh.hdr := hinv.rep.list.head
        have hnz : cm.slabs_ ≠ 0 := by
          rw [hh]
          exact hinv.rep.list.nonnull _ (by simp)
        have hcnt : (cm.slabMem cm.slabs_).bufcount < cm.slab_maxbuf := by
          rw [hh, (hinv.rep.slabs gh (by simp)).count]
          exact hlt
        have st1 : allocStage1 cm g1 = .ok cm := by
          unfold allocStage1
          rw [if_neg hnz]
        have st2 : allocStage2 cm g2 = .ok cm := by
          unfold allocStage2
          unfold Cache.slab_maxbuf at hcnt
          rw [if_neg (by omega)]
        refine ⟨by simp, hb1, hnz, hcnt, st1, st2, ?_⟩
        have hp := (pop_rep hinv.rep hfi).1
        rw [e3, ← hp]
        rfl
      · left
        subst e
        refine ⟨rfl, ?_, ?_⟩
        · rw [hb1, hrep.blocks.length_eq, hinv.rep.blocks.length_eq]
          simp
        · intro x hx
          rw [hinv.scan.2.2] at hx
          unfold usedCounts at hx
          obtain ⟨g, hg, rfl⟩ := List.mem_map.1 hx
          exact hall g hg

/-- Witness of C16: `S = 1000`, eight calls of `alloc` fill the only slab. -/
theorem C16_grow_only_when_necessary_witness :
    (Cache.new 4096 1000 0 false false).WF ∧
    ∃ c live, runOps (Cache.new 4096 1000 0 false false) [] (allocOps 8 0) = some (c, live) ∧
      ∃ l, SlabList c l ∧ (∀ l1, SlabList c l1 → l1 = l) ∧
      (c.slabs_ ≠ 0 → (c.slabMem c.slabs_).bufcount = c.slab_maxbuf →
        ∀ x ∈ counts c l, x = c.slab_maxbuf) ∧
      (∀ g1 g2 p c1, GrowOK c g1 → (∀ cm, allocStage1 c g1 = .ok cm → GrowOK cm g2) →
        alloc c g1 g2 = .ok (p, c1) →
        ∃ l1, SlabList c1 l1 ∧ (∀ l2, SlabList c1 l2 → l2 = l1) ∧
          ((l1.length = l.length + 1 ∧ c1.blocks.length = c.blocks.length + 1 ∧
              (∀ x ∈ counts c l, x = c.slab_maxbuf)) ∨
           (l1.length = l.length ∧ c1.blocks = c.blocks ∧ c.slabs_ ≠ 0 ∧
              (c.slabMem c.slabs_).bufcount < c.slab_maxbuf ∧
              allocStage1 c g1 = .ok c ∧ allocStage2 c g2 = .ok c ∧
              p = (if c.small then (c.slabMem c.slabs_).free_list
                   else (c.bufMem (c.slabMem c.slabs_).free_list).buf)))) := by
  refine ⟨wf_1000, ?_⟩
  obtain ⟨c, h1, h2⟩ := @run_reach (Cache.new 4096 1000 0 false false) (allocOps 8 0)
    [65536, 66536, 67536, 68536, 69536, 70536, 71536, 72536] (by decide)
  exact ⟨c, _, h1, C16_grow_only_when_necessary 4096 1000 0 false false c _ _ _ wf_1000 h2⟩

/-- A slot of a slab of the list is live exactly when its index is among the
indices in use of that slab. -/
theorem live_iff_used {c : Cache} {G1 G2 : List SlabG} {g : SlabG}
    (h : Rep c (G1 ++ g :: G2)) (w : c.WF) (i : Nat) (hi : i < c.slab_maxbuf_.toNat) :
    slotAddr c g.base i ∈ livePtrs c (G1 ++ g :: G2) ↔ i ∈ g.ui := by
  constructor
  · intro hp
    obtain ⟨G3, g3, G4, j, hG, hj, e⟩ := mem_livePtrs hp
    have hg3 : g3 ∈ G1 ++ g :: G2 := by rw [hG]; simp
    have hjM : j < c.slab_maxbuf_.toNat :=
      perm_range_lt (h.slabs g3 hg3).perm (List.mem_append_right _ hj)
    rw [List.mem_append, List.mem_cons] at hg3
    have hcases : g3 = g ∨ g3 ∈ G1 ++ G2 := by
      rcases hg3 with a | a | a
      · exact Or.inr (List.mem_append_left _ a)
      · exact Or.inl a
      · exact Or.inr (List.mem_append_right _ a)
    rcases hcases with a | a
    · subst a
      have := slot_inj w _ _ _ e
      rw [this]
      exact hj
    · have hd := (Rep_distinct h g3 a).2.1
      have := slot_block_ne w g.base g3.base i j hi hjM hd
      have hE := w.eff_pos
      omega
  · intro hu
    rw [livePtrs_append, livePtrs_cons]
    apply List.mem_append_right
    apply List.mem_append_left
    unfold SlabG.usedPtrs
    exact List.mem_map_of_mem _ hu

/-- C19: in every reachable state, each slab of the slab list has a free list
that is a chain of distinct slots of that slab ending in null; its length and
`bufcount` add up to `M`; a slot is on it exactly when it is not live;
`1 ≤ bufcount ≤ M`; and a call of `alloc` finds the free list of the head
slab not empty when it pops, so it returns whenever the memory allocator
delivers. -/
theorem C19_free_list_accounting (pg S A : Nat) (ct dt : Bool) (c : Cache)
    (live : List Nat) (na nf : Nat) (w : (Cache.new pg S A ct dt).WF)
    (hr : Reach (Cache.new pg S A ct dt) c live na nf) :
    ∃ l, SlabList c l ∧ (∀ l1, SlabList c l1 → l1 = l) ∧
      (∀ h ∈ l, ∃ g : SlabG, g.hdr = h ∧
        (c.small = true → h = g.base + c.pg - sizeofSlab) ∧
        (c.small = false → (c.slabMem h).mem_base = g.base ∧ (c.slabMem h).start = g.arr ∧
          ∀ i, i < c.slab_maxbuf.toNat →
            (c.bufMem (bufAddr g.arr i)).buf = slotAddr c g.base i) ∧
        Chain c.nextOf (c.slabMem h).free_list (g.fi.map (nodeAddr c g)) ∧
        (g.fi.map (nodeAddr c g)).Nodup ∧
        (∀ i ∈ g.fi, i < c.slab_maxbuf.toNat) ∧
        (g.fi.length : Int) + (c.slabMem h).bufcount = c.slab_maxbuf ∧
        (∀ i, i < c.slab_maxbuf.toNat → (i ∈ g.fi ↔ slotAddr c g.base i ∉ live)) ∧
        1 ≤ (c.slabMem h).bufcount ∧ (c.slabMem h).bufcount ≤ c.slab_maxbuf) ∧
      (∀ g1 g2, GrowOK c g1 → (∀ cm, allocStage1 c g1 = .ok cm → GrowOK cm g2) →
        ∃ cs cm p c1, allocStage1 c g1 = .ok cs ∧ allocStage2 cs g2 = .ok cm ∧
          (cm.slabMem cm.slabs_).free_list ≠ 0 ∧ alloc c g1 g2 = .ok (p, c1)) := by
  obtain ⟨G, hinv, hperm, hpar, _, _⟩ := reach_inv w (new_inv pg S A ct dt) hr
  have wc := hpar.WF w
  have hMc := wc.M_cast
  refine ⟨G.map SlabG.hdr, hinv.scan.1, hinv.scan.2.1, ?_, ?_⟩
  · intro h hh
    obtain ⟨g, hg, rfl⟩ := List.mem_map.1 hh
    obtain ⟨G1, G2, hG⟩ := List.append_of_mem hg
    subst hG
    have ok := hinv.rep.slabs g hg
    have hnd : (g.fi ++ g.ui).Nodup := ok.perm.nodup_iff.2 (List.nodup_range _)
    have hfnd : g.fi.Nodup := (List.nodup_append.1 hnd).1
    have hlen := ok.perm.length_eq
    rw [List.length_append, List.length_range] at hlen
    have hu := hinv.used g hg
    have hu1 : 1 ≤ g.ui.length := by
      cases hgu : g.ui with
      | nil => exact absurd hgu hu
      | cons a r => simp
    unfold Cache.slab_maxbuf
    refine ⟨g, rfl, ok.s_hdr, ?_, ok.chain, ?_, ?_, ?_, ?_, ?_, ?_⟩
    · intro hs
      exact ⟨ok.l_base hs, ok.l_start hs, fun i hi => (ok.l_rec hs i hi).1⟩
    · exact List.Nodup.map (fun i j e => node_inj wc g i j e) hfnd
    · intro i hi
      exact perm_range_lt ok.perm (List.mem_append_left _ hi)
    · rw [ok.count]
      omega
    · intro i hi
      rw [hperm.mem_iff, live_iff_used hinv.rep wc i hi]
      constructor
      · intro hf hu2
        exact (List.nodup_append.1 hnd).2.2 hf hu2
      · intro hnu
        have : i ∈ g.fi ++ g.ui := ok.perm.mem_iff.2 (List.mem_range.2 hi)
        rcases List.mem_append.1 this with a | a
        · exact a
        · exact absurd a hnu
    · rw [ok.count]
      omega
    · rw [ok.count]
      omega
  · intro g1 g2 hg1 hg2
    obtain ⟨cs, cm, gh, R, i, fi1, s1, s2, hrep, _, _, hfi, _, hal, _⟩ :=
      alloc_step hinv wc hg1 hg2
    exact ⟨cs, cm, _, _, s1, s2, (pop_rep hrep hfi).2.1, hal⟩

/-- Witness of C19: `S = 12`, three calls of `alloc`, then `free` of the
second pointer. -/
theorem C19_free_list_accounting_witness :
    (Cache.new 4096 12 0 false false).WF ∧
    ∃ c live, runOps (Cache.new 4096 12 0 false false) []
        (allocOps 3 0 ++ [Op.free 65552]) = some (c, live) ∧ live = [65568, 65536] ∧
      ∃ l, SlabList c l ∧ (∀ l1, SlabList c l1 → l1 = l) ∧
        (∀ h ∈ l, ∃ g : SlabG, g.hdr = h ∧
          (c.small = true → h = g.base + c.pg - sizeofSlab) ∧
          (c.small = false → (c.slabMem h).mem_base = g.base ∧ (c.slabMem h).start = g.arr ∧
            ∀ i, i < c.slab_maxbuf.toNat →
              (c.bufMem (bufAddr g.arr i)).buf = slotAddr c g.base i) ∧
          Chain c.nextOf (c.slabMem h).free_list (g.fi.map (nodeAddr c g)) ∧
          (g.fi.map (nodeAddr c g)).Nodup ∧
          (∀ i ∈ g.fi, i < c.slab_maxbuf.toNat) ∧
          (g.fi.length : Int) + (c.slabMem h).bufcount = c.slab_maxbuf ∧
          (∀ i, i < c.slab_maxbuf.toNat → (i ∈ g.fi ↔ slotAddr c g.base i ∉ live)) ∧
          1 ≤ (c.slabMem h).bufcount ∧ (c.slabMem h).bufcount ≤ c.slab_maxbuf) ∧
        (∀ g1 g2, GrowOK c g1 → (∀ cm, allocStage1 c g1 = .ok cm → GrowOK cm g2) →
          ∃ cs cm p c1, allocStage1 c g1 = .ok cs ∧ allocStage2 cs g2 = .ok cm ∧
            (cm.slabMem cm.slabs_).free_list ≠ 0 ∧ alloc c g1 g2 = .ok (p, c1)) := by
  refine ⟨wf_12, ?_⟩
  obtain ⟨c, h1, h2⟩ := @run_reach (Cache.new 4096 12 0 false false)
    (allocOps 3 0 ++ [Op.free 65552]) [65568, 65536] (by decide)
  exact ⟨c, _, h1, rfl, C19_free_list_accounting 4096 12 0 false false c _ _ _ wf_12 h2⟩

/-! ### The circular list seen from the code -/

theorem ListOK.links {c : Cache} {l : List Nat} (h : ListOK c l) (s : Nat) (hs : s ∈ l) :
    (c.slabMem (c.slabMem s).next).prev = s ∧ (c.slabMem (c.slabMem s).prev).next = s := by
  obtain ⟨l1, l2, rfl⟩ := List.append_of_mem hs
  have hring : Ring c.slabMem (s :: (l2 ++ l1)) := by
    have := (Ring_rotate c.slabMem l1 (s :: l2)).1 h.ring
    simpa using this
  by_cases hr : l2 ++ l1 = []
  · rw [hr] at hring
    have := hring.2 (by simp)
    simp only [lastOr0_single, headOr0_cons] at this
    obtain ⟨t1, t2⟩ := this
    rw [t1, t2]
    exact ⟨t1, rfl⟩
  · obtain ⟨_, h1, h2, h3, h4⟩ := ring_head_facts _ s _ hr hring
    rw [h4, h3, h1, h2]
    exact ⟨rfl, rfl⟩

theorem ListOK.circular {c : Cache} {l : List Nat} (h : ListOK c l) : Circular c l := by
  refine ⟨?_, h.slabList, h.nodup, h.nonnull, ?_, h.links⟩
  · rw [h.head, h.back]
    cases l with
    | nil => simp
    | cons a r =>
      have h1 := h.nonnull _ (headOr0_mem (a :: r) (by simp))
      have h2 := h.nonnull _ (lastOr0_mem (a :: r) (by simp))
      exact ⟨fun e => absurd e h1, fun e => absurd e h2⟩
  · intro hl
    rw [h.head, h.back]
    exact (h.ring.2 hl).1

theorem linked_of_path (m : Nat → Slab) (back : Nat) (r : List Nat) :
    ∀ a, Path m back a r → (∀ s ∈ a :: r, (m (m s).prev).next = s) →
      Linked m (a :: r) ∧ lastOr0 (a :: r) = back := by
  induction r with
  | nil =>
    intro a hp _
    exact ⟨trivial, hp⟩
  | cons b r ih =>
    intro a hp hinv
    obtain ⟨_, hab, hp2⟩ := hp
    obtain ⟨i1, i2⟩ := ih b hp2 (fun s hs => hinv s (List.mem_cons_of_mem _ hs))
    rw [Linked_cons2, lastOr0_cons_cons]
    refine ⟨⟨⟨hab, ?_⟩, i1⟩, i2⟩
    have := hinv a (by simp)
    rw [hab] at this
    exact this

theorem Circular.toListOK {c : Cache} {l : List Nat} (h : Circular c l) : ListOK c l := by
  obtain ⟨hiff, hsl, hnd, hnz, hback, hlinks⟩ := h
  cases l with
  | nil =>
    have h0 : c.slabs_ = 0 := hsl
    exact ⟨hnd, hnz, Ring_nil _, h0, hiff.1 h0⟩
  | cons a r =>
    obtain ⟨e1, _, hp⟩ := hsl
    obtain ⟨k1, k2⟩ := linked_of_path c.slabMem c.slabs_back_ r a hp
      (fun s hs => (hlinks s hs).2)
    have hb := hback (by simp)
    refine ⟨hnd, hnz, ⟨k1, fun _ => ?_⟩, e1, k2.symm⟩
    rw [k2, headOr0_cons, ← e1]
    refine ⟨hb, ?_⟩
    have hmem : c.slabs_back_ ∈ a :: r := by
      rw [← k2]
      exact lastOr0_mem _ (by simp)
    have := (hlinks _ hmem).2
    rw [hb] at this
    exact this

theorem move_to_back_mem (c : Cache) (l1 l2 : List Nat) (x : Nat)
    (h : ListOK c (l1 ++ x :: l2)) : ListOK (move_to_back_ c x) (l1 ++ l2 ++ [x]) := by
  have hlx := last_eq_iff l1 l2 x h.nodup
  unfold move_to_back_
  by_cases he : c.slabs_back_ = x
  · rw [if_pos he]
    rw [h.back] at he
    have := hlx.1 he
    subst this
    simpa using h
  · rw [if_neg he]
    have hl2 : l2 ≠ [] := fun e => he (by rw [h.back]; exact hlx.2 e)
    have hne : l1 ++ l2 ≠ [] := by simp [hl2]
    have hx0 : x ≠ 0 := h.nonnull x (by simp)
    have hmid := List.nodup_middle.1 h.nodup
    have hxn : x ∉ l1 ++ l2 := (List.nodup_cons.1 hmid).1
    have h1 := remove_spec c l1 l2 x h
    simp only
    rw [if_neg (head_ne_zero _ _ h1 hne)]
    exact insert_back _ _ x hne h1 hxn hx0

theorem erase_middle (l1 l2 : List Nat) (x : Nat) (hnd : (l1 ++ x :: l2).Nodup) :
    (l1 ++ x :: l2).erase x = l1 ++ l2 := by
  have hmid := List.nodup_middle.1 hnd
  have hxn : x ∉ l1 := fun hx => (List.nodup_cons.1 hmid).1 (List.mem_append_left _ hx)
  rw [List.erase_append_right _ hxn, List.erase_cons_head]

/-! ### One step of a run, with the list of live pointers -/

theorem alloc_inv_live {c c1 : Cache} {G : List SlabG} {live : List Nat} {g1 g2 : GrowRes}
    {p : Nat} (hinv : Inv c G) (wc : c.WF) (hperm : live.Perm (livePtrs c G))
    (hg1 : GrowOK c g1) (hg2 : ∀ cm, allocStage1 c g1 = .ok cm → GrowOK cm g2)
    (ha : alloc c g1 g2 = .ok (p, c1)) :
    ∃ G1, Inv c1 G1 ∧ (p :: live).Perm (livePtrs c1 G1) ∧ SameParams c c1 ∧
      c1.dtorLog = c.dtorLog ∧ c1.ctorLog = (callCtor c p).ctorLog := by
  obtain ⟨_, cm, gh, R, i, fi1, _, _, _, hcase, _, _, _, hal, hinv2, hpar2, hd, hc⟩ :=
    alloc_step hinv wc hg1 hg2
  rw [hal] at ha
  have e1 := (Prod.mk.inj (Except.ok.inj ha)).1
  have e2 := (Prod.mk.inj (Except.ok.inj ha)).2
  subst e2
  have hlive : livePtrs c (gh :: R) = livePtrs c G := by
    rcases hcase with ⟨e, _⟩ | ⟨e, hu, _⟩
    · rw [e]
    · rw [e, livePtrs_cons]
      unfold SlabG.usedPtrs
      rw [hu]
      rfl
  have hnew : livePtrs c ({ gh with fi := fi1, ui := i :: gh.ui } :: R)
      = p :: livePtrs c G := by
    rw [livePtrs_cons, ← hlive, livePtrs_cons, ← e1]
    rfl
  refine ⟨_, hinv2, ?_, hpar2, hd, ?_⟩
  · rw [livePtrs_congr hpar2]
    have hp2 : (p :: live).Perm (p :: livePtrs c G) := List.Perm.cons _ hperm
    rw [← hnew] at hp2
    refine hp2.trans (livePtrs_perm c ?_)
    split
    · exact (@List.perm_append_comm _ R [_]).symm
    · exact List.Perm.refl _
  · rw [hc, e1]

theorem free_inv_live {c c1 : Cache} {G : List SlabG} {live : List Nat} {p : Nat}
    (hinv : Inv c G) (wc : c.WF) (hperm : live.Perm (livePtrs c G)) (hp : p ∈ live)
    (hf : free c p = .ok c1) :
    ∃ G1, Inv c1 G1 ∧ (live.erase p).Perm (livePtrs c1 G1) ∧ SameParams c c1 ∧
      c1.ctorLog = c.ctorLog ∧ c1.dtorLog = (callDtor c p).dtorLog := by
  obtain ⟨G1, g, G2, i, hG, hi, hpi⟩ := mem_livePtrs (hperm.mem_iff.1 hp)
  subst hG
  obtain ⟨c2, hfr, hinv2, hpar2, hc, hd⟩ := free_step hinv wc hi
  rw [← hpi, hf] at hfr
  have e2 := Except.ok.inj hfr
  subst e2
  refine ⟨_, hinv2, ?_, hpar2, hc, ?_⟩
  · rw [livePtrs_congr hpar2]
    have h1 : (live.erase p).Perm ((livePtrs c (G1 ++ g :: G2)).erase p) := hperm.erase p
    have h2 : ((livePtrs c (G1 ++ g :: G2)).erase p).Perm
        (livePtrs c (G1 ++ { g with fi := i :: g.fi, ui := g.ui.erase i } :: G2)) := by
      rw [hpi]
      exact livePtrs_free wc G1 G2 g i hi
    refine (h1.trans h2).trans ?_
    split
    · next he =>
      rw [livePtrs_drop_empty c G1 G2 { g with fi := i :: g.fi, ui := g.ui.erase i } he]
    · split
      · exact livePtrs_perm c List.perm_middle
      · exact List.Perm.refl _
  · rw [hd, hpi]

/-- Whatever the fuel, a run of the loop of `destroy` that ends leaves no
slab. -/
theorem destroyLoop_some (fuel : Nat) :
    ∀ (c c1 : Cache) (G : List SlabG), Rep c G → c.WF → destroyLoop fuel c = some c1 →
      Rep c1 [] ∧ SameParams c c1 ∧ c1.ctorLog = c.ctorLog ∧ c1.dtorLog = c.dtorLog := by
  induction fuel with
  | zero =>
    intro c c1 G h _ hd
    unfold destroyLoop at hd
    split at hd
    · next h0 =>
      have e := Option.some.inj hd
      subst e
      cases G with
      | nil => exact ⟨h, SameParams.refl _, rfl, rfl⟩
      | cons g R => exact absurd h0 (head_ne_zero c _ h.list (by simp))
    · exact absurd hd (by simp)
  | succ f ih =>
    intro c c1 G h w hd
    unfold destroyLoop at hd
    split at hd
    · next h0 =>
      have e := Option.some.inj hd
      subst e
      cases G with
      | nil => exact ⟨h, SameParams.refl _, rfl, rfl⟩
      | cons g R => exact absurd h0 (head_ne_zero c _ h.list (by simp))
    · next hne =>
      cases G with
      | nil => exact absurd h.list.head hne
      | cons g R =>
        obtain ⟨k1, k2, k3, k4⟩ := destroyStep_rep h w
        obtain ⟨q2, q3, q4, q5⟩ := ih (destroyStep c) c1 R k1 (k2.WF w) hd
        exact ⟨q2, k2.trans q3, q4.trans k3, q5.trans k4⟩

theorem destroy_some {c c1 : Cache} {G : List SlabG} {fuel : Nat} (h : Rep c G) (w : c.WF)
    (hd : destroy fuel c = some c1) :
    Rep c1 [] ∧ SameParams c c1 ∧ c1.ctorLog = c.ctorLog ∧ c1.dtorLog = c.dtorLog := by
  unfold destroy at hd
  cases hl : destroyLoop fuel c with
  | none =>
    rw [hl] at hd
    exact absurd hd (by simp)
  | some c2 =>
    rw [hl] at hd
    obtain ⟨q1, q2, q3, q4⟩ := destroyLoop_some fuel c c2 G h w hl
    have e := Option.some.inj hd
    rw [reset_eq c2 q1.list.head q1.list.back] at e
    subst e
    exact ⟨q1, q2, q3, q4⟩

theorem reachD_inv {c0 c : Cache} {live : List Nat} (w : c0.WF) (h0 : Inv c0 [])
    (hr : ReachD c0 c live) :
    ∃ G, Inv c G ∧ live.Perm (livePtrs c G) ∧ SameParams c0 c := by
  induction hr with
  | init => exact ⟨[], h0, List.Perm.refl _, SameParams.refl _⟩
  | @alloc c c1 live g1 g2 p _ hg1 hg2 ha ih =>
    obtain ⟨G, hinv, hperm, hpar⟩ := ih
    obtain ⟨G1, k1, k2, k3, _⟩ := alloc_inv_live hinv (hpar.WF w) hperm hg1 hg2 ha
    exact ⟨G1, k1, k2, hpar.trans k3⟩
  | @free c c1 live p _ hp hf ih =>
    obtain ⟨G, hinv, hperm, hpar⟩ := ih
    obtain ⟨G1, k1, k2, k3, _⟩ := free_inv_live hinv (hpar.WF w) hperm hp hf
    exact ⟨G1, k1, k2, hpar.trans k3⟩
  | @destroy c c1 live fuel _ hd ih =>
    obtain ⟨G, hinv, hperm, hpar⟩ := ih
    obtain ⟨q1, q2, _, _⟩ := destroy_some hinv.rep (hpar.WF w) hd
    exact ⟨[], ⟨q1, Ordered_nil _, fun g hg => absurd hg (List.not_mem_nil _)⟩,
      List.Perm.refl _, hpar.trans q2⟩

theorem reach_to_reachD {c0 c : Cache} {live : List Nat} {na nf : Nat}
    (hr : Reach c0 c live na nf) : ReachD c0 c live := by
  induction hr with
  | init => exact ReachD.init
  | alloc g1 g2 p _ hg1 hg2 ha ih => exact ReachD.alloc g1 g2 p ih hg1 hg2 ha
  | free p _ hp hf ih => exact ReachD.free p ih hp hf

/-- C20: in every state reachable by calls of `alloc`, of `free` on live
pointers and of `destroy`, the slab list is a well-formed circle: `slabs_` is
null exactly when `slabs_back_` is, following `prev` from `slabs_` visits
every slab once and ends at `slabs_back_`, whose `prev` is `slabs_`, and
`s->next->prev == s` and `s->prev->next == s` for every slab `s`.  Each of
`remove_`, `move_to_front_` and `move_to_back_` keeps a well-formed circle
well-formed: `remove_` takes the slab out, `move_to_front_` puts it at the
head (also a slab fresh from its constructor, which is not yet a member) and
`move_to_back_` at the tail, the other slabs keeping their order. -/
theorem C20_circular_list (pg S A : Nat) (ct dt : Bool) (c : Cache) (live : List Nat)
    (w : (Cache.new pg S A ct dt).WF) (hr : ReachD (Cache.new pg S A ct dt) c live) :
    (∃ l, Circular c l ∧ ∀ l1, SlabList c l1 → l1 = l) ∧
    (∀ (d : Cache) (l : List Nat) (x : Nat), Circular d l → x ∈ l →
      Circular (remove_ d x) (l.erase x) ∧
      Circular (move_to_front_ d x) (x :: l.erase x) ∧
      Circular (move_to_back_ d x) (l.erase x ++ [x])) ∧
    (∀ (d : Cache) (l : List Nat) (x : Nat), Circular d l → x ∉ l → x ≠ 0 →
      (d.slabMem x).next = x → (d.slabMem x).prev = x →
      Circular (move_to_front_ d x) (x :: l)) := by
  obtain ⟨G, hinv, _, _⟩ := reachD_inv w (new_inv pg S A ct dt) hr
  refine ⟨⟨G.map SlabG.hdr, hinv.rep.list.circular, hinv.scan.2.1⟩, ?_, ?_⟩
  · intro d l x hc hx
    have hl := hc.toListOK
    obtain ⟨l1, l2, rfl⟩ := List.append_of_mem hx
    rw [erase_middle l1 l2 x hl.nodup]
    exact ⟨(remove_spec d l1 l2 x hl).circular, (move_to_front_mem d l1 l2 x hl).circular,
      (move_to_back_mem d l1 l2 x hl).circular⟩
  · intro d l x hc hx hx0 hn hp
    exact (move_to_front_fresh d l x hc.toListOK hx hx0 hn hp).circular

/-- Witness of C20: `S = 1000`, nine calls of `alloc` (two slabs), then
`destroy` with outstanding allocations; and the three list operations
applied to the head slab of the state before `destroy`. -/
theorem C20_circular_list_witness :
    (Cache.new 4096 1000 0 false false).WF ∧
    ∃ c live fuel c1,
      runOps (Cache.new 4096 1000 0 false false) [] (allocOps 9 0) = some (c, live) ∧
      destroy fuel c = some c1 ∧
      (∃ l, Circular c1 l ∧ ∀ l1, SlabList c1 l1 → l1 = l) ∧
      (∃ l x, Circular c l ∧ x ∈ l ∧
        Circular (remove_ c x) (l.erase x) ∧
        Circular (move_to_front_ c x) (x :: l.erase x) ∧
        Circular (move_to_back_ c x) (l.erase x ++ [x])) := by
  refine ⟨wf_1000, ?_⟩
  obtain ⟨c, h1, h2⟩ := @run_reach (Cache.new 4096 1000 0 false false) (allocOps 9 0)
    [1186648, 65536, 66536, 67536, 68536, 69536, 70536, 71536, 72536] (by decide)
  have hd := reach_to_reachD h2
  obtain ⟨G, hinv, hperm, hpar⟩ := reachD_inv wf_1000 (new_inv 4096 1000 0 false false) hd
  obtain ⟨c1, k1, _⟩ := destroy_spec hinv.rep (hpar.WF wf_1000) G.length (Nat.le_refl _)
  have hc := hinv.rep.list.circular
  cases G with
  | nil => exact absurd hperm.length_eq (by simp [livePtrs])
  | cons g R =>
    exact ⟨c, _, _, c1, h1, k1,
      (C20_circular_list 4096 1000 0 false false c1 _ wf_1000 (ReachD.destroy _ hd k1)).1,
      _, g.hdr, hc, by simp,
      (C20_circular_list 4096 1000 0 false false c _ wf_1000 hd).2.1 c _ g.hdr hc (by simp)⟩

/-! ### The pop of `alloc` on its own -/

/-- The part of `alloc` after the calls of `grow_`, in a state whose head slab
has a free slot. -/
theorem pop_inv {c : Cache} {gh : SlabG} {R : List SlabG} (hrep : Rep c (gh :: R))
    (w : c.WF) (hlt : (gh.ui.length : Int) < c.slab_maxbuf_)
    (hRo : Ordered c.slab_maxbuf_ (usedCounts R)) (hRu : ∀ g ∈ R, g.ui ≠ []) :
    ∃ i fi1 c1, gh.fi = i :: fi1 ∧ i < c.slab_maxbuf_.toNat ∧
      allocPop c = .ok (slotAddr c gh.base i, c1) ∧
      Inv c1 (if ((gh.ui.length + 1 : Nat) : Int) = c.slab_maxbuf_
         then R ++ [{ gh with fi := fi1, ui := i :: gh.ui }]
         else { gh with fi := fi1, ui := i :: gh.ui } :: R) ∧
      SameParams c c1 ∧ c1.wordMem = c.wordMem := by
  obtain ⟨i, fi1, hfi⟩ := fi_nonempty (hrep.slabs gh (by simp)) w hlt
  obtain ⟨p1, p2, p3, p4⟩ := pop_rep hrep hfi
  obtain ⟨q1, q2, _⟩ := popCtor_facts c
  obtain ⟨m1, m2⟩ := @moveFull_rep (callCtor (popState c) (popBuf c)) _ R p4
  have hpf : SameParams c (moveFull (callCtor (popState c) (popBuf c))) :=
    q1.sameParams.trans m2.params
  refine ⟨i, fi1, _, hfi, p3, ?_, ?_, hpf, ?_⟩
  · unfold allocPop
    rw [if_neg p2, p1]
  · have hlen : (({ gh with fi := fi1, ui := i :: gh.ui } : SlabG).ui.length : Int)
        = ((gh.ui.length + 1 : Nat) : Int) := rfl
    rw [hlen, q1.sameParams.slab_maxbuf_] at m1
    by_cases e : ((gh.ui.length + 1 : Nat) : Int) = c.slab_maxbuf_
    · rw [if_pos e] at m1 ⊢
      refine ⟨m1, ?_, ?_⟩
      · rw [hpf.slab_maxbuf_, usedCounts_append]
        have : usedCounts [({ gh with fi := fi1, ui := i :: gh.ui } : SlabG)]
            = [c.slab_maxbuf_] := by
          unfold usedCounts
          simp only [List.map_cons, List.map_nil, List.length_cons]
          rw [e]
        rw [this]
        exact Ordered_concat_full hRo
      · intro g hg
        rcases List.mem_append.1 hg with m | m
        · exact hRu g m
        · rw [List.mem_singleton] at m
          rw [m]
          simp
    · rw [if_neg e] at m1 ⊢
      refine ⟨m1, ?_, ?_⟩
      · rw [hpf.slab_maxbuf_, usedCounts_cons]
        apply Ordered_cons_lt _ hRo
        have : (({ gh with fi := fi1, ui := i :: gh.ui } : SlabG).ui.length : Int)
            = ((gh.ui.length + 1 : Nat) : Int) := rfl
        rw [this]
        have h2 : ((gh.ui.length + 1 : Nat) : Int) = (gh.ui.length : Int) + 1 := by
          push_cast
          rfl
        omega
      · intro g hg
        rcases List.mem_cons.1 hg with m | m
        · rw [m]
          simp
        · exact hRu g m
  · rw [m2.wordMem, q2]

theorem alloc_nogrow {c : Cache} (g1 g2 : GrowRes) (h0 : c.slabs_ ≠ 0)
    (hc : (c.slabMem c.slabs_).bufcount ≠ c.slab_maxbuf_) : alloc c g1 g2 = allocPop c := by
  have s1 : allocStage1 c g1 = .ok c := by
    unfold allocStage1
    rw [if_neg h0]
  have s2 : allocStage2 c g2 = .ok c := by
    unfold allocStage2
    rw [if_neg hc]
  exact alloc_ok_of_stages s1 s2

theorem alloc_of_empty {c c1 : Cache} (g1 g2 : GrowRes) (h0 : c.slabs_ = 0)
    (hg : grow_ c g1 = .ok c1) (hc : (c1.slabMem c1.slabs_).bufcount ≠ c1.slab_maxbuf_) :
    alloc c g1 g2 = allocPop c1 := by
  have s1 : allocStage1 c g1 = .ok c1 := by
    unfold allocStage1
    rw [if_pos h0]
    exact hg
  have s2 : allocStage2 c1 g2 = .ok c1 := by
    unfold allocStage2
    rw [if_neg hc]
  exact alloc_ok_of_stages s1 s2

theorem alloc_of_full {c c1 : Cache} (g1 g2 : GrowRes) (h0 : c.slabs_ ≠ 0)
    (hf : (c.slabMem c.slabs_).bufcount = c.slab_maxbuf_)
    (hg : grow_ c g2 = .ok c1) : alloc c g1 g2 = allocPop c1 := by
  have s1 : allocStage1 c g1 = .ok c := by
    unfold allocStage1
    rw [if_neg h0]
  have s2 : allocStage2 c g2 = .ok c1 := by
    unfold allocStage2
    rw [if_pos hf]
    exact hg
  exact alloc_ok_of_stages s1 s2

/-- Consecutive calls of `alloc` hand out the slots on the free list of the
head slab in list order, as long as they last. -/
theorem pop_run (M E base : Nat) (n : Nat) :
    ∀ (k : Nat) (c : Cache) (gs : List (GrowRes × GrowRes)), gs.length = n → k + n = M →
      c.WF → c.slab_maxbuf_.toNat = M → c.effsize_ = E →
      (1 ≤ n → ∃ g R, Inv c (g :: R) ∧ g.fi = List.range' k n ∧ g.base = base) →
      ∃ c2, allocSeq c gs = .ok ((List.range' k n).map (fun i => base + i * E), c2) := by
  induction n with
  | zero =>
    intro k c gs hl _ _ _ _ _
    have : gs = [] := List.length_eq_zero.1 hl
    subst this
    exact ⟨c, rfl⟩
  | succ n ih =>
    intro k c gs hl hk w hM hE hex
    obtain ⟨g, R, hinv, hfi, hb⟩ := hex (by omega)
    cases gs with
    | nil => simp at hl
    | cons gg rest =>
      obtain ⟨g1, g2⟩ := gg
      have ok := hinv.rep.slabs g (by simp)
      have hlen := ok.perm.length_eq
      rw [List.length_append, List.length_range, hfi, List.length_range', hM] at hlen
      have hMc := w.M_cast
      have hlt : (g.ui.length : Int) < c.slab_maxbuf_ := by omega
      have hRo : Ordered c.slab_maxbuf_ (usedCounts R) := by
        have := hinv.order
        rw [usedCounts_cons] at this
        exact Ordered_sublist this (List.sublist_cons_self _ _)
      obtain ⟨i, fi1, c1, hfi1, _, hpop, hinv1, hpar, _⟩ :=
        pop_inv hinv.rep w hlt hRo (fun x hx => hinv.used x (List.mem_cons_of_mem _ hx))
      have hh : c.slabs_ = g.hdr := hinv.rep.list.head
      have h0 : c.slabs_ ≠ 0 := by
        rw [hh]
        exact hinv.rep.list.nonnull _ (by simp)
      have hcn : (c.slabMem c.slabs_).bufcount ≠ c.slab_maxbuf_ := by
        rw [hh, ok.count]
        omega
      have hal := alloc_nogrow g1 g2 h0 hcn
      rw [hpop] at hal
      rw [hfi, List.range'_succ] at hfi1
      have ei : i = k := (List.cons.inj hfi1).1.symm
      have ef : fi1 = List.range' (k + 1) n := (List.cons.inj hfi1).2.symm
      subst ei
      subst ef
      have hM1 : c1.slab_maxbuf_.toNat = M := by rw [hpar.slab_maxbuf_]; exact hM
      have hE1 : c1.effsize_ = E := by rw [hpar.effsize_]; exact hE
      obtain ⟨c2, hrest⟩ := ih (i + 1) c1 rest (by simpa using hl) (by omega) (hpar.WF w)
        hM1 hE1 (by
          intro hn
          have hne : ¬ (((g.ui.length + 1 : Nat) : Int) = c.slab_maxbuf_) := by
            push_cast
            omega
          rw [if_neg hne] at hinv1
          exact ⟨_, R, hinv1, rfl, hb⟩)
      refine ⟨c2, ?_⟩
      unfold allocSeq
      rw [hal]
      simp only
      rw [hrest, List.range'_succ, List.map_cons]
      unfold slotAddr
      rw [hb, hE]

/-- The words that the small branch of `grow_` stores are the first words of
the slots of the new block, the last of which receives null. -/
theorem growSmall_words {c c1 : Cache} {g : GrowRes} {b : Nat} (w : c.WF)
    (hs : c.small = true) (hg : GrowOK c g) (hmem : g.mem = some b)
    (h : growSmall c g = .ok c1) :
    c1.wordMem (b + (c.slab_maxbuf_.toNat - 1) * c.effsize_) = 0 ∧
    ∀ a, c1.wordMem a ≠ c.wordMem a → ∃ k, k < c.slab_maxbuf_.toNat ∧ a = b + k * c.effsize_ := by
  obtain ⟨b1, hmem1, hb0, _, hsm, _⟩ := hg
  rw [hmem] at hmem1
  have eb := Option.some.inj hmem1
  subst eb
  obtain ⟨htop, _⟩ := hsm hs
  have hE := w.eff_pos
  have hMp := w.M_pos
  have hlast := smallLast_eq w hs b htop
  have hnE : c.slab_maxbuf_.toNat - 1 ≤ (c.slab_maxbuf_.toNat - 1) * c.effsize_ :=
    Nat.le_mul_of_pos_right _ (by omega)
  obtain ⟨w1, hloop, _, hw2⟩ := linkLoop_spec c.effsize_ (c.slab_maxbuf_.toNat - 1)
    ((c.slab_maxbuf_.toNat - 1) * c.effsize_) b c.wordMem hE hnE
  have hloop2 : linkLoop c.effsize_ (smallLast c b) (smallLast c b - b) b c.wordMem
      = some w1 := by
    rw [hlast, Nat.add_sub_cancel_left]
    exact hloop
  unfold growSmall at h
  simp only [hmem, hloop2] at h
  rw [if_neg hb0] at h
  split at h
  · have e := Except.ok.inj h
    have hwm : c1.wordMem = upd w1 (smallLast c b) 0 := by
      rw [← e, (move_to_front_listOnly _ _).wordMem]
      rfl
    rw [hwm, hlast]
    refine ⟨upd_same _ _ _, ?_⟩
    intro a ha
    by_cases e1 : a = b + (c.slab_maxbuf_.toNat - 1) * c.effsize_
    · exact ⟨c.slab_maxbuf_.toNat - 1, by omega, e1⟩
    · rw [upd_other _ _ _ _ e1] at ha
      by_contra hno
      apply ha
      apply hw2
      intro k hk e2
      exact hno ⟨k, by omega, e2⟩
  · exact absurd h (by simp)

theorem range_map_chain {c : Cache} (hs : c.small = true) (g : SlabG) (l : List Nat) :
    l.map (nodeAddr c g) = l.map (fun i => g.base + i * c.effsize_) :=
  List.map_congr_left (fun i _ => by rw [nodeAddr_small hs]; rfl)

/-- C17 (as amended): in the small regime with slots that hold a pointer
(`E ≥ sizeof(void*)`), `grow_` on a block at `base` makes the new slab
the head of the slab list with `bufcount` 0; its free list starts at `base`
and visits `base, base + E, ..., base + (M - 1) * E` in this order, the last
slot storing null; the words stored lie inside `[base, base + E * M)`; and
`M` consecutive calls of `alloc`, the first of which grows the slab, return
these addresses in this order. -/
theorem C17_small_grow (pg S A : Nat) (ct dt : Bool) (c : Cache) (live : List Nat)
    (na nf : Nat) (w : (Cache.new pg S A ct dt).WF)
    (hs : (Cache.new pg S A ct dt).small = true)
    (hr : Reach (Cache.new pg S A ct dt) c live na nf) :
    (∀ g base, GrowOK c g → g.mem = some base →
      ∃ c1, grow_ c g = .ok c1 ∧
        c1.slabs_ = base + c.pg - sizeofSlab ∧ (c1.slabMem c1.slabs_).bufcount = 0 ∧
        (∃ l, SlabList c l ∧ SlabList c1 (c1.slabs_ :: l)) ∧
        (c1.slabMem c1.slabs_).free_list = base ∧
        Chain c1.wordMem (c1.slabMem c1.slabs_).free_list
          ((List.range c.slab_maxbuf.toNat).map (fun i => base + i * c.effective_size)) ∧
        c1.wordMem (base + (c.slab_maxbuf.toNat - 1) * c.effective_size) = 0 ∧
        (∀ a, c1.wordMem a ≠ c.wordMem a →
          base ≤ a ∧ a + sizeofPtr ≤ base + c.effective_size * c.slab_maxbuf.toNat)) ∧
    (∀ g1 g2 rest base,
      ((c.slabs_ = 0 ∧ GrowOK c g1 ∧ g1.mem = some base) ∨
       (c.slabs_ ≠ 0 ∧ (c.slabMem c.slabs_).bufcount = c.slab_maxbuf ∧
         GrowOK c g2 ∧ g2.mem = some base)) →
      rest.length + 1 = c.slab_maxbuf.toNat →
      ∃ c2, allocSeq c ((g1, g2) :: rest) =
        .ok ((List.range c.slab_maxbuf.toNat).map (fun i => base + i * c.effective_size),
             c2)) := by
  obtain ⟨G, hinv, _, hpar, _, _⟩ := reach_inv w (new_inv pg S A ct dt) hr
  have wc := hpar.WF w
  have hsc : c.small = true := by rw [hpar.small]; exact hs
  have hMp := wc.M_pos
  have hMc := wc.M_cast
  have hE8 := wc.small_ptr hsc
  unfold Cache.slab_maxbuf Cache.effective_size
  have hgrow : ∀ g base, GrowOK c g → g.mem = some base →
      ∃ c1, grow_ c g = .ok c1 ∧
        Rep c1 ({ hdr := smallHdr c base, base := base, arr := 0,
                  fi := List.range c.slab_maxbuf_.toNat, ui := [] } :: G) ∧
        SameParams c c1 ∧ growSmall c g = .ok c1 := by
    intro g base hg hm
    obtain ⟨c1, b, hm1, hgs, hrep, hp1, _⟩ := growSmall_spec hinv.rep wc hsc hg
    rw [hm] at hm1
    have eb := Option.some.inj hm1
    subst eb
    refine ⟨c1, ?_, hrep, hp1, hgs⟩
    unfold grow_
    rw [hsc]
    exact hgs
  refine ⟨?_, ?_⟩
  · intro g base hg hm
    obtain ⟨c1, h1, hrep, hp1, hgs⟩ := hgrow g base hg hm
    have hh : c1.slabs_ = smallHdr c base := hrep.list.head
    have ok := hrep.slabs _ (List.mem_cons_self _ _)
    have hs1 : c1.small = true := by rw [hp1.small]; exact hsc
    obtain ⟨hz, hfr⟩ := growSmall_words wc hsc hg hm hgs
    have hch := ok.chain
    rw [range_map_chain hs1, hp1.effsize_] at hch
    simp only at hch
    have hfl : (c1.slabMem (smallHdr c base)).free_list = base := by
      have hr1 : List.range c.slab_maxbuf_.toNat
          = 0 :: List.range' 1 (c.slab_maxbuf_.toNat - 1) := by
        rw [List.range_eq_range']
        have : c.slab_maxbuf_.toNat = (c.slab_maxbuf_.toNat - 1) + 1 := by omega
        nth_rewrite 1 [this]
        rw [List.range'_succ]
      rw [hr1, List.map_cons] at hch
      have := hch.1
      simpa using this
    have hnx : c1.nextOf = c1.wordMem := by
      funext a
      exact nextOf_small hs1 a
    rw [hnx] at hch
    refine ⟨c1, h1, hh, ?_, ⟨G.map SlabG.hdr, hinv.scan.1, ?_⟩, ?_, ?_, hz, ?_⟩
    · rw [hh, ok.count]
      rfl
    · rw [hh]
      exact hrep.list.slabList
    · rw [hh]; exact hfl
    · rw [hh]; exact hch
    · intro a ha
      obtain ⟨k, hk, e⟩ := hfr a ha
      have h56 : sizeofPtr = 8 := rfl
      have : (k + 1) * c.effsize_ ≤ c.slab_maxbuf_.toNat * c.effsize_ :=
        Nat.mul_le_mul_right _ hk
      rw [Nat.add_mul, Nat.one_mul] at this
      rw [Nat.mul_comm c.effsize_]
      omega
  · intro g1 g2 rest base hcase hlen
    have hpick : ∃ g, GrowOK c g ∧ g.mem = some base ∧
        ∀ c1, grow_ c g = .ok c1 → (c1.slabMem c1.slabs_).bufcount ≠ c1.slab_maxbuf_ →
          alloc c g1 g2 = allocPop c1 := by
      rcases hcase with ⟨h0, hg, hm⟩ | ⟨h0, hf, hg, hm⟩
      · exact ⟨g1, hg, hm, fun c1 hgr hc => alloc_of_empty g1 g2 h0 hgr hc⟩
      · exact ⟨g2, hg, hm, fun c1 hgr _ => alloc_of_full g1 g2 h0 hf hgr⟩
    obtain ⟨g, hg, hm, hall⟩ := hpick
    obtain ⟨c1, h1, hrep, hp1, _⟩ := hgrow g base hg hm
    have w1 := hp1.WF wc
    have hh : c1.slabs_ = smallHdr c base := hrep.list.head
    have ok := hrep.slabs _ (List.mem_cons_self _ _)
    have hcnt : (c1.slabMem c1.slabs_).bufcount ≠ c1.slab_maxbuf_ := by
      rw [hh, ok.count, hp1.slab_maxbuf_]
      simp only [List.length_nil]
      omega
    have hal := hall c1 h1 hcnt
    have hlt : ((([] : List Nat).length : Nat) : Int) < c1.slab_maxbuf_ := by
      rw [hp1.slab_maxbuf_]
      simp only [List.length_nil]
      omega
    have hRo : Ordered c1.slab_maxbuf_ (usedCounts G) := by
      rw [hp1.slab_maxbuf_]
      exact hinv.order
    obtain ⟨i, fi1, c2, hfi1, _, hpop, hinv1, hpar1, _⟩ := pop_inv hrep w1 hlt hRo hinv.used
    simp only at hfi1 hpop hinv1
    have hr1 : List.range c.slab_maxbuf_.toNat
        = 0 :: List.range' 1 (c.slab_maxbuf_.toNat - 1) := by
      rw [List.range_eq_range']
      have : c.slab_maxbuf_.toNat = (c.slab_maxbuf_.toNat - 1) + 1 := by omega
      nth_rewrite 1 [this]
      rw [List.range'_succ]
    rw [hr1] at hfi1
    have ei : i = 0 := (List.cons.inj hfi1).1.symm
    have ef : fi1 = List.range' 1 (c.slab_maxbuf_.toNat - 1) := (List.cons.inj hfi1).2.symm
    subst ei
    subst ef
    have hM2 : c2.slab_maxbuf_.toNat = c.slab_maxbuf_.toNat := by
      rw [hpar1.slab_maxbuf_, hp1.slab_maxbuf_]
    have hE2 : c2.effsize_ = c.effsize_ := by rw [hpar1.effsize_, hp1.effsize_]
    obtain ⟨c3, hrest⟩ := pop_run c.slab_maxbuf_.toNat c.effsize_ base
      (c.slab_maxbuf_.toNat - 1) 1 c2 rest (by omega) (by omega) (hpar1.WF w1) hM2 hE2 (by
        intro hn
        have hne : ¬ (((([] : List Nat).length + 1 : Nat) : Int) = c1.slab_maxbuf_) := by
          rw [hp1.slab_maxbuf_]
          simp only [List.length_nil]
          omega
        rw [if_neg hne] at hinv1
        exact ⟨_, G, hinv1, rfl, rfl⟩)
    refine ⟨c3, ?_⟩
    unfold allocSeq
    rw [hal, hpop]
    simp only
    rw [hrest, hr1, List.map_cons]
    unfold slotAddr
    rw [hp1.effsize_]

/-- Witness of C17: the first slab of the cache with `S = 12` (`E = 16`,
`M = 252`) on the block at 65536. -/
theorem C17_small_grow_witness :
    (Cache.new 4096 12 0 false false).WF ∧ (Cache.new 4096 12 0 false false).small = true ∧
    (Cache.new 4096 12 0 false false).slab_maxbuf = 252 ∧
    (Cache.new 4096 12 0 false false).effective_size = 16 ∧
    GrowOK (Cache.new 4096 12 0 false false) (gres 1) ∧
    (∃ c1, grow_ (Cache.new 4096 12 0 false false) (gres 1) = .ok c1 ∧
      c1.slabs_ = 65536 + 4096 - sizeofSlab ∧ (c1.slabMem c1.slabs_).bufcount = 0 ∧
      (c1.slabMem c1.slabs_).free_list = 65536 ∧
      Chain c1.wordMem (c1.slabMem c1.slabs_).free_list
        ((List.range (Cache.new 4096 12 0 false false).slab_maxbuf.toNat).map
          (fun i => 65536 + i * (Cache.new 4096 12 0 false false).effective_size))) ∧
    ∃ c2, allocSeq (Cache.new 4096 12 0 false false)
        ((gres 1, gres 2) :: List.replicate 251 (gres 1, gres 2)) =
      .ok ((List.range (Cache.new 4096 12 0 false false).slab_maxbuf.toNat).map
             (fun i => 65536 + i * (Cache.new 4096 12 0 false false).effective_size), c2) := by
  have hg : GrowOK (Cache.new 4096 12 0 false false) (gres 1) := growOKb_sound _ _ (by decide)
  have h := C17_small_grow 4096 12 0 false false _ [] 0 0 wf_12 (by decide) Reach.init
  obtain ⟨c1, k1, k2, k3, _, k5, k6, _⟩ := h.1 (gres 1) 65536 hg rfl
  refine ⟨wf_12, by decide, by decide, by decide, hg, ⟨c1, k1, k2, k3, k5, k6⟩, ?_⟩
  exact h.2 (gres 1) (gres 2) (List.replicate 251 (gres 1, gres 2)) 65536
    (Or.inl ⟨rfl, hg, rfl⟩) (by decide)

/-- Counterexample to C17 as stated: `S = 4` with the alignment `A = 4` is in
the small regime with `E = 4` and `M = 1010`.  In `grow_` on the block at
65536 the pointer `last` is 69572, and the store of null through it, eight
bytes wide, ends at 69580, beyond `base + E * M = 69576`. -/
theorem C17_counterexample :
    (Cache.new 4096 4 4 false false).small = true ∧
    (Cache.new 4096 4 4 false false).slab_maxbuf = 1010 ∧
    (Cache.new 4096 4 4 false false).effective_size = 4 ∧
    GrowOK (Cache.new 4096 4 4 false false) (gres 1) ∧
    smallLast (Cache.new 4096 4 4 false false) 65536 = 69572 ∧
    (∀ w, (growSmallState (Cache.new 4096 4 4 false false) 65536 w).wordMem
      = upd w (smallLast (Cache.new 4096 4 4 false false) 65536) 0) ∧
    ¬ (smallLast (Cache.new 4096 4 4 false false) 65536 + sizeofPtr ≤
        65536 + (Cache.new 4096 4 4 false false).effective_size *
          (Cache.new 4096 4 4 false false).slab_maxbuf.toNat) := by
  refine ⟨by decide, by decide, by decide, growOKb_sound _ _ (by decide), by decide,
    fun _ => rfl, by decide⟩

theorem bufLoop_mem_size (E b h a : Nat) (mf : Option Nat) (n : Nat) :
    ∀ (i : Nat) (c c1 : Cache), bufLoop E b h a mf n i c = some c1 →
      (c1.slabMem h).mem_size = (c.slabMem h).mem_size := by
  induction n with
  | zero =>
    intro i c c1 hl
    unfold bufLoop at hl
    rw [← Option.some.inj hl]
  | succ n ih =>
    intro i c c1 hl
    unfold bufLoop at hl
    simp only at hl
    split at hl
    · exact absurd hl (by simp)
    · rw [ih _ _ _ hl]
      simp only [upd_same]

theorem ceil_mul (L n pg : Nat) (hpg : 0 < pg) (hd : pg ∣ L) (h1 : n ≤ L) (h2 : L < n + pg) :
    L = ((n + pg - 1) / pg) * pg := by
  obtain ⟨q, rfl⟩ := hd
  have hq : (n + pg - 1) / pg = q := by
    apply Nat.div_eq_of_lt_le
    · rw [Nat.mul_comm]; omega
    · rw [Nat.succ_mul, Nat.mul_comm]; omega
  rw [hq, Nat.mul_comm]

theorem growLarge_mem_size {c c1 : Cache} {g : GrowRes} {b hd a : Nat}
    (hm : g.mem = some b) (hh : g.hdr = some hd) (ha : g.arr = some a)
    (h : growLarge c g = .ok c1) : (c1.slabMem hd).mem_size = largeMemSize c := by
  unfold growLarge at h
  simp only [hm, hh, ha] at h
  split at h
  · exact absurd h (by simp)
  · split at h
    · exact absurd h (by simp)
    · split at h
      · exact absurd h (by simp)
      · next c2 hl =>
        have e := Except.ok.inj h
        rw [← e, ((move_to_front_listOnly c2 hd).pay hd).2.2.2.2, bufLoop_mem_size _ _ _ _ _ _ _ _ _ hl]
        show (upd c.slabMem hd _ hd).mem_size = _
        rw [upd_same]

/-- C18 (as amended): in the large regime (`M = 8`) with sizes that do not
wrap (`E * M + page < 2^64`), `grow_` on a block at `base` gives
the new slab a backing size of `⌈E * M / page⌉ * page`; record `i < M` of its
array has `buf = base + i * E`, lying with its `E` bytes inside the block, and
`slab` pointing to the new header; the free list of the slab runs through the
`M` records, each once; and `large_lookup_` maps each address `base + i * E`
to record `i`. -/
theorem C18_large_grow (pg S A : Nat) (ct dt : Bool) (c : Cache) (live : List Nat)
    (na nf : Nat) (w : (Cache.new pg S A ct dt).WF)
    (hs : (Cache.new pg S A ct dt).small = false)
    (hr : Reach (Cache.new pg S A ct dt) c live na nf) :
    c.slab_maxbuf = 8 ∧
    ∀ g base hd arr, GrowOK c g → g.mem = some base → g.hdr = some hd → g.arr = some arr →
      ∃ c1, grow_ c g = .ok c1 ∧ c1.slabs_ = hd ∧
        (∃ l, SlabList c l ∧ SlabList c1 (hd :: l)) ∧
        (c1.slabMem hd).bufcount = 0 ∧ (c1.slabMem hd).mem_base = base ∧
        (c1.slabMem hd).start = arr ∧
        (c1.slabMem hd).mem_size =
          ((c.effective_size * c.slab_maxbuf.toNat + c.pg - 1) / c.pg) * c.pg ∧
        (∀ i, i < c.slab_maxbuf.toNat →
          (c1.bufMem (bufAddr arr i)).buf = base + i * c.effective_size ∧
          base ≤ (c1.bufMem (bufAddr arr i)).buf ∧
          (c1.bufMem (bufAddr arr i)).buf + c.effective_size
            ≤ base + (c1.slabMem hd).mem_size ∧
          (c1.bufMem (bufAddr arr i)).slab = hd ∧
          mapFind c1.large_lookup_ (base + i * c.effective_size) = some (bufAddr arr i)) ∧
        Chain (fun a => (c1.bufMem a).next) (c1.slabMem hd).free_list
          ((List.range c.slab_maxbuf.toNat).reverse.map (bufAddr arr)) ∧
        ((List.range c.slab_maxbuf.toNat).reverse.map (bufAddr arr)).Nodup := by
  obtain ⟨G, hinv, _, hpar, _, _⟩ := reach_inv w (new_inv pg S A ct dt) hr
  have wc := hpar.WF w
  have hsc : c.small = false := by rw [hpar.small]; exact hs
  have hM8 : c.slab_maxbuf_ = 8 := by
    rw [hpar.slab_maxbuf_]
    have h1 : (Cache.new pg S A ct dt).small = decide (S ≤ pg / 8) := rfl
    rw [h1] at hs
    have h2 : ¬ (S ≤ pg / 8) := by simpa using hs
    show maxbufOf pg S A = 8
    unfold maxbufOf
    rw [if_neg h2]
  refine ⟨hM8, ?_⟩
  intro g base hd arr hg hm hh ha
  obtain ⟨c1, b, hd1, a1, hm1, hh1, ha1, hgl, hrep, hp1, _⟩ := growLarge_spec hinv.rep wc hsc hg
  rw [hm] at hm1
  rw [hh] at hh1
  rw [ha] at ha1
  have e1 := Option.some.inj hm1
  have e2 := Option.some.inj hh1
  have e3 := Option.some.inj ha1
  subst e1
  subst e2
  subst e3
  have hhead : c1.slabs_ = hd := hrep.list.head
  have ok := hrep.slabs _ (List.mem_cons_self _ _)
  have hs1 : c1.small = false := by rw [hp1.small]; exact hsc
  have w1 := hp1.WF wc
  have hms := growLarge_mem_size hm hh ha hgl
  obtain ⟨l1, l2, l3⟩ := largeMemSize_spec wc hsc
  have hpg := wc.pg_pos
  have hceil := ceil_mul _ _ _ (by omega) l3 l1 l2
  have hnx : c1.nextOf = fun a => (c1.bufMem a).next := by
    funext a
    exact nextOf_large hs1 a
  have hch := ok.chain
  rw [hnx] at hch
  have hmap : ∀ l : List Nat, l.map (nodeAddr c1
        { hdr := hd, base := base, arr := arr,
          fi := (List.range c.slab_maxbuf_.toNat).reverse, ui := [] })
      = l.map (bufAddr arr) :=
    fun l => List.map_congr_left (fun i _ => nodeAddr_large hs1 _ i)
  rw [hmap] at hch
  unfold Cache.slab_maxbuf Cache.effective_size
  refine ⟨c1, ?_, hhead, ⟨G.map SlabG.hdr, hinv.scan.1, hrep.list.slabList⟩, ?_, ok.l_base hs1,
    ok.l_start hs1, ?_, ?_, hch, ?_⟩
  · unfold grow_
    rw [hsc]
    exact hgl
  · rw [ok.count]
    rfl
  · rw [hms]
    exact hceil
  · intro i hi
    have hi1 : i < c1.slab_maxbuf_.toNat := by rw [hp1.slab_maxbuf_]; exact hi
    obtain ⟨r1, r2, r3⟩ := ok.l_rec hs1 i hi1
    have hsl : slotAddr c1 base i = base + i * c.effsize_ := by
      unfold slotAddr
      rw [hp1.effsize_]
    simp only at r1 r2 r3
    rw [hsl] at r1 r3
    have hend := slot_end wc base i hi
    rw [blockSize_large hsc] at hend
    unfold slotAddr at hend
    rw [r1, hms]
    exact ⟨rfl, by omega, hend, r2, r3⟩
  · apply List.Nodup.map (fun i j e => buf_inj arr i j e)
    exact List.nodup_reverse.2 (List.nodup_range _)

/-- Witness of C18: the first slab of the cache with `S = 1000` on the block
at 65536, with the header at 16777280 and the record array at 33554688. -/
theorem C18_large_grow_witness :
    (Cache.new 4096 1000 0 false false).WF ∧
    (Cache.new 4096 1000 0 false false).small = false ∧
    GrowOK (Cache.new 4096 1000 0 false false) (gres 1) ∧
    ∃ c1, grow_ (Cache.new 4096 1000 0 false false) (gres 1) = .ok c1 ∧
      c1.slabs_ = 16777280 ∧ (c1.slabMem 16777280).mem_size = 8192 ∧
      (∀ i, i < 8 →
        (c1.bufMem (bufAddr 33554688 i)).buf = 65536 + i * 1000 ∧
        (c1.bufMem (bufAddr 33554688 i)).slab = 16777280 ∧
        mapFind c1.large_lookup_ (65536 + i * 1000) = some (bufAddr 33554688 i)) ∧
      Chain (fun a => (c1.bufMem a).next) (c1.slabMem 16777280).free_list
        ((List.range 8).reverse.map (bufAddr 33554688)) := by
  have hg : GrowOK (Cache.new 4096 1000 0 false false) (gres 1) := growOKb_sound _ _ (by decide)
  obtain ⟨c1, k1, k2, _, _, _, _, k7, k8, k9, _⟩ :=
    (C18_large_grow 4096 1000 0 false false _ [] 0 0 wf_1000 (by decide) Reach.init).2
      (gres 1) 65536 16777280 33554688 hg rfl rfl rfl
  refine ⟨wf_1000, by decide, hg, c1, k1, k2, k7, ?_, k9⟩
  intro i hi
  obtain ⟨r1, _, _, r4, r5⟩ := k8 i hi
  exact ⟨r1, r4, r5⟩

/-- Counterexample to C18 as stated: `S = 2^61` is in the large regime with
`E = 2^61` and `M = 8`; the product `E * M` wraps to 0 in `std::size_t`, so
`grow_` requests and records a backing size of 0, not `⌈E * M / page⌉ * page`,
and record 1 gets `buf = base + 2^61`, outside the block. -/
theorem C18_counterexample :
    (Cache.new 4096 (2 ^ 61) 0 false false).small = false ∧
    (Cache.new 4096 (2 ^ 61) 0 false false).slab_maxbuf = 8 ∧
    (Cache.new 4096 (2 ^ 61) 0 false false).effective_size = 2 ^ 61 ∧
    GrowOK (Cache.new 4096 (2 ^ 61) 0 false false) (gres 1) ∧
    ∃ c1, grow_ (Cache.new 4096 (2 ^ 61) 0 false false) (gres 1) = .ok c1 ∧
      (c1.slabMem 16777280).mem_size = 0 ∧
      ¬ ((c1.slabMem 16777280).mem_size =
          ((2 ^ 61 * 8 + 4096 - 1) / 4096) * 4096) ∧
      (c1.bufMem (bufAddr 33554688 1)).buf = 65536 + 2 ^ 61 ∧
      ¬ ((c1.bufMem (bufAddr 33554688 1)).buf + 2 ^ 61
          ≤ 65536 + (c1.slabMem 16777280).mem_size) := by
  have hg : GrowOK (Cache.new 4096 (2 ^ 61) 0 false false) (gres 1) :=
    growOKb_sound _ _ (by decide)
  have h : (match grow_ (Cache.new 4096 (2 ^ 61) 0 false false) (gres 1) with
      | .ok c1 => decide ((c1.slabMem 16777280).mem_size = 0 ∧
          (c1.bufMem (bufAddr 33554688 1)).buf = 65536 + 2 ^ 61)
      | .error _ => false) = true := by decide
  refine ⟨by decide, by decide, by decide, hg, ?_⟩
  cases hgr : grow_ (Cache.new 4096 (2 ^ 61) 0 false false) (gres 1) with
  | error f =>
    rw [hgr] at h
    exact absurd h (by simp)
  | ok c1 =>
    rw [hgr] at h
    simp only [decide_eq_true_eq] at h
    refine ⟨c1, rfl, h.1, ?_, h.2, ?_⟩
    · rw [h.1]
      decide
    · rw [h.1, h.2]
      decide

/-- The invariant of reachable states together with the callback logs: the
live pointers and the addresses of the destructor log make up the addresses of
the constructor log. -/
theorem reach_logs {c0 c : Cache} {live : List Nat} {na nf : Nat} (w : c0.WF)
    (h0 : Inv c0 []) (hc : c0.hasCtor = true) (hd : c0.hasDtor = true)
    (hl : c0.ctorLog = [] ∧ c0.dtorLog = []) (hr : Reach c0 c live na nf) :
    ∃ G, Inv c G ∧ live.Perm (livePtrs c G) ∧ SameParams c0 c ∧
      (live ++ c.dtorLog.map Prod.fst).Perm (c.ctorLog.map Prod.fst) ∧
      (∀ e ∈ c.ctorLog, e.2 = c0.size_) ∧ (∀ e ∈ c.dtorLog, e.2 = c0.size_) := by
  induction hr with
  | init =>
    refine ⟨[], h0, List.Perm.refl _, SameParams.refl _, ?_, ?_, ?_⟩
    · rw [hl.1, hl.2]
      exact List.Perm.refl _
    · rw [hl.1]; intro e he; exact absurd he (List.not_mem_nil _)
    · rw [hl.2]; intro e he; exact absurd he (List.not_mem_nil _)
  | @alloc c c1 live na nf g1 g2 p _ hg1 hg2 ha ih =>
    obtain ⟨G, hinv, hperm, hpar, hlog, hcs, hds⟩ := ih
    obtain ⟨G1, k1, k2, k3, k4, k5⟩ := alloc_inv_live hinv (hpar.WF w) hperm hg1 hg2 ha
    have hcc : c.hasCtor = true := by rw [hpar.hasCtor]; exact hc
    have hcl : c1.ctorLog = c.ctorLog ++ [(p, c.size_)] := by
      rw [k5]
      unfold callCtor
      rw [if_pos hcc]
    refine ⟨G1, k1, k2, hpar.trans k3, ?_, ?_, ?_⟩
    · rw [k4, hcl, List.map_append, List.map_cons, List.map_nil, List.cons_append]
      exact (List.Perm.cons p hlog).trans (List.perm_append_singleton _ _).symm
    · intro e he
      rw [hcl, List.mem_append, List.mem_singleton] at he
      rcases he with m | m
      · exact hcs e m
      · rw [m]; exact hpar.size_
    · rw [k4]; exact hds
  | @free c c1 live na nf p _ hp hf ih =>
    obtain ⟨G, hinv, hperm, hpar, hlog, hcs, hds⟩ := ih
    obtain ⟨G1, k1, k2, k3, k4, k5⟩ := free_inv_live hinv (hpar.WF w) hperm hp hf
    have hdd : c.hasDtor = true := by rw [hpar.hasDtor]; exact hd
    have hdl : c1.dtorLog = c.dtorLog ++ [(p, c.size_)] := by
      rw [k5]
      unfold callDtor
      rw [if_pos hdd]
    refine ⟨G1, k1, k2, hpar.trans k3, ?_, ?_, ?_⟩
    · rw [k4, hdl, List.map_append, List.map_cons, List.map_nil]
      refine List.Perm.trans ?_ hlog
      have h1 : (live.erase p ++ (c.dtorLog.map Prod.fst ++ [p])).Perm
          (p :: (live.erase p ++ c.dtorLog.map Prod.fst)) := by
        rw [← List.append_assoc]
        exact List.perm_append_singleton _ _
      refine h1.trans ?_
      rw [← List.cons_append]
      exact List.Perm.append_right _ (List.perm_cons_erase hp).symm
    · rw [k4]; exact hcs
    · intro e he
      rw [hdl, List.mem_append, List.mem_singleton] at he
      rcases he with m | m
      · exact hds e m
      · rw [m]; exact hpar.size_

/-- C12: for a cache with both callbacks installed, `alloc` appends to the
constructor log the one entry `(p, S)` for the pointer `p` it returns and
leaves the destructor log alone; `free(p)` of a live pointer appends the one
entry `(p, S)` to the destructor log and leaves the constructor log alone,
and `free(nullptr)` logs nothing; so in every reachable state the multiset of
live pointers is the multiset of addresses of the constructor log minus that
of the destructor log. -/
theorem C12_callback_log (pg S A : Nat) (c : Cache) (live : List Nat)
    (na nf : Nat) (w : (Cache.new pg S A true true).WF)
    (hr : Reach (Cache.new pg S A true true) c live na nf) :
    (∀ g1 g2 p c1, GrowOK c g1 → (∀ cm, allocStage1 c g1 = .ok cm → GrowOK cm g2) →
      alloc c g1 g2 = .ok (p, c1) →
      c1.ctorLog = c.ctorLog ++ [(p, S)] ∧ c1.dtorLog = c.dtorLog) ∧
    (∀ p c1, p ∈ live → free c p = .ok c1 →
      p ≠ 0 ∧ c1.dtorLog = c.dtorLog ++ [(p, S)] ∧ c1.ctorLog = c.ctorLog) ∧
    free c 0 = .ok c ∧
    (Multiset.ofList live =
      Multiset.ofList (c.ctorLog.map Prod.fst) - Multiset.ofList (c.dtorLog.map Prod.fst)) ∧
    (∀ e ∈ c.ctorLog, e.2 = S) ∧ (∀ e ∈ c.dtorLog, e.2 = S) := by
  obtain ⟨G, hinv, hperm, hpar, hlog, hcs, hds⟩ :=
    reach_logs w (new_inv pg S A true true) rfl rfl ⟨rfl, rfl⟩ hr
  have wc := hpar.WF w
  have hsz : c.size_ = S := hpar.size_
  have hcc : c.hasCtor = true := hpar.hasCtor
  have hdd : c.hasDtor = true := hpar.hasDtor
  refine ⟨?_, ?_, ?_, ?_, hcs, hds⟩
  · intro g1 g2 p c1 hg1 hg2 ha
    obtain ⟨_, _, _, _, k4, k5⟩ := alloc_inv_live hinv wc hperm hg1 hg2 ha
    refine ⟨?_, k4⟩
    rw [k5]
    unfold callCtor
    rw [if_pos hcc, hsz]
  · intro p c1 hp hf
    obtain ⟨_, _, _, _, k4, k5⟩ := free_inv_live hinv wc hperm hp hf
    refine ⟨?_, ?_, k4⟩
    · obtain ⟨g, hg, i, _, e, _⟩ := live_slot hinv.rep p (hperm.mem_iff.1 hp)
      have := (hinv.rep.slabs g hg).base_ne
      rw [e]
      unfold slotAddr
      omega
    · rw [k5]
      unfold callDtor
      rw [if_pos hdd, hsz]
  · unfold free
    rw [if_pos rfl]
  · have h1 : Multiset.ofList (live ++ c.dtorLog.map Prod.fst)
        = Multiset.ofList (c.ctorLog.map Prod.fst) := Quotient.sound hlog
    rw [← h1, ← Multiset.coe_add]
    exact (add_tsub_cancel_right _ _).symm

/-- Witness of C12: `S = 1000` with both callbacks, nine calls of `alloc` and
`free` of the first pointer. -/
theorem C12_callback_log_witness :
    (Cache.new 4096 1000 0 true true).WF ∧
    ∃ c live, runOps (Cache.new 4096 1000 0 true true) []
        (allocOps 9 0 ++ [Op.free 72536]) = some (c, live) ∧
      live = [1186648, 65536, 66536, 67536, 68536, 69536, 70536, 71536] ∧
      (∀ p c1, p ∈ live → free c p = .ok c1 →
        p ≠ 0 ∧ c1.dtorLog = c.dtorLog ++ [(p, 1000)] ∧ c1.ctorLog = c.ctorLog) ∧
      (Multiset.ofList live =
        Multiset.ofList (c.ctorLog.map Prod.fst) - Multiset.ofList (c.dtorLog.map Prod.fst)) ∧
      (∀ e ∈ c.ctorLog, e.2 = 1000) ∧ (∀ e ∈ c.dtorLog, e.2 = 1000) := by
  have w : (Cache.new 4096 1000 0 true true).WF :=
    new_WF 4096 1000 0 true true 12 (by decide) (by decide) (by decide) (by decide)
      (by decide) (by decide) (by decide)
  refine ⟨w, ?_⟩
  obtain ⟨c, h1, h2⟩ := @run_reach (Cache.new 4096 1000 0 true true)
    (allocOps 9 0 ++ [Op.free 72536])
    [1186648, 65536, 66536, 67536, 68536, 69536, 70536, 71536] (by decide)
  obtain ⟨_, k2, _, k4, k5, k6⟩ := C12_callback_log 4096 1000 0 c _ _ _ w h2
  exact ⟨c, _, h1, rfl, k2, k4, k5, k6⟩

theorem bufLoop_none_iff (E b h a : Nat) (mf : Option Nat) (n : Nat) :
    ∀ (i : Nat) (c : Cache),
      bufLoop E b h a mf n i c = none ↔ (bufLoopThrow E b h a mf n i c).isSome = true := by
  induction n with
  | zero =>
    intro i c
    simp [bufLoop, bufLoopThrow]
  | succ n ih =>
    intro i c
    unfold bufLoop bufLoopThrow
    simp only
    by_cases e : mf = some i
    · rw [if_pos e, if_pos e]
      simp
    · rw [if_neg e, if_neg e]
      exact ih _ _

theorem growSmall_throw_iff (c : Cache) (g : GrowRes) :
    growSmall c g = .error .bad_alloc ↔ (growSmallThrow c g).isSome = true := by
  unfold growSmall growSmallThrow
  cases hm : g.mem with
  | none => simp
  | some mem =>
    simp only
    by_cases h0 : mem = 0
    · rw [if_pos h0, if_pos h0]
      simp
    · rw [if_neg h0, if_neg h0]
      cases linkLoop c.effsize_ (smallLast c mem) (smallLast c mem - mem) mem c.wordMem with
      | none => simp
      | some w1 =>
        simp only
        split <;> simp

theorem growLarge_throw_iff (c : Cache) (g : GrowRes) :
    growLarge c g = .error .bad_alloc ↔ (growLargeThrow c g).isSome = true := by
  unfold growLarge growLargeThrow
  cases hm : g.mem with
  | none => simp
  | some mem =>
    cases hh : g.hdr with
    | none =>
      simp only
      split <;> simp
    | some hd =>
      cases ha : g.arr with
      | none =>
        simp only
        split <;> simp
      | some arr =>
        simp only
        by_cases h0 : mem = 0
        · rw [if_pos h0, if_pos h0]
          simp
        · rw [if_neg h0, if_neg h0]
          by_cases hf : g.mapFail = some 0
          · rw [if_pos hf, if_pos hf]
            simp
          · rw [if_neg hf, if_neg hf]
            have := bufLoop_none_iff c.effsize_ mem hd arr g.mapFail (c.slab_maxbuf_ - 1).toNat 1
              (growLargeState c mem hd arr)
            cases hb : bufLoop c.effsize_ mem hd arr g.mapFail (c.slab_maxbuf_ - 1).toNat 1
                (growLargeState c mem hd arr) with
            | none =>
              simp only [true_iff]
              exact this.1 hb
            | some c2 =>
              simp only [false_iff, reduceCtorEq]
              intro hx
              have := this.2 hx
              rw [hb] at this
              exact absurd this (by simp)

theorem grow_throw_iff (c : Cache) (g : GrowRes) :
    grow_ c g = .error .bad_alloc ↔ (growThrow c g).isSome = true := by
  unfold grow_ growThrow
  split
  · exact growSmall_throw_iff c g
  · exact growLarge_throw_iff c g

theorem allocPop_not_bad (c : Cache) : allocPop c ≠ .error .bad_alloc := by
  unfold allocPop
  split <;> simp

theorem stage2_throw_iff (c1 : Cache) (g2 : GrowRes) :
    (match allocStage2 c1 g2 with
      | .error f => (.error f : Except Fault (Nat × Cache))
      | .ok c2 => allocPop c2) = .error .bad_alloc ↔
    (if (c1.slabMem c1.slabs_).bufcount = c1.slab_maxbuf_ then growThrow c1 g2
      else none).isSome = true := by
  unfold allocStage2
  by_cases hc : (c1.slabMem c1.slabs_).bufcount = c1.slab_maxbuf_
  · rw [if_pos hc, if_pos hc, ← grow_throw_iff]
    cases hg : grow_ c1 g2 with
    | error f =>
      simp only
      constructor
      · intro e
        rw [Except.error.inj e]
      · intro e
        rw [Except.error.inj e]
    | ok c2 =>
      simp only
      constructor
      · intro e
        exact absurd e (allocPop_not_bad c2)
      · intro e
        exact absurd e (by simp)
  · rw [if_neg hc, if_neg hc]
    simp only
    constructor
    · intro e
      exact absurd e (allocPop_not_bad c1)
    · intro e
      exact absurd e (by simp)

/-- The function `allocThrow` gives a state exactly when `alloc` throws
`std::bad_alloc`. -/
theorem alloc_throw_iff (c : Cache) (g1 g2 : GrowRes) :
    alloc c g1 g2 = .error .bad_alloc ↔ (allocThrow c g1 g2).isSome = true := by
  unfold alloc allocThrow allocStage1
  by_cases h0 : c.slabs_ = 0
  · rw [if_pos h0, if_pos h0]
    cases hg : grow_ c g1 with
    | error f =>
      simp only
      rw [← grow_throw_iff, hg]
      constructor
      · intro e
        rw [Except.error.inj e]
      · intro e
        rw [Except.error.inj e]
    | ok c1 =>
      simp only
      exact stage2_throw_iff c1 g2
  · rw [if_neg h0, if_neg h0]
    simp only
    have := stage2_throw_iff c g2
    by_cases hc : (c.slabMem c.slabs_).bufcount = c.slab_maxbuf_
    · rw [if_pos hc] at this ⊢
      exact this
    · rw [if_neg hc] at this ⊢
      exact this

theorem mapEmplace_keep (m : List (Nat × Nat)) (k v key : Nat)
    (h : mapFind m key ≠ none) : mapFind (mapEmplace m k v) key = mapFind m key := by
  unfold mapEmplace
  cases hk : mapFind m k with
  | some b => rfl
  | none =>
    simp only
    rw [mapFind_cons]
    by_cases e : k = key
    · rw [e] at hk
      exact absurd hk h
    · rw [if_neg e]

/-- What a throwing run of the loop of the large branch of `grow_` changes:
the header `h`, records of the array `a`, and `large_lookup_` at keys that
were absent. -/
theorem bufLoopThrow_spec (E b h a : Nat) (mf : Option Nat) (n : Nat) :
    ∀ (i : Nat) (c c1 : Cache), bufLoopThrow E b h a mf n i c = some c1 →
      (∀ x, x ≠ h → c1.slabMem x = c.slabMem x) ∧
      (∀ x, (∀ k, i ≤ k → k < i + n → x ≠ bufAddr a k) → c1.bufMem x = c.bufMem x) ∧
      (∀ key, mapFind c.large_lookup_ key ≠ none →
        mapFind c1.large_lookup_ key = mapFind c.large_lookup_ key) ∧
      SameParams c c1 ∧ c1.slabs_ = c.slabs_ ∧ c1.slabs_back_ = c.slabs_back_ ∧
      c1.wordMem = c.wordMem ∧ c1.ctorLog = c.ctorLog ∧ c1.dtorLog = c.dtorLog := by
  induction n with
  | zero =>
    intro i c c1 hl
    unfold bufLoopThrow at hl
    exact absurd hl (by simp)
  | succ n ih =>
    intro i c c1 hl
    unfold bufLoopThrow at hl
    simp only at hl
    split at hl
    · have e := Option.some.inj hl
      subst e
      refine ⟨fun x hx => upd_other _ _ _ _ hx, ?_, fun _ _ => rfl,
        ⟨rfl, rfl, rfl, rfl, rfl, rfl, rfl⟩, rfl, rfl, rfl, rfl, rfl⟩
      intro x hx
      exact upd_other _ _ _ _ (hx i (Nat.le_refl _) (by omega))
    · obtain ⟨k1, k2, k3, k4, k5, k6, k7, k8, k9⟩ := ih _ _ _ hl
      refine ⟨?_, ?_, ?_, ?_, k5, k6, k7, k8, k9⟩
      · intro x hx
        rw [k1 x hx]
        exact upd_other _ _ _ _ hx
      · intro x hx
        rw [k2 x (fun k hk1 hk2 => hx k (by omega) (by omega))]
        exact upd_other _ _ _ _ (hx i (Nat.le_refl _) (by omega))
      · intro key hkey
        have h1 := mapEmplace_keep c.large_lookup_
          (addSize b (mulSize i E)) (bufAddr a i) key hkey
        rw [k3 key (by
          show mapFind (mapEmplace c.large_lookup_ _ _) key ≠ none
          rw [h1]
          exact hkey)]
        exact h1
      · exact ⟨k4.pg, k4.size_, k4.effsize_, k4.small_threshold_, k4.slab_maxbuf_,
          k4.hasCtor, k4.hasDtor⟩

theorem bufLoop_bufcount (E b h a : Nat) (mf : Option Nat) (n : Nat) :
    ∀ (i : Nat) (c c1 : Cache), bufLoop E b h a mf n i c = some c1 →
      (c1.slabMem h).bufcount = (c.slabMem h).bufcount := by
  induction n with
  | zero =>
    intro i c c1 hl
    unfold bufLoop at hl
    rw [← Option.some.inj hl]
  | succ n ih =>
    intro i c c1 hl
    unfold bufLoop at hl
    simp only at hl
    split at hl
    · exact absurd hl (by simp)
    · rw [ih _ _ _ hl]
      simp only [upd_same]

theorem move_to_front_head (c : Cache) (x : Nat) : (move_to_front_ c x).slabs_ = x := by
  unfold move_to_front_
  by_cases h : c.slabs_ = x
  · rw [if_pos h]
    exact h
  · rw [if_neg h]
    simp only
    split <;> split <;> rfl

/-- The slab that a call of `grow_` has put at the head of the list has no
slot in use. -/
theorem grow_head_count {c c1 : Cache} {g : GrowRes} (h : grow_ c g = .ok c1) :
    (c1.slabMem c1.slabs_).bufcount = 0 := by
  unfold grow_ at h
  split at h
  · unfold growSmall at h
    split at h
    · exact absurd h (by simp)
    · next mem hm =>
      split at h
      · exact absurd h (by simp)
      · split at h
        · exact absurd h (by simp)
        · next w1 hl =>
          simp only at h
          split at h
          · next hh =>
            have e := Except.ok.inj h
            rw [← e, hh,
              ((move_to_front_listOnly (growSmallState c mem w1) (smallHdr c mem)).pay _).2.2.1]
            show (upd c.slabMem _ _ _).bufcount = 0
            rw [upd_same]
            rfl
          · exact absurd h (by simp)
  · unfold growLarge at h
    split at h
    · next mem hd arr hm hh ha =>
      split at h
      · exact absurd h (by simp)
      · split at h
        · exact absurd h (by simp)
        · split at h
          · exact absurd h (by simp)
          · next c2 hl =>
            have e := Except.ok.inj h
            rw [← e, move_to_front_head, ((move_to_front_listOnly c2 hd).pay hd).2.2.1,
              bufLoop_bufcount _ _ _ _ _ _ _ _ _ hl]
            show (upd c.slabMem hd _ hd).bufcount = 0
            rw [upd_same]
            rfl
    · exact absurd h (by simp)

theorem Kept.rfl_ (c : Cache) (l : List Nat) : Kept c c l :=
  ⟨SameParams.refl c, rfl, rfl, fun _ _ => rfl, rfl, fun _ _ _ _ _ => rfl, fun _ _ => rfl,
    rfl, rfl⟩

/-- A state that keeps the slabs of the list is described by the same
description. -/
theorem Kept.slabs {c c1 : Cache} {G : List SlabG} (h : Rep c G) (k : Kept c c1 (G.map SlabG.hdr)) :
    ListOK c1 (G.map SlabG.hdr) ∧ ∀ g ∈ G, SlabOK c1 g := by
  refine ⟨?_, ?_⟩
  · exact ListOK_congr_on h.list (fun a ha => by rw [k.hdrs a ha])
      (fun a ha => by rw [k.hdrs a ha]) k.head k.back
  · intro g hg
    have ok := h.slabs g hg
    have hm : g.hdr ∈ G.map SlabG.hdr := List.mem_map_of_mem _ hg
    have e := k.hdrs g.hdr hm
    refine SlabOK_frame ok k.same (by rw [e]) (by rw [e]) (by rw [e]) (by rw [e]) ?_ ?_
    · intro i hi
      unfold Cache.nextOf
      rw [k.same.small, k.words]
      cases hs : c.small with
      | true => rfl
      | false =>
        simp only [Bool.false_eq_true, if_false]
        rw [nodeAddr_large hs]
        have := k.recs hs g.hdr hm i (perm_range_lt ok.perm (List.mem_append_left _ hi))
        rw [ok.l_start hs] at this
        rw [this]
    · intro hs i hi
      have := k.recs hs g.hdr hm i hi
      rw [ok.l_start hs] at this
      rw [this]
      refine ⟨rfl, rfl, k.keys _ ?_⟩
      rw [(ok.l_rec hs i hi).2.2]
      simp

theorem Chain_unique (nx : Nat → Nat) (l1 : List Nat) :
    ∀ p l2, Chain nx p l1 → Chain nx p l2 → l1 = l2 := by
  induction l1 with
  | nil =>
    intro p l2 h1 h2
    cases l2 with
    | nil => rfl
    | cons y r =>
      have e1 : p = 0 := h1
      obtain ⟨e2, e3, _⟩ := h2
      exact absurd (e2.symm.trans e1) e3
  | cons x r ih =>
    intro p l2 h1 h2
    obtain ⟨a1, a2, a3⟩ := h1
    cases l2 with
    | nil =>
      have e1 : p = 0 := h2
      exact absurd (a1.symm.trans e1) a2
    | cons y r2 =>
      obtain ⟨b1, _, b3⟩ := h2
      have e : x = y := a1.symm.trans b1
      subst e
      rw [ih _ _ a3 b3]

theorem kept_large {c c1 : Cache} {G : List SlabG} {hd : Nat} (h : Rep c G)
    (hs : c.small = false) (hhd : hd ∉ c.hdrObjs) (p : SameParams c c1)
    (e1 : c1.slabs_ = c.slabs_) (e2 : c1.slabs_back_ = c.slabs_back_)
    (m1 : ∀ x, x ≠ hd → c1.slabMem x = c.slabMem x)
    (m2 : ∀ g ∈ G, ∀ i, i < c.slab_maxbuf_.toNat →
      c1.bufMem (bufAddr g.arr i) = c.bufMem (bufAddr g.arr i))
    (m3 : ∀ key, mapFind c.large_lookup_ key ≠ none →
      mapFind c1.large_lookup_ key = mapFind c.large_lookup_ key)
    (m4 : c1.wordMem = c.wordMem) (m5 : c1.ctorLog = c.ctorLog)
    (m6 : c1.dtorLog = c.dtorLog) : Kept c c1 (G.map SlabG.hdr) := by
  refine ⟨p, e1, e2, ?_, m4, ?_, m3, m5, m6⟩
  · intro x hx
    apply m1
    intro e
    rw [e] at hx
    exact hhd ((h.l_hdrs hs).mem_iff.2 hx)
  · intro _ x hx i hi
    obtain ⟨g, hg, rfl⟩ := List.mem_map.1 hx
    rw [(h.slabs g hg).l_start hs]
    exact m2 g hg i hi

theorem arr_fresh {c : Cache} {G : List SlabG} {arr : Nat} (h : Rep c G)
    (hs : c.small = false)
    (harr : ∀ a1 ∈ c.arrObjs,
      arr + c.slab_maxbuf_.toNat * sizeofBufCtl ≤ a1 ∨
      a1 + c.slab_maxbuf_.toNat * sizeofBufCtl ≤ arr)
    (g : SlabG) (hg : g ∈ G) (i k : Nat) (hi : i < c.slab_maxbuf_.toNat)
    (hk : k < c.slab_maxbuf_.toNat) : bufAddr g.arr i ≠ bufAddr arr k := by
  have hm : g.arr ∈ c.arrObjs := (h.l_arrs hs).mem_iff.2 (List.mem_map_of_mem _ hg)
  have hd := harr _ hm
  unfold bufAddr
  have h24 : sizeofBufCtl = 24 := rfl
  rw [h24] at hd ⊢
  omega

/-- A call of `grow_` that throws `std::bad_alloc` keeps the slabs of the
list; it leaves `large_lookup_` as it was unless the `emplace` that throws is
one of the loop. -/
theorem growThrow_kept {c c1 : Cache} {G : List SlabG} {g : GrowRes} (h : Rep c G)
    (w : c.WF) (hf : GrowFresh c g) (ht : growThrow c g = some c1) :
    Kept c c1 (G.map SlabG.hdr) ∧
    ((c.small = true ∨ g.mem = none ∨ g.mem = some 0 ∨ g.hdr = none ∨ g.arr = none ∨
        g.mapFail = some 0) → c1.large_lookup_ = c.large_lookup_) := by
  have hMp := w.M_pos
  unfold growThrow at ht
  cases hs : c.small with
  | true =>
    rw [hs] at ht
    simp only [if_true] at ht
    unfold growSmallThrow at ht
    have e : c1 = c := by
      split at ht
      · exact (Option.some.inj ht).symm
      · split at ht
        · exact (Option.some.inj ht).symm
        · exact absurd ht (by simp)
    subst e
    exact ⟨Kept.rfl_ _ _, fun _ => rfl⟩
  | false =>
    rw [hs] at ht
    simp only [Bool.false_eq_true, if_false] at ht
    unfold growLargeThrow at ht
    cases hm : g.mem with
    | none =>
      rw [hm] at ht
      have e := Option.some.inj ht
      subst e
      exact ⟨Kept.rfl_ _ _, fun _ => rfl⟩
    | some mem =>
      rw [hm] at ht
      simp only at ht
      by_cases h0 : mem = 0
      · rw [if_pos h0] at ht
        have e := Option.some.inj ht
        subst e
        exact ⟨Kept.rfl_ _ _, fun _ => rfl⟩
      · rw [if_neg h0] at ht
        cases hh : g.hdr with
        | none =>
          rw [hh] at ht
          have e := Option.some.inj ht
          subst e
          exact ⟨⟨⟨rfl, rfl, rfl, rfl, rfl, rfl, rfl⟩, rfl, rfl, fun _ _ => rfl, rfl,
            fun _ _ _ _ _ => rfl, fun _ _ => rfl, rfl, rfl⟩, fun _ => rfl⟩
        | some hd =>
          rw [hh] at ht
          simp only at ht
          obtain ⟨_, hhd⟩ := hf.1 hd hh
          cases ha : g.arr with
          | none =>
            rw [ha] at ht
            have e := Option.some.inj ht
            subst e
            refine ⟨kept_large h hs hhd ⟨rfl, rfl, rfl, rfl, rfl, rfl, rfl⟩ rfl rfl
              (fun x hx => upd_other _ _ _ _ hx) (fun _ _ _ _ => rfl) (fun _ _ => rfl)
              rfl rfl rfl, fun _ => rfl⟩
          | some arr =>
            rw [ha] at ht
            simp only at ht
            obtain ⟨_, harr⟩ := hf.2 arr ha
            have hfr := arr_fresh h hs harr
            by_cases hmf : g.mapFail = some 0
            · rw [if_pos hmf] at ht
              have e := Option.some.inj ht
              subst e
              refine ⟨kept_large h hs hhd ⟨rfl, rfl, rfl, rfl, rfl, rfl, rfl⟩ rfl rfl
                (fun x hx => upd_other _ _ _ _ hx) ?_ (fun _ _ => rfl) rfl rfl rfl,
                fun _ => rfl⟩
              intro g2 hg2 i hi
              apply upd_other
              have := hfr g2 hg2 i 0 hi hMp
              simpa [bufAddr] using this
            · rw [if_neg hmf] at ht
              obtain ⟨k1, k2, k3, k4, k5, k6, k7, k8, k9⟩ :=
                bufLoopThrow_spec _ _ _ _ _ _ _ _ _ ht
              have hn : (c.slab_maxbuf_ - 1).toNat = c.slab_maxbuf_.toNat - 1 := by
                have := w.maxbuf_pos
                omega
              refine ⟨kept_large h hs hhd ((growLargeState_params c mem hd arr).trans k4)
                k5 k6 ?_ ?_ ?_ k7 k8 k9, ?_⟩
              · intro x hx
                rw [k1 x hx]
                exact upd_other _ _ _ _ hx
              · intro g2 hg2 i hi
                rw [k2 _ (fun k hk1 hk2 => hfr g2 hg2 i k hi (by omega))]
                apply upd_other
                have := hfr g2 hg2 i 0 hi hMp
                simpa [bufAddr] using this
              · intro key hkey
                have h1 := mapEmplace_keep c.large_lookup_ mem arr key hkey
                rw [k3 key (by
                  show mapFind (mapEmplace c.large_lookup_ mem arr) key ≠ none
                  rw [h1]
                  exact hkey)]
                exact h1
              · intro hc
                rcases hc with e | e | e | e | e | e
                · exact absurd e (by simp)
                · exact absurd e (by simp)
                · exact absurd (Option.some.inj e) h0
                · exact absurd e (by simp)
                · exact absurd e (by simp)
                · exact absurd e hmf

theorem bufLoop_params (E b h a : Nat) (mf : Option Nat) (n : Nat) :
    ∀ (i : Nat) (c c1 : Cache), bufLoop E b h a mf n i c = some c1 → SameParams c c1 := by
  induction n with
  | zero =>
    intro i c c1 hl
    unfold bufLoop at hl
    rw [← Option.some.inj hl]
    exact SameParams.refl c
  | succ n ih =>
    intro i c c1 hl
    unfold bufLoop at hl
    simp only at hl
    split at hl
    · exact absurd hl (by simp)
    · have := ih _ _ _ hl
      exact ⟨this.pg, this.size_, this.effsize_, this.small_threshold_, this.slab_maxbuf_,
        this.hasCtor, this.hasDtor⟩

/-- A call of `grow_` leaves the size parameters alone. -/
theorem grow_params {c c1 : Cache} {g : GrowRes} (h : grow_ c g = .ok c1) :
    SameParams c c1 := by
  unfold grow_ at h
  split at h
  · unfold growSmall at h
    split at h
    · exact absurd h (by simp)
    · next mem hm =>
      split at h
      · exact absurd h (by simp)
      · split at h
        · exact absurd h (by simp)
        · next w1 hl =>
          simp only at h
          split at h
          · have e := Except.ok.inj h
            rw [← e]
            exact (growSmallState_params c mem w1).trans (move_to_front_listOnly _ _).params
          · exact absurd h (by simp)
  · unfold growLarge at h
    split at h
    · next mem hd arr hm hh ha =>
      split at h
      · exact absurd h (by simp)
      · split at h
        · exact absurd h (by simp)
        · split at h
          · exact absurd h (by simp)
          · next c2 hl =>
            have e := Except.ok.inj h
            rw [← e]
            exact ((growLargeState_params c mem hd arr).trans
              (bufLoop_params _ _ _ _ _ _ _ _ _ hl)).trans (move_to_front_listOnly _ _).params
    · exact absurd h (by simp)

/-- The call of `grow_` that makes `alloc` throw `std::bad_alloc` is made in
the state in which `alloc` was called, with the answers `g1` when the slab
list is empty and `g2` otherwise. -/
theorem allocThrow_eq {c c1 : Cache} {g1 g2 : GrowRes} (w : c.WF)
    (h : allocThrow c g1 g2 = some c1) :
    growThrow c (if c.slabs_ = 0 then g1 else g2) = some c1 := by
  unfold allocThrow at h
  by_cases h0 : c.slabs_ = 0
  · rw [if_pos h0] at h ⊢
    cases hg : grow_ c g1 with
    | error f =>
      rw [hg] at h
      exact h
    | ok c2 =>
      rw [hg] at h
      simp only at h
      have hc := grow_head_count hg
      have hp := grow_params hg
      have hM := w.maxbuf_pos
      rw [if_neg (by rw [hc, hp.slab_maxbuf_]; omega)] at h
      exact absurd h (by simp)
  · rw [if_neg h0] at h ⊢
    split at h
    · exact h
    · exact absurd h (by simp)

/-- C15 (as amended): when `alloc` throws `std::bad_alloc` in a reachable
state, the slab list, the header of every slab of the list with its free list
and its `bufcount`, the records of these slabs and the entries that
`large_lookup_` had are as before the call; and the data members of the cache
equal those before the call when the request that failed is the page-aligned
allocation, the allocation of the header or of the record array, or the
first insertion into the side map. -/
theorem C15_oom_atomicity (pg S A : Nat) (ct dt : Bool) (c : Cache) (live : List Nat)
    (na nf : Nat) (w : (Cache.new pg S A ct dt).WF)
    (hr : Reach (Cache.new pg S A ct dt) c live na nf) (g1 g2 : GrowRes)
    (hf : GrowFresh c (if c.slabs_ = 0 then g1 else g2))
    (hb : alloc c g1 g2 = .error .bad_alloc) :
    ∃ c1, allocThrow c g1 g2 = some c1 ∧
      ∃ l, SlabList c l ∧ SlabList c1 l ∧ Kept c c1 l ∧
        (∀ h ∈ l, (c1.slabMem h).bufcount = (c.slabMem h).bufcount ∧
          (c1.slabMem h).free_list = (c.slabMem h).free_list ∧
          ∀ L, Chain c.nextOf (c.slabMem h).free_list L →
            Chain c1.nextOf (c1.slabMem h).free_list L) ∧
        (∀ g, g = (if c.slabs_ = 0 then g1 else g2) →
          (c.small = true ∨ g.mem = none ∨ g.mem = some 0 ∨ g.hdr = none ∨ g.arr = none ∨
            g.mapFail = some 0) →
          c1.members = c.members) := by
  obtain ⟨G, hinv, _, hpar, _, _⟩ := reach_inv w (new_inv pg S A ct dt) hr
  have wc := hpar.WF w
  have hsome := (alloc_throw_iff c g1 g2).1 hb
  obtain ⟨c1, h1⟩ := Option.isSome_iff_exists.1 hsome
  have h2 := allocThrow_eq wc h1
  obtain ⟨hk, hlk⟩ := growThrow_kept hinv.rep wc hf h2
  obtain ⟨k1, k2⟩ := hk.slabs hinv.rep
  refine ⟨c1, h1, G.map SlabG.hdr, hinv.scan.1, k1.slabList, hk, ?_, ?_⟩
  · intro h hh
    have e := hk.hdrs h hh
    refine ⟨by rw [e], by rw [e], ?_⟩
    intro L hL
    obtain ⟨g, hg, rfl⟩ := List.mem_map.1 hh
    have c0 := (hinv.rep.slabs g hg).chain
    have c1' := (k2 g hg).chain
    have hmap : g.fi.map (nodeAddr c1 g) = g.fi.map (nodeAddr c g) :=
      List.map_congr_left (fun i _ => hk.same.nodeAddr g i)
    rw [hmap] at c1'
    have := Chain_unique _ _ _ _ hL c0
    rw [this]
    exact c1'
  · intro g hg hc
    subst hg
    have hl := hlk hc
    unfold Cache.members
    rw [hk.same.size_, hk.same.effsize_, hk.same.small_threshold_, hk.same.slab_maxbuf_,
      hk.same.hasCtor, hk.same.hasDtor, hk.head, hk.back, hl]

/-- Witness of C15: `S = 1000` after eight calls of `alloc` (the only slab is
full); in the next call `posix_memalign` delivers and `new Slab()` throws. -/
theorem C15_oom_atomicity_witness :
    (Cache.new 4096 1000 0 false false).WF ∧
    ∃ c live, runOps (Cache.new 4096 1000 0 false false) [] (allocOps 8 0) = some (c, live) ∧
      alloc c { mem := some 1310720, hdr := none, arr := none, mapFail := none }
        { mem := some 1310720, hdr := none, arr := none, mapFail := none }
        = .error .bad_alloc ∧
      ∃ c1, allocThrow c { mem := some 1310720, hdr := none, arr := none, mapFail := none }
          { mem := some 1310720, hdr := none, arr := none, mapFail := none } = some c1 ∧
        ∃ l, SlabList c l ∧ SlabList c1 l ∧ Kept c c1 l ∧ c1.members = c.members := by
  refine ⟨wf_1000, ?_⟩
  obtain ⟨c, h1, h2⟩ := @run_reach (Cache.new 4096 1000 0 false false) (allocOps 8 0)
    [65536, 66536, 67536, 68536, 69536, 70536, 71536, 72536] (by decide)
  have hev : (runOps (Cache.new 4096 1000 0 false false) [] (allocOps 8 0)).map
      (fun r => (allocThrow r.1 { mem := some 1310720, hdr := none, arr := none, mapFail := none }
        { mem := some 1310720, hdr := none, arr := none, mapFail := none }).isSome)
      = some true := by decide
  rw [h1] at hev
  have hthrow := Option.some.inj hev
  simp only at hthrow
  have hb := (alloc_throw_iff c _ _).2 hthrow
  have hfresh : GrowFresh c (if c.slabs_ = 0
      then { mem := some 1310720, hdr := none, arr := none, mapFail := none }
      else { mem := some 1310720, hdr := none, arr := none, mapFail := none }) := by
    rw [ite_self]
    exact ⟨fun h e => absurd e (by simp), fun a e => absurd e (by simp)⟩
  obtain ⟨c1, k1, l, k2, k3, k4, _, k6⟩ :=
    C15_oom_atomicity 4096 1000 0 false false c _ _ _ wf_1000 h2 _ _ hfresh hb
  exact ⟨c, _, h1, hb, c1, k1, l, k2, k3, k4,
    k6 _ rfl (Or.inr (Or.inr (Or.inr (Or.inl (by rw [ite_self])))))⟩

/-- Counterexample to C15 as stated: the first call of `alloc` on the cache
with `S = 1000`, in which every allocation of `grow_` succeeds and the second
insertion into `large_lookup_` throws.  The call throws `std::bad_alloc` and
leaves the entry of the first insertion in the side map, which was empty. -/
theorem C15_counterexample :
    GrowFresh (Cache.new 4096 1000 0 false false)
      { mem := some 65536, hdr := some 16777280, arr := some 33554688, mapFail := some 1 } ∧
    alloc (Cache.new 4096 1000 0 false false)
      { mem := some 65536, hdr := some 16777280, arr := some 33554688, mapFail := some 1 }
      (gres 2) = .error .bad_alloc ∧
    (Cache.new 4096 1000 0 false false).large_lookup_ = [] ∧
    ∃ c1, allocThrow (Cache.new 4096 1000 0 false false)
        { mem := some 65536, hdr := some 16777280, arr := some 33554688, mapFail := some 1 }
        (gres 2) = some c1 ∧
      c1.large_lookup_ = [(65536, 33554688)] ∧
      ¬ (c1.large_lookup_ = (Cache.new 4096 1000 0 false false).large_lookup_) := by
  have hev : (allocThrow (Cache.new 4096 1000 0 false false)
      { mem := some 65536, hdr := some 16777280, arr := some 33554688, mapFail := some 1 }
      (gres 2)).map (fun r => r.large_lookup_) = some [(65536, 33554688)] := by decide
  rw [Option.map_eq_some'] at hev
  obtain ⟨c1, h1, h2⟩ := hev
  refine ⟨⟨fun h _ => ⟨?_, by simp [Cache.new]⟩, fun a _ => ⟨?_, by simp [Cache.new]⟩⟩, ?_, rfl,
    c1, h1, h2, ?_⟩
  · intro e
    subst e
    rename_i e2
    exact absurd e2 (by simp)
  · intro e
    subst e
    rename_i e2
    exact absurd e2 (by simp)
  · apply (alloc_throw_iff _ _ _).2
    rw [h1]
    rfl
  · rw [h2]
    simp [Cache.new]

/-! ### Stores of the client into live objects -/

/-- A slot on a free list and a live pointer are `E` bytes apart. -/
theorem free_live_sep {c : Cache} {G : List SlabG} (h : Rep c G) (w : c.WF) (g : SlabG)
    (hg : g ∈ G) (i : Nat) (hi : i ∈ g.fi) (p : Nat) (hp : p ∈ livePtrs c G) :
    slotAddr c g.base i + c.effsize_ ≤ p ∨ p + c.effsize_ ≤ slotAddr c g.base i := by
  obtain ⟨G1, g1, G2, j, hG, hj, e⟩ := mem_livePtrs hp
  subst hG
  have ok := h.slabs g hg
  have hiM : i < c.slab_maxbuf_.toNat := perm_range_lt ok.perm (List.mem_append_left _ hi)
  have ok1 := h.slabs g1 (by simp)
  have hjM : j < c.slab_maxbuf_.toNat := perm_range_lt ok1.perm (List.mem_append_right _ hj)
  rw [List.mem_append, List.mem_cons] at hg
  have hcases : g = g1 ∨ g ∈ G1 ++ G2 := by
    rcases hg with a | a | a
    · exact Or.inr (List.mem_append_left _ a)
    · exact Or.inl a
    · exact Or.inr (List.mem_append_right _ a)
  rw [e]
  rcases hcases with a | a
  · subst a
    have hnd : (g.fi ++ g.ui).Nodup := ok.perm.nodup_iff.2 (List.nodup_range _)
    have hne : i ≠ j := fun e2 => (List.nodup_append.1 hnd).2.2 hi (e2 ▸ hj)
    rcases Nat.lt_or_gt_of_ne hne with l | l
    · exact Or.inl (slot_sep c g.base i j l)
    · exact Or.inr (slot_sep c g.base j i l)
  · have hd := (Rep_distinct h g a).2.1
    have := slot_block_ne w g1.base g.base j i hjM hiM hd
    omega

/-- New contents of the words inside the slots of live pointers leave the
description of the slabs as it is. -/
theorem words_inv {c : Cache} {G : List SlabG} {live : List Nat} (hinv : Inv c G) (w : c.WF)
    (hperm : live.Perm (livePtrs c G)) (wm : Nat → Nat)
    (hw : ∀ a, (∀ p ∈ live, ¬ (p ≤ a ∧ a < p + c.effsize_)) → wm a = c.wordMem a) :
    Inv (setWords c wm) G := by
  have hp : SameParams c (setWords c wm) := ⟨rfl, rfl, rfl, rfl, rfl, rfl, rfl⟩
  have h := hinv.rep
  refine ⟨⟨ListOK_congr h.list (fun _ => rfl) (fun _ => rfl) rfl rfl, ?_, h.blocks, h.disj,
    h.s_map, h.l_hdrs, h.l_arrs, h.l_adisj, h.l_keys⟩, hinv.order, hinv.used⟩
  intro g hg
  refine SlabOK_frame (h.slabs g hg) hp rfl rfl rfl rfl ?_ (fun _ _ _ => ⟨rfl, rfl, rfl⟩)
  intro i hi
  unfold Cache.nextOf
  show (if c.small = true then wm (nodeAddr c g i) else _) = _
  cases hs : c.small with
  | false => rfl
  | true =>
    simp only [if_true]
    rw [nodeAddr_small hs]
    apply hw
    intro p hp2 hcon
    have := free_live_sep h w g hg i hi p (hperm.mem_iff.1 hp2)
    have hE := w.eff_pos
    omega

theorem fieldCell_in (p j E : Nat) (h : sizeofInt * j + sizeofInt ≤ E) :
    p ≤ fieldCell p j ∧ fieldCell p j < p + E := by
  unfold fieldCell
  have h4 : sizeofInt = 4 := rfl
  have h8 : sizeofPtr = 8 := rfl
  rw [h4] at h
  rw [h8]
  have := Nat.mul_div_le j 2
  omega

theorem writeField_other (w : Nat → Nat) (p j v a : Nat) (h : a ≠ fieldCell p j) :
    writeField w p j v a = w a := by
  unfold writeField
  exact upd_other _ _ _ _ h

/-- A store of the client into a field of a live object keeps the invariant
with the same description. -/
theorem store_inv {c : Cache} {G : List SlabG} {live : List Nat} (hinv : Inv c G) (w : c.WF)
    (hperm : live.Perm (livePtrs c G)) (p j v : Nat) (hp : p ∈ live)
    (hj : sizeofInt * j + sizeofInt ≤ c.effsize_) : Inv (clientStore c p j v) G := by
  unfold clientStore
  apply words_inv hinv w hperm
  intro a ha
  apply writeField_other
  intro e
  have := fieldCell_in p j c.effsize_ hj
  rw [← e] at this
  exact ha p hp this

/-! ### `alloc` and `free` in terms of the description -/

theorem pop_inv_G {c : Cache} {gh : SlabG} {R : List SlabG} (hrep : Rep c (gh :: R))
    (w : c.WF) (hlt : (gh.ui.length : Int) < c.slab_maxbuf_)
    (hRo : Ordered c.slab_maxbuf_ (usedCounts R)) (hRu : ∀ g ∈ R, g.ui ≠ []) :
    ∃ c1, allocPop c = .ok (popPtrG c (gh :: R), c1) ∧
      Inv c1 (popG c.slab_maxbuf_ (gh :: R)) ∧ SameParams c c1 ∧
      (livePtrs c (popG c.slab_maxbuf_ (gh :: R))).Perm
        (popPtrG c (gh :: R) :: livePtrs c (gh :: R)) := by
  obtain ⟨i, fi1, c1, hfi, _, hpop, hinv1, hpar, _⟩ := pop_inv hrep w hlt hRo hRu
  have e1 : popPtrG c (gh :: R) = slotAddr c gh.base i := by
    simp only [popPtrG, hfi]
  have e2 : popG c.slab_maxbuf_ (gh :: R) =
      (if ((gh.ui.length + 1 : Nat) : Int) = c.slab_maxbuf_
         then R ++ [{ gh with fi := fi1, ui := i :: gh.ui }]
         else { gh with fi := fi1, ui := i :: gh.ui } :: R) := by
    simp only [popG, hfi]
  rw [e1, e2]
  refine ⟨c1, hpop, hinv1, hpar, ?_⟩
  have hnew : livePtrs c ({ gh with fi := fi1, ui := i :: gh.ui } :: R)
      = slotAddr c gh.base i :: livePtrs c (gh :: R) := by
    rw [livePtrs_cons, livePtrs_cons]
    rfl
  rw [← hnew]
  apply livePtrs_perm
  split
  · exact List.perm_append_comm
  · exact List.Perm.refl _

/-- In the small regime `alloc` returns the pointer and reaches a state with
the description that `stageG` and `popG` compute. -/
theorem alloc_small_explicit {c : Cache} {G : List SlabG} {g1 g2 : GrowRes} (hinv : Inv c G)
    (w : c.WF) (hs : c.small = true) (hg1 : GrowOK c g1)
    (hg2 : ∀ cm, allocStage1 c g1 = .ok cm → GrowOK cm g2) :
    ∃ c1, alloc c g1 g2 = .ok (popPtrG c (stageG c G g1 g2), c1) ∧
      Inv c1 (popG c.slab_maxbuf_ (stageG c G g1 g2)) ∧ SameParams c c1 ∧
      (livePtrs c (popG c.slab_maxbuf_ (stageG c G g1 g2))).Perm
        (popPtrG c (stageG c G g1 g2) :: livePtrs c G) := by
  have hMp := w.M_pos
  have hMc := w.M_cast
  have hgrow : ∀ g, GrowOK c g →
      ∃ c1, grow_ c g = .ok c1 ∧ Rep c1 (newSlabG c g :: G) ∧ SameParams c c1 := by
    intro g hg
    obtain ⟨c1, b, hm1, hgs, hrep, hp1, _⟩ := growSmall_spec hinv.rep w hs hg
    refine ⟨c1, ?_, ?_, hp1⟩
    · unfold grow_
      rw [hs]
      exact hgs
    · unfold newSlabG
      rw [hm1]
      exact hrep
  have hnew : ∀ g c1, grow_ c g = .ok c1 → Rep c1 (newSlabG c g :: G) → SameParams c c1 →
      (∀ g1 g2, alloc c g1 g2 = allocPop c1 →
        ∃ c2, alloc c g1 g2 = .ok (popPtrG c (newSlabG c g :: G), c2) ∧
        Inv c2 (popG c.slab_maxbuf_ (newSlabG c g :: G)) ∧ SameParams c c2 ∧
        (livePtrs c (popG c.slab_maxbuf_ (newSlabG c g :: G))).Perm
          (popPtrG c (newSlabG c g :: G) :: livePtrs c G)) := by
    intro g c1 _ hrep hp1 g1 g2 hal
    have hlt : ((newSlabG c g).ui.length : Int) < c1.slab_maxbuf_ := by
      rw [hp1.slab_maxbuf_]
      show ((([] : List Nat).length : Nat) : Int) < _
      simp only [List.length_nil]
      omega
    have hRo : Ordered c1.slab_maxbuf_ (usedCounts G) := by
      rw [hp1.slab_maxbuf_]
      exact hinv.order
    obtain ⟨c2, k1, k2, k3, k4⟩ := pop_inv_G hrep (hp1.WF w) hlt hRo hinv.used
    have ep : popPtrG c1 (newSlabG c g :: G) = popPtrG c (newSlabG c g :: G) := by
      simp only [popPtrG]
      split
      · rfl
      · exact hp1.slotAddr _ _
    rw [ep] at k1
    rw [hp1.slab_maxbuf_] at k2
    rw [ep, hp1.slab_maxbuf_] at k4
    rw [livePtrs_congr hp1, livePtrs_congr hp1] at k4
    refine ⟨c2, by rw [hal]; exact k1, k2, hp1.trans k3, ?_⟩
    have e0 : livePtrs c (newSlabG c g :: G) = livePtrs c G := by
      rw [livePtrs_cons]
      rfl
    rw [e0] at k4
    exact k4
  cases G with
  | nil =>
    have h0 : c.slabs_ = 0 := hinv.rep.list.head
    obtain ⟨c1, hgr, hrep, hp1⟩ := hgrow g1 hg1
    have hcnt : (c1.slabMem c1.slabs_).bufcount ≠ c1.slab_maxbuf_ := by
      rw [grow_head_count hgr, hp1.slab_maxbuf_]
      omega
    exact hnew g1 c1 hgr hrep hp1 g1 g2 (alloc_of_empty g1 g2 h0 hgr hcnt)
  | cons g R =>
    have hh : c.slabs_ = g.hdr := hinv.rep.list.head
    have h0 : c.slabs_ ≠ 0 := by
      rw [hh]
      exact hinv.rep.list.nonnull _ (by simp)
    have ok := hinv.rep.slabs g (by simp)
    have s1 : allocStage1 c g1 = .ok c := by
      unfold allocStage1
      rw [if_neg h0]
    by_cases hf : (g.ui.length : Int) = c.slab_maxbuf_
    · have hfull : (c.slabMem c.slabs_).bufcount = c.slab_maxbuf_ := by
        rw [hh, ok.count]
        exact hf
      obtain ⟨c1, hgr, hrep, hp1⟩ := hgrow g2 (hg2 c s1)
      have e : stageG c (g :: R) g1 g2 = newSlabG c g2 :: g :: R := by
        simp only [stageG, if_pos hf]
      rw [e]
      exact hnew g2 c1 hgr hrep hp1 g1 g2 (alloc_of_full g1 g2 h0 hfull hgr)
    · have e : stageG c (g :: R) g1 g2 = g :: R := by
        simp only [stageG, if_neg hf]
      rw [e]
      have hcn : (c.slabMem c.slabs_).bufcount ≠ c.slab_maxbuf_ := by
        rw [hh, ok.count]
        exact hf
      have hlt : (g.ui.length : Int) < c.slab_maxbuf_ := by
        have := ui_le ok w
        omega
      have hRo : Ordered c.slab_maxbuf_ (usedCounts R) := by
        have := hinv.order
        rw [usedCounts_cons] at this
        exact Ordered_sublist this (List.sublist_cons_self _ _)
      obtain ⟨c2, k1, k2, k3, k4⟩ := pop_inv_G hinv.rep w hlt hRo
        (fun x hx => hinv.used x (List.mem_cons_of_mem _ hx))
      exact ⟨c2, by rw [alloc_nogrow g1 g2 h0 hcn]; exact k1, k2, k3, k4⟩

theorem runW_alloc {c : Cache} {live ptrs : List Nat} {g1 g2 : GrowRes} {r : List OpW}
    {res : Cache × List Nat × List Nat}
    (h : runW c live ptrs (OpW.alloc g1 g2 :: r) = some res) :
    GrowOK c g1 ∧ (∀ cm, allocStage1 c g1 = .ok cm → GrowOK cm g2) ∧
    ∃ p c1, alloc c g1 g2 = .ok (p, c1) ∧ runW c1 (p :: live) (p :: ptrs) r = some res := by
  rw [runW] at h
  split at h
  · next hok =>
    rw [Bool.and_eq_true] at hok
    have hg1 := growOKb_sound c g1 hok.1
    have hg2 : ∀ cm, allocStage1 c g1 = .ok cm → GrowOK cm g2 := by
      intro cm hcm
      have := hok.2
      rw [hcm] at this
      exact growOKb_sound cm g2 this
    split at h
    · next p c1 ha => exact ⟨hg1, hg2, p, c1, ha, h⟩
    · exact absurd h (by simp)
  · exact absurd h (by simp)

theorem runW_free {c : Cache} {live ptrs : List Nat} {p : Nat} {r : List OpW}
    {res : Cache × List Nat × List Nat}
    (h : runW c live ptrs (OpW.free p :: r) = some res) :
    p ∈ live ∧ ∃ c1, free c p = .ok c1 ∧ runW c1 (live.erase p) ptrs r = some res := by
  rw [runW] at h
  split at h
  · next hp =>
    split at h
    · next c1 hf => exact ⟨hp, c1, hf, h⟩
    · exact absurd h (by simp)
  · exact absurd h (by simp)

theorem runW_store {c : Cache} {live ptrs : List Nat} {p j v : Nat} {r : List OpW}
    {res : Cache × List Nat × List Nat}
    (h : runW c live ptrs (OpW.store p j v :: r) = some res) :
    p ∈ live ∧ sizeofInt * j + sizeofInt ≤ c.effsize_ ∧
    runW (clientStore c p j v) live ptrs r = some res := by
  rw [runW] at h
  split at h
  · next hp => exact ⟨hp.1, hp.2, h⟩
  · exact absurd h (by simp)

theorem stageG_congr {c c1 : Cache} (h : SameParams c c1) (G : List SlabG) (g1 g2 : GrowRes) :
    stageG c1 G g1 g2 = stageG c G g1 g2 := by
  unfold stageG newSlabG smallHdr
  rw [h.slab_maxbuf_, h.pg]

theorem popPtrG_congr {c c1 : Cache} (h : SameParams c c1) (L : List SlabG) :
    popPtrG c1 L = popPtrG c L := by
  unfold popPtrG slotAddr
  rw [h.effsize_]

theorem clientStore_params (c : Cache) (p j v : Nat) : SameParams c (clientStore c p j v) :=
  ⟨rfl, rfl, rfl, rfl, rfl, rfl, rfl⟩

theorem clientStore_live (c : Cache) (p j v : Nat) (G : List SlabG) :
    livePtrs (clientStore c p j v) G = livePtrs c G :=
  livePtrs_congr (clientStore_params c p j v) G

/-- The call `free(p)` for the slot `i` in use of the slab `g`, with the
description of the state it reaches and its live pointers. -/
theorem free_explicit {c : Cache} {G1 G2 : List SlabG} {g : SlabG} {i : Nat} {live : List Nat}
    (hinv : Inv c (G1 ++ g :: G2)) (w : c.WF) (hi : i ∈ g.ui)
    (hperm : live.Perm (livePtrs c (G1 ++ g :: G2))) (M : Int) (hM : c.slab_maxbuf_ = M) :
    ∃ c1, free c (slotAddr c g.base i) = .ok c1 ∧
      Inv c1 (if g.ui.erase i = [] then G1 ++ G2
              else if (g.ui.length : Int) = M
                then { g with fi := i :: g.fi, ui := g.ui.erase i } :: (G1 ++ G2)
                else G1 ++ { g with fi := i :: g.fi, ui := g.ui.erase i } :: G2) ∧
      SameParams c c1 ∧
      (live.erase (slotAddr c g.base i)).Perm
        (livePtrs c1 (if g.ui.erase i = [] then G1 ++ G2
              else if (g.ui.length : Int) = M
                then { g with fi := i :: g.fi, ui := g.ui.erase i } :: (G1 ++ G2)
                else G1 ++ { g with fi := i :: g.fi, ui := g.ui.erase i } :: G2)) := by
  subst hM
  obtain ⟨c2, hfr, hinv2, hpar2, _, _⟩ := free_step hinv w hi
  refine ⟨c2, hfr, hinv2, hpar2, ?_⟩
  rw [livePtrs_congr hpar2]
  have h1 : (live.erase (slotAddr c g.base i)).Perm
      ((livePtrs c (G1 ++ g :: G2)).erase (slotAddr c g.base i)) := hperm.erase _
  have h2 : ((livePtrs c (G1 ++ g :: G2)).erase (slotAddr c g.base i)).Perm
      (livePtrs c (G1 ++ { g with fi := i :: g.fi, ui := g.ui.erase i } :: G2)) :=
    livePtrs_free w G1 G2 g i hi
  refine (h1.trans h2).trans ?_
  split
  · next he =>
    rw [livePtrs_drop_empty c G1 G2 { g with fi := i :: g.fi, ui := g.ui.erase i } he]
  · split
    · exact livePtrs_perm c List.perm_middle
    · exact List.Perm.refl _

theorem eraseW_store (p j v : Nat) (r : List OpW) :
    eraseW (OpW.store p j v :: r) = eraseW r := rfl

theorem eraseW_alloc (g1 g2 : GrowRes) (r : List OpW) :
    eraseW (OpW.alloc g1 g2 :: r) = OpW.alloc g1 g2 :: eraseW r := rfl

theorem eraseW_free (p : Nat) (r : List OpW) :
    eraseW (OpW.free p :: r) = OpW.free p :: eraseW r := rfl

/-- Two runs from states with one description, whose steps differ in the
stores of the client only, return the same pointers and end in states with
one description. -/
theorem twin_runs (c0 : Cache) (w0 : c0.WF) (hs0 : c0.small = true) (n : Nat) :
    ∀ (ops1 ops2 : List OpW) (c c' : Cache) (live ptrs : List Nat) (G : List SlabG)
      (r1 r2 : Cache × List Nat × List Nat),
      ops1.length + ops2.length ≤ n → eraseW ops1 = eraseW ops2 →
      Inv c G → Inv c' G → live.Perm (livePtrs c G) → SameParams c0 c → SameParams c0 c' →
      runW c live ptrs ops1 = some r1 → runW c' live ptrs ops2 = some r2 →
      r1.2.1 = r2.2.1 ∧ r1.2.2 = r2.2.2 ∧
      ∃ G1, Inv r1.1 G1 ∧ Inv r2.1 G1 ∧ r1.2.1.Perm (livePtrs r1.1 G1) ∧
        SameParams c0 r1.1 ∧ SameParams c0 r2.1 := by
  induction n with
  | zero =>
    intro ops1 ops2 c c' live ptrs G r1 r2 hlen _ hi1 hi2 hperm hp1 hp2 h1 h2
    have e1 : ops1 = [] := List.length_eq_zero.1 (by omega)
    have e2 : ops2 = [] := List.length_eq_zero.1 (by omega)
    subst e1
    subst e2
    simp only [runW, Option.some.injEq] at h1 h2
    subst h1
    subst h2
    exact ⟨rfl, rfl, G, hi1, hi2, hperm, hp1, hp2⟩
  | succ n ih =>
    intro ops1 ops2 c c' live ptrs G r1 r2 hlen her hi1 hi2 hperm hp1 hp2 h1 h2
    have wc := hp1.WF w0
    have wc' := hp2.WF w0
    have hsc : c.small = true := by rw [hp1.small]; exact hs0
    have hsc' : c'.small = true := by rw [hp2.small]; exact hs0
    have hlive' : livePtrs c' G = livePtrs c G := by
      rw [livePtrs_congr hp2, livePtrs_congr hp1]
    -- a store on the second side
    have step2 : ∀ p j v t2, ops2 = OpW.store p j v :: t2 →
        r1.2.1 = r2.2.1 ∧ r1.2.2 = r2.2.2 ∧
        ∃ G1, Inv r1.1 G1 ∧ Inv r2.1 G1 ∧ r1.2.1.Perm (livePtrs r1.1 G1) ∧
          SameParams c0 r1.1 ∧ SameParams c0 r2.1 := by
      intro p j v t2 e
      subst e
      obtain ⟨hp, hj, hrun⟩ := runW_store h2
      have hperm' : live.Perm (livePtrs c' G) := by rw [hlive']; exact hperm
      have hi2' := store_inv hi2 wc' hperm' p j v hp hj
      refine ih ops1 t2 c (clientStore c' p j v) live ptrs G r1 r2 ?_ ?_ hi1 hi2' hperm hp1
        (hp2.trans (clientStore_params _ _ _ _)) h1 hrun
      · simp only [List.length_cons] at hlen
        omega
      · rw [her, eraseW_store]
    cases ops1 with
    | nil =>
      cases ops2 with
      | nil =>
        simp only [runW, Option.some.injEq] at h1 h2
        subst h1
        subst h2
        exact ⟨rfl, rfl, G, hi1, hi2, hperm, hp1, hp2⟩
      | cons o2 t2 =>
        cases o2 with
        | store p j v => exact step2 p j v t2 rfl
        | alloc g1 g2 => exact absurd her (by simp [eraseW])
        | free p => exact absurd her (by simp [eraseW])
    | cons o1 t1 =>
      cases o1 with
      | store p j v =>
        obtain ⟨hp, hj, hrun⟩ := runW_store h1
        have hi1' := store_inv hi1 wc hperm p j v hp hj
        refine ih t1 ops2 (clientStore c p j v) c' live ptrs G r1 r2 ?_ ?_ hi1' hi2 ?_
          (hp1.trans (clientStore_params _ _ _ _)) hp2 hrun h2
        · simp only [List.length_cons] at hlen
          omega
        · rw [← her, eraseW_store]
        · rw [clientStore_live]
          exact hperm
      | alloc g1 g2 =>
        cases ops2 with
        | nil => exact absurd her (by simp [eraseW])
        | cons o2 t2 =>
          cases o2 with
          | store p j v => exact step2 p j v t2 rfl
          | free p => exact absurd her (by simp [eraseW])
          | alloc g1' g2' =>
            rw [eraseW_alloc, eraseW_alloc] at her
            have hh := List.cons.inj her
            have eo := hh.1
            injection eo with eg1 eg2
            subst eg1
            subst eg2
            obtain ⟨hg1, hg2, p, c1, ha, hrun⟩ := runW_alloc h1
            obtain ⟨hg1', hg2', p', c1', ha', hrun'⟩ := runW_alloc h2
            obtain ⟨d1, a1, a2, a3, a4⟩ := alloc_small_explicit hi1 wc hsc hg1 hg2
            obtain ⟨d1', b1, b2, b3, _⟩ := alloc_small_explicit hi2 wc' hsc' hg1' hg2'
            rw [ha] at a1
            rw [ha'] at b1
            have ep := (Prod.mk.inj (Except.ok.inj a1)).1
            have ec := (Prod.mk.inj (Except.ok.inj a1)).2
            have ep' := (Prod.mk.inj (Except.ok.inj b1)).1
            have ec' := (Prod.mk.inj (Except.ok.inj b1)).2
            subst ec
            subst ec'
            rw [stageG_congr hp1, popPtrG_congr hp1] at ep
            rw [stageG_congr hp2, popPtrG_congr hp2] at ep'
            have epp : p' = p := ep'.trans ep.symm
            subst epp
            rw [stageG_congr hp1, hp1.slab_maxbuf_] at a2
            rw [stageG_congr hp2, hp2.slab_maxbuf_] at b2
            rw [stageG_congr hp1, hp1.slab_maxbuf_, popPtrG_congr hp1, ← ep] at a4
            refine ih t1 t2 c1 c1' (p' :: live) (p' :: ptrs) _ r1 r2 ?_ hh.2 a2 b2 ?_
              (hp1.trans a3) (hp2.trans b3) hrun hrun'
            · simp only [List.length_cons] at hlen
              omega
            · rw [livePtrs_congr a3]
              exact (List.Perm.cons p' hperm).trans a4.symm
      | free p =>
        cases ops2 with
        | nil => exact absurd her (by simp [eraseW])
        | cons o2 t2 =>
          cases o2 with
          | store p j v => exact step2 p j v t2 rfl
          | alloc g1 g2 => exact absurd her (by simp [eraseW])
          | free p' =>
            rw [eraseW_free, eraseW_free] at her
            have hh := List.cons.inj her
            have eo := hh.1
            injection eo with epp
            subst epp
            obtain ⟨hp, c1, hf, hrun⟩ := runW_free h1
            obtain ⟨_, c1', hf', hrun'⟩ := runW_free h2
            obtain ⟨G1, g, G2, i, hG, hi, hpi⟩ := mem_livePtrs (hperm.mem_iff.1 hp)
            subst hG
            have hperm' : live.Perm (livePtrs c' (G1 ++ g :: G2)) := by
              rw [hlive']; exact hperm
            obtain ⟨d1, a1, a2, a3, a4⟩ :=
              free_explicit hi1 wc hi hperm c0.slab_maxbuf_ hp1.slab_maxbuf_
            obtain ⟨d1', b1, b2, b3, _⟩ :=
              free_explicit hi2 wc' hi hperm' c0.slab_maxbuf_ hp2.slab_maxbuf_
            have es : slotAddr c' g.base i = slotAddr c g.base i := by
              rw [hp2.slotAddr, hp1.slotAddr]
            rw [es] at b1
            rw [← hpi, hf] at a1
            rw [← hpi, hf'] at b1
            have ec := Except.ok.inj a1
            have ec' := Except.ok.inj b1
            subst ec
            subst ec'
            rw [← hpi] at a4
            refine ih t1 t2 c1 c1' (live.erase p) ptrs _ r1 r2 ?_ hh.2 a2 b2 a4
              (hp1.trans a3) (hp2.trans b3) hrun hrun'
            simp only [List.length_cons] at hlen
            omega

/-! ### Which words `alloc` and `free` read and write -/

theorem setWords_remove (c : Cache) (w : Nat → Nat) (x : Nat) :
    remove_ (setWords c w) x = setWords (remove_ c x) w := rfl

theorem setWords_front (c : Cache) (w : Nat → Nat) (x : Nat) :
    move_to_front_ (setWords c w) x = setWords (move_to_front_ c x) w := by
  unfold move_to_front_
  by_cases h : c.slabs_ = x
  · rw [if_pos h, if_pos (show (setWords c w).slabs_ = x from h)]
  · rw [if_neg h, if_neg (show ¬ (setWords c w).slabs_ = x from h)]
    simp only
    by_cases h2 : (c.slabMem x).next ≠ 0 ∨ (c.slabMem x).prev ≠ 0
    · rw [if_pos h2, if_pos (show (((setWords c w).slabMem x).next ≠ 0 ∨
        ((setWords c w).slabMem x).prev ≠ 0) from h2), setWords_remove]
      by_cases h3 : (remove_ c x).slabs_ = 0
      · rw [if_pos h3, if_pos (show (setWords (remove_ c x) w).slabs_ = 0 from h3)]
        rfl
      · rw [if_neg h3, if_neg (show ¬ (setWords (remove_ c x) w).slabs_ = 0 from h3)]
        rfl
    · rw [if_neg h2, if_neg (show ¬ (((setWords c w).slabMem x).next ≠ 0 ∨
        ((setWords c w).slabMem x).prev ≠ 0) from h2)]
      by_cases h3 : c.slabs_ = 0
      · rw [if_pos h3, if_pos (show (setWords c w).slabs_ = 0 from h3)]
        rfl
      · rw [if_neg h3, if_neg (show ¬ (setWords c w).slabs_ = 0 from h3)]
        rfl

theorem setWords_back (c : Cache) (w : Nat → Nat) (x : Nat) :
    move_to_back_ (setWords c w) x = setWords (move_to_back_ c x) w := by
  unfold move_to_back_
  by_cases h : c.slabs_back_ = x
  · rw [if_pos h, if_pos (show (setWords c w).slabs_back_ = x from h)]
  · rw [if_neg h, if_neg (show ¬ (setWords c w).slabs_back_ = x from h)]
    simp only
    rw [setWords_remove]
    by_cases h3 : (remove_ c x).slabs_ = 0
    · rw [if_pos h3, if_pos (show (setWords (remove_ c x) w).slabs_ = 0 from h3)]
      rfl
    · rw [if_neg h3, if_neg (show ¬ (setWords (remove_ c x) w).slabs_ = 0 from h3)]
      rfl

theorem setWords_moveFull (c : Cache) (w : Nat → Nat) :
    moveFull (setWords c w) = setWords (moveFull c) w := by
  unfold moveFull
  by_cases h : (c.slabMem c.slabs_).bufcount = c.slab_maxbuf_
  · rw [if_pos h, if_pos (show ((setWords c w).slabMem (setWords c w).slabs_).bufcount
      = (setWords c w).slab_maxbuf_ from h)]
    exact setWords_back c w c.slabs_
  · rw [if_neg h, if_neg (show ¬ ((setWords c w).slabMem (setWords c w).slabs_).bufcount
      = (setWords c w).slab_maxbuf_ from h)]

theorem setWords_ctor (c : Cache) (w : Nat → Nat) (p : Nat) :
    callCtor (setWords c w) p = setWords (callCtor c p) w := by
  unfold callCtor
  by_cases h : c.hasCtor = true
  · rw [if_pos h, if_pos (show (setWords c w).hasCtor = true from h)]
    rfl
  · rw [if_neg h, if_neg (show ¬ (setWords c w).hasCtor = true from h)]

theorem setWords_dtor (c : Cache) (w : Nat → Nat) (p : Nat) :
    callDtor (setWords c w) p = setWords (callDtor c p) w := by
  unfold callDtor
  by_cases h : c.hasDtor = true
  · rw [if_pos h, if_pos (show (setWords c w).hasDtor = true from h)]
    rfl
  · rw [if_neg h, if_neg (show ¬ (setWords c w).hasDtor = true from h)]

/-- The pop of `alloc` reads one word, the first word of the slot at the head
of the free list of the head slab: with other contents `wm` of the words that
agree with the state there, it returns the same pointer and reaches the same
state, the words apart. -/
theorem allocPop_words (c : Cache) (wm : Nat → Nat) (hs : c.small = true)
    (h : wm (c.slabMem c.slabs_).free_list = c.wordMem (c.slabMem c.slabs_).free_list) :
    allocPop (setWords c wm) =
      (match allocPop c with
       | .ok (p, c1) => .ok (p, setWords c1 wm)
       | .error f => .error f) := by
  unfold allocPop
  by_cases h0 : (c.slabMem c.slabs_).free_list = 0
  · rw [if_pos h0, if_pos (show ((setWords c wm).slabMem (setWords c wm).slabs_).free_list = 0
      from h0)]
  · rw [if_neg h0, if_neg (show ¬ ((setWords c wm).slabMem (setWords c wm).slabs_).free_list = 0
      from h0)]
    simp only
    have e1 : popBuf (setWords c wm) = popBuf c := rfl
    have e2 : popState (setWords c wm) = setWords (popState c) wm := by
      unfold popState
      simp only
      have hs2 : (setWords c wm).small = true := hs
      rw [hs, hs2]
      simp only [if_true]
      show _ = setWords _ wm
      unfold setWords
      simp only
      rw [h]
    rw [e1, e2, setWords_ctor, setWords_moveFull]

/-- In the small regime `free` reads no word and stores one, the first word
of the object freed: with other contents `wm` of the words it reaches the
same state, the words apart, and these are `wm` with the old head of the free
list stored at `p`. -/
theorem free_words (c : Cache) (wm : Nat → Nat) (p : Nat) (hs : c.small = true)
    (hp : p ≠ 0) :
    free (setWords c wm) p =
      (match free c p with
       | .ok c1 => .ok (setWords c1 (upd wm p (c.slabMem (slabOf c p)).free_list))
       | .error f => .error f) := by
  unfold free
  have hs2 : (setWords c wm).small = true := hs
  rw [if_neg hp, if_neg hp, hs, hs2]
  simp only [if_true]
  unfold freeSmall
  simp only
  have e1 : pushSmall (callDtor (setWords c wm) p) p (slabOf (setWords c wm) p)
      = setWords (pushSmall (callDtor c p) p (slabOf c p))
          (upd wm p (c.slabMem (slabOf c p)).free_list) := by
    rw [setWords_dtor]
    unfold callDtor
    split <;> rfl
  rw [e1]
  have e2 : slabOf (setWords c wm) p = slabOf c p := rfl
  rw [e2]
  by_cases h1 : ((pushSmall (callDtor c p) p (slabOf c p)).slabMem (slabOf c p)).bufcount = 0
  · rw [if_pos h1, if_pos (show ((setWords (pushSmall (callDtor c p) p (slabOf c p))
      (upd wm p (c.slabMem (slabOf c p)).free_list)).slabMem (slabOf c p)).bufcount = 0 from h1)]
    rfl
  · rw [if_neg h1, if_neg (show ¬ ((setWords (pushSmall (callDtor c p) p (slabOf c p))
      (upd wm p (c.slabMem (slabOf c p)).free_list)).slabMem (slabOf c p)).bufcount = 0 from h1)]
    by_cases h2 : ((pushSmall (callDtor c p) p (slabOf c p)).slabMem (slabOf c p)).bufcount
        = (pushSmall (callDtor c p) p (slabOf c p)).slab_maxbuf_ - 1
    · rw [if_pos h2, if_pos (show ((setWords (pushSmall (callDtor c p) p (slabOf c p))
        (upd wm p (c.slabMem (slabOf c p)).free_list)).slabMem (slabOf c p)).bufcount
        = (setWords (pushSmall (callDtor c p) p (slabOf c p))
            (upd wm p (c.slabMem (slabOf c p)).free_list)).slab_maxbuf_ - 1 from h2)]
      simp only
      rw [setWords_front]
    · rw [if_neg h2, if_neg (show ¬ ((setWords (pushSmall (callDtor c p) p (slabOf c p))
        (upd wm p (c.slabMem (slabOf c p)).free_list)).slabMem (slabOf c p)).bufcount
        = (setWords (pushSmall (callDtor c p) p (slabOf c p))
            (upd wm p (c.slabMem (slabOf c p)).free_list)).slab_maxbuf_ - 1 from h2)]

theorem chain_head_eq (nx nx1 : Nat → Nat) (p q : Nat) (L : List Nat)
    (h1 : Chain nx p L) (h2 : Chain nx1 q L) : p = q := by
  cases L with
  | nil => exact (show p = 0 from h1).trans (show q = 0 from h2).symm
  | cons x r => exact h1.1.trans h2.1.symm

/-- C13: in the small regime, two runs of the same calls of `alloc` and `free`
on live pointers from a fresh cache, which differ only in the stores of the
client into the fields of objects it holds, return the same pointers and end
with the same live pointers, the same slab list, the same in-use counts and
the same free lists.  The pop of `alloc` reads one word, the first word of
the slot at the head of the free list; `free` reads no word and overwrites
the first word of the object freed. -/
theorem C13_independence (pg S A : Nat) (ct dt : Bool) (w : (Cache.new pg S A ct dt).WF)
    (hs : (Cache.new pg S A ct dt).small = true) (ops1 ops2 : List OpW)
    (r1 r2 : Cache × List Nat × List Nat) (he : eraseW ops1 = eraseW ops2)
    (h1 : runW (Cache.new pg S A ct dt) [] [] ops1 = some r1)
    (h2 : runW (Cache.new pg S A ct dt) [] [] ops2 = some r2) :
    r1.2.2 = r2.2.2 ∧ r1.2.1 = r2.2.1 ∧
    (∃ l, SlabList r1.1 l ∧ SlabList r2.1 l ∧ counts r1.1 l = counts r2.1 l ∧
      ∀ h ∈ l, (r1.1.slabMem h).free_list = (r2.1.slabMem h).free_list ∧
        ∃ L, Chain r1.1.wordMem (r1.1.slabMem h).free_list L ∧
             Chain r2.1.wordMem (r2.1.slabMem h).free_list L) ∧
    (∀ (c : Cache) (wm : Nat → Nat), c.small = true →
      wm (c.slabMem c.slabs_).free_list = c.wordMem (c.slabMem c.slabs_).free_list →
      allocPop (setWords c wm) =
        (match allocPop c with
         | .ok (p, c1) => .ok (p, setWords c1 wm)
         | .error f => .error f)) ∧
    (∀ (c : Cache) (wm : Nat → Nat) (p : Nat), c.small = true → p ≠ 0 →
      free (setWords c wm) p =
        (match free c p with
         | .ok c1 => .ok (setWords c1 (upd wm p (c.slabMem (slabOf c p)).free_list))
         | .error f => .error f)) := by
  obtain ⟨e1, e2, G, i1, i2, _, p1, p2⟩ :=
    twin_runs (Cache.new pg S A ct dt) w hs (ops1.length + ops2.length) ops1 ops2 _ _ [] [] []
      r1 r2 (Nat.le_refl _) he (new_inv pg S A ct dt) (new_inv pg S A ct dt)
      (List.Perm.refl _) (SameParams.refl _) (SameParams.refl _) h1 h2
  have hs1 : r1.1.small = true := by rw [p1.small]; exact hs
  have hs2 : r2.1.small = true := by rw [p2.small]; exact hs
  refine ⟨e2, e1, ⟨G.map SlabG.hdr, i1.scan.1, i2.scan.1, ?_, ?_⟩,
    fun c wm hsc h => allocPop_words c wm hsc h, fun c wm p hsc hp => free_words c wm p hsc hp⟩
  · rw [i1.scan.2.2, i2.scan.2.2]
  · intro h hh
    obtain ⟨g, hg, rfl⟩ := List.mem_map.1 hh
    have c1 := (i1.rep.slabs g hg).chain
    have c2 := (i2.rep.slabs g hg).chain
    have n1 : r1.1.nextOf = r1.1.wordMem := funext (fun a => nextOf_small hs1 a)
    have n2 : r2.1.nextOf = r2.1.wordMem := funext (fun a => nextOf_small hs2 a)
    rw [n1] at c1
    rw [n2] at c2
    have hmap : g.fi.map (nodeAddr r2.1 g) = g.fi.map (nodeAddr r1.1 g) :=
      List.map_congr_left (fun i _ => by rw [p2.nodeAddr, p1.nodeAddr])
    rw [hmap] at c2
    exact ⟨chain_head_eq _ _ _ _ _ c1 c2, _, c1, c2⟩

/-- Witness of C13: `S = 12`; the run of `test_alloc_basic`, which stores
`{1, 1, 1}` into the first object and `{2, 2, 2}` into the second and frees
both, against the run without the stores. -/
theorem C13_independence_witness :
    (Cache.new 4096 12 0 false false).WF ∧ (Cache.new 4096 12 0 false false).small = true ∧
    ∃ r1 r2,
      runW (Cache.new 4096 12 0 false false) [] []
        [OpW.alloc (gres 1) (gres 2), OpW.store 65536 2 1, OpW.store 65536 1 1,
         OpW.store 65536 0 1, OpW.alloc (gres 3) (gres 4), OpW.store 65552 2 2,
         OpW.store 65552 1 2, OpW.store 65552 0 2, OpW.free 65536, OpW.free 65552] = some r1 ∧
      runW (Cache.new 4096 12 0 false false) [] []
        [OpW.alloc (gres 1) (gres 2), OpW.alloc (gres 3) (gres 4), OpW.free 65536,
         OpW.free 65552] = some r2 ∧
      r1.2.2 = [65552, 65536] ∧ r1.2.2 = r2.2.2 ∧ r1.2.1 = r2.2.1 ∧
      ∃ l, SlabList r1.1 l ∧ SlabList r2.1 l ∧ counts r1.1 l = counts r2.1 l := by
  have ha : (runW (Cache.new 4096 12 0 false false) [] []
        [OpW.alloc (gres 1) (gres 2), OpW.store 65536 2 1, OpW.store 65536 1 1,
         OpW.store 65536 0 1, OpW.alloc (gres 3) (gres 4), OpW.store 65552 2 2,
         OpW.store 65552 1 2, OpW.store 65552 0 2, OpW.free 65536, OpW.free 65552]).map
      (fun r => r.2.2) = some [65552, 65536] := by decide
  have hb : (runW (Cache.new 4096 12 0 false false) [] []
        [OpW.alloc (gres 1) (gres 2), OpW.alloc (gres 3) (gres 4), OpW.free 65536,
         OpW.free 65552]).isSome = true := by decide
  rw [Option.map_eq_some'] at ha
  obtain ⟨r1, h1, hp⟩ := ha
  obtain ⟨r2, h2⟩ := Option.isSome_iff_exists.1 hb
  obtain ⟨k1, k2, ⟨l, k3, k4, k5, _⟩, _⟩ :=
    C13_independence 4096 12 0 false false wf_12 (by decide) _ _ r1 r2 (by decide) h1 h2
  exact ⟨wf_12, by decide, r1, r2, h1, h2, hp, k1, k2, l, k3, k4, k5⟩

/-! ### Fields of type `int` -/

theorem fieldCell_eq_iff (p j k : Nat) : fieldCell p j = fieldCell p k ↔ j / 2 = k / 2 := by
  unfold fieldCell
  have h8 : sizeofPtr = 8 := rfl
  rw [h8]
  omega

theorem readField_write_same (w : Nat → Nat) (p j v : Nat) :
    readField (writeField w p j v) p j = v % 2 ^ 32 := by
  unfold readField writeField
  simp only [upd_same]
  by_cases h : j % 2 = 0
  · rw [if_pos h, if_pos h, Nat.mul_add_mod_of_lt (Nat.mod_lt _ (by norm_num))]
  · rw [if_neg h, if_neg h]
    have hlt : w (fieldCell p j) % 2 ^ 32 < 2 ^ 32 := Nat.mod_lt _ (by norm_num)
    rw [Nat.add_comm, Nat.add_mul_div_right _ _ (by norm_num : 0 < 2 ^ 32),
      Nat.div_eq_of_lt hlt, Nat.zero_add, Nat.mod_mod]

theorem readField_write_other (w : Nat → Nat) (p j k v : Nat) (hne : k ≠ j) :
    readField (writeField w p j v) p k = readField w p k := by
  unfold readField writeField
  by_cases hc : fieldCell p k = fieldCell p j
  · rw [hc]
    simp only [upd_same]
    have hd := (fieldCell_eq_iff p k j).1 hc
    by_cases hj : j % 2 = 0
    · have hk : ¬ (k % 2 = 0) := by omega
      rw [if_pos hj, if_neg hk, if_neg hk]
      have hlt : v % 2 ^ 32 < 2 ^ 32 := Nat.mod_lt _ (by norm_num)
      rw [Nat.add_comm, Nat.add_mul_div_right _ _ (by norm_num : 0 < 2 ^ 32),
        Nat.div_eq_of_lt hlt, Nat.zero_add]
    · have hk : k % 2 = 0 := by omega
      rw [if_neg hj, if_pos hk, if_pos hk, Nat.mul_add_mod_of_lt (Nat.mod_lt _ (by norm_num))]
  · rw [upd_other _ _ _ _ hc]

/-- After `new (p) T()` every field of the object reads zero. -/
theorem readField_valueInit (n : Nat) (w : Nat → Nat) (p : Nat) :
    ∀ j, j < n → readField (valueInit n w p) p j = 0 := by
  induction n with
  | zero => intro j hj; omega
  | succ n ih =>
    intro j hj
    unfold valueInit
    by_cases e : j = n
    · rw [e, readField_write_same]
      rfl
    · rw [readField_write_other _ _ _ _ _ e]
      exact ih j (by omega)

/-- The stores of `new (p) T()` go to words inside the object. -/
theorem valueInit_other (n : Nat) (w : Nat → Nat) (p a : Nat)
    (h : ∀ j, j < n → a ≠ fieldCell p j) : valueInit n w p a = w a := by
  induction n with
  | zero => rfl
  | succ n ih =>
    unfold valueInit
    rw [writeField_other _ _ _ _ _ (h n (by omega))]
    exact ih (fun j hj => h j (by omega))

/-! ### The cache of a `TypedCache<T>` -/

theorem stage1_params {c c1 : Cache} {g : GrowRes} (h : allocStage1 c g = .ok c1) :
    SameParams c c1 := by
  unfold allocStage1 at h
  split at h
  · exact grow_params h
  · rw [← Except.ok.inj h]
    exact SameParams.refl c

theorem stage2_params {c c1 : Cache} {g : GrowRes} (h : allocStage2 c g = .ok c1) :
    SameParams c c1 := by
  unfold allocStage2 at h
  split at h
  · exact grow_params h
  · rw [← Except.ok.inj h]
    exact SameParams.refl c

theorem moveFull_words (c : Cache) : (moveFull c).wordMem = c.wordMem :=
  (moveFull_listOnly c).wordMem

/-- The function `TypedCache<T>::alloc` is `Cache::alloc` followed by the
stores of `new (p) T()` into the object returned. -/
theorem typed_alloc_eq (n : Nat) (c : Cache) (g1 g2 : GrowRes) (hc : c.hasCtor = true) :
    TypedCache.alloc n c g1 g2 =
      (match alloc c g1 g2 with
       | .ok (p, c1) => .ok (p, setWords c1 (valueInit n c1.wordMem p))
       | .error f => .error f) := by
  unfold TypedCache.alloc alloc
  cases h1 : allocStage1 c g1 with
  | error f => rfl
  | ok c1 =>
    simp only
    cases h2 : allocStage2 c1 g2 with
    | error f => rfl
    | ok c2 =>
      simp only
      have hp := (stage1_params h1).trans (stage2_params h2)
      have hc2 : (popState c2).hasCtor = true := by
        show c2.hasCtor = true
        rw [hp.hasCtor]
        exact hc
      unfold allocPopT allocPop
      split
      · rfl
      · simp only
        have e : callCtorT n (popState c2) (popBuf c2) =
            setWords (callCtor (popState c2) (popBuf c2))
              (valueInit n (popState c2).wordMem (popBuf c2)) := by
          unfold callCtorT callCtor
          rw [if_pos hc2, if_pos hc2]
          rfl
        have ew : (callCtor (popState c2) (popBuf c2)).wordMem = (popState c2).wordMem := by
          unfold callCtor
          rw [if_pos hc2]
        rw [e, setWords_moveFull, moveFull_words, ew]

theorem valueInit_frame {c : Cache} (n p : Nat) (hn : n * sizeofInt ≤ c.effsize_)
    (live : List Nat) (hp : p ∈ live) (w : Nat → Nat) :
    ∀ a, (∀ q ∈ live, ¬ (q ≤ a ∧ a < q + c.effsize_)) → valueInit n w p a = w a := by
  intro a ha
  apply valueInit_other
  intro j hj e
  have h4 : sizeofInt = 4 := rfl
  have := fieldCell_in p j c.effsize_ (by rw [h4] at hn ⊢; omega)
  rw [← e] at this
  exact ha p hp this

/-- The invariant of the states of the cache of a `TypedCache<T>`. -/
theorem reachT_inv {n : Nat} {c0 c : Cache} {live : List Nat} (w : c0.WF) (h0 : Inv c0 [])
    (hc : c0.hasCtor = true) (hn : n * sizeofInt ≤ c0.effsize_) (hr : ReachT n c0 c live) :
    ∃ G, Inv c G ∧ live.Perm (livePtrs c G) ∧ SameParams c0 c := by
  induction hr with
  | init => exact ⟨[], h0, List.Perm.refl _, SameParams.refl _⟩
  | @alloc c c1 live g1 g2 p _ hg1 hg2 ha ih =>
    obtain ⟨G, hinv, hperm, hpar⟩ := ih
    have hcc : c.hasCtor = true := by rw [hpar.hasCtor]; exact hc
    rw [typed_alloc_eq n c g1 g2 hcc] at ha
    cases hal : alloc c g1 g2 with
    | error f =>
      rw [hal] at ha
      exact absurd ha (by simp)
    | ok r =>
      obtain ⟨q, d⟩ := r
      rw [hal] at ha
      simp only at ha
      have e1 := (Prod.mk.inj (Except.ok.inj ha)).1
      have e2 := (Prod.mk.inj (Except.ok.inj ha)).2
      subst e1
      subst e2
      obtain ⟨G1, k1, k2, k3, _⟩ := alloc_inv_live hinv (hpar.WF w) hperm hg1 hg2 hal
      have hp3 := hpar.trans k3
      have hn1 : n * sizeofInt ≤ d.effsize_ := by rw [hp3.effsize_]; exact hn
      refine ⟨G1, words_inv k1 (hp3.WF w) k2 _
        (valueInit_frame n q hn1 (q :: live) (by simp) d.wordMem), ?_, hp3.trans ⟨rfl, rfl, rfl, rfl, rfl, rfl, rfl⟩⟩
      rw [livePtrs_congr (show SameParams d (setWords d (valueInit n d.wordMem q)) from
        ⟨rfl, rfl, rfl, rfl, rfl, rfl, rfl⟩)]
      exact k2
  | @free c c1 live p _ hp hf ih =>
    obtain ⟨G, hinv, hperm, hpar⟩ := ih
    obtain ⟨G1, k1, k2, k3, _⟩ := free_inv_live hinv (hpar.WF w) hperm hp hf
    exact ⟨G1, k1, k2, hpar.trans k3⟩
  | @store c live p j v _ hp hj ih =>
    obtain ⟨G, hinv, hperm, hpar⟩ := ih
    have h4 : sizeofInt = 4 := rfl
    have hj2 : sizeofInt * j + sizeofInt ≤ c.effsize_ := by
      rw [hpar.effsize_]
      rw [h4] at hn ⊢
      omega
    refine ⟨G, store_inv hinv (hpar.WF w) hperm p j v hp hj2, ?_,
      hpar.trans (clientStore_params _ _ _ _)⟩
    rw [clientStore_live]
    exact hperm

/-- C14: for the cache of a `TypedCache<T>` with `T` a struct of `n` fields of
type `int`, in every state reached by calls of `alloc`, calls of `free` on
live pointers and stores of the client into its objects, a call of `alloc`
returns whenever the memory allocator delivers, and every field of the object
returned reads zero, whatever the words of its slot held before. -/
theorem C14_typed_value_init (pg n A : Nat) (c : Cache) (live : List Nat)
    (w : (TypedCache.new pg n A).WF) (hn : 0 < n)
    (hfit : n * sizeofInt + alignOf A ≤ SIZE_MOD)
    (hr : ReachT n (TypedCache.new pg n A) c live) :
    ∀ g1 g2, GrowOK c g1 → (∀ cm, allocStage1 c g1 = .ok cm → GrowOK cm g2) →
      ∃ p c1, TypedCache.alloc n c g1 g2 = .ok (p, c1) ∧
        (∀ j, j < n → readField c1.wordMem p j = 0) ∧
        ReachT n (TypedCache.new pg n A) c1 (p :: live) := by
  intro g1 g2 hg1 hg2
  have h4 : sizeofInt = 4 := rfl
  have hE : n * sizeofInt ≤ (TypedCache.new pg n A).effsize_ :=
    effsizeOf_ge (n * sizeofInt) A (by rw [h4]; omega) hfit
  obtain ⟨G, hinv, hperm, hpar⟩ := reachT_inv w (new_inv pg _ A true true) rfl hE hr
  have wc := hpar.WF w
  have hcc : c.hasCtor = true := hpar.hasCtor
  obtain ⟨_, _, _, _, _, _, _, _, _, _, _, _, _, hal, _⟩ := alloc_step hinv wc hg1 hg2
  have ht := typed_alloc_eq n c g1 g2 hcc
  rw [hal] at ht
  simp only at ht
  refine ⟨_, _, ht, ?_, ReachT.alloc g1 g2 _ hr hg1 hg2 ht⟩
  intro j hj
  exact readField_valueInit n _ _ j hj

/-- Witness of C14: `TypedCache<Test12>` (three fields of type `int`,
`S = 12`); the first call of `alloc` returns 65536 and the three fields read
zero. -/
theorem C14_typed_value_init_witness :
    (TypedCache.new 4096 3 0).WF ∧ 0 < 3 ∧ 3 * sizeofInt + alignOf 0 ≤ SIZE_MOD ∧
    GrowOK (TypedCache.new 4096 3 0) (gres 1) ∧
    ∃ p c1, TypedCache.alloc 3 (TypedCache.new 4096 3 0) (gres 1) (gres 2) = .ok (p, c1) ∧
      p = 65536 ∧
      readField c1.wordMem p 0 = 0 ∧ readField c1.wordMem p 1 = 0 ∧
      readField c1.wordMem p 2 = 0 := by
  have w : (TypedCache.new 4096 3 0).WF :=
    new_WF 4096 12 0 true true 12 (by decide) (by decide) (by decide) (by decide)
      (by decide) (by decide) (by decide)
  have hg : GrowOK (TypedCache.new 4096 3 0) (gres 1) := growOKb_sound _ _ (by decide)
  have hg2 : ∀ cm, allocStage1 (TypedCache.new 4096 3 0) (gres 1) = .ok cm →
      GrowOK cm (gres 2) := by
    intro cm hcm
    have hb : (match allocStage1 (TypedCache.new 4096 3 0) (gres 1) with
        | .ok cm => growOKb cm (gres 2)
        | .error _ => true) = true := by decide
    rw [hcm] at hb
    exact growOKb_sound cm _ hb
  obtain ⟨p, c1, k1, k2, _⟩ :=
    C14_typed_value_init 4096 3 0 _ [] w (by decide) (by decide) ReachT.init
      (gres 1) (gres 2) hg hg2
  obtain ⟨d, hd⟩ := @allocPtr_eq (TypedCache.new 4096 3 0) (gres 1) (gres 2) 65536 (by decide)
  have ht := typed_alloc_eq 3 (TypedCache.new 4096 3 0) (gres 1) (gres 2) rfl
  rw [hd, k1] at ht
  have ep := (Prod.mk.inj (Except.ok.inj ht)).1
  exact ⟨w, by decide, by decide, hg, p, c1, k1, ep, k2 0 (by decide), k2 1 (by decide),
    k2 2 (by decide)⟩

/-! ### Runs with calls of `alloc` that throw -/

theorem growFreshb_sound (c : Cache) (g : GrowRes) (h : growFreshb c g = true) :
    GrowFresh c g := by
  unfold growFreshb at h
  rw [Bool.and_eq_true] at h
  obtain ⟨h1, h2⟩ := h
  constructor
  · intro x hx
    rw [hx] at h1
    simpa using h1
  · intro a ha
    rw [ha] at h2
    simp only [Bool.and_eq_true, decide_eq_true_eq, List.all_eq_true] at h2
    exact h2

/-- A call of `grow_` that throws because `posix_memalign` fails or stores
null leaves the state as it was. -/
theorem growThrow_early {c c1 : Cache} {g : GrowRes} (h : growThrow c g = some c1)
    (e : (match g.mem with
          | none => 0
          | some mem => if mem = 0 then 0 else 1) = 0) : c1 = c := by
  unfold growThrow growSmallThrow growLargeThrow at h
  cases hm : g.mem with
  | none =>
    rw [hm] at h
    simp only [ite_self] at h
    exact (Option.some.inj h).symm
  | some mem =>
    rw [hm] at h e
    simp only at e
    by_cases h0 : mem = 0
    · simp only [if_pos h0, ite_self] at h
      exact (Option.some.inj h).symm
    · rw [if_neg h0] at e
      exact absurd e (by decide)

/-- A state reached by calls of `alloc` and `free` is reached by a run in
which no call of `alloc` throws. -/
theorem reach_reachE {c0 c : Cache} {live : List Nat} {na nf : Nat}
    (hr : Reach c0 c live na nf) : ReachE c0 c live 0 := by
  induction hr with
  | init => exact ReachE.init
  | alloc g1 g2 p _ hg1 hg2 ha ih => exact ReachE.alloc g1 g2 p ih hg1 hg2 ha
  | free p _ hp hf ih => exact ReachE.free p ih hp hf

/-- A state reached by a run in which every call of `alloc` that throws does so
because `posix_memalign` fails or stores null is reached by the calls of the
run that return. -/
theorem reachE_zero {c0 c : Cache} {live : List Nat} {k : Nat} (w : c0.WF)
    (h0 : Inv c0 []) (hr : ReachE c0 c live k) :
    k = 0 → ∃ na nf, Reach c0 c live na nf := by
  induction hr with
  | init => exact fun _ => ⟨0, 0, Reach.init⟩
  | alloc g1 g2 p _ hg1 hg2 ha ih =>
    intro hk
    obtain ⟨na, nf, hr1⟩ := ih hk
    exact ⟨na + 1, nf, Reach.alloc g1 g2 p hr1 hg1 hg2 ha⟩
  | free p _ hp hf ih =>
    intro hk
    obtain ⟨na, nf, hr1⟩ := ih hk
    exact ⟨na, nf + 1, Reach.free p hr1 hp hf⟩
  | @oom c c1 live k g1 g2 _ _ _ ht ih =>
    intro hk
    obtain ⟨na, nf, hr1⟩ := ih (by omega)
    obtain ⟨G, _, _, hpar, _, _⟩ := reach_inv w h0 hr1
    have wc := hpar.WF w
    have hl : lateFail c g1 g2 = 0 := by omega
    have e := growThrow_early (allocThrow_eq wc ht) hl
    subst e
    exact ⟨na, nf, hr1⟩

theorem runE_reachE {c0 : Cache} (ops : List OpE) :
    ∀ (c : Cache) (live : List Nat) (k : Nat) (res : Cache × List Nat × Nat),
      ReachE c0 c live k → runE c live k ops = some res →
      ReachE c0 res.1 res.2.1 res.2.2 := by
  induction ops with
  | nil =>
    intro c live k res hr h
    rw [runE] at h
    cases Option.some.inj h
    exact hr
  | cons o r ih =>
    intro c live k res hr h
    cases o with
    | op o =>
      cases o with
      | alloc g1 g2 =>
        rw [runE] at h
        split at h
        · next hb =>
          rw [Bool.and_eq_true] at hb
          have hg1 : GrowOK c g1 := growOKb_sound c g1 hb.1
          have hg2 : ∀ cm, allocStage1 c g1 = .ok cm → GrowOK cm g2 := by
            intro cm hcm
            have := hb.2
            rw [hcm] at this
            exact growOKb_sound cm g2 this
          split at h
          · next p c1 ha => exact ih c1 (p :: live) k res (ReachE.alloc g1 g2 p hr hg1 hg2 ha) h
          · exact absurd h (by simp)
        · exact absurd h (by simp)
      | free p =>
        rw [runE] at h
        split at h
        · next hp =>
          split at h
          · next c1 hf => exact ih c1 (live.erase p) k res (ReachE.free p hr hp hf) h
          · exact absurd h (by simp)
        · exact absurd h (by simp)
    | oom g1 g2 =>
      rw [runE] at h
      by_cases hb : growFreshb c (if c.slabs_ = 0 then g1 else g2) = true
      · rw [if_pos hb] at h
        cases ht : allocThrow c g1 g2 with
        | none =>
          rw [ht] at h
          exact absurd h (by simp)
        | some c1 =>
          rw [ht] at h
          have ha : alloc c g1 g2 = .error .bad_alloc := by
            apply (alloc_throw_iff c g1 g2).2
            rw [ht]
            rfl
          exact ih c1 live _ res (ReachE.oom g1 g2 hr (growFreshb_sound _ _ hb) ha ht) h
      · rw [if_neg hb] at h
        exact absurd h (by simp)

/-- A run whose list of live pointers and count of late failures evaluate to
`live` and `k` ends in a state reachable with them. -/
theorem run_reachE {c0 : Cache} (ops : List OpE) (live : List Nat) (k : Nat)
    (h : (runE c0 [] 0 ops).map Prod.snd = some (live, k)) :
    ∃ c, runE c0 [] 0 ops = some (c, live, k) ∧ ReachE c0 c live k := by
  rw [Option.map_eq_some'] at h
  obtain ⟨⟨c, l, k1⟩, h1, h2⟩ := h
  simp only [Prod.mk.injEq] at h2
  obtain ⟨e1, e2⟩ := h2
  subst e1
  subst e2
  exact ⟨c, h1, runE_reachE ops c0 [] 0 (c, l, k1) ReachE.init h1⟩

/-! ### Reclamation and `destroy` in runs with calls of `alloc` that throw -/

/-- C3 (as amended): in a run of calls of `alloc` and `free` on a fresh cache
in which every call of `alloc` that throws `std::bad_alloc` does so because
`posix_memalign` fails or stores null, when every pointer returned by `alloc`
has been freed, the slab list is empty (`slabs_` and `slabs_back_` are null),
every backing block has been released, and the side map `large_lookup_` is
empty; in the large regime the headers and record arrays have been deleted as
well. -/
theorem C3_reclamation (pg S A : Nat) (ct dt : Bool) (c : Cache)
    (w : (Cache.new pg S A ct dt).WF) (hr : ReachE (Cache.new pg S A ct dt) c [] 0) :
    SlabList c [] ∧ c.slabs_ = 0 ∧ c.slabs_back_ = 0 ∧ c.blocks = [] ∧
    c.large_lookup_ = [] ∧ (c.small = false → c.hdrObjs = [] ∧ c.arrObjs = []) := by
  obtain ⟨na, nf, hr1⟩ := reachE_zero w (new_inv pg S A ct dt) hr rfl
  obtain ⟨G, hinv, hperm, _, _, _⟩ := reach_inv w (new_inv pg S A ct dt) hr1
  have hG : G = [] := livePtrs_nil_iff hinv.used (List.Perm.eq_nil hperm.symm)
  subst hG
  obtain ⟨e1, e2, e3, e4, e5⟩ := hinv.rep.empty
  exact ⟨e1, e1, e2, e3, e4, e5⟩

/-- Witness of C3: `S = 1000`, the nine calls of `alloc` and the nine calls of
`free` of `test_big_object`, with a call of `alloc` that throws because
`posix_memalign` fails before the first of them, and one that throws because
`posix_memalign` stores null when the first slab is full. -/
theorem C3_reclamation_witness :
    (Cache.new 4096 1000 0 false false).WF ∧
    ∃ c, runE (Cache.new 4096 1000 0 false false) [] 0
          (OpE.oom { mem := none, hdr := none, arr := none, mapFail := none }
               { mem := none, hdr := none, arr := none, mapFail := none } ::
            (allocOps 8 0).map OpE.op ++
            [OpE.oom { mem := none, hdr := none, arr := none, mapFail := none }
               { mem := some 0, hdr := none, arr := none, mapFail := none }] ++
            (allocOps 1 8).map OpE.op ++
            [OpE.op (Op.free 72536), OpE.op (Op.free 71536), OpE.op (Op.free 70536),
             OpE.op (Op.free 69536), OpE.op (Op.free 68536), OpE.op (Op.free 67536),
             OpE.op (Op.free 66536), OpE.op (Op.free 65536), OpE.op (Op.free 1186648)])
        = some (c, [], 0) ∧
      SlabList c [] ∧ c.slabs_ = 0 ∧ c.slabs_back_ = 0 ∧ c.blocks = [] ∧
      c.large_lookup_ = [] ∧ (c.small = false → c.hdrObjs = [] ∧ c.arrObjs = []) := by
  refine ⟨wf_1000, ?_⟩
  obtain ⟨c, h1, h2⟩ := @run_reachE (Cache.new 4096 1000 0 false false)
    (OpE.oom { mem := none, hdr := none, arr := none, mapFail := none }
         { mem := none, hdr := none, arr := none, mapFail := none } ::
      (allocOps 8 0).map OpE.op ++
      [OpE.oom { mem := none, hdr := none, arr := none, mapFail := none }
         { mem := some 0, hdr := none, arr := none, mapFail := none }] ++
      (allocOps 1 8).map OpE.op ++
      [OpE.op (Op.free 72536), OpE.op (Op.free 71536), OpE.op (Op.free 70536),
       OpE.op (Op.free 69536), OpE.op (Op.free 68536), OpE.op (Op.free 67536),
       OpE.op (Op.free 66536), OpE.op (Op.free 65536), OpE.op (Op.free 1186648)])
    [] 0 (by decide)
  exact ⟨c, h1, C3_reclamation 4096 1000 0 false false c wf_1000 h2⟩

/-- Counterexample to C3 as stated: `S = 1000`.  The first call of `alloc`
throws `std::bad_alloc` at the second insertion into `large_lookup_`, after
`grow_` has allocated the block 65536, the header 16777280 and the record
array 33554688 and inserted the entry of record 0.  The next call of `alloc`
returns 138072, which is then freed.  Every pointer returned has been freed
and the slab list is empty, but the block 65536 has not been released and the
side map holds the entry `(65536, 33554688)`. -/
theorem C3_counterexample :
    (Cache.new 4096 1000 0 false false).WF ∧
    alloc (Cache.new 4096 1000 0 false false)
      { mem := some 65536, hdr := some 16777280, arr := some 33554688, mapFail := some 1 }
      (gres 9) = .error .bad_alloc ∧
    ∃ c, runE (Cache.new 4096 1000 0 false false) [] 0
          [OpE.oom
             { mem := some 65536, hdr := some 16777280, arr := some 33554688,
               mapFail := some 1 } (gres 9),
           OpE.op (Op.alloc (gres 2) (gres 3)), OpE.op (Op.free 138072)]
        = some (c, [], 1) ∧
      ReachE (Cache.new 4096 1000 0 false false) c [] 1 ∧
      c.small = false ∧ c.slabs_ = 0 ∧ c.slabs_back_ = 0 ∧
      c.blocks = [65536] ∧ c.large_lookup_ = [(65536, 33554688)] ∧
      ¬ (c.blocks = []) ∧ ¬ (c.large_lookup_ = []) := by
  have hev : (runE (Cache.new 4096 1000 0 false false) [] 0
      [OpE.oom
         { mem := some 65536, hdr := some 16777280, arr := some 33554688,
           mapFail := some 1 } (gres 9),
       OpE.op (Op.alloc (gres 2) (gres 3)), OpE.op (Op.free 138072)]).map
      (fun r => (r.1.blocks, r.1.large_lookup_, r.2.1, r.2.2))
      = some ([65536], [(65536, 33554688)], [], 1) := by decide
  have hev2 : (runE (Cache.new 4096 1000 0 false false) [] 0
      [OpE.oom
         { mem := some 65536, hdr := some 16777280, arr := some 33554688,
           mapFail := some 1 } (gres 9),
       OpE.op (Op.alloc (gres 2) (gres 3)), OpE.op (Op.free 138072)]).map
      (fun r => (r.1.small, r.1.slabs_, r.1.slabs_back_))
      = some (false, 0, 0) := by decide
  rw [Option.map_eq_some'] at hev
  obtain ⟨⟨c, l, k⟩, h1, h2⟩ := hev
  rw [h1] at hev2
  simp only [Option.map_some', Option.some.injEq, Prod.mk.injEq] at hev2
  simp only [Prod.mk.injEq] at h2
  obtain ⟨e1, e2, e3⟩ := hev2
  obtain ⟨e4, e5, e6, e7⟩ := h2
  subst e6
  subst e7
  have hr := runE_reachE _ _ [] 0 _ ReachE.init h1
  refine ⟨wf_1000, ?_, c, h1, hr, e1, e2, e3, e4, e5, ?_, ?_⟩
  · apply (alloc_throw_iff _ _ _).2
    decide
  · rw [e4]
    exact List.cons_ne_nil _ _
  · rw [e5]
    exact List.cons_ne_nil _ _

/-- C10 (as amended): in every state reached from a fresh cache by calls of
`alloc` and `free` of live pointers, in which every call of `alloc` that
throws `std::bad_alloc` does so because `posix_memalign` fails or stores null,
`destroy` returns (with fuel for every slab of the list) and leaves the slab
list empty, the side map `large_lookup_` empty and every backing block
released; it does not call the destructor callback; the data members of the
cache equal those of a freshly constructed cache; and the next call of
`alloc` grows exactly one slab. -/
theorem C10_destroy_resets (pg S A : Nat) (ct dt : Bool) (c : Cache) (live : List Nat)
    (w : (Cache.new pg S A ct dt).WF)
    (hr : ReachE (Cache.new pg S A ct dt) c live 0) :
    ∃ l, SlabList c l ∧ ∀ fuel, l.length ≤ fuel →
      ∃ c1, destroy fuel c = some c1 ∧
        SlabList c1 [] ∧ c1.slabs_ = 0 ∧ c1.slabs_back_ = 0 ∧ c1.large_lookup_ = [] ∧
        c1.blocks = [] ∧ c1.dtorLog = c.dtorLog ∧
        c1.members = (Cache.new pg S A ct dt).members ∧
        (∀ g1 g2, GrowOK c1 g1 → (∀ cm, allocStage1 c1 g1 = .ok cm → GrowOK cm g2) →
          ∃ p c2 h, alloc c1 g1 g2 = .ok (p, c2) ∧ SlabList c2 [h] ∧
            (∀ l2, SlabList c2 l2 → l2 = [h]) ∧ c2.blocks.length = 1) := by
  obtain ⟨na, nf, hr1⟩ := reachE_zero w (new_inv pg S A ct dt) hr rfl
  obtain ⟨G, hinv, _, hpar, _, _⟩ := reach_inv w (new_inv pg S A ct dt) hr1
  have wc := hpar.WF w
  refine ⟨G.map SlabG.hdr, hinv.scan.1, ?_⟩
  intro fuel hfuel
  have hf : G.length ≤ fuel := by
    rw [List.length_map] at hfuel
    exact hfuel
  obtain ⟨c1, h1, h2, h3, _, h5⟩ := destroy_spec hinv.rep wc fuel hf
  obtain ⟨e1, e2, e3, e4, _⟩ := h2.empty
  have hp1 := hpar.trans h3
  have w1 := hp1.WF w
  have hinv1 : Inv c1 [] :=
    ⟨h2, Ordered_nil _, fun g hg => absurd hg (List.not_mem_nil _)⟩
  refine ⟨c1, h1, e1, e1, e2, e4, e3, h5, ?_, ?_⟩
  · unfold Cache.members
    rw [hp1.size_, hp1.effsize_, hp1.small_threshold_, hp1.slab_maxbuf_, hp1.hasCtor,
      hp1.hasDtor, e1, e2, e4]
    rfl
  · intro g1 g2 hg1 hg2
    obtain ⟨_, cm, gh, R, i, fi1, _, _, _, hcase, _, _, _, hal, hinv2, _⟩ :=
      alloc_step hinv1 w1 hg1 hg2
    have hR : R = [] := by
      rcases hcase with ⟨e, _⟩ | ⟨e, _, _⟩
      · exact absurd e (List.cons_ne_nil _ _)
      · exact e
    subst hR
    have hlist : (if ((gh.ui.length + 1 : Nat) : Int) = c1.slab_maxbuf_
         then [] ++ [{ gh with fi := fi1, ui := i :: gh.ui }]
         else [{ gh with fi := fi1, ui := i :: gh.ui }])
        = [({ gh with fi := fi1, ui := i :: gh.ui } : SlabG)] := by
      split <;> rfl
    rw [hlist] at hinv2
    refine ⟨_, _, gh.hdr, hal, hinv2.scan.1, hinv2.scan.2.1, ?_⟩
    rw [hinv2.rep.blocks.length_eq]
    rfl

/-- Witness of C10: `S = 1000` with a destructor callback, nine calls of
`alloc` whose pointers are all outstanding, with a call of `alloc` that throws
because `posix_memalign` fails before the first of them, and one that throws
because `posix_memalign` stores null when the first slab is full. -/
theorem C10_destroy_resets_witness :
    (Cache.new 4096 1000 0 false true).WF ∧
    ∃ c live, runE (Cache.new 4096 1000 0 false true) [] 0
          (OpE.oom { mem := none, hdr := none, arr := none, mapFail := none }
               { mem := none, hdr := none, arr := none, mapFail := none } ::
            (allocOps 8 0).map OpE.op ++
            [OpE.oom { mem := none, hdr := none, arr := none, mapFail := none }
               { mem := some 0, hdr := none, arr := none, mapFail := none }] ++
            (allocOps 1 8).map OpE.op) = some (c, live, 0) ∧
      live.length = 9 ∧
      ∃ fuel c1, destroy fuel c = some c1 ∧
        SlabList c1 [] ∧ c1.slabs_ = 0 ∧ c1.slabs_back_ = 0 ∧ c1.large_lookup_ = [] ∧
        c1.blocks = [] ∧ c1.dtorLog = c.dtorLog ∧
        c1.members = (Cache.new 4096 1000 0 false true).members ∧
        (∀ g1 g2, GrowOK c1 g1 → (∀ cm, allocStage1 c1 g1 = .ok cm → GrowOK cm g2) →
          ∃ p c2 h, alloc c1 g1 g2 = .ok (p, c2) ∧ SlabList c2 [h] ∧
            (∀ l2, SlabList c2 l2 → l2 = [h]) ∧ c2.blocks.length = 1) := by
  have w : (Cache.new 4096 1000 0 false true).WF :=
    new_WF 4096 1000 0 false true 12 (by decide) (by decide) (by decide) (by decide)
      (by decide) (by decide) (by decide)
  refine ⟨w, ?_⟩
  obtain ⟨c, h1, h2⟩ := @run_reachE (Cache.new 4096 1000 0 false true)
    (OpE.oom { mem := none, hdr := none, arr := none, mapFail := none }
         { mem := none, hdr := none, arr := none, mapFail := none } ::
      (allocOps 8 0).map OpE.op ++
      [OpE.oom { mem := none, hdr := none, arr := none, mapFail := none }
         { mem := some 0, hdr := none, arr := none, mapFail := none }] ++
      (allocOps 1 8).map OpE.op)
    [1186648, 65536, 66536, 67536, 68536, 69536, 70536, 71536, 72536] 0 (by decide)
  obtain ⟨l, _, h⟩ := C10_destroy_resets 4096 1000 0 false true c _ w h2
  exact ⟨c, _, h1, rfl, l.length, h l.length (Nat.le_refl _)⟩

/-- Counterexample to C10 as stated: `S = 1000`.  The first call of `alloc`
throws `std::bad_alloc` at the second insertion into `large_lookup_`, after
`grow_` has allocated the block 65536, the header 16777280 and the record
array 33554688 and inserted the entry of record 0; the next call of `alloc`
returns 138072.  `destroy` then walks the one slab of the list and returns
with the entry `(65536, 33554688)` in the side map and the block 65536 not
released: the data members differ from those of a fresh cache. -/
theorem C10_counterexample :
    (Cache.new 4096 1000 0 false false).WF ∧
    alloc (Cache.new 4096 1000 0 false false)
      { mem := some 65536, hdr := some 16777280, arr := some 33554688, mapFail := some 1 }
      (gres 9) = .error .bad_alloc ∧
    ∃ c, runE (Cache.new 4096 1000 0 false false) [] 0
          [OpE.oom
             { mem := some 65536, hdr := some 16777280, arr := some 33554688,
               mapFail := some 1 } (gres 9),
           OpE.op (Op.alloc (gres 2) (gres 3))]
        = some (c, [138072], 1) ∧
      ReachE (Cache.new 4096 1000 0 false false) c [138072] 1 ∧
      SlabList c [16777344] ∧
      ∃ c1, destroy 1 c = some c1 ∧
        c1.slabs_ = 0 ∧ c1.slabs_back_ = 0 ∧
        c1.large_lookup_ = [(65536, 33554688)] ∧ c1.blocks = [65536] ∧
        ¬ (c1.large_lookup_ = []) ∧
        ¬ (c1.members = (Cache.new 4096 1000 0 false false).members) := by
  have hev : (runE (Cache.new 4096 1000 0 false false) [] 0
      [OpE.oom
         { mem := some 65536, hdr := some 16777280, arr := some 33554688,
           mapFail := some 1 } (gres 9),
       OpE.op (Op.alloc (gres 2) (gres 3))]).map
      (fun r => (r.1.slabs_, r.1.slabs_back_, r.2.1, r.2.2))
      = some (16777344, 16777344, [138072], 1) := by decide
  have hev2 : ((runE (Cache.new 4096 1000 0 false false) [] 0
      [OpE.oom
         { mem := some 65536, hdr := some 16777280, arr := some 33554688,
           mapFail := some 1 } (gres 9),
       OpE.op (Op.alloc (gres 2) (gres 3))]).bind (fun r => destroy 1 r.1)).map
      (fun c1 => (c1.slabs_, c1.slabs_back_, c1.large_lookup_, c1.blocks))
      = some (0, 0, [(65536, 33554688)], [65536]) := by decide
  rw [Option.map_eq_some'] at hev
  obtain ⟨⟨c, l, k⟩, h1, h2⟩ := hev
  rw [h1] at hev2
  simp only [Option.some_bind, Option.map_eq_some'] at hev2
  obtain ⟨c1, hd, h3⟩ := hev2
  simp only [Prod.mk.injEq] at h2 h3
  obtain ⟨e1, e2, e3, e4⟩ := h2
  obtain ⟨d1, d2, d3, d4⟩ := h3
  subst e3
  subst e4
  have hr := runE_reachE _ _ [] 0 _ ReachE.init h1
  refine ⟨wf_1000, ?_, c, h1, hr, ⟨e1, by decide, ?_⟩, c1, hd, d1, d2, d3, d4, ?_, ?_⟩
  · apply (alloc_throw_iff _ _ _).2
    decide
  · exact e2.symm
  · rw [d3]
    exact List.cons_ne_nil _ _
  · intro e
    have e9 := congrArg (fun m => m.2.2.2.2.2.2.2.2) e
    simp only [Cache.members] at e9
    rw [d3] at e9
    exact absurd e9 (by decide)

end slab
